import Mathlib

/-!
Stone election model: numeric kernel, convolver, metamargin search, poll selection, race
aggregation, predictor and driver.

A shallow embedding of the computational core of `src/driver` (`mathlib.h`,
`mathlib.cpp`, `metamargin.cpp`, `utility.h`, `utility.cpp`, `analysis.cpp`,
`predict.cpp`, `main.cpp`).  C++ `double` values are modelled by an arbitrary linearly
ordered field `α` with a floor function (exact arithmetic), so every definition can be
evaluated at `ℚ` and stated at `ℝ`; where the rounding of the sums matters, in the scan of
the metamargin search, the rounding to a `double` is a function `fl`, with the IEEE 754
binary64 rounding over `ℚ` as its instance.  The library function `sqrt` is passed to the
functions that call it.  A call of `Fatal()` or `abort()`, a failed `assert` in a build
with assertions, and a read outside a container are the result `none`.
-/

set_option linter.unusedSectionVars false

namespace Stone

open Finset

/-! ## mathlib.h / mathlib.cpp -/

section MathLib

variable {α : Type} [LinearOrderedField α]

/-- `Convolve(x, h, out)` of mathlib.h: `out` has `x.size() + h.size() - 1` entries,
and entry `i` accumulates `x[k] * h[j]` for `j = 0, 1, ...` and `k = i - j`, while
`j < h.size()` and `k >= 0`, skipping the terms with `k >= x.size()`. -/
def Convolve (x h : List α) : List α :=
  (List.range (x.length + h.length - 1)).map fun i =>
    (List.range h.length).foldl
      (fun val j => if j ≤ i ∧ i - j < x.length then val + x.getD (i - j) 0 * h.getD j 0 else val)
      0

/-- `Convolver::MakeSlice(i)` of mathlib.h for the race `data_[i] = (first, second)`:
a vector of `first + 1` zeros whose front is then set to `second` and whose back is
then set to `1.0 - second`. -/
def MakeSlice (d : ℕ × α) : List α :=
  ((List.replicate (d.1 + 1) (0 : α)).set 0 d.2).set d.1 (1 - d.2)

/-- `Convolver::Compute()` of mathlib.h: start from the slice of race 0, convolve with
the slice of every further race in order, and reverse the result.  With no race at all
the source reads `data_[0]` of an empty vector, which is undefined: the empty list the
model returns there is not a result of the code, and the functions below that build a
convolver (`StateAnalysis.AnalyzeEv`, the blocks of `Predictor.PredictDay`) return `none`
on an empty race list before they call `Compute`. -/
def Compute : List (ℕ × α) → List α
  | [] => []
  | d :: rest => (rest.foldl (fun histogram r => Convolve histogram (MakeSlice r)) (MakeSlice d)).reverse

/-- `Sum(values)` of mathlib.cpp. -/
def Sum (values : List α) : α :=
  values.foldl (fun total v => total + v) 0

/-- `Average(values)` of mathlib.cpp: accumulate from `0.0`, divide by the count. -/
def Average (values : List α) : α :=
  values.foldl (fun acc v => acc + v) 0 / (values.length : α)

/-- `StandardDeviation(values)` of mathlib.cpp (population standard deviation). -/
def StandardDeviation (sqrt : α → α) (values : List α) : α :=
  let mean := Average values
  let sigma := values.foldl (fun sigma val => sigma + (val - mean) * (val - mean)) 0
  sqrt (sigma / (values.length : α))

/-- `SampleStdDev(values)` of mathlib.cpp: `0.0` for a single value, otherwise the
`n - 1` denominator standard deviation (`values.size()` is unsigned, so the
denominator is the truncated difference). -/
def SampleStdDev (sqrt : α → α) (values : List α) : α :=
  if values.length = 1 then 0
  else
    let mean := Average values
    let sigma := values.foldl (fun sigma val => sigma + (val - mean) * (val - mean)) 0
    sqrt (sigma / ((values.length - 1 : ℕ) : α))

/-- `RoundToNearest(d)` of mathlib.cpp: `std::round` (halfway cases away from zero)
followed by the conversion to `int`. -/
def RoundToNearest [FloorRing α] (d : α) : ℤ :=
  if 0 ≤ d then ⌊d + 1 / 2⌋ else -⌊-d + 1 / 2⌋

/-- `Median(values)` of mathlib.cpp: sort a copy, take the middle element or the mean
of the two middle elements. -/
def Median (values_in : List α) : α :=
  let values := values_in.insertionSort (· ≤ ·)
  if values.length % 2 = 1 then values.getD (values.length / 2) 0
  else (values.getD (values.length / 2 - 1) 0 + values.getD (values.length / 2) 0) / 2

/-- `Cumsum(values)` of mathlib.cpp: the running sums. -/
def Cumsum (values : List α) : List α :=
  (values.foldl (fun (st : α × List α) val => (st.1 + val, st.2 ++ [st.1 + val])) (0, [])).2

/-- `WeightedAverage(weights)` of mathlib.cpp, the one-argument overload: accumulate
`double(i) * weights[i]` over the indices. -/
def WeightedAverage (weights : List α) : α :=
  (List.range weights.length).foldl
    (fun average (i : ℕ) => average + (i : α) * weights.getD i 0) 0

/-- `WeightedAverage(values, weights)` of mathlib.cpp, the two-argument overload:
accumulate `values[i] * weights[i]` and `weights[i]`, return their quotient. -/
def WeightedAverageValues (values weights : List α) : α :=
  let acc := (List.range values.length).foldl
    (fun (st : α × α) (i : ℕ) => (st.1 + values.getD i 0 * weights.getD i 0, st.2 + weights.getD i 0))
    (0, 0)
  acc.1 / acc.2

/-- `WeightedStdDev(weights, mean)` of mathlib.cpp. -/
def WeightedStdDev (sqrt : α → α) (weights : List α) (mean : ℤ) : α :=
  let acc := (List.range weights.length).foldl
    (fun (st : α × α × ℤ) (i : ℕ) =>
      (st.1 + weights.getD i 0 * ((i : α) - (mean : α)) * ((i : α) - (mean : α)),
       st.2.1 + weights.getD i 0,
       if weights.getD i 0 ≠ 0 then st.2.2 + 1 else st.2.2))
    (0, 0, 0)
  let stddev := acc.1
  let weight := acc.2.1
  let non_zero_weights := acc.2.2
  let denom := (((non_zero_weights - 1 : ℤ) : α) * weight) / (non_zero_weights : α)
  sqrt (stddev / denom)

/-- The denominator `((non_zero_weights - 1) * weight) / non_zero_weights` that
`WeightedStdDev(weights, mean)` of mathlib.cpp divides by, from the same loop. -/
def WeightedStdDev.denom (weights : List α) (mean : ℤ) : α :=
  let acc := (List.range weights.length).foldl
    (fun (st : α × α × ℤ) (i : ℕ) =>
      (st.1 + weights.getD i 0 * ((i : α) - (mean : α)) * ((i : α) - (mean : α)),
       st.2.1 + weights.getD i 0,
       if weights.getD i 0 ≠ 0 then st.2.2 + 1 else st.2.2))
    (0, 0, 0)
  let weight := acc.2.1
  let non_zero_weights := acc.2.2
  (((non_zero_weights - 1 : ℤ) : α) * weight) / (non_zero_weights : α)

/-- The quotient `stddev / denom` that `WeightedStdDev(weights, mean)` of mathlib.cpp
takes the square root of, from the same loop. -/
def WeightedStdDev.radicand (weights : List α) (mean : ℤ) : α :=
  let acc := (List.range weights.length).foldl
    (fun (st : α × α × ℤ) (i : ℕ) =>
      (st.1 + weights.getD i 0 * ((i : α) - (mean : α)) * ((i : α) - (mean : α)),
       st.2.1 + weights.getD i 0,
       if weights.getD i 0 ≠ 0 then st.2.2 + 1 else st.2.2))
    (0, 0, 0)
  let stddev := acc.1
  let weight := acc.2.1
  let non_zero_weights := acc.2.2
  let denom := (((non_zero_weights - 1 : ℤ) : α) * weight) / (non_zero_weights : α)
  stddev / denom

/-- `GetTiebreakerMajority(total)` of mathlib.h (C++ integer division). -/
def GetTiebreakerMajority (total : ℤ) : ℤ := Int.tdiv total 2 + 1

/-- `Convolver::FindMean()` of mathlib.h, on the histogram. -/
def Convolver.FindMean [FloorRing α] (histogram : List α) : ℤ :=
  RoundToNearest (WeightedAverage histogram)

/-- `Convolver::FindMode()` of mathlib.h, on the histogram. -/
def Convolver.FindMode (histogram : List α) : ℤ :=
  ((List.range histogram.length).foldl
    (fun (mode : ℕ) (i : ℕ) =>
      if i ≥ 1 ∧ histogram.getD i 0 > histogram.getD mode 0 then i else mode)
    0 : ℕ)

/-- `RoundMargin(margin)` of utility.h: `round` is `std::round`, as in
`RoundToNearest`, and its value is compared with zero. -/
def RoundMargin [FloorRing α] (margin : α) : α :=
  if RoundToNearest (margin * 10) = 0 then 0 else margin

end MathLib

/-! ## metamargin.cpp -/

section Metamargin

variable {α : Type} [LinearOrderedField α]

/-- The test that ends the scan of `MetamarginFinder::Calc` at a bias. -/
def MetamarginFinder.stops (bias_fn : α → ℤ) (midpoint direction : ℤ) (bias : α) : Prop :=
  (direction < 0 ∧ bias_fn bias ≤ midpoint) ∨ (direction > 0 ∧ bias_fn bias ≥ midpoint)

instance MetamarginFinder.stops_decidable (bias_fn : α → ℤ) (midpoint direction : ℤ) (bias : α) :
    Decidable (MetamarginFinder.stops bias_fn midpoint direction bias) := by
  unfold MetamarginFinder.stops; infer_instance

/-- The `while (true)` loop of `MetamarginFinder::Calc` from the bias `bias` on, run
for at most `fuel` evaluations of the bias function: `none` when the process aborts
(`bias > 101.0 || bias < -101.0`) or the evaluations are used up, `some (-bias)` when the
scan stops at `bias`. -/
def MetamarginFinder.CalcLoop (bias_fn : α → ℤ) (midpoint direction : ℤ) (step : α) :
    ℕ → α → Option α
  | 0, _ => none
  | fuel + 1, bias =>
    if bias > 101 ∨ bias < -101 then none
    else if MetamarginFinder.stops bias_fn midpoint direction bias then some (-bias)
    else MetamarginFinder.CalcLoop bias_fn midpoint direction step fuel (bias + step)

/-- Number of evaluations after which every scan has stopped or aborted: the bias
moves by 0.02 per evaluation and the process aborts beyond 101. -/
def MetamarginFinder.kMaxEvaluations : ℕ := 5052

/-- `MetamarginFinder::Calc(midpoint, direction)` of metamargin.cpp: `none` when the
process aborts. -/
def MetamarginFinder.Calc [FloorRing α] (bias_fn : α → ℤ) (midpoint direction : ℤ) : Option α :=
  let bias : α := if direction < 0 then 0 else 2 / 100
  let step : α := if direction < 0 then -(2 / 100) else 2 / 100
  (MetamarginFinder.CalcLoop bias_fn midpoint direction step
    MetamarginFinder.kMaxEvaluations bias).map RoundMargin

/-- The constructor `MetamarginFinder::MetamarginFinder(bias_fn, midpoint, start, high)`
of metamargin.cpp, as the value it leaves in `metamargin` (`abs` is the `double`
overload). -/
def MetamarginFinder.metamargin [FloorRing α] (bias_fn : α → ℤ) (midpoint start high : ℤ) :
    Option α :=
  if midpoint ≠ start then
    MetamarginFinder.Calc bias_fn midpoint (if start > midpoint then -1 else 1)
  else if start = 0 then
    (MetamarginFinder.Calc bias_fn midpoint 1).map fun mm => -mm
  else if start = high then
    MetamarginFinder.Calc bias_fn midpoint (-1)
  else
    -- Go both directions, take whichever result is closer.
    (MetamarginFinder.Calc bias_fn midpoint 1).bind fun mm1 =>
      (MetamarginFinder.Calc bias_fn midpoint (-1)).map fun mm2 =>
        if |mm1| > |mm2| then mm2 else mm1

/-- `RoundMargin(margin)` of utility.h with the product `margin * 10` rounded to a
`double` by `fl`. -/
def RoundMarginFl [FloorRing α] (fl : α → α) (margin : α) : α :=
  if RoundToNearest (fl (margin * 10)) = 0 then 0 else margin

/-- The `while (true)` loop of `MetamarginFinder::Calc` as `MetamarginFinder.CalcLoop`,
with the sum of `bias += step` rounded to a `double` by `fl`. -/
def MetamarginFinder.CalcLoopFl (fl : α → α) (bias_fn : α → ℤ) (midpoint direction : ℤ)
    (step : α) : ℕ → α → Option α
  | 0, _ => none
  | fuel + 1, bias =>
    if bias > 101 ∨ bias < -101 then none
    else if MetamarginFinder.stops bias_fn midpoint direction bias then some (-bias)
    else MetamarginFinder.CalcLoopFl fl bias_fn midpoint direction step fuel (fl (bias + step))

/-- `MetamarginFinder::Calc(midpoint, direction)` of metamargin.cpp in double precision:
the literals `0.02` and `-0.02` are the `double`s `fl (2 / 100)` and `-fl (2 / 100)`, and
every sum and product is rounded by `fl`.  At most `fuel` evaluations of the bias
function; `none` when the process aborts or they are used up. -/
def MetamarginFinder.CalcFl [FloorRing α] (fl : α → α) (fuel : ℕ) (bias_fn : α → ℤ)
    (midpoint direction : ℤ) : Option α :=
  let bias : α := if direction < 0 then 0 else fl (2 / 100)
  let step : α := if direction < 0 then -fl (2 / 100) else fl (2 / 100)
  (MetamarginFinder.CalcLoopFl fl bias_fn midpoint direction step fuel bias).map
    (RoundMarginFl fl)

/-- The biases `MetamarginFinder::Calc` evaluates in double precision, in order: the
value of `bias` at the `k`-th round of its loop. -/
def MetamarginFinder.scanFl (fl : α → α) (direction : ℤ) : ℕ → α
  | 0 => if direction < 0 then 0 else fl (2 / 100)
  | k + 1 =>
    fl (MetamarginFinder.scanFl fl direction k
      + if direction < 0 then -fl (2 / 100) else fl (2 / 100))

end Metamargin

/-! ## Double precision -/

/-- The power of two `2 ^ k`, as a rational number. -/
def pow2 (k : ℤ) : ℚ :=
  if 0 ≤ k then ((2 ^ k.toNat : ℕ) : ℚ) else 1 / ((2 ^ (-k).toNat : ℕ) : ℚ)

/-- Rounding to the nearest integer, ties to the even one. -/
def roundHalfEven (y : ℚ) : ℤ :=
  if y - ⌊y⌋ < 1 / 2 then ⌊y⌋
  else if 1 / 2 < y - ⌊y⌋ then ⌊y⌋ + 1
  else if ⌊y⌋ % 2 = 0 then ⌊y⌋ else ⌊y⌋ + 1

/-- The number of halvings that bring `n` below 2, at most `fuel` of them: the integer
part of the binary logarithm of `n` when `fuel` is at least that. -/
def ilog2 : ℕ → ℕ → ℕ
  | 0, _ => 0
  | fuel + 1, n => if n < 2 then 0 else ilog2 fuel (n / 2) + 1

/-- The `double` nearest to the rational number `x`: IEEE 754 binary64, rounding to
nearest with ties to even, 53 significant bits.  The exponent range is not modelled (no
overflow, no subnormal numbers): the values rounded in this development lie between
`2 ^ (-60)` and `2 ^ 10` in absolute value, or are zero. -/
def binary64 (x : ℚ) : ℚ :=
  if x = 0 then 0
  else
    let e0 : ℤ := (ilog2 x.num.natAbs x.num.natAbs : ℤ) - (ilog2 x.den x.den : ℤ)
    let e : ℤ := if pow2 e0 ≤ |x| then e0 else e0 - 1
    (roundHalfEven (x / pow2 (e - 52)) : ℚ) * pow2 (e - 52)

/-! ## utility.h / utility.cpp: dates -/

/-- The `Date` message: civil year, month and day. -/
structure Date where
  year : Int
  month : Int
  day : Int
deriving DecidableEq, Repr

/-- `operator <=(const Date&, const Date&)` of utility.h. -/
def Date.le (a b : Date) : Bool :=
  if a.year < b.year then true
  else if a.year > b.year then false
  else if a.month < b.month then true
  else if a.month > b.month then false
  else if a.day > b.day then false
  else true

/-- `operator <(const Date&, const Date&)` of utility.h. -/
def Date.lt (a b : Date) : Bool :=
  if a.year < b.year then true
  else if a.year > b.year then false
  else if a.month < b.month then true
  else if a.month > b.month then false
  else decide (a.day < b.day)

/-- `operator >(const Date&, const Date&)` of utility.h. -/
def Date.gt (a b : Date) : Bool := Date.lt b a

/-- `operator ==(const Date&, const Date&)` of utility.h. -/
def Date.eq (a b : Date) : Bool :=
  decide (a.year = b.year) && decide (a.month = b.month) && decide (a.day = b.day)

/-- `operator !=(const Date&, const Date&)` of utility.h. -/
def Date.ne (a b : Date) : Bool := !Date.eq a b

/-- Day number of a civil date (days since 1970-01-01), as computed by the conversion
of `date::year_month_day` to `date::sys_days` that utility.cpp relies on. -/
def daysFromCivil (d : Date) : Int :=
  let y := if d.month ≤ 2 then d.year - 1 else d.year
  let era := y / 400
  let yoe := y - era * 400
  let doy := (153 * (if d.month > 2 then d.month - 3 else d.month + 9) + 2) / 5 + d.day - 1
  let doe := yoe * 365 + yoe / 4 - yoe / 100 + doy
  era * 146097 + doe - 719468

/-- Civil date of a day number, the conversion of `date::sys_days` back to
`date::year_month_day`, followed by `FromYmd` of utility.cpp. -/
def civilFromDays (z0 : Int) : Date :=
  let z := z0 + 719468
  let era := z / 146097
  let doe := z - era * 146097
  let yoe := (doe - doe / 1460 + doe / 36524 - doe / 146096) / 365
  let y := yoe + era * 400
  let doy := doe - (365 * yoe + yoe / 4 - yoe / 100)
  let mp := (5 * doy + 2) / 153
  let d := doy - (153 * mp + 2) / 5 + 1
  let m := if mp < 10 then mp + 3 else mp - 9
  { year := if m ≤ 2 then y + 1 else y, month := m, day := d }

/-- `operator +(const Date&, int)` of utility.cpp. -/
def Date.add (d : Date) (days : Int) : Date := civilFromDays (daysFromCivil d + days)

/-- `operator -(const Date&, int)` of utility.cpp. -/
def Date.sub (d : Date) (days : Int) : Date := civilFromDays (daysFromCivil d - days)

/-- `DaysBetween(first, second)` of utility.cpp: the difference of the two local
midnights in seconds divided by `60 * 60 * 24`, converted to `int`; modelled for a
time zone without a clock change between the two dates, where it is the difference of
the day numbers. -/
def DaysBetween (first second : Date) : Int := daysFromCivil second - daysFromCivil first

/-! ## analysis.cpp: poll selection -/

/-- The fields of the `Poll` message that the analysis reads or writes.  `published`
is a sub-message, present or absent (`has_published`). -/
structure Poll (α : Type) where
  description : String
  start : Date
  end_ : Date
  published : Option Date
  dem : α
  gop : α
  margin : α
  sample_size : Int
  sample_type : String
  tracking : Bool
  weight : α
deriving DecidableEq, Repr

section PollSelection

variable {α : Type} [LinearOrderedField α]

/-- `SamePollDate(a, b)` of analysis.cpp. -/
def SamePollDate (a b : Poll α) : Bool :=
  Date.eq a.start b.start && Date.eq a.end_ b.end_

/-- `SampleTypeScore(sample_type)` of analysis.cpp. -/
def SampleTypeScore (sample_type : String) : Int :=
  if sample_type = "lv" then 4
  else if sample_type = "rv" then 3
  else if sample_type = "a" then 2
  else 0

/-- `IsBetterPoll(a, b)` of analysis.cpp. -/
def IsBetterPoll (a b : Poll α) : Bool :=
  if a.sample_type ≠ b.sample_type then
    decide (SampleTypeScore a.sample_type > SampleTypeScore b.sample_type)
  else decide (a.sample_size > b.sample_size)

/-- `PollsterMap` of analysis.cpp, a `std::map` from pollster description to that
pollster's batch of polls: the entries in increasing key order. -/
abbrev PollsterMap (α : Type) := List (String × List (Poll α))

/-- The batch stored under `key`, empty when the key is absent (what `operator[]`
returns, which creates the empty batch). -/
def PollsterMap.batch (map : PollsterMap α) (key : String) : List (Poll α) :=
  match map with
  | [] => []
  | (k, b) :: rest => if k = key then b else PollsterMap.batch rest key

/-- Store `batch` under `key`, keeping the entries in increasing key order. -/
def PollsterMap.store (map : PollsterMap α) (key : String) (batch : List (Poll α)) :
    PollsterMap α :=
  match map with
  | [] => [(key, batch)]
  | (k, b) :: rest =>
    if k = key then (key, batch) :: rest
    else if key < k then (key, batch) :: (k, b) :: rest
    else (k, b) :: PollsterMap.store rest key batch

/-- The loop of `AddPollToMap` over one pollster's batch, from the position `iter` on
(`batch` is what remains from `iter` to the end); the result is what the batch holds
from that position on when the function returns. -/
def AddPollToBatch (poll : Poll α) : List (Poll α) → List (Poll α)
  | [] => [poll]
  | iter :: rest =>
    if iter.tracking && poll.tracking && Date.gt iter.end_ poll.end_ then
      -- Older version of tracking poll. Throw away.
      iter :: rest
    else if iter.tracking && poll.tracking && Date.lt iter.end_ poll.end_ then
      -- Newer version. remove the current.
      AddPollToBatch poll rest
    else if SamePollDate poll iter then
      if IsBetterPoll poll iter then poll :: rest
      else if IsBetterPoll iter poll then iter :: rest
      else iter :: AddPollToBatch poll rest
    else iter :: AddPollToBatch poll rest

/-- `AddPollToMap(map, poll)` of analysis.cpp. -/
def AddPollToMap (map : PollsterMap α) (poll : Poll α) : PollsterMap α :=
  PollsterMap.store map poll.description
    (AddPollToBatch poll (PollsterMap.batch map poll.description))

/-- `GetPollWindow(election_date, window_start)` of analysis.cpp. -/
def GetPollWindow (election_date window_start : Date) : Int :=
  let kMinDaysInWindow : Int := 7
  let kMaxDaysInWindow : Int := 14
  let kMaxWindowEnd : Int := 28
  let kMinWindowStart : Int := 7
  let diff := DaysBetween window_start election_date
  if diff > kMaxWindowEnd then kMaxDaysInWindow
  else if diff ≤ kMinWindowStart then kMinDaysInWindow
  else
    let days_until_min_window := diff - kMinWindowStart
    let window := kMaxWindowEnd - kMinWindowStart
    kMinDaysInWindow + RoundToNearest ((7 * (days_until_min_window : ℚ)) / (window : ℚ))

/-- `SortPolls(polls)` of utility.cpp: `std::sort` with `std::greater<Poll>`, that is
by end date with the latest first (the order among polls that end on the same day is
left open by `std::sort`; the model keeps their relative order). -/
def SortPolls (polls : List (Poll α)) : List (Poll α) :=
  polls.insertionSort fun a b => Date.le b.end_ a.end_

/-- `Race::Type` of the race message. -/
inductive RaceType where
  | NATIONAL
  | GENERIC_BALLOT
  | ELECTORAL_COLLEGE
  | SENATE
  | GOVERNOR
  | HOUSE
deriving DecidableEq, Repr

/-- The fields of the `Race` message read by the analysis. -/
structure Race where
  type : RaceType
  presumed_winner : String
  race_id : Int := 0
  region : String := ""
  current_holder : String := ""
  rating : String := ""
deriving DecidableEq, Repr

/-- The fields of the `State` message read by the analysis. -/
structure State where
  name : String
  evs : Int
deriving DecidableEq, Repr

/-- The `MapEv` message: a Democratic and a Republican count. -/
structure MapEv where
  dem : Int := 0
  gop : Int := 0
deriving DecidableEq, Repr

/-- The `EvRange` message: a band of scores. -/
structure EvRange where
  low : Int := 0
  high : Int := 0
deriving DecidableEq, Repr

/-- The fields of the `SenateMap` message read by the analysis. -/
structure SenateMap where
  races : List Race := []
  seats : MapEv := {}
  seats_up : MapEv := {}
  dem_seats_for_control : Int := 0
deriving DecidableEq, Repr

/-- The `HouseRating` message. -/
structure HouseRating where
  race_id : Int := 0
  rating : String
  presumed_winner : String
deriving DecidableEq, Repr

/-- `HouseRatingMap`: house ratings keyed by race id. -/
abbrev HouseRatingMap := List (Int × HouseRating)

/-- One entry of the campaign's `HouseRatingHistory`: dated ratings. -/
structure HouseHistoryEntry where
  date : Date
  ratings : HouseRatingMap
deriving DecidableEq, Repr

/-- The fields of the `HouseMap` message read by the analysis. -/
structure HouseMap where
  races : List Race := []
  seats : MapEv := {}
  total_seats : Int := 0
deriving DecidableEq, Repr

/-- The campaign settings read by the analysis.  `States` is the map of states in key
(name) order, `state_list` the same states in file order. -/
structure Campaign (α : Type) where
  StartDate : Date
  EndDate : Date
  IsPresidentialYear : Bool
  UndecidedPercent : α
  TotalEv : Int := 0
  States : List State := []
  state_list : List State := []
  senate_map : SenateMap := {}
  house_map : HouseMap := {}
  house_history : List HouseHistoryEntry := []

/-- State of the window loop of `Analysis::FindRecentPolls`: the staging map, the
window start `earliest` once it is known, and a log of the polls handed to
`AddPollToMap` so far (the log is not in the source; nothing reads it). -/
structure WindowState (α : Type) where
  staging : PollsterMap α
  earliest : Option Date
  offered : List (Poll α)

/-- The end of the body of the window loop, for a poll that passed every test:
`earliest` is fixed if it was not yet, and the poll goes to `AddPollToMap`. -/
def WindowState.accept (cc : Campaign α) (st : WindowState α) (poll : Poll α) : WindowState α :=
  { staging := AddPollToMap st.staging poll
    earliest := match st.earliest with
      | some e => some e
      | none => some (Date.sub poll.end_ (GetPollWindow cc.EndDate poll.end_))
    offered := st.offered ++ [poll] }

/-- `kMinPolls` of `Analysis::FindRecentPolls`. -/
def kMinPolls : Nat := 4

/-- The window loop of `Analysis::FindRecentPolls` over the remaining polls. -/
def windowLoop (cc : Campaign α) (date cutoff : Date) :
    List (Poll α) → WindowState α → WindowState α
  | [], st => st
  | poll :: rest, st =>
    if Date.lt poll.start cutoff then windowLoop cc date cutoff rest st
    else if (st.earliest.any fun e => Date.le poll.end_ e) && decide (st.staging.length ≥ kMinPolls) then
      st
    else if poll.published.any fun pub => Date.gt pub date then
      windowLoop cc date cutoff rest st
    else
      windowLoop cc date cutoff rest (st.accept cc poll)

/-- The inner weighting loop of `Analysis::FindRecentPolls` over one batch, for a
staging map of `size` pollsters. -/
def weightBatch (size : ℕ) (batch : List (Poll α)) : List (Poll α) :=
  batch.map fun poll => { poll with weight := 1 / ((batch.length * size : ℕ) : α) }

/-- The weighting loop of `Analysis::FindRecentPolls`: every poll is emitted with weight
`1.0 / double(batch.size() * staging.size())`, pollster by pollster in key order. -/
def weightPolls (staging : PollsterMap α) : List (Poll α) :=
  staging.flatMap fun pair => weightBatch staging.length pair.2

/-- Well-formed staging map: keys strictly increasing, no empty batch, and every poll
filed under its own description. -/
def PollsterMap.WF (map : PollsterMap α) : Prop :=
  (map.map Prod.fst).Pairwise (· < ·)
  ∧ ∀ pair ∈ map, pair.2 ≠ [] ∧ ∀ x ∈ pair.2, x.description = pair.1

/-- Final state of the window loop of `Analysis::FindRecentPolls` for reference date
`date`: polls that end after `date` are skipped first, then the window loop runs. -/
def FindRecentPolls.finalState (cc : Campaign α) (date : Date) (polls : List (Poll α)) :
    WindowState α :=
  windowLoop cc date (Date.sub cc.StartDate 60)
    (polls.dropWhile fun poll => !Date.le poll.end_ date)
    { staging := [], earliest := none, offered := [] }

/-- `Analysis::FindRecentPolls(polls, out)` of analysis.cpp, as the list appended to an
empty `out`, for reference date `date` (`data_->date()`). -/
def FindRecentPolls (cc : Campaign α) (date : Date) (polls : List (Poll α)) : List (Poll α) :=
  SortPolls (weightPolls (FindRecentPolls.finalState cc date polls).staging)

/-- The two tests of the window loop that skip a poll: it starts before the cutoff, or
it was published after the reference date. -/
def passesLoopFilters (date cutoff : Date) (poll : Poll α) : Bool :=
  !Date.lt poll.start cutoff && !(poll.published.any fun pub => Date.gt pub date)

/-- Follows the spec's words (PollSelector steps 1 to 3): the poll had ended by the
reference date, was published by then when the published date is known, and does not
start before the campaign start minus 60 days. -/
def passesDateFilters (cc : Campaign α) (date : Date) (poll : Poll α) : Bool :=
  Date.le poll.end_ date
    && !(poll.published.any fun pub => Date.gt pub date)
    && !Date.lt poll.start (Date.sub cc.StartDate 60)

/-- Follows the spec's words (PollSelector steps 4 and 5): the window start, the end
date of the most recent poll that passes the date filters minus the poll window for
that end date. -/
def windowEarliest (cc : Campaign α) (date : Date) (polls : List (Poll α)) : Option Date :=
  (polls.find? (passesDateFilters cc date)).map fun recent =>
    Date.sub recent.end_ (GetPollWindow cc.EndDate recent.end_)

end PollSelection

/-! ## analysis.cpp: race aggregation -/

/-- The subclasses of `Analysis`, each with its own `GetMinimumError`. -/
inductive AnalysisKind where
  | State
  | Senate
  | Governor
  | House
deriving DecidableEq, Repr

/-- The fields of the `RaceModel` message written by the analysis. -/
structure RaceModel (α : Type) where
  race_type : RaceType
  polls : List (Poll α)
  mean : α
  median : α
  margin : α
  undecideds : α
  stddev : α
  win_prob : α
  rating : String

/-- The `Prediction` message written by the predictor. -/
structure Prediction (α : Type) where
  metamargin : α
  dem_win_p : α
  mm_1sig : α × α
  mm_2sig : α × α
  score_1sig : EvRange := {}
  score_2sig : EvRange := {}
  average : Int := 0

/-- The parts of the day's `ModelData` read or written by the analysis and the
predictor.  In a pair of margins the first component is `low`, the second `high`. -/
structure ModelData (α : Type) where
  date : Date
  national : RaceModel α
  generic_ballot : RaceModel α
  undecideds : α
  metamargin : α
  senate_mm : α
  house_mm : α
  senate_win_prob_alt : α
  ec_prediction : Prediction α
  senate_prediction : Prediction α
  house_prediction : Prediction α
  states : List (RaceModel α) := []
  dem_ev_mode : Int := 0
  mean_ev : MapEv := {}
  dem_ev_range : EvRange := {}
  predicted_dem_ev_mode : Int := 0
  senate_races : List (RaceModel α) := []
  senate_can_flip : Bool := false
  senate_safe_seats : MapEv := {}
  senate_control_alt_seats : Int := 0
  house_races : List (RaceModel α) := []
  house_can_flip : Bool := false
  house_safe_seats : MapEv := {}
  house_median : MapEv := {}
  dem_house_range : EvRange := {}
  generated : Int := 0

/-- The parts of the `Feed` message read by the driver and the analysis: the poll lists
(those of the states keyed by state name, those of the Senate, Governor and House races
keyed by race id) and the house ratings keyed by race id. -/
structure Feed (α : Type) where
  house_polls : List (Int × List (Poll α)) := []
  house_ratings : HouseRatingMap := []
  national_polls : List (Poll α) := []
  generic_ballot_polls : List (Poll α) := []
  states : List (String × List (Poll α)) := []
  senate_polls : List (Int × List (Poll α)) := []
  governor_polls : List (Int × List (Poll α)) := []

/-- The members of `Driver` that `RunForDay` reads and writes: `today_`, the list
`history_` and the iterator `history_pos_`, as a position in the list (the length of the
list is `history_.end()`). -/
structure Driver (α : Type) where
  today_ : Date
  history_ : List (ModelData α) := []
  history_pos_ : Nat := 0

/-- The library functions the analysis and the predictor call: `sqrt`, `erf`, `tgamma`,
`atan` and `pow` of the C library, `erfinv` of erfinv.h (on the arguments where it is
finite) and `ke::Split(text, " ")`. -/
structure Lib (α : Type) where
  sqrt : α → α
  erf : α → α
  erfinv : α → α
  tgamma : α → α
  atan : α → α
  pow : α → α → α
  split : String → List String

/-- The local variables of the loop of `HouseAnalysis::Analyze` over the races: the six
counters, the `win_p` vector and the race models added to the day's data. -/
structure HouseTally (α : Type) where
  safe_dem : Int := 0
  safe_gop : Int := 0
  unsafe_dem : Int := 0
  unsafe_gop : Int := 0
  flips_to_dem : Int := 0
  flips_to_gop : Int := 0
  win_p : List α := []
  house_races : List (RaceModel α) := []

section RaceAggregation

variable {α : Type} [LinearOrderedField α]

/-- A freshly added `RaceModel`: every field at its default (zero, empty) except the
race type and the selected polls. -/
def RaceModel.fresh (race_type : RaceType) (polls : List (Poll α)) : RaceModel α :=
  { race_type := race_type, polls := polls, mean := 0, median := 0, margin := 0,
    undecideds := 0, stddev := 0, win_prob := 0, rating := "" }

/-- A `Prediction` message with every field at its default. -/
def Prediction.fresh : Prediction α :=
  { metamargin := 0, dem_win_p := 0, mm_1sig := (0, 0), mm_2sig := (0, 0) }

/-- `kStateMinError` of analysis.cpp. -/
def kStateMinError : α := 3

/-- `kSenateMinError` of analysis.cpp. -/
def kSenateMinError : α := 7 / 2

/-- `kGovernorMinError` of analysis.cpp. -/
def kGovernorMinError : α := 6

/-- `kHouseMinError` of analysis.cpp. -/
def kHouseMinError : α := 8

/-- The virtual `GetMinimumError()` of the four analysis classes. -/
def GetMinimumError (self : AnalysisKind) : α :=
  match self with
  | .State => kStateMinError
  | .Senate => kSenateMinError
  | .Governor => kGovernorMinError
  | .House => kHouseMinError

/-- `NormalCdf(x, mean, stddev)` of mathlib.cpp, over the library functions `sqrt` and
`erf`. -/
def NormalCdf (sqrt erf : α → α) (x mean stddev : α) : α :=
  (1 + erf ((x - mean) / (stddev * sqrt 2))) / 2

/-- `Analysis::DemWinProb(margin, stddev, bias)` of analysis.cpp. -/
def DemWinProb (sqrt erf : α → α) (margin stddev bias : α) : α :=
  1 - NormalCdf sqrt erf 0 (margin + bias) stddev

/-- `Analysis::UndecidedFactor(undecided_pct)` of analysis.cpp. -/
def UndecidedFactor (undecided_pct : α) : α :=
  undecided_pct * (65 / 100) - undecided_pct * (35 / 100)

/-- `Analysis::GetUndecideds(polls)` of analysis.cpp: the average of `100 - dem - gop`
over the polls with both shares non-zero and a non-negative remainder, if any. -/
def GetUndecideds (polls : List (Poll α)) : Option α :=
  let undecideds := polls.foldl
    (fun undecideds poll =>
      if poll.dem ≠ 0 ∧ poll.gop ≠ 0 then
        let undecided := 100 - poll.dem - poll.gop
        if undecided ≥ 0 then undecideds ++ [undecided] else undecideds
      else undecideds)
    ([] : List α)
  if undecideds.isEmpty then none else some (Average undecideds)

/-- `Analysis::EstimateStdDev(model)` of analysis.cpp. -/
def EstimateStdDev (self : AnalysisKind) (model : RaceModel α) : α :=
  max (GetMinimumError self) (UndecidedFactor model.undecideds)

/-- `Analysis::ComputePollModelStats(model)` of analysis.cpp, for the analysis class
`self`, the campaign `cc` and the day's data `data`. -/
def ComputePollModelStats [FloorRing α] (sqrt : α → α) (self : AnalysisKind) (cc : Campaign α)
    (data : ModelData α) (model : RaceModel α) : RaceModel α :=
  let weighted_average := model.polls.foldl (fun acc poll => acc + poll.margin * poll.weight) 0
  let margins := model.polls.map fun poll => poll.margin
  let weighted_average := ((RoundToNearest (weighted_average * 1000) : ℤ) : α) / 1000
  let model := { model with mean := weighted_average }
  let model := { model with median := Median margins }
  let model := { model with margin := model.mean }
  let undecideds :=
    match GetUndecideds model.polls with
    | some u => u
    | none =>
      if cc.IsPresidentialYear = true ∧ data.national.undecideds ≠ 0 then
        data.national.undecideds
      else if data.generic_ballot.undecideds ≠ 0 then data.generic_ballot.undecideds
      else cc.UndecidedPercent
  let model := { model with undecideds := undecideds }
  if model.race_type = RaceType.NATIONAL then
    { model with stddev := StandardDeviation sqrt margins }
  else
    let expected_error := EstimateStdDev self model
    let stddev := if model.polls.length > 1 then SampleStdDev sqrt margins else 0
    { model with stddev := max expected_error stddev }

/-- `SenateAnalysis::ComputeRace(race, model)` of analysis.cpp. -/
def SenateAnalysis.ComputeRace [FloorRing α] (sqrt erf : α → α) (cc : Campaign α)
    (data : ModelData α) (race : Race) (model : RaceModel α) : RaceModel α :=
  if model.polls.isEmpty then
    -- Note: all parameters will be zero by default.
    let model := { model with rating := race.presumed_winner }
    if model.rating = "dem" then { model with win_prob := 1 }
    else if model.rating ≠ "gop" then
      { model with win_prob := 1 / 2, undecideds := data.national.undecideds,
                   stddev := kSenateMinError }
    else model
  else
    let model := ComputePollModelStats sqrt AnalysisKind.Senate cc data model
    { model with win_prob := DemWinProb sqrt erf model.mean model.stddev 0 }

/-- `GovernorAnalysis::ComputeRace(race, model)` of analysis.cpp. -/
def GovernorAnalysis.ComputeRace [FloorRing α] (sqrt erf : α → α) (cc : Campaign α)
    (data : ModelData α) (race : Race) (model : RaceModel α) : RaceModel α :=
  if model.polls.isEmpty then
    let model := if race.presumed_winner = "dem" then { model with win_prob := 1 } else model
    { model with rating := race.presumed_winner }
  else
    let model := ComputePollModelStats sqrt AnalysisKind.Governor cc data model
    if ¬ model.polls.isEmpty then
      { model with win_prob := 1 - NormalCdf sqrt erf 0 model.mean model.stddev }
    else model

/-- `std::clamp(v, lo, hi)`. -/
def stdClamp {β : Type} [LinearOrder β] (v lo hi : β) : β :=
  if v < lo then lo else if hi < v then hi else v

/-- The constructor `Convolver(const std::vector<double>& win_p)` of mathlib.h: one
unit per race; the result is the histogram. -/
def Convolver.ofWinP (win_p : List α) : List α :=
  Compute (win_p.map fun p => ((1 : ℕ), p))

/-- `Convolver::CalcConfidence(range, base)` of mathlib.h, on the histogram. -/
def Convolver.CalcConfidence [FloorRing α] (sqrt : α → α) (histogram : List α) (base : ℤ) :
    EvRange :=
  let mean := Convolver.FindMean histogram
  let stddev := WeightedStdDev sqrt histogram mean
  let kBand : α := 2
  let dt := RoundToNearest (stddev * kBand)
  { low := mean - dt + base
    high := stdClamp (mean + dt) 0 (histogram.length : ℤ) + base - 1 }

/-- The two `assert`s of `Convolver::CalcConfidence`: `dt >= 0` and
`mean + dt <= (int)histogram.size() + 1`. -/
def Convolver.CalcConfidence.asserts [FloorRing α] (sqrt : α → α) (histogram : List α) : Prop :=
  0 ≤ RoundToNearest (WeightedStdDev sqrt histogram (Convolver.FindMean histogram) * 2)
  ∧ Convolver.FindMean histogram
      + RoundToNearest (WeightedStdDev sqrt histogram (Convolver.FindMean histogram) * 2)
    ≤ (histogram.length : ℤ) + 1

instance Convolver.CalcConfidence.asserts_decidable [FloorRing α] (sqrt : α → α)
    (histogram : List α) : Decidable (Convolver.CalcConfidence.asserts sqrt histogram) := by
  unfold Convolver.CalcConfidence.asserts; infer_instance

/-- `Convolver::CalcConfidence(range, base)` of mathlib.h with the cases in which it
leaves no band: `none` when the denominator of `WeightedStdDev` is zero (the quotient is
then not a number, or infinite, and its conversion to `int` is undefined), and, in a
build with assertions (`ndebug = false`), when one of the two `assert`s fails. -/
def Convolver.CalcConfidence.checked [FloorRing α] (ndebug : Bool) (sqrt : α → α)
    (histogram : List α) (base : ℤ) : Option EvRange :=
  if WeightedStdDev.denom histogram (Convolver.FindMean histogram) = 0 then none
  else if ndebug = false ∧ ¬ Convolver.CalcConfidence.asserts sqrt histogram then none
  else some (Convolver.CalcConfidence sqrt histogram base)

/-- `StateAnalysis::GetConvolverForBias(cc, data, bias)` of analysis.cpp, as the
histogram of the convolver: the `i`-th state model is paired with the electoral votes
of `state_list()[i]` (the source indexes `state_list()` with the number of pairs built
so far). -/
def StateAnalysis.GetConvolverForBias (sqrt erf : α → α) (cc : Campaign α) (data : ModelData α)
    (bias : α) : List α :=
  Compute (List.zipWith
    (fun (st : State) (state : RaceModel α) =>
      (st.evs.toNat, DemWinProb sqrt erf state.mean state.stddev bias))
    cc.state_list data.states)

/-- `StateAnalysis::GetBiasFn(cc, data)` of analysis.cpp. -/
def StateAnalysis.GetBiasFn [FloorRing α] (sqrt erf : α → α) (cc : Campaign α)
    (data : ModelData α) : α → ℤ :=
  fun bias => Convolver.FindMean (StateAnalysis.GetConvolverForBias sqrt erf cc data bias)

/-- `StateAnalysis::GetScoreToWin(cc, data, score, offset)` of analysis.cpp: the pair
`(score, offset)`, always present. -/
def StateAnalysis.GetScoreToWin (cc : Campaign α) : Option (ℤ × ℤ) :=
  some (GetTiebreakerMajority cc.TotalEv, 0)

/-- The histogram of the convolver built inside `StateAnalysis::Analyze`: the `i`-th
state of `States()` with the win probability stored in the `i`-th state model. -/
def StateAnalysis.AnalyzeConvolver (cc : Campaign α) (data : ModelData α) : List α :=
  Compute (List.zipWith
    (fun (st : State) (state_model : RaceModel α) => (st.evs.toNat, state_model.win_prob))
    cc.States data.states)

/-- The end of `StateAnalysis::Analyze`, from the construction of the convolver on,
for the state models already stored in `data`: mode, mean, band and metamargin, in a
build without assertions (`ndebug = true`, the `assert`s are compiled out) or with them.
`none` when the function does not return: the convolver is built on no race, or
`state_list()` is indexed past its end by the bias function, `CalcConfidence` leaves no
band (see `Convolver.CalcConfidence.checked`), or the metamargin search aborts. -/
def StateAnalysis.AnalyzeEv [FloorRing α] (ndebug : Bool) (sqrt erf : α → α) (cc : Campaign α)
    (data : ModelData α) : Option (ModelData α) :=
  if cc.States.isEmpty ∨ data.states.isEmpty ∨ cc.state_list.length < data.states.length then
    none
  else
    let cv := StateAnalysis.AnalyzeConvolver cc data
    let mean_ev := Convolver.FindMean cv
    match Convolver.CalcConfidence.checked ndebug sqrt cv 0 with
    | none => none
    | some dem_ev_range =>
      let bias_fn := StateAnalysis.GetBiasFn sqrt erf cc data
      let ev_needed := GetTiebreakerMajority cc.TotalEv
      (MetamarginFinder.metamargin bias_fn (ev_needed - 1) (Convolver.FindMean cv)
        cc.TotalEv).map
        fun metamargin =>
          { data with
            dem_ev_mode := Convolver.FindMode cv
            mean_ev := { dem := mean_ev, gop := cc.TotalEv - mean_ev }
            dem_ev_range := dem_ev_range
            metamargin := metamargin }

/-- `InverseCdf(x, p, stddev)` of mathlib.cpp, over the library functions `sqrt` and
`erfinv`. -/
def InverseCdf (sqrt erfinv : α → α) (x p stddev : α) : α :=
  let inverse := -erfinv (2 * p - 1)
  inverse * stddev * sqrt 2 + x

/-- `HouseAnalysis::EstimateProbability(rating, presumed_winner)` of analysis.cpp
(`parts[0]` of an empty split is modelled as the empty string). -/
def HouseAnalysis.EstimateProbability (lib : Lib α) (rating presumed_winner : String) : α :=
  let parts := lib.split rating
  let winner := if parts.length = 2 then parts.getD 1 "" else presumed_winner
  let score := parts.getD 0 ""
  let p : α :=
    if score = "tossup" then 1 / 2
    else if score = "leans" then 7 / 10
    else if score = "likely" then 85 / 100
    else if score = "safe" then 1
    else 1 / 2
  if winner = "gop" then 1 - p else p

/-- `HouseAnalysis::DeriveHouseRatings()` of analysis.cpp: the rating stored with each
race of the roster that has one, keyed by the position of the race. -/
def HouseAnalysis.DeriveHouseRatings (cc : Campaign α) : HouseRatingMap :=
  cc.house_map.races.enum.filterMap fun (ir : ℕ × Race) =>
    if ir.2.rating = "" then none
    else some ((ir.1 : Int),
      { race_id := (ir.1 : Int), rating := ir.2.rating, presumed_winner := ir.2.presumed_winner })

/-- The loop of `HouseAnalysis::UseOldHouseRatings()` from the entries `entries` on,
with the candidate found so far. -/
def HouseAnalysis.UseOldHouseRatings.loop (data : ModelData α) :
    List HouseHistoryEntry → Option HouseRatingMap → Option HouseRatingMap
  | [], candidate => candidate
  | entry :: rest, candidate =>
    if Date.gt entry.date data.date then candidate
    else HouseAnalysis.UseOldHouseRatings.loop data rest (some entry.ratings)

/-- `HouseAnalysis::UseOldHouseRatings()` of analysis.cpp: `none` is the null pointer. -/
def HouseAnalysis.UseOldHouseRatings (cc : Campaign α) (data : ModelData α) :
    Option HouseRatingMap :=
  HouseAnalysis.UseOldHouseRatings.loop data cc.house_history none

/-- The ratings `HouseAnalysis::Analyze(today)` works with: those of the feed, the
derived ones when the feed has none, the saved ones on a backdated run that has some. -/
def HouseAnalysis.ratings (cc : Campaign α) (feed : Feed α) (data : ModelData α)
    (today : Date) : HouseRatingMap :=
  let house_ratings :=
    if feed.house_ratings.isEmpty then HouseAnalysis.DeriveHouseRatings cc
    else feed.house_ratings
  if Date.ne data.date today && Date.ne today cc.EndDate then
    match HouseAnalysis.UseOldHouseRatings cc data with
    | some found => found
    | none => house_ratings
  else house_ratings

/-- The polls selected for a house race: `FindRecentPolls` on the poll list the feed
has for the race, nothing when it has none. -/
def HouseAnalysis.selectedPolls (cc : Campaign α) (feed : Feed α) (data : ModelData α)
    (race : Race) : List (Poll α) :=
  match feed.house_polls.lookup race.race_id with
  | some polls => FindRecentPolls cc data.date polls
  | none => []

/-- The end of the body of the loop over the races, for a race that enters the
convolution with the model `model`. -/
def HouseTally.convolve (t : HouseTally α) (race : Race) (model : RaceModel α) : HouseTally α :=
  let t :=
    if race.current_holder = "dem" then { t with unsafe_dem := t.unsafe_dem + 1 }
    else if race.current_holder = "gop" then { t with unsafe_gop := t.unsafe_gop + 1 }
    else t
  { t with win_p := t.win_p ++ [model.win_prob], house_races := t.house_races ++ [model] }

/-- The body of the loop of `HouseAnalysis::Analyze` over the races, for the race
`race`: `none` when the process ends in `Fatal()`. -/
def HouseAnalysis.raceStep [FloorRing α] (lib : Lib α) (cc : Campaign α) (feed : Feed α)
    (data : ModelData α) (house_ratings : HouseRatingMap) (t : HouseTally α) (race : Race) :
    Option (HouseTally α) :=
  let hr := house_ratings.lookup race.race_id
  let model : RaceModel α :=
    RaceModel.fresh RaceType.HOUSE (HouseAnalysis.selectedPolls cc feed data race)
  let model :=
    match hr with
    | some hr =>
      if hr.rating ≠ "tossup" then { model with rating := hr.rating ++ " " ++ hr.presumed_winner }
      else { model with rating := hr.rating }
    | none => model
  if ¬ model.polls.isEmpty then
    let model := ComputePollModelStats lib.sqrt AnalysisKind.House cc data model
    let model := { model with win_prob := DemWinProb lib.sqrt lib.erf model.mean model.stddev 0 }
    some (t.convolve race model)
  else
    let rating := match hr with
      | some hr => hr.rating
      | none => ""
    let presumed_winner := match hr with
      | some hr => hr.presumed_winner
      | none => if race.presumed_winner ≠ "" then race.presumed_winner else race.current_holder
    let model := match hr with
      | some hr =>
        { model with
          win_prob := HouseAnalysis.EstimateProbability lib hr.rating hr.presumed_winner }
      | none => model
    -- If we don't have an incumbent, and we don't have a rating, we
    -- have no way of estimating what is going on with this seat.
    if race.current_holder = "" ∧ rating = "" ∧ presumed_winner = "" then none
    -- If a seat has no rating, we assume it's safe.
    else if rating = "" ∨ rating = "safe" then
      if presumed_winner = "gop" then
        let t := { t with safe_gop := t.safe_gop + 1 }
        if race.current_holder = "dem" then
          some { t with flips_to_gop := t.flips_to_gop + 1, unsafe_dem := t.unsafe_dem + 1 }
        else some t
      else if presumed_winner = "dem" then
        let t := { t with safe_dem := t.safe_dem + 1 }
        if race.current_holder = "gop" then
          some { t with flips_to_dem := t.flips_to_dem + 1, unsafe_gop := t.unsafe_gop + 1 }
        else some t
      else none
    else some (t.convolve race model)

/-- The loop of `HouseAnalysis::Analyze` over the races `races`, from the tally `t`. -/
def HouseAnalysis.raceLoop [FloorRing α] (lib : Lib α) (cc : Campaign α) (feed : Feed α)
    (data : ModelData α) (house_ratings : HouseRatingMap) :
    List Race → HouseTally α → Option (HouseTally α)
  | [], t => some t
  | race :: rest, t =>
    match HouseAnalysis.raceStep lib cc feed data house_ratings t race with
    | some t => HouseAnalysis.raceLoop lib cc feed data house_ratings rest t
    | none => none

/-- The margin `HouseAnalysis::GetBiasFn` estimates for a race without polls:
`InverseCdf(0.0, 1.0 - win_prob, kEstimatedError)`, with `INFINITY` replaced by 24 and
`-INFINITY` by -24 (`erfinv` is `INFINITY` at 1 and `-INFINITY` at -1). -/
def HouseAnalysis.estimatedMargin (lib : Lib α) (win_prob : α) : α :=
  let kEstimatedError : α := kHouseMinError
  if 2 * (1 - win_prob) - 1 = -1 then 24
  else if 2 * (1 - win_prob) - 1 = 1 then -24
  else InverseCdf lib.sqrt lib.erfinv 0 (1 - win_prob) kEstimatedError

/-- `HouseAnalysis::GetBiasFn(cc, data)` of analysis.cpp (its `assert` is not part of
the model). -/
def HouseAnalysis.GetBiasFn [FloorRing α] (lib : Lib α) (data : ModelData α) : α → ℤ :=
  let margins : List (α × α) := data.house_races.map fun race =>
    if ¬ race.polls.isEmpty then (race.margin, race.stddev)
    else (HouseAnalysis.estimatedMargin lib race.win_prob, kHouseMinError)
  fun bias =>
    Convolver.FindMean
      (Convolver.ofWinP (margins.map fun pair => DemWinProb lib.sqrt lib.erf pair.1 pair.2 bias))

/-- `HouseAnalysis::GetScoreToWin(cc, data, score, offset)` of analysis.cpp: the pair
`(score, offset)`, `none` when the function returns `false`. -/
def HouseAnalysis.GetScoreToWin (cc : Campaign α) (data : ModelData α) : Option (ℤ × ℤ) :=
  if ¬ data.house_can_flip then none
  else
    let majority := GetTiebreakerMajority cc.house_map.total_seats
    let safe_dem := data.house_safe_seats.dem
    some (majority - safe_dem, safe_dem)

/-- `HouseAnalysis::Analyze(today)` of analysis.cpp on the day's data `data`: `none`
when the process ends in `Fatal()` or the metamargin search aborts.  The `assert` on the
seat count is not part of the model: the function goes on as in a build without
assertions. -/
def HouseAnalysis.Analyze [FloorRing α] (lib : Lib α) (cc : Campaign α) (feed : Feed α)
    (data : ModelData α) (today : Date) : Option (ModelData α) :=
  let house_ratings := HouseAnalysis.ratings cc feed data today
  match HouseAnalysis.raceLoop lib cc feed data house_ratings cc.house_map.races
      { house_races := data.house_races } with
  | none => none
  | some t =>
    let data := { data with house_races := t.house_races }
    if t.win_p.isEmpty then some data
    else
      let safe_dem :=
        if cc.house_map.total_seats ≠ (cc.house_map.races.length : Int) then
          cc.house_map.seats.dem - t.unsafe_dem + t.flips_to_dem
        else t.safe_dem
      let safe_gop :=
        if cc.house_map.total_seats ≠ (cc.house_map.races.length : Int) then
          cc.house_map.seats.gop - t.unsafe_gop + t.flips_to_gop
        else t.safe_gop
      let total_seats := cc.house_map.total_seats
      let majority_seats := GetTiebreakerMajority total_seats
      let cv := Convolver.ofWinP t.win_p
      let data := { data with
        dem_house_range := Convolver.CalcConfidence lib.sqrt cv safe_dem
        house_median :=
          { dem := Convolver.FindMean cv + safe_dem
            gop := total_seats - (Convolver.FindMean cv + safe_dem) }
        house_safe_seats := { dem := safe_dem, gop := safe_gop } }
      -- If a majority change is not at all possible, we can't compute a metamargin.
      if safe_dem ≥ majority_seats ∨ safe_gop ≥ majority_seats then some data
      else
        let data := { data with house_can_flip := true }
        (MetamarginFinder.metamargin (HouseAnalysis.GetBiasFn lib data)
          (majority_seats - safe_dem - 1) (Convolver.FindMean cv)
          (data.house_races.length : Int)).map
          fun mm => { data with house_mm := mm }

end RaceAggregation

/-! ## predict.cpp -/

/-- `MarginPredictor` of predict.h. -/
structure MarginPredictor (α : Type) where
  max_swing_by_day : List α
  metamargin : α
  swing : α
  prior_mm : α
  prior_swing : α
  score_to_win : Int
  score_offset : Int
  mm_adjust : α
  bias_fn : α → Int
  mm_range : List α := []
  prediction : List α := []
  cs : List α := []

/-- The static members of an analysis class that `SetBayesParameters<AT>` uses.
`GetScoreToWin` is `none` when the function returns `false`. -/
structure AnalysisTraits (α : Type) where
  GetMetamargin : ModelData α → α
  GetMetamarginAdjustment : ModelData α → α
  GetBiasFn : Campaign α → ModelData α → α → Int
  GetScoreToWin : Campaign α → ModelData α → Option (Int × Int)

section Predict

variable {α : Type} [LinearOrderedField α]

/-- `kMaxNationalSwing` of predict.cpp; the entries are written in hundredths. -/
def kMaxNationalSwing : List α :=
  ([0, 4, 26, 86, 102, 108, 120, 142, 154, 190, 206, 206, 206, 240, 240, 240, 270, 270, 318, 318,
    320, 348, 348, 348, 348, 348, 348, 348, 348, 348, 374, 432, 444, 452, 462, 484, 534, 568,
    620, 620, 620, 630, 652, 670, 676, 704, 704, 704, 708, 708, 708, 718, 718, 718, 718, 718,
    718, 718, 718, 718, 718, 718, 718, 718, 718, 718, 718, 718, 718, 718, 718, 718, 718, 718,
    718, 718, 718, 718, 718, 718, 718, 718, 718, 718, 718, 718, 718, 718, 718, 718, 718, 718,
    718, 718, 718, 718, 718, 718, 718, 718, 718, 718, 718, 718, 718, 718, 718, 718, 718, 718,
    718, 718, 718, 718, 718, 718, 718, 718, 718, 718, 718, 718, 718, 718, 718, 718, 718, 718,
    718, 718, 718, 718, 718, 718, 718, 718, 718, 718, 718, 718, 718, 718, 738, 778, 778, 778,
    786, 790, 802, 808, 818] : List ℕ).map fun hundredths => (hundredths : α) / 100

/-- `kMaxBallotSwing_PresYear` of predict.cpp; the entries are written in hundredths. -/
def kMaxBallotSwing_PresYear : List α :=
  ([0, 57, 69, 102, 102, 102, 140, 283, 345, 345, 358, 358, 358, 358, 375, 375, 375, 375, 375,
    375, 412, 412, 412, 412, 412, 412, 412, 412, 412, 412, 412, 412, 412, 412, 412, 412, 412,
    412, 412, 412, 412, 412, 412, 412, 412, 412, 412, 412, 412, 412, 549, 549, 549, 549, 619,
    733, 758, 758, 758, 758, 758, 758, 758, 758, 758, 758, 758, 758, 758, 758, 758, 758, 758,
    758, 758, 758, 758, 758, 758, 758, 758, 758, 758, 825, 825, 825, 825, 850, 850, 850, 850,
    850, 850, 850, 850, 850, 850, 850, 850, 850, 850, 850, 850, 850, 850, 850, 850, 850, 850,
    850, 850, 850, 850, 850, 850, 850, 850, 850, 850, 850, 850, 850, 850, 850, 850, 850, 850,
    850, 925, 925, 925, 925, 925, 965, 965, 965, 965, 965, 965,
    1100] : List ℕ).map fun hundredths => (hundredths : α) / 100

/-- `kMaxBallotSwing_Midterm` of predict.cpp; the entries are written in hundredths. -/
def kMaxBallotSwing_Midterm : List α :=
  ([0, 39, 204, 262, 262, 354, 354, 354, 354, 451, 451, 451, 451, 451, 451, 451, 451, 451, 451,
    451, 451, 451, 451, 451, 451, 451, 451, 451, 451, 451, 451, 518, 518, 518, 518, 535, 535,
    535, 535, 535, 767, 767, 767, 767, 786, 786, 786, 786, 786, 786, 786, 786, 786, 786, 786,
    786, 786, 786, 786, 786, 786, 786, 786, 786, 786, 786, 786, 786, 786, 786, 786, 786, 786,
    786, 786, 786, 786, 786, 786, 786, 786, 786, 786, 786, 786, 786, 786, 786, 786, 786, 786,
    786, 786, 786, 786, 786, 786, 786, 786, 786, 786, 786, 786, 786, 786, 786, 786, 786, 786,
    786, 786, 786, 786, 786, 786, 786, 786, 786, 786, 786, 786, 786, 786, 786, 786, 786, 786,
    786, 786, 786, 786, 786, 786, 786, 798, 927,
    1127] : List ℕ).map fun hundredths => (hundredths : α) / 100

/-- `SenateAnalysis::GetBiasFn(cc, data)` of analysis.cpp. -/
def SenateAnalysis.GetBiasFn [FloorRing α] (lib : Lib α) (data : ModelData α) : α → ℤ :=
  fun bias =>
    let win_p := data.senate_races.filterMap fun race =>
      if race.polls.isEmpty ∧ race.rating ≠ "" then none
      else some (DemWinProb lib.sqrt lib.erf race.mean race.stddev bias)
    Convolver.FindMean (Convolver.ofWinP win_p)

/-- `SenateAnalysis::GetScoreToWin(cc, data, score, offset)` of analysis.cpp: the pair
`(score, offset)`, `none` when the function returns `false`. -/
def SenateAnalysis.GetScoreToWin (cc : Campaign α) (data : ModelData α) : Option (ℤ × ℤ) :=
  if ¬ data.senate_can_flip then none
  else
    let dem_seats_needed := cc.senate_map.dem_seats_for_control
    let dem_safe_seats := data.senate_safe_seats.dem
    some (dem_seats_needed - dem_safe_seats, dem_safe_seats)

/-- The members of `StateAnalysis` used by `SetBayesParameters`. -/
def StateAnalysis.traits [FloorRing α] (lib : Lib α) : AnalysisTraits α :=
  { GetMetamargin := fun data => data.metamargin
    GetMetamarginAdjustment := fun _ => 0
    GetBiasFn := fun cc data => StateAnalysis.GetBiasFn lib.sqrt lib.erf cc data
    GetScoreToWin := fun cc _ => StateAnalysis.GetScoreToWin cc }

/-- The members of `SenateAnalysis` used by `SetBayesParameters`. -/
def SenateAnalysis.traits [FloorRing α] (lib : Lib α) : AnalysisTraits α :=
  { GetMetamargin := fun data => data.senate_mm
    GetMetamarginAdjustment := fun _ => 0
    GetBiasFn := fun _ data => SenateAnalysis.GetBiasFn lib data
    GetScoreToWin := fun cc data => SenateAnalysis.GetScoreToWin cc data }

/-- The members of `HouseAnalysis` used by `SetBayesParameters`: the metamargin is the
margin of the generic ballot, the adjustment the distance of the house metamargin from
it. -/
def HouseAnalysis.traits [FloorRing α] (lib : Lib α) : AnalysisTraits α :=
  { GetMetamargin := fun data => data.generic_ballot.margin
    GetMetamarginAdjustment := fun data => data.house_mm - data.generic_ballot.margin
    GetBiasFn := fun _ data => HouseAnalysis.GetBiasFn lib data
    GetScoreToWin := fun cc data => HouseAnalysis.GetScoreToWin cc data }

/-- `SetBayesParameters<AT>(mp, cc, day, priors)` of predict.cpp, as the predictor it
leaves in `mp`; `max_swing_by_day` is the table the caller stored in `mp` before the
call (the conversion of the prior swing to `float` is not modelled). -/
def SetBayesParameters (AT : AnalysisTraits α) (max_swing_by_day : List α) (cc : Campaign α)
    (day : ModelData α) (priors : List (ModelData α)) : MarginPredictor α :=
  let prior_mm := priors.map fun day => AT.GetMetamargin day
  let prior_swing := priors.map fun day => day.undecideds
  let mp_prior_mm := if prior_mm.isEmpty then AT.GetMetamargin day else Average prior_mm
  let mp_prior_swing := if prior_swing.isEmpty then day.undecideds else Average prior_swing
  let mp_prior_swing := max 6 (UndecidedFactor mp_prior_swing)
  let score :=
    match AT.GetScoreToWin cc day with
    | some score => score
    | none => (0, 0)
  { max_swing_by_day := max_swing_by_day
    metamargin := AT.GetMetamargin day
    swing := UndecidedFactor day.undecideds
    prior_mm := mp_prior_mm
    prior_swing := mp_prior_swing
    bias_fn := AT.GetBiasFn cc day
    mm_adjust := AT.GetMetamarginAdjustment day
    score_to_win := score.1
    score_offset := score.2 }

/-- `Tpdf(x, df)` of mathlib.cpp with its `GetTpdfCoeff(df)`, over the library functions
`tgamma`, `atan`, `sqrt` and `pow`. -/
def Tpdf (lib : Lib α) (x : α) (df : ℤ) : α :=
  let kPi := 4 * lib.atan 1
  let coeff := lib.tgamma (((df : α) + 1) / 2) / lib.tgamma ((df : α) / 2) / lib.sqrt ((df : α) * kPi)
  coeff * lib.pow (1 + (x * x) / (df : α)) (-(((df : α) + 1) / 2))

/-- `GetWinP(mp, cs)` of predict.cpp. -/
def GetWinP (mp : MarginPredictor α) (cs : List α) : α :=
  match (List.range cs.length).find? fun i =>
      decide (¬ mp.mm_range.getD i 0 < 0
        ∧ mp.bias_fn (mp.mm_range.getD i 0 - mp.metamargin) ≥ mp.score_to_win) with
  | some i => if i = 0 then 1 else 1 - cs.getD (i - 1) 0
  | none => 0

/-- The swing `Predictor::Bayes` works with: the larger of the predictor's swing and the
entry of the table for `days_left` (its last entry beyond the table; `size_t(days_left)`
is beyond the table for a negative `days_left`), at least 2. -/
def Predictor.Bayes.swing (mp : MarginPredictor α) (days_left : ℤ) : α :=
  let min_swing :=
    if 0 ≤ days_left ∧ days_left.toNat < mp.max_swing_by_day.length then
      mp.max_swing_by_day.getD days_left.toNat 0
    else mp.max_swing_by_day.getLast?.getD 0
  -- Empirically, the metamargin is off by ~2 points each election.
  let min_swing := max min_swing 2
  max mp.swing min_swing

/-- The loop `for (double mm = mm_4sig_low; mm <= mm_4sig_high; mm += 0.02)` of
`Predictor::Bayes` from `mm` on, for at most `fuel` rounds. -/
def Predictor.Bayes.rangeLoop (mm_4sig_high : α) : ℕ → α → List α
  | 0, _ => []
  | fuel + 1, mm =>
    if mm ≤ mm_4sig_high then mm :: Predictor.Bayes.rangeLoop mm_4sig_high fuel (mm + 2 / 100)
    else []

/-- The metamargin values `Predictor::Bayes` stores in `mm_range`; the number of rounds
allowed is the number of steps of 0.02 between the two ends, plus one. -/
def Predictor.Bayes.mmRange [FloorRing α] (mm_4sig_low mm_4sig_high : α) : List α :=
  Predictor.Bayes.rangeLoop mm_4sig_high
    (⌊(mm_4sig_high - mm_4sig_low) / (2 / 100)⌋.toNat + 1) mm_4sig_low

/-- The inner `while` of the walk over the cumulative sum in `Predictor::Bayes`: the two
iterators, as the rest of `cs` and of `mm_range`, move on together until the cumulative
sum reaches `pt`; the result is the metamargin found, if any, and the two iterators. -/
def Predictor.Bayes.walk (pt : α) : List α → List α → Option α × List α × List α
  | c :: cs, m :: ms =>
    if c ≥ pt then (some m, c :: cs, m :: ms) else Predictor.Bayes.walk pt cs ms
  | cs, ms => (none, cs, ms)

/-- The outer `while` of the walk: each point is replaced by `RoundMargin` of the
metamargin found for it, of `mm_range.back()` when none is found. -/
def Predictor.Bayes.walkPoints [FloorRing α] (back : α) : List α → List α → List α → List α
  | [], _, _ => []
  | pt :: points, cs, ms =>
    let found := Predictor.Bayes.walk pt cs ms
    RoundMargin (found.1.getD back)
      :: Predictor.Bayes.walkPoints back points found.2.1 found.2.2

/-- The metamargin values `Predictor::Bayes` stores in `mp->mm_range`: a four-sigma
range around the metamargin in steps of 0.02. -/
def Predictor.Bayes.mm_range [FloorRing α] (mp : MarginPredictor α) (days_left : ℤ) : List α :=
  let swing := Predictor.Bayes.swing mp days_left
  -- Get a four-sigma range of metamargin values.
  let mm_4sig_low := mp.metamargin - 4 * swing
  let mm_4sig_high := mp.metamargin + 4 * swing
  Predictor.Bayes.mmRange mm_4sig_low mm_4sig_high

/-- The values `Predictor::Bayes` stores in `mp->prediction`: the product of the two
normalised densities over `mm_range`, normalised again. -/
def Predictor.Bayes.prediction [FloorRing α] (lib : Lib α) (mp : MarginPredictor α)
    (days_left : ℤ) : List α :=
  let swing := Predictor.Bayes.swing mp days_left
  let mm_range := Predictor.Bayes.mm_range mp days_left
  let now := mm_range.map fun mm => Tpdf lib ((mm - mp.metamargin) / swing) 3
  let now_sum := Sum now
  let prior := mm_range.map fun mm => Tpdf lib ((mm - mp.prior_mm) / mp.prior_swing) 1
  let prior_sum := Sum prior
  let prediction := List.zipWith (fun n pr => (n / now_sum) * (pr / prior_sum)) now prior
  let pred_sum := Sum prediction
  prediction.map fun v => v / pred_sum

/-- The four points of `Predictor::Bayes` after the walk over the cumulative sum, before
the metamargin adjustment (`back()` of an empty `mm_range` is modelled as 0). -/
def Predictor.Bayes.points [FloorRing α] (lib : Lib α) (mp : MarginPredictor α)
    (days_left : ℤ) : List α :=
  let mm_range := Predictor.Bayes.mm_range mp days_left
  let cs := Cumsum (Predictor.Bayes.prediction lib mp days_left)
  -- Walk the cumulative sum looking for interesting points (sorted).
  let points : List α :=
    [ NormalCdf lib.sqrt lib.erf (-2) 0 1,
      NormalCdf lib.sqrt lib.erf (-1) 0 1,
      NormalCdf lib.sqrt lib.erf 1 0 1,
      NormalCdf lib.sqrt lib.erf 2 0 1 ]
  Predictor.Bayes.walkPoints (mm_range.getLast?.getD 0) points cs mm_range

/-- `Predictor::Bayes(mp, p, days_left)` of predict.cpp: the predictor and the prediction
it leaves (`mm_range`, `prediction` and `cs` are empty before the call). -/
def Predictor.Bayes [FloorRing α] (lib : Lib α) (mp : MarginPredictor α) (p : Prediction α)
    (days_left : ℤ) : MarginPredictor α × Prediction α :=
  let mp := { mp with mm_range := Predictor.Bayes.mm_range mp days_left }
  let mp := { mp with prediction := Predictor.Bayes.prediction lib mp days_left }
  let predicted_mm := WeightedAverageValues mp.mm_range mp.prediction
  let p := { p with metamargin := RoundMargin predicted_mm }
  let mp := { mp with cs := Cumsum mp.prediction }
  let p :=
    if mp.score_to_win > 0 then
      { p with dem_win_p := stdClamp (GetWinP mp mp.cs) (1 / 100) (99 / 100) }
    else p
  let points := Predictor.Bayes.points lib mp days_left
  -- This is the only place where we need to account for the metamargin
  -- adjustment (eg generic ballot to house conversion). Everywhere else,
  -- we work in terms of deltas between the prior and prediction, so the
  -- absolute values don't matter.
  let adj_points := points.map fun point => point + mp.mm_adjust
  let p := { p with
    mm_2sig := (adj_points.getD 0 0, adj_points.getD 3 0)
    mm_1sig := (adj_points.getD 1 0, adj_points.getD 2 0) }
  if mp.score_to_win = 0 then (mp, p)
  else
    let scores := points.map fun mm => mp.bias_fn (mm - mp.metamargin) + mp.score_offset
    let p := { p with
      score_2sig := { low := scores.getD 0 0, high := scores.getD 3 0 }
      score_1sig := { low := scores.getD 1 0, high := scores.getD 2 0 }
      average := mp.bias_fn (p.metamargin - mp.metamargin) + mp.score_offset }
    (mp, p)

/-- The alternate Senate win probability of `Predictor::PredictDay`, from the predictor
`mp` after `Bayes`. -/
def Predictor.senateWinProbAlt (cc : Campaign α) (day : ModelData α) (mp : MarginPredictor α) :
    α :=
  let dem_seats_to_control := cc.senate_map.dem_seats_for_control
  let alt_delta := dem_seats_to_control - day.senate_control_alt_seats
  let alt_seats := mp.score_to_win - alt_delta
  let win_prob_inv : α :=
    match (List.range mp.mm_range.length).find? fun i =>
        decide (mp.bias_fn (mp.mm_range.getD i 0 - mp.metamargin) ≥ alt_seats) with
    | some i => if i = 0 then 0 else mp.cs.getD (i - 1) 0
    | none => 1
  1 - win_prob_inv

/-- The first block of `Predictor::PredictDay(day)`: the electoral-college prediction
of a presidential year.  `none` when the block does not return: the bias function and
the block itself build a convolver from the state models of the day, which reads past
the end of a vector when the day has no state model, or more of them than `state_list()`
has states. -/
def Predictor.PredictDay.president [FloorRing α] (lib : Lib α) (cc : Campaign α)
    (priors : List (ModelData α)) (days_left : ℤ) (day : ModelData α) : Option (ModelData α) :=
  if cc.IsPresidentialYear then
    if day.states.isEmpty ∨ cc.state_list.length < day.states.length then none
    else
      let mp := SetBayesParameters (StateAnalysis.traits lib) kMaxNationalSwing cc day priors
      let p := (Predictor.Bayes lib mp day.ec_prediction days_left).2
      let cv := StateAnalysis.GetConvolverForBias lib.sqrt lib.erf cc day
        (p.metamargin - day.metamargin)
      -- Hack: for now, clamp win P for presidential races, since the prediction
      -- doesn't fat have enough tails.
      some { day with
        predicted_dem_ev_mode := Convolver.FindMode cv
        ec_prediction := { p with dem_win_p := stdClamp p.dem_win_p (1 / 2) (95 / 100) } }
  else some day

/-- The second block of `Predictor::PredictDay(day)`: the Senate prediction, when the
day has Senate races.  `none` when the block does not return: its loop calls the bias
function on `mm_range[0]`, and the bias function builds a convolver on no race when it
skips every race of the day (no polls and a rating). -/
def Predictor.PredictDay.senate [FloorRing α] (lib : Lib α) (cc : Campaign α)
    (priors : List (ModelData α)) (days_left : ℤ) (day : ModelData α) : Option (ModelData α) :=
  if ¬ day.senate_races.isEmpty then
    if day.senate_races.all fun race => decide (race.polls.isEmpty ∧ race.rating ≠ "") then none
    else
      let table : List α :=
        if cc.IsPresidentialYear then kMaxBallotSwing_PresYear else kMaxBallotSwing_Midterm
      let mp := SetBayesParameters (SenateAnalysis.traits lib) table cc day priors
      let r := Predictor.Bayes lib mp day.senate_prediction days_left
      some { day with
        senate_prediction := r.2
        senate_win_prob_alt := Predictor.senateWinProbAlt cc day r.1 }
  else some day

/-- The third block of `Predictor::PredictDay(day)`: the House prediction, when the
House can flip.  `none` when the block does not return: with a score to win other than
zero `Bayes` calls the bias function, which builds a convolver on no race when the day
has no house race. -/
def Predictor.PredictDay.house [FloorRing α] (lib : Lib α) (cc : Campaign α)
    (priors : List (ModelData α)) (days_left : ℤ) (day : ModelData α) : Option (ModelData α) :=
  if day.house_can_flip then
    let table : List α :=
      if cc.IsPresidentialYear then kMaxBallotSwing_PresYear else kMaxBallotSwing_Midterm
    let mp := SetBayesParameters (HouseAnalysis.traits lib) table cc day priors
    if mp.score_to_win ≠ 0 ∧ day.house_races.isEmpty then none
    else
      some { day with
        house_prediction := (Predictor.Bayes lib mp day.house_prediction days_left).2 }
  else some day

/-- `Predictor::PredictDay(day)` of predict.cpp for the earlier days `priors`, as the
day it leaves (`DaysBetween` is modelled as total, so the function never returns
`false`): the three blocks in turn, `none` when one of them does not return. -/
def Predictor.PredictDay [FloorRing α] (lib : Lib α) (cc : Campaign α)
    (priors : List (ModelData α)) (day : ModelData α) : Option (ModelData α) :=
  let days_left := DaysBetween day.date cc.EndDate
  (Predictor.PredictDay.president lib cc priors days_left day).bind fun day =>
    (Predictor.PredictDay.senate lib cc priors days_left day).bind fun day =>
      Predictor.PredictDay.house lib cc priors days_left day

end Predict

/-! ## main.cpp: the driver -/

section DriverModel

variable {α : Type} [LinearOrderedField α]

/-- `NextDay(d)` of utility.cpp. -/
def NextDay (d : Date) : Date := Date.add d 1

/-- The `SortPolls` calls at the start of `Driver::Run()`: the national polls, the
generic ballot polls, and the poll lists of the states, of the Senate races and of the
Governor races. -/
def Driver.sortFeed (feed : Feed α) : Feed α :=
  { feed with
    national_polls := SortPolls feed.national_polls
    generic_ballot_polls := SortPolls feed.generic_ballot_polls
    states := feed.states.map fun state => (state.1, SortPolls state.2)
    senate_polls := feed.senate_polls.map fun list => (list.1, SortPolls list.2)
    governor_polls := feed.governor_polls.map fun list => (list.1, SortPolls list.2) }

/-- A `ModelData` message with every field at its default. -/
def ModelData.fresh : ModelData α :=
  { date := ⟨0, 0, 0⟩, national := RaceModel.fresh RaceType.NATIONAL [],
    generic_ballot := RaceModel.fresh RaceType.NATIONAL [],
    undecideds := 0, metamargin := 0, senate_mm := 0, house_mm := 0,
    senate_win_prob_alt := 0, ec_prediction := Prediction.fresh,
    senate_prediction := Prediction.fresh, house_prediction := Prediction.fresh }

/-- What the work queued by `Driver::RunForDay(date, feed)` leaves in the entry of the
day, which is at its defaults before: the date, the time of generation `now`, and what
the four analyses write, passed as the function `analyses` of the feed and the entry. -/
def Driver.work (analyses : Feed α → ModelData α → ModelData α) (now : Int) (feed : Feed α)
    (date : Date) : ModelData α :=
  analyses feed { (ModelData.fresh : ModelData α) with date := date, generated := now }

/-- The loop at the start of `Driver::RunForDay(date, feed)` that moves `history_pos_`,
from the position `pos` on and for at most `fuel` rounds: the position it ends at,
`none` when the rounds are used up. -/
def Driver.RunForDay.seek (history_ : List (ModelData α)) (date : Date) : ℕ → ℕ → Option ℕ
  | 0, _ => none
  | fuel + 1, pos =>
    match history_[pos]? with
    | none => some pos
    | some entry =>
      if Date.lt entry.date date then Driver.RunForDay.seek history_ date fuel (pos + 1)
      else if Date.eq entry.date date then some pos
      else Driver.RunForDay.seek history_ date fuel pos

/-- `Driver::RunForDay(date, feed)` of main.cpp, with at most `fuel` rounds of its loop
(`none` when they are used up) and with the queued work done at once.  (In the source the
work runs after the last `RunForDay`; until then the entry added or reset for the day has
the default date 0-0-0, which the loop passes as it passes the date of the day on every
later day.) -/
def Driver.RunForDay (analyses : Feed α → ModelData α → ModelData α) (now : Int) (fuel : ℕ)
    (self : Driver α) (date : Date) (feed : Feed α) : Option (Driver α) :=
  match Driver.RunForDay.seek self.history_ date fuel self.history_pos_ with
  | none => none
  | some pos =>
    let emplaced : Driver α :=
      { self with
        history_ := self.history_.take pos ++ Driver.work analyses now feed date
          :: self.history_.drop pos
        history_pos_ := pos }
    match self.history_[pos]? with
    | none => some emplaced
    | some entry =>
      if Date.gt entry.date date then some emplaced
      else if Date.lt entry.date self.today_ then some { self with history_pos_ := pos }
      else
        some { self with
          history_ := self.history_.set pos (Driver.work analyses now feed date)
          history_pos_ := pos }

/-- The loop `while (day <= today_)` of `Driver::Run()` from the day `day` on, for at
most `fuel` rounds: the driver and the day it ends with. -/
def Driver.Run.days (analyses : Feed α → ModelData α → ModelData α) (now : Int) (feed : Feed α)
    (fuel : ℕ) : ℕ → Driver α → Date → Option (Driver α × Date)
  | 0, _, _ => none
  | rounds + 1, self, day =>
    if Date.le day self.today_ then
      match Driver.RunForDay analyses now fuel self day feed with
      | none => none
      | some self => Driver.Run.days analyses now feed fuel rounds self (NextDay day)
    else some (self, day)

/-- The part of `Driver::Run()` that builds `history_`: the constructor (`today` is
`Today()`), `ImportHistory()` on the saved history `saved` (empty when there is none),
the loop over the days and the extra day of the final results, when the campaign has
results (`results` is then the feed `BuildFeedFromResults()` builds).  Every loop has at
most `fuel` rounds; `none` when they are used up. -/
def Driver.Run.history (analyses : Feed α → ModelData α → ModelData α) (now : Int)
    (cc : Campaign α) (today : Date) (feed : Feed α) (saved : List (ModelData α))
    (results : Option (Feed α)) (fuel : ℕ) : Option (List (ModelData α)) :=
  let today_ := if Date.gt today cc.EndDate then cc.EndDate else today
  let history_ := saved.foldl (fun history_ entry => entry :: history_) []
  let self : Driver α := { today_ := today_, history_ := history_, history_pos_ := 0 }
  match Driver.Run.days analyses now feed fuel fuel self cc.StartDate with
  | none => none
  | some (self, day) =>
    match results with
    | some results_feed_ =>
      if Date.eq today_ cc.EndDate then
        (Driver.RunForDay analyses now fuel self day results_feed_).map fun self => self.history_
      else some self.history_
    | none => some self.history_

/-- The loop of `Predictor::Predict()` over the days from the oldest on, with the flag
`should_predict` and the days seen so far, `priors`; `none` when `PredictDay` does not
return for one of them. -/
def Predictor.Predict.loop [FloorRing α] (lib : Lib α) (cc : Campaign α) (last_updated : Int) :
    List (ModelData α) → Bool → List (ModelData α) → Option (List (ModelData α))
  | [], _, _ => some []
  | day :: rest, should_predict, priors =>
    let should_predict := should_predict || decide (day.generated ≥ last_updated)
    match (if should_predict then Predictor.PredictDay lib cc priors day else some day) with
    | none => none
    | some day =>
      (Predictor.Predict.loop lib cc last_updated rest should_predict (priors ++ [day])).map
        fun days => day :: days

/-- `Predictor::Predict()` of predict.cpp on the exported history: the loop runs from
`rbegin()` to `rend()`, the entries stay where they are. -/
def Predictor.Predict [FloorRing α] (lib : Lib α) (cc : Campaign α) (last_updated : Int)
    (history : List (ModelData α)) : Option (List (ModelData α)) :=
  (Predictor.Predict.loop lib cc last_updated history.reverse false []).map List.reverse

/-- The history `Driver::Run()` exports: the feed is sorted, `history_` is built, copied
to the output from `rbegin()` to `rend()`, and predicted.  `none` when the run does not
reach the export. -/
def Driver.Run [FloorRing α] (lib : Lib α) (analyses : Feed α → ModelData α → ModelData α)
    (now : Int) (cc : Campaign α) (today : Date) (feed : Feed α) (saved : List (ModelData α))
    (results : Option (Feed α)) (fuel : ℕ) : Option (List (ModelData α)) :=
  (Driver.Run.history analyses now cc today (Driver.sortFeed feed) saved results fuel).bind
    fun history_ => Predictor.Predict lib cc now history_.reverse

end DriverModel

/-! ## Concrete inputs used by the worked examples -/

section Examples

/-- A campaign running from 2020-06-01 to election day 2020-11-03. -/
def exampleCampaign : Campaign ℚ :=
  { StartDate := ⟨2020, 6, 1⟩, EndDate := ⟨2020, 11, 3⟩, IsPresidentialYear := true,
    UndecidedPercent := 5 }

/-- A poll at 48 to 44 with no published date and no weight yet. -/
def examplePoll (description : String) (start end_ : Date) (sample_type : String)
    (sample_size : Int) (tracking : Bool) : Poll ℚ :=
  { description := description, start := start, end_ := end_, published := none,
    dem := 48, gop := 44, margin := 4, sample_size := sample_size,
    sample_type := sample_type, tracking := tracking, weight := 0 }

/-- Three polls by pollster A ending on the same day and two by pollster B ending on
different days, latest first. -/
def dedupPolls : List (Poll ℚ) :=
  [ examplePoll "A" ⟨2020, 9, 20⟩ ⟨2020, 9, 25⟩ "lv" 500 false,
    examplePoll "A" ⟨2020, 9, 21⟩ ⟨2020, 9, 25⟩ "lv" 600 false,
    examplePoll "A" ⟨2020, 9, 22⟩ ⟨2020, 9, 25⟩ "rv" 700 false,
    examplePoll "B" ⟨2020, 9, 20⟩ ⟨2020, 9, 24⟩ "lv" 500 false,
    examplePoll "B" ⟨2020, 9, 18⟩ ⟨2020, 9, 22⟩ "lv" 500 false ]

/-- Four pollsters ending on 2020-09-25 (window of 14 days, so `earliest` is
2020-09-11) and a fifth pollster ending on `last_end`. -/
def fivePollsters (last_end : Date) : List (Poll ℚ) :=
  [ examplePoll "A" ⟨2020, 9, 20⟩ ⟨2020, 9, 25⟩ "lv" 500 false,
    examplePoll "B" ⟨2020, 9, 20⟩ ⟨2020, 9, 25⟩ "lv" 500 false,
    examplePoll "C" ⟨2020, 9, 20⟩ ⟨2020, 9, 25⟩ "lv" 500 false,
    examplePoll "D" ⟨2020, 9, 20⟩ ⟨2020, 9, 25⟩ "lv" 500 false,
    examplePoll "E" ⟨2020, 9, 5⟩ last_end "lv" 500 false ]

/-- A poll of pollster `description` at `dem` to `gop` taken from 2020-09-20 to
2020-09-25, with weight `weight`. -/
def sharePoll {α : Type} [LinearOrderedField α] (description : String) (dem gop weight : α) :
    Poll α :=
  { description := description, start := ⟨2020, 9, 20⟩, end_ := ⟨2020, 9, 25⟩,
    published := none, dem := dem, gop := gop, margin := dem - gop, sample_size := 500,
    sample_type := "lv", tracking := false, weight := weight }

/-- A campaign like `exampleCampaign`, over any field. -/
def exampleCampaignOf (α : Type) [LinearOrderedField α] : Campaign α :=
  { StartDate := ⟨2020, 6, 1⟩, EndDate := ⟨2020, 11, 3⟩, IsPresidentialYear := true,
    UndecidedPercent := 5 }

/-- The day's data before any race has been aggregated. -/
def exampleData (α : Type) [LinearOrderedField α] : ModelData α :=
  { date := ⟨2020, 10, 1⟩, national := RaceModel.fresh RaceType.NATIONAL [],
    generic_ballot := RaceModel.fresh RaceType.GENERIC_BALLOT [],
    undecideds := 0, metamargin := 0, senate_mm := 0, house_mm := 0,
    senate_win_prob_alt := 0, ec_prediction := Prediction.fresh,
    senate_prediction := Prediction.fresh, house_prediction := Prediction.fresh }

/-- Stand-in for the library `erf` in worked examples: zero at zero, odd, increasing. -/
def toyErf (x : ℚ) : ℚ := x / (1 + |x|)

/-- Stand-in for the library `sqrt` in worked examples: positive on positive numbers. -/
def toySqrt (x : ℚ) : ℚ := (x + 1) / 2

/-- The campaign of the toy case: two states of 10 electoral votes each. -/
def toyCampaign : Campaign ℚ :=
  { exampleCampaign with
    TotalEv := 20
    States := [{ name := "A", evs := 10 }, { name := "B", evs := 10 }]
    state_list := [{ name := "A", evs := 10 }, { name := "B", evs := 10 }] }

/-- A state model with mean margin 0, standard deviation 3 and win probability 0.5. -/
def toyStateModel : RaceModel ℚ :=
  { RaceModel.fresh RaceType.ELECTORAL_COLLEGE [] with mean := 0, stddev := 3, win_prob := 1 / 2 }

/-- The day's data of the toy case: one such model per state. -/
def toyData : ModelData ℚ :=
  { exampleData ℚ with states := [toyStateModel, toyStateModel] }

/-- The library functions of the worked examples over the rationals: stand-ins for
`sqrt`, `erf`, `erfinv`, `tgamma` and `atan`, a `pow` that is exact on the two exponents
the predictor uses (`-2` and `-1`), and the split on blanks. -/
def toyLib : Lib ℚ :=
  { sqrt := toySqrt, erf := toyErf, erfinv := fun x => x, tgamma := fun _ => 1,
    atan := fun x => x,
    pow := fun b e => if e = -2 then 1 / (b * b) else if e = -1 then 1 / b else 1,
    split := fun text => text.splitOn " " }

/-- A house race of the worked examples. -/
def toyHouseRace (race_id : Int) (current_holder presumed_winner rating : String) : Race :=
  { type := RaceType.HOUSE, presumed_winner := presumed_winner, race_id := race_id,
    region := "district", current_holder := current_holder, rating := rating }

/-- A campaign whose house roster lists only the one seat given, out of 235 Democratic
and 200 Republican seats. -/
def sparseHouseCampaign (race : Race) : Campaign ℚ :=
  { exampleCampaign with
    house_map := { races := [race], seats := { dem := 235, gop := 200 }, total_seats := 435 } }

/-- A midterm campaign: `exampleCampaign` outside a presidential year. -/
def midtermCampaign : Campaign ℚ :=
  { exampleCampaign with IsPresidentialYear := false }

/-- A midterm campaign with one Senate race up, without a presumed winner: 53 Democratic
seats of which one is up, 51 seats for control. -/
def senateCampaign : Campaign ℚ :=
  { midtermCampaign with
    senate_map :=
      { races := [{ type := RaceType.SENATE, presumed_winner := "" }]
        seats := { dem := 53, gop := 47 }, seats_up := { dem := 1, gop := 0 }
        dem_seats_for_control := 51 } }

/-- A day of `senateCampaign` as `SenateAnalysis::Analyze` leaves it: the race has no
polls and no rating (win probability 0.5, standard deviation `kSenateMinError`), the 52
safe Democratic seats are enough for control, so the Senate cannot flip; nothing is
predicted yet. -/
def fixedSenateDay : ModelData ℚ :=
  { exampleData ℚ with
    senate_races :=
      [{ RaceModel.fresh RaceType.SENATE [] with win_prob := 1 / 2, stddev := kSenateMinError }]
    senate_safe_seats := { dem := 52, gop := 47 }
    senate_control_alt_seats := 50
    senate_can_flip := false }

/-- A midterm campaign whose house roster lists one seat, a tossup held by the
Democrats, out of 218 Democratic and 217 Republican seats. -/
def houseCampaign : Campaign ℚ :=
  { midtermCampaign with
    house_map :=
      { races := [toyHouseRace 0 "dem" "" "tossup"], seats := { dem := 218, gop := 217 }
        total_seats := 435 } }

/-- A day of `houseCampaign`, election day itself: the race has one poll at 60 to 40,
each party has 217 safe seats, so the House can flip; the house metamargin is 20.02 and
the generic ballot is even. -/
def houseDay : ModelData ℚ :=
  { exampleData ℚ with
    date := ⟨2020, 11, 3⟩
    house_races :=
      [{ RaceModel.fresh RaceType.HOUSE [sharePoll "A" 60 40 1] with
         mean := 20, median := 20, margin := 20, stddev := kHouseMinError
         win_prob := DemWinProb toySqrt toyErf 20 kHouseMinError 0, rating := "tossup" }]
    house_safe_seats := { dem := 217, gop := 217 }
    house_can_flip := true
    house_mm := 1001 / 50 }

/-- A campaign with a state of 20 electoral votes and a state of none. -/
def zeroEvCampaign : Campaign ℚ :=
  { exampleCampaign with
    TotalEv := 20
    States := [{ name := "A", evs := 20 }, { name := "B", evs := 0 }]
    state_list := [{ name := "A", evs := 20 }, { name := "B", evs := 0 }] }

/-- A feed whose only house poll list, for seat 0, holds a poll ending on 2020-09-22
before a poll ending on 2020-09-25. -/
def unsortedHouseFeed : Feed ℚ :=
  { house_polls :=
      [(0, [examplePoll "A" ⟨2020, 9, 18⟩ ⟨2020, 9, 22⟩ "lv" 500 false,
            examplePoll "B" ⟨2020, 9, 20⟩ ⟨2020, 9, 25⟩ "lv" 500 false])]
    national_polls :=
      [examplePoll "A" ⟨2020, 9, 18⟩ ⟨2020, 9, 22⟩ "lv" 500 false,
       examplePoll "B" ⟨2020, 9, 20⟩ ⟨2020, 9, 25⟩ "lv" 500 false] }

end Examples

/-! ## The distribution the convolver is meant to compute -/

section ScoreSpec

variable {α : Type} [LinearOrderedField α]

/-- Weight of race `i` of a race list (`0` past the end). -/
def raceWeight (races : List (ℕ × α)) (i : ℕ) : ℕ := (races.getD i (0, 0)).1

/-- Democratic win probability of race `i` of a race list. -/
def raceProb (races : List (ℕ × α)) (i : ℕ) : α := (races.getD i (0, 0)).2

/-- Total weight of a race list. -/
def totalWeight (races : List (ℕ × α)) : ℕ := ∑ i ∈ range races.length, raceWeight races i

/-- Follows the spec's words: the probability that the Democratic total is exactly `s`,
the sum over all sets `S` of races whose weights add up to `s` of
`∏_{i ∈ S} p_i * ∏_{i ∉ S} (1 - p_i)`. -/
def exactScoreProb (races : List (ℕ × α)) (s : ℕ) : α :=
  ∑ S ∈ (range races.length).powerset,
    if ∑ i ∈ S, raceWeight races i = s then
      (∏ i ∈ S, raceProb races i) * ∏ i ∈ range races.length \ S, (1 - raceProb races i)
    else 0

/-- Probability that, among the first `n` races, the races lost by the Democrats weigh
exactly `t`: this is what the histogram holds before it is reversed. -/
def lossProb (races : List (ℕ × α)) (n t : ℕ) : α :=
  ∑ S ∈ (range n).powerset,
    if ∑ i ∈ S, raceWeight races i = t then
      (∏ i ∈ S, (1 - raceProb races i)) * ∏ i ∈ range n \ S, raceProb races i
    else 0

end ScoreSpec

section ScanSpec

variable {α : Type} [LinearOrderedField α]

/-- Follows the spec's words: the `j`-th bias of the scan sequence, `0, -0.02, -0.04, ...`
when the direction is negative and `0.02, 0.04, ...` otherwise. -/
def MetamarginFinder.scanBias (direction : ℤ) (j : ℕ) : α :=
  if direction < 0 then -((j : α) * (2 / 100)) else ((j : α) + 1) * (2 / 100)

end ScanSpec

/-- A day dated 2020-10-01 analysed on election day, 2020-11-03, for a campaign whose
rating history has an entry of 2020-09-01 that rates seat 0 as safe for the Democrats. -/
def historyCampaign : Campaign ℚ :=
  { exampleCampaign with
    house_history :=
      [{ date := ⟨2020, 9, 1⟩,
         ratings := [(0, { race_id := 0, rating := "safe", presumed_winner := "dem" })] }] }

/-- A feed that rates seat 0 as a tossup. -/
def tossupFeed : Feed ℚ :=
  { house_ratings := [(0, { race_id := 0, rating := "tossup", presumed_winner := "" })] }

/-- A campaign whose state map file lists "B" (10 electoral votes) before "A" (1
electoral vote): `state_list` is in file order, `States` in name order. -/
def unsortedMapCampaign : Campaign ℚ :=
  { exampleCampaign with
    TotalEv := 11
    States := [{ name := "A", evs := 1 }, { name := "B", evs := 10 }]
    state_list := [{ name := "B", evs := 10 }, { name := "A", evs := 1 }] }

/-- The state model of the examples for the mean margin `mean`: standard deviation 3
and the win probability `DemWinProb` gives it. -/
def toyStateModelOf (mean : ℚ) : RaceModel ℚ :=
  { RaceModel.fresh RaceType.ELECTORAL_COLLEGE [] with
    mean := mean, margin := mean, stddev := 3,
    win_prob := DemWinProb toySqrt toyErf mean 3 0 }

/-- The day's data for `unsortedMapCampaign`, one model per state in name order: "A" at
mean margin 9, "B" at mean margin 0. -/
def unsortedMapData : ModelData ℚ :=
  { exampleData ℚ with states := [toyStateModelOf 9, toyStateModelOf 0] }

/-- An entry of a saved history, dated `date`. -/
def savedEntry (date : Date) : ModelData ℚ :=
  { exampleData ℚ with date := date }

/-! ## What a run of the driver visits -/

section DriverDays

variable {α : Type} [LinearOrderedField α]

/-- The member `today_` as the constructor of `Driver` leaves it: `Today()`, or the end
of the campaign when that is past. -/
def Driver.today (cc : Campaign α) (today : Date) : Date :=
  if Date.gt today cc.EndDate then cc.EndDate else today

/-- The number of days from the start of the campaign to `today_`, both included: the
number of rounds of the loop `while (day <= today_)` of `Driver::Run()`. -/
def Driver.Run.rounds (cc : Campaign α) (today : Date) : ℕ :=
  (daysFromCivil (Driver.today cc today) - daysFromCivil cc.StartDate + 1).toNat

/-- The days `Driver::Run()` calls `RunForDay` for, counted from the start of the
campaign: the days up to `today_` and, when the campaign has results and `today_` is its
end, the day after. -/
def Driver.Run.visits (cc : Campaign α) (today : Date) (results : Option (Feed α))
    (k : ℕ) : Prop :=
  k < Driver.Run.rounds cc today
  ∨ (k = Driver.Run.rounds cc today ∧ results.isSome = true
      ∧ Date.eq (Driver.today cc today) cc.EndDate = true)

/-- A history has a place for a day when it has an entry dated that day or only entries
dated before it. -/
def Driver.positioned (history : List (ModelData α)) (date : Date) : Prop :=
  date ∈ history.map (fun e => e.date)
  ∨ ∀ d ∈ history.map (fun e => e.date), Date.lt d date = true

end DriverDays

/-! ## Lemmas on the convolution -/

section ConvolveLemmas

variable {α : Type} [LinearOrderedField α]

theorem foldl_range_ite (c : ℕ → Prop) [DecidablePred c] (f : ℕ → α) (n : ℕ) :
    (List.range n).foldl (fun val j => if c j then val + f j else val) 0
      = ∑ j ∈ range n, if c j then f j else 0 := by
  induction n with
  | zero => simp
  | succ n ih =>
    rw [List.range_succ, List.foldl_append, ih, Finset.sum_range_succ]
    by_cases hc : c n <;> simp [hc]

theorem Convolve_length (x h : List α) : (Convolve x h).length = x.length + h.length - 1 := by
  simp [Convolve]

theorem Convolve_getD (x h : List α) (i : ℕ) :
    (Convolve x h).getD i 0
      = ∑ j ∈ range h.length, if j ≤ i then x.getD (i - j) 0 * h.getD j 0 else 0 := by
  by_cases hi : i < x.length + h.length - 1
  · have h1 : (Convolve x h).getD i 0
        = ∑ j ∈ range h.length,
            if j ≤ i ∧ i - j < x.length then x.getD (i - j) 0 * h.getD j 0 else 0 := by
      rw [← foldl_range_ite]
      simp [Convolve, List.getD_eq_getElem?_getD, List.getElem?_map, List.getElem?_range hi]
    rw [h1]
    refine Finset.sum_congr rfl fun j _ => ?_
    by_cases hj : j ≤ i
    · by_cases hk : i - j < x.length
      · simp [hj, hk]
      · have : x.getD (i - j) 0 = 0 := by
          rw [List.getD_eq_default]; omega
        rw [if_neg (fun hc => hk hc.2), if_pos hj, this, zero_mul]
    · simp [hj]
  · have h1 : (Convolve x h).getD i 0 = 0 := by
      rw [List.getD_eq_default]; rw [Convolve_length]; omega
    rw [h1]
    symm
    refine Finset.sum_eq_zero fun j hj => ?_
    have hj' : j < h.length := Finset.mem_range.mp hj
    by_cases hji : j ≤ i
    · have : x.getD (i - j) 0 = 0 := by
        rw [List.getD_eq_default]; omega
      rw [if_pos hji, this, zero_mul]
    · simp [hji]

theorem MakeSlice_length (d : ℕ × α) : (MakeSlice d).length = d.1 + 1 := by
  simp [MakeSlice]

theorem MakeSlice_getD (w : ℕ) (p : α) (hw : 1 ≤ w) (j : ℕ) :
    (MakeSlice (w, p)).getD j 0 = if j = 0 then p else if j = w then 1 - p else 0 := by
  simp only [MakeSlice, List.getD_eq_getElem?_getD, List.getElem?_set, List.length_set,
    List.length_replicate, List.getElem?_replicate]
  by_cases h0 : j = 0
  · subst h0
    have : ¬ w = 0 := by omega
    simp [this]
  · by_cases hjw : j = w
    · subst hjw
      simp [h0]
    · have h1 : ¬ w = j := fun h => hjw h.symm
      have h2 : ¬ 0 = j := fun h => h0 h.symm
      simp only [h1, h2, h0, hjw, if_false]
      split <;> simp

theorem Convolve_slice_getD (x : List α) (w : ℕ) (p : α) (hw : 1 ≤ w) (i : ℕ) :
    (Convolve x (MakeSlice (w, p))).getD i 0
      = x.getD i 0 * p + if w ≤ i then x.getD (i - w) 0 * (1 - p) else 0 := by
  rw [Convolve_getD, MakeSlice_length]
  have hne : (0 : ℕ) ≠ w := by omega
  rw [Finset.sum_eq_add 0 w hne]
  · have : ¬ w = 0 := by omega
    simp only [MakeSlice_getD w p hw, this, if_true, if_false, Nat.zero_le, Nat.sub_zero]
  · intro c _ hc
    simp only [MakeSlice_getD w p hw, hc.1, hc.2, if_false, mul_zero, ite_self]
  · intro h; exact absurd (Finset.mem_range.mpr (by omega)) h
  · intro h; exact absurd (Finset.mem_range.mpr (by omega)) h

end ConvolveLemmas

/-! ## The histogram before the final reversal -/

section Histogram

variable {α : Type} [LinearOrderedField α]

theorem lossProb_zero (races : List (ℕ × α)) (t : ℕ) :
    lossProb races 0 t = if t = 0 then 1 else 0 := by
  simp [lossProb, eq_comm]

theorem lossProb_succ (races : List (ℕ × α)) (n t : ℕ) :
    lossProb races (n + 1) t
      = lossProb races n t * raceProb races n
        + if raceWeight races n ≤ t then
            lossProb races n (t - raceWeight races n) * (1 - raceProb races n)
          else 0 := by
  unfold lossProb
  rw [Finset.range_succ, Finset.sum_powerset_insert Finset.not_mem_range_self]
  congr 1
  · rw [Finset.sum_mul]
    refine Finset.sum_congr rfl fun S hS => ?_
    have hn : n ∉ S := fun h => Finset.not_mem_range_self (Finset.mem_powerset.mp hS h)
    rw [Finset.insert_sdiff_of_not_mem _ hn,
      Finset.prod_insert (fun h => Finset.not_mem_range_self (Finset.mem_sdiff.mp h).1)]
    split <;> ring
  · have key : ∀ S ∈ (range n).powerset,
        (if ∑ i ∈ insert n S, raceWeight races i = t then
          (∏ i ∈ insert n S, (1 - raceProb races i))
            * ∏ i ∈ insert n (range n) \ insert n S, raceProb races i
         else 0)
        = if raceWeight races n ≤ t then
            (if ∑ i ∈ S, raceWeight races i = t - raceWeight races n then
              (∏ i ∈ S, (1 - raceProb races i)) * ∏ i ∈ range n \ S, raceProb races i
             else 0) * (1 - raceProb races n)
          else 0 := by
      intro S hS
      have hn : n ∉ S := fun h => Finset.not_mem_range_self (Finset.mem_powerset.mp hS h)
      rw [Finset.sum_insert hn, Finset.prod_insert hn, Finset.insert_sdiff_insert,
        Finset.sdiff_insert_of_not_mem Finset.not_mem_range_self]
      by_cases hle : raceWeight races n ≤ t
      · rw [if_pos hle]
        by_cases hs : ∑ i ∈ S, raceWeight races i = t - raceWeight races n
        · rw [if_pos hs, if_pos (by omega)]; ring
        · rw [if_neg hs, if_neg (by omega)]; ring
      · rw [if_neg hle, if_neg (by omega)]
    rw [Finset.sum_congr rfl key]
    by_cases hle : raceWeight races n ≤ t
    · simp only [if_pos hle, Finset.sum_mul]
    · simp only [if_neg hle, Finset.sum_const_zero]

/-- The histogram after `k` convolutions, for a race list all of whose weights are at
least one: its length, and its entries as loss probabilities. -/
theorem foldl_Convolve_spec (d : ℕ × α) (rest : List (ℕ × α))
    (hw : ∀ r ∈ d :: rest, 1 ≤ r.1) (k : ℕ) (hk : k ≤ rest.length) :
    ((rest.take k).foldl (fun histogram r => Convolve histogram (MakeSlice r))
        (MakeSlice d)).length = (∑ i ∈ range (k + 1), raceWeight (d :: rest) i) + 1
    ∧ ∀ t, ((rest.take k).foldl (fun histogram r => Convolve histogram (MakeSlice r))
        (MakeSlice d)).getD t 0 = lossProb (d :: rest) (k + 1) t := by
  induction k with
  | zero =>
    have hd : 1 ≤ d.1 := hw d (List.mem_cons_self _ _)
    refine ⟨by simp [MakeSlice_length, raceWeight], fun t => ?_⟩
    rw [lossProb_succ, lossProb_zero]
    have e1 : raceWeight (d :: rest) 0 = d.1 := by simp [raceWeight]
    have e2 : raceProb (d :: rest) 0 = d.2 := by simp [raceProb]
    rw [e1, e2]
    have e3 : MakeSlice d = MakeSlice (d.1, d.2) := rfl
    simp only [List.take_zero, List.foldl_nil]
    rw [e3, MakeSlice_getD d.1 d.2 hd, lossProb_zero]
    by_cases h0 : t = 0
    · subst h0
      have : ¬ d.1 ≤ 0 := by omega
      simp [this]
    · by_cases h1 : t = d.1
      · subst h1; simp [h0]
      · have : ¬ (t - d.1 = 0 ∧ d.1 ≤ t) := by omega
        by_cases h2 : d.1 ≤ t
        · have h3 : ¬ t - d.1 = 0 := by omega
          simp [h0, h1, h2, h3]
        · simp [h0, h1, h2]
  | succ k ih =>
    have hk' : k < rest.length := hk
    obtain ⟨ihl, ihg⟩ := ih (le_of_lt hk')
    have htake : rest.take (k + 1) = rest.take k ++ [rest.get ⟨k, hk'⟩] := by
      rw [List.take_succ]; simp [List.getElem?_eq_getElem hk']
    have hr : 1 ≤ (rest.get ⟨k, hk'⟩).1 :=
      hw _ (List.mem_cons_of_mem _ (List.get_mem _ _ _))
    have e1 : raceWeight (d :: rest) (k + 1) = (rest.get ⟨k, hk'⟩).1 := by
      simp [raceWeight, List.getD_eq_getElem?_getD, List.getElem?_eq_getElem hk']
    have e2 : raceProb (d :: rest) (k + 1) = (rest.get ⟨k, hk'⟩).2 := by
      simp [raceProb, List.getD_eq_getElem?_getD, List.getElem?_eq_getElem hk']
    have e3 : MakeSlice (rest.get ⟨k, hk'⟩)
        = MakeSlice ((rest.get ⟨k, hk'⟩).1, (rest.get ⟨k, hk'⟩).2) := rfl
    rw [htake, List.foldl_append]
    simp only [List.foldl_cons, List.foldl_nil]
    refine ⟨?_, fun t => ?_⟩
    · rw [Convolve_length, ihl, MakeSlice_length, Finset.sum_range_succ _ (k + 1), e1]
      omega
    · rw [e3, Convolve_slice_getD _ _ _ hr, lossProb_succ, e1, e2, ihg, ihg]

end Histogram

section HistogramFinal

variable {α : Type} [LinearOrderedField α]

theorem sum_eq_sum_range_getD (l : List α) : l.sum = ∑ i ∈ range l.length, l.getD i 0 := by
  induction l with
  | nil => simp
  | cons a l ih =>
    rw [List.sum_cons, List.length_cons, Finset.sum_range_succ', ih]
    simp [add_comm]

theorem subset_weight_le (races : List (ℕ × α)) (n : ℕ) (S : Finset ℕ) (hS : S ⊆ range n) :
    ∑ i ∈ S, raceWeight races i ≤ ∑ i ∈ range n, raceWeight races i :=
  Finset.sum_le_sum_of_subset hS

/-- Reading the unreversed histogram from the other end gives the win probabilities:
the complement of the set of lost races is the set of won races. -/
theorem lossProb_complement (races : List (ℕ × α)) (s : ℕ) (hs : s ≤ totalWeight races) :
    lossProb races races.length (totalWeight races - s) = exactScoreProb races s := by
  unfold lossProb exactScoreProb
  refine Finset.sum_nbij' (fun S => range races.length \ S) (fun S => range races.length \ S)
    ?_ ?_ ?_ ?_ ?_
  · intro S _; exact Finset.mem_powerset.mpr Finset.sdiff_subset
  · intro S _; exact Finset.mem_powerset.mpr Finset.sdiff_subset
  · intro S hS; exact Finset.sdiff_sdiff_eq_self (Finset.mem_powerset.mp hS)
  · intro S hS; exact Finset.sdiff_sdiff_eq_self (Finset.mem_powerset.mp hS)
  · intro S hS
    have hsub := Finset.mem_powerset.mp hS
    have hsum : ∑ i ∈ range races.length \ S, raceWeight races i + ∑ i ∈ S, raceWeight races i
        = totalWeight races := Finset.sum_sdiff hsub
    beta_reduce
    rw [Finset.sdiff_sdiff_eq_self hsub]
    by_cases h : ∑ i ∈ S, raceWeight races i = totalWeight races - s
    · rw [if_pos h, if_pos (by omega)]; ring
    · rw [if_neg h, if_neg (by omega)]

/-- The unreversed histogram of a non-empty race list with weights at least one. -/
theorem rawHistogram_spec (d : ℕ × α) (rest : List (ℕ × α)) (hw : ∀ r ∈ d :: rest, 1 ≤ r.1) :
    (rest.foldl (fun histogram r => Convolve histogram (MakeSlice r)) (MakeSlice d)).length
      = totalWeight (d :: rest) + 1
    ∧ ∀ t, (rest.foldl (fun histogram r => Convolve histogram (MakeSlice r))
        (MakeSlice d)).getD t 0 = lossProb (d :: rest) (d :: rest).length t := by
  have h := foldl_Convolve_spec d rest hw rest.length le_rfl
  rw [List.take_length] at h
  exact h

/-- The loss probabilities over all totals add up to one. -/
theorem sum_lossProb (races : List (ℕ × α)) :
    ∑ t ∈ range (totalWeight races + 1), lossProb races races.length t = 1 := by
  unfold lossProb
  rw [Finset.sum_comm]
  have key : ∀ S ∈ (range races.length).powerset,
      (∑ t ∈ range (totalWeight races + 1),
        if ∑ i ∈ S, raceWeight races i = t then
          (∏ i ∈ S, (1 - raceProb races i)) * ∏ i ∈ range races.length \ S, raceProb races i
        else 0)
      = (∏ i ∈ S, (1 - raceProb races i)) * ∏ i ∈ range races.length \ S, raceProb races i := by
    intro S hS
    have hle : ∑ i ∈ S, raceWeight races i ≤ totalWeight races :=
      subset_weight_le races races.length S (Finset.mem_powerset.mp hS)
    rw [Finset.sum_ite_eq]
    rw [if_pos (Finset.mem_range.mpr (Nat.lt_succ_of_le hle))]
  rw [Finset.sum_congr rfl key, ← Finset.prod_add]
  simp

theorem foldl_range_add (f : ℕ → α) (n : ℕ) :
    (List.range n).foldl (fun acc i => acc + f i) 0 = ∑ i ∈ range n, f i := by
  induction n with
  | zero => simp
  | succ n ih => rw [List.range_succ, List.foldl_append, ih, Finset.sum_range_succ]; simp

theorem WeightedAverage_eq_sum (weights : List α) :
    WeightedAverage weights = ∑ i ∈ range weights.length, (i : α) * weights.getD i 0 := by
  unfold WeightedAverage
  exact foldl_range_add _ _

/-- Entries of the histogram of a non-empty race list with weights at least one. -/
theorem Compute_getD (races : List (ℕ × α)) (hne : races ≠ []) (hw : ∀ r ∈ races, 1 ≤ r.1) :
    (Compute races).length = totalWeight races + 1
    ∧ ∀ s, s ≤ totalWeight races → (Compute races).getD s 0 = exactScoreProb races s := by
  cases races with
  | nil => exact absurd rfl hne
  | cons d rest =>
    obtain ⟨hl, hg⟩ := rawHistogram_spec d rest hw
    refine ⟨by simp [Compute, hl], fun s hs => ?_⟩
    have hlt : s < (rest.foldl (fun histogram r => Convolve histogram (MakeSlice r))
        (MakeSlice d)).length := by omega
    simp only [Compute]
    rw [List.getD_eq_getElem?_getD, List.getElem?_reverse hlt, hl,
      ← lossProb_complement _ s hs, ← hg, List.getD_eq_getElem?_getD]
    congr 2

theorem sum_range_getD_map {β : Type} (l : List β) (d : β) (f : β → α) :
    ∑ i ∈ range l.length, f (l.getD i d) = (l.map f).sum := by
  induction l with
  | nil => simp
  | cons a l ih =>
    rw [List.length_cons, Finset.sum_range_succ', List.map_cons, List.sum_cons, ← ih]
    simp [add_comm]

/-- The win/lose patterns carry total probability one. -/
theorem sum_powerset_prob (p : ℕ → α) (n : ℕ) :
    ∑ S ∈ (range n).powerset, (∏ i ∈ S, p i) * ∏ i ∈ range n \ S, (1 - p i) = 1 := by
  rw [← Finset.prod_add]
  simp

/-- Expected total of independent races: summing the weight of the won races over all
win/lose patterns gives `sum_i w_i * p_i`. -/
theorem expected_powerset (w : ℕ → ℕ) (p : ℕ → α) (n : ℕ) :
    ∑ S ∈ (range n).powerset,
        ((∑ i ∈ S, w i : ℕ) : α) * ((∏ i ∈ S, p i) * ∏ i ∈ range n \ S, (1 - p i))
      = ∑ i ∈ range n, (w i : α) * p i := by
  induction n with
  | zero => simp
  | succ n ih =>
    have key : ∀ S ∈ (range n).powerset,
        ((∑ i ∈ S, w i : ℕ) : α)
            * ((∏ i ∈ S, p i) * ∏ i ∈ insert n (range n) \ S, (1 - p i))
          + ((∑ i ∈ insert n S, w i : ℕ) : α)
            * ((∏ i ∈ insert n S, p i) * ∏ i ∈ insert n (range n) \ insert n S, (1 - p i))
        = ((∑ i ∈ S, w i : ℕ) : α) * ((∏ i ∈ S, p i) * ∏ i ∈ range n \ S, (1 - p i))
          + (w n : α) * p n * ((∏ i ∈ S, p i) * ∏ i ∈ range n \ S, (1 - p i)) := by
      intro S hS
      have hn : n ∉ S := fun h => Finset.not_mem_range_self (Finset.mem_powerset.mp hS h)
      rw [Finset.insert_sdiff_of_not_mem _ hn,
        Finset.prod_insert (fun h => Finset.not_mem_range_self (Finset.mem_sdiff.mp h).1),
        Finset.sum_insert hn, Finset.prod_insert hn, Finset.insert_sdiff_insert,
        Finset.sdiff_insert_of_not_mem Finset.not_mem_range_self]
      push_cast
      ring
    rw [Finset.range_succ, Finset.sum_powerset_insert Finset.not_mem_range_self,
      ← Finset.sum_add_distrib, Finset.sum_congr rfl key, Finset.sum_add_distrib, ih,
      ← Finset.mul_sum, sum_powerset_prob, mul_one,
      Finset.sum_insert Finset.not_mem_range_self, add_comm]

/-- The weighted average of the histogram is the expected Democratic total. -/
theorem WeightedAverage_Compute (races : List (ℕ × α)) (hne : races ≠ [])
    (hw : ∀ r ∈ races, 1 ≤ r.1) :
    WeightedAverage (Compute races) = (races.map fun r => (r.1 : α) * r.2).sum := by
  obtain ⟨hl, hg⟩ := Compute_getD races hne hw
  have h1 : WeightedAverage (Compute races)
      = ∑ s ∈ range (totalWeight races + 1), (s : α) * exactScoreProb races s := by
    unfold WeightedAverage
    rw [foldl_range_add, hl]
    refine Finset.sum_congr rfl fun s hs => ?_
    rw [hg s (by have := Finset.mem_range.mp hs; omega)]
  rw [h1]
  unfold exactScoreProb
  simp only [Finset.mul_sum]
  rw [Finset.sum_comm]
  have key : ∀ S ∈ (range races.length).powerset,
      (∑ s ∈ range (totalWeight races + 1),
        (s : α) * (if ∑ i ∈ S, raceWeight races i = s then
          (∏ i ∈ S, raceProb races i) * ∏ i ∈ range races.length \ S, (1 - raceProb races i)
        else 0))
      = ((∑ i ∈ S, raceWeight races i : ℕ) : α)
          * ((∏ i ∈ S, raceProb races i)
            * ∏ i ∈ range races.length \ S, (1 - raceProb races i)) := by
    intro S hS
    have hle : ∑ i ∈ S, raceWeight races i ≤ totalWeight races :=
      subset_weight_le races races.length S (Finset.mem_powerset.mp hS)
    simp only [mul_ite, mul_zero]
    rw [Finset.sum_ite_eq, if_pos (Finset.mem_range.mpr (Nat.lt_succ_of_le hle))]
  rw [Finset.sum_congr rfl key, expected_powerset]
  exact sum_range_getD_map races (0, 0) fun r => (r.1 : α) * r.2

end HistogramFinal

/-! ## Lemmas on dates -/

section DateLemmas

theorem Date.le_iff (a b : Date) :
    Date.le a b = true ↔
      a.year < b.year ∨ (a.year = b.year ∧
        (a.month < b.month ∨ (a.month = b.month ∧ a.day ≤ b.day))) := by
  unfold Date.le
  split_ifs <;> simp <;> omega

theorem Date.lt_iff (a b : Date) :
    Date.lt a b = true ↔
      a.year < b.year ∨ (a.year = b.year ∧
        (a.month < b.month ∨ (a.month = b.month ∧ a.day < b.day))) := by
  unfold Date.lt
  split_ifs <;> simp <;> omega

theorem Date.eq_iff (a b : Date) : Date.eq a b = true ↔ a = b := by
  cases a; cases b
  simp [Date.eq, and_assoc]

theorem Date.le_trans {a b c : Date} (h1 : Date.le a b = true) (h2 : Date.le b c = true) :
    Date.le a c = true := by
  rw [Date.le_iff] at *
  omega

theorem Date.le_total (a b : Date) : Date.le a b = true ∨ Date.le b a = true := by
  simp only [Date.le_iff]
  omega

theorem Date.le_refl (a : Date) : Date.le a a = true := by
  rw [Date.le_iff]; omega

theorem Date.lt_eq_not_le (a b : Date) : Date.lt a b = !Date.le b a := by
  rw [Bool.eq_not_iff]
  intro h
  cases hl : Date.lt a b
  · rw [hl] at h
    have h' : Date.le b a = false := h.symm
    have h1 : ¬ Date.lt a b = true := by simp [hl]
    have h2 : ¬ Date.le b a = true := by simp [h']
    rw [Date.lt_iff] at h1
    rw [Date.le_iff] at h2
    omega
  · rw [hl] at h
    have h' : Date.le b a = true := h.symm
    rw [Date.lt_iff] at hl
    rw [Date.le_iff] at h'
    omega

theorem Date.le_antisymm {a b : Date} (h1 : Date.le a b = true) (h2 : Date.le b a = true) :
    a = b := by
  rw [Date.le_iff] at h1 h2
  cases a; cases b
  simp only [Date.mk.injEq] at *
  omega

end DateLemmas

/-! ## Lemmas on the staging map and the window loop -/

section SelectionLemmas

variable {α : Type} [LinearOrderedField α]

theorem mem_SortPolls (polls : List (Poll α)) (q : Poll α) : q ∈ SortPolls polls ↔ q ∈ polls :=
  (List.perm_insertionSort _ polls).mem_iff

theorem mem_weightPolls (m : PollsterMap α) (q : Poll α) :
    q ∈ weightPolls m ↔ ∃ pair ∈ m, ∃ p ∈ pair.2,
      q = { p with weight := 1 / ((pair.2.length * m.length : ℕ) : α) } := by
  simp only [weightPolls, weightBatch, List.mem_flatMap, List.mem_map]
  constructor
  · rintro ⟨pair, hp, p, hpm, rfl⟩; exact ⟨pair, hp, p, hpm, rfl⟩
  · rintro ⟨pair, hp, p, hpm, rfl⟩; exact ⟨pair, hp, p, hpm, rfl⟩

theorem mem_AddPollToBatch (poll x : Poll α) (b : List (Poll α)) :
    x ∈ AddPollToBatch poll b → x = poll ∨ x ∈ b := by
  induction b with
  | nil => simp [AddPollToBatch]
  | cons iter rest ih =>
    simp only [AddPollToBatch]
    split_ifs
    · exact fun h => Or.inr h
    · intro h
      rcases ih h with h | h
      · exact Or.inl h
      · exact Or.inr (List.mem_cons_of_mem _ h)
    · intro h
      rcases List.mem_cons.mp h with h | h
      · exact Or.inl h
      · exact Or.inr (List.mem_cons_of_mem _ h)
    · exact fun h => Or.inr h
    · intro h
      rcases List.mem_cons.mp h with h | h
      · exact Or.inr (h ▸ List.mem_cons_self _ _)
      · rcases ih h with h | h
        · exact Or.inl h
        · exact Or.inr (List.mem_cons_of_mem _ h)
    · intro h
      rcases List.mem_cons.mp h with h | h
      · exact Or.inr (h ▸ List.mem_cons_self _ _)
      · rcases ih h with h | h
        · exact Or.inl h
        · exact Or.inr (List.mem_cons_of_mem _ h)

theorem mem_batch (m : PollsterMap α) (key : String) (x : Poll α) :
    x ∈ PollsterMap.batch m key → ∃ pair ∈ m, pair.1 = key ∧ x ∈ pair.2 := by
  induction m with
  | nil => simp [PollsterMap.batch]
  | cons e rest ih =>
    obtain ⟨k, b⟩ := e
    simp only [PollsterMap.batch]
    split_ifs with hk
    · intro h; exact ⟨(k, b), List.mem_cons_self _ _, hk, h⟩
    · intro h
      obtain ⟨pair, hp, hx⟩ := ih h
      exact ⟨pair, List.mem_cons_of_mem _ hp, hx⟩

theorem mem_store (m : PollsterMap α) (key : String) (batch : List (Poll α))
    (pair : String × List (Poll α)) :
    pair ∈ PollsterMap.store m key batch → pair = (key, batch) ∨ pair ∈ m := by
  induction m with
  | nil => simp [PollsterMap.store]
  | cons e rest ih =>
    obtain ⟨k, b⟩ := e
    simp only [PollsterMap.store]
    split_ifs
    · intro h
      rcases List.mem_cons.mp h with h | h
      · exact Or.inl h
      · exact Or.inr (List.mem_cons_of_mem _ h)
    · intro h
      rcases List.mem_cons.mp h with h | h
      · exact Or.inl h
      · exact Or.inr h
    · intro h
      rcases List.mem_cons.mp h with h | h
      · exact Or.inr (h ▸ List.mem_cons_self _ _)
      · rcases ih h with h | h
        · exact Or.inl h
        · exact Or.inr (List.mem_cons_of_mem _ h)

/-- A poll held by the map after `AddPollToMap` is the added poll or was held before. -/
theorem mem_AddPollToMap (m : PollsterMap α) (poll x : Poll α)
    (pair : String × List (Poll α)) (hp : pair ∈ AddPollToMap m poll) (hx : x ∈ pair.2) :
    x = poll ∨ ∃ pair' ∈ m, x ∈ pair'.2 := by
  rcases mem_store _ _ _ _ hp with h | h
  · subst h
    rcases mem_AddPollToBatch _ _ _ hx with h | h
    · exact Or.inl h
    · obtain ⟨pair', hp', _, hx'⟩ := mem_batch _ _ _ h
      exact Or.inr ⟨pair', hp', hx'⟩
  · exact Or.inr ⟨pair, h, hx⟩

theorem windowLoop_offered_subset (cc : Campaign α) (date cutoff : Date) (l : List (Poll α))
    (st : WindowState α) (x : Poll α) (hx : x ∈ st.offered) :
    x ∈ (windowLoop cc date cutoff l st).offered := by
  induction l generalizing st with
  | nil => simpa [windowLoop] using hx
  | cons poll rest ih =>
    simp only [windowLoop]
    split_ifs
    · exact ih st hx
    · exact hx
    · exact ih st hx
    · exact ih _ (by simp [WindowState.accept, hx])

/-- Every poll handed to `AddPollToMap` by the window loop comes from the list, starts
no earlier than the cutoff and was not published after the reference date. -/
theorem windowLoop_offered (cc : Campaign α) (date cutoff : Date) (l : List (Poll α))
    (st : WindowState α) (x : Poll α) (hx : x ∈ (windowLoop cc date cutoff l st).offered) :
    x ∈ st.offered ∨
      (x ∈ l ∧ Date.lt x.start cutoff = false
        ∧ (x.published.any fun pub => Date.gt pub date) = false) := by
  induction l generalizing st with
  | nil => exact Or.inl (by simpa [windowLoop] using hx)
  | cons poll rest ih =>
    simp only [windowLoop] at hx
    split_ifs at hx with h1 h2 h3
    · rcases ih st hx with h | ⟨h, h'⟩
      · exact Or.inl h
      · exact Or.inr ⟨List.mem_cons_of_mem _ h, h'⟩
    · exact Or.inl hx
    · rcases ih st hx with h | ⟨h, h'⟩
      · exact Or.inl h
      · exact Or.inr ⟨List.mem_cons_of_mem _ h, h'⟩
    · rcases ih _ hx with h | ⟨h, h'⟩
      · simp only [WindowState.accept, List.mem_append, List.mem_singleton] at h
        rcases h with h | h
        · exact Or.inl h
        · subst h
          exact Or.inr ⟨List.mem_cons_self _ _, by simpa using h1, by simpa using h3⟩
      · exact Or.inr ⟨List.mem_cons_of_mem _ h, h'⟩

/-- Every poll in the staging map was handed to `AddPollToMap`. -/
theorem windowLoop_staging_offered (cc : Campaign α) (date cutoff : Date) (l : List (Poll α))
    (st : WindowState α) (hst : ∀ pair ∈ st.staging, ∀ x ∈ pair.2, x ∈ st.offered) :
    ∀ pair ∈ (windowLoop cc date cutoff l st).staging, ∀ x ∈ pair.2,
      x ∈ (windowLoop cc date cutoff l st).offered := by
  induction l generalizing st with
  | nil => simpa [windowLoop] using hst
  | cons poll rest ih =>
    simp only [windowLoop]
    split_ifs
    · exact ih st hst
    · exact hst
    · exact ih st hst
    · refine ih _ ?_
      intro pair hp x hx
      simp only [WindowState.accept] at hp ⊢
      rcases mem_AddPollToMap _ _ _ _ hp hx with h | ⟨pair', hp', hx'⟩
      · simp [h]
      · exact List.mem_append_left _ (hst pair' hp' x hx')

theorem dropWhile_end_le (date : Date) (polls : List (Poll α))
    (hsorted : polls.Pairwise fun a b => Date.le b.end_ a.end_ = true) :
    ∀ x ∈ polls.dropWhile (fun poll => !Date.le poll.end_ date), Date.le x.end_ date = true := by
  induction polls with
  | nil => simp
  | cons poll rest ih =>
    rw [List.pairwise_cons] at hsorted
    intro x hx
    rw [List.dropWhile_cons] at hx
    split_ifs at hx with h
    · exact ih hsorted.2 x hx
    · have hp : Date.le poll.end_ date = true := by simpa using h
      rcases List.mem_cons.mp hx with h | h
      · rw [h]; exact hp
      · exact Date.le_trans (hsorted.1 x h) hp

/-- Emitted polls are staged polls with the weight field rewritten. -/
theorem mem_FindRecentPolls (cc : Campaign α) (date : Date) (polls : List (Poll α))
    (q : Poll α) (hq : q ∈ FindRecentPolls cc date polls) :
    ∃ p ∈ (FindRecentPolls.finalState cc date polls).offered, ∃ w : α,
      q = { p with weight := w } := by
  rw [FindRecentPolls, mem_SortPolls, mem_weightPolls] at hq
  obtain ⟨pair, hp, p, hpm, rfl⟩ := hq
  refine ⟨p, ?_, _, rfl⟩
  exact windowLoop_staging_offered cc date _ _ _ (by simp) pair hp p hpm

/-! ### Which polls reach the staging map -/

theorem find?_congr_mem {β : Type} (l : List β) (f g : β → Bool) (h : ∀ y ∈ l, f y = g y) :
    l.find? f = l.find? g := by
  induction l with
  | nil => rfl
  | cons x rest ih =>
    simp only [List.find?_cons, h x (List.mem_cons_self _ _)]
    rw [ih fun y hy => h y (List.mem_cons_of_mem _ hy)]

theorem mem_dropWhile_of_false {β : Type} (l : List β) (f : β → Bool) (x : β) (hx : x ∈ l)
    (hf : f x = false) : x ∈ l.dropWhile f := by
  induction l with
  | nil => simp at hx
  | cons y rest ih =>
    rw [List.dropWhile_cons]
    split_ifs with h
    · rcases List.mem_cons.mp hx with hxy | hxy
      · rw [hxy, h] at hf; exact absurd hf (by simp)
      · exact ih hxy
    · exact hx

/-- On a list ordered by end date descending, the most recent poll that passes the
date filters is the first poll, after the skipped prefix, that the window loop does not
skip. -/
theorem find?_passesDateFilters (cc : Campaign α) (date : Date) (polls : List (Poll α))
    (hsorted : polls.Pairwise fun a b => Date.le b.end_ a.end_ = true) :
    polls.find? (passesDateFilters cc date)
      = (polls.dropWhile fun poll => !Date.le poll.end_ date).find?
          (passesLoopFilters date (Date.sub cc.StartDate 60)) := by
  induction polls with
  | nil => rfl
  | cons x rest ih =>
    have hs := hsorted
    rw [List.pairwise_cons] at hs
    rw [List.dropWhile_cons]
    split_ifs with h
    · have hx : passesDateFilters cc date x = false := by
        have : Date.le x.end_ date = false := by simpa using h
        simp [passesDateFilters, this]
      rw [List.find?_cons, hx]
      exact ih hs.2
    · have hx : Date.le x.end_ date = true := by simpa using h
      refine find?_congr_mem _ _ _ fun y hy => ?_
      have hy' : Date.le y.end_ date = true := by
        rcases List.mem_cons.mp hy with e | e
        · rw [e]; exact hx
        · exact Date.le_trans (hs.1 y e) hx
      simp only [passesDateFilters, passesLoopFilters, hy', Bool.true_and]
      exact Bool.and_comm _ _

/-- A poll that the window loop does not skip and that ends after `earliest` is handed
to `AddPollToMap`, however many pollsters are staged. -/
theorem windowLoop_offers (cc : Campaign α) (date cutoff : Date) (l : List (Poll α))
    (hsorted : l.Pairwise fun a b => Date.le b.end_ a.end_ = true)
    (st : WindowState α) (earliest : Date)
    (he : st.earliest = some earliest
      ∨ (st.earliest = none
        ∧ (l.find? (passesLoopFilters date cutoff)).map
            (fun recent => Date.sub recent.end_ (GetPollWindow cc.EndDate recent.end_))
          = some earliest))
    (p : Poll α) (hp : p ∈ l) (hpass : passesLoopFilters date cutoff p = true)
    (hlt : Date.lt earliest p.end_ = true) :
    p ∈ (windowLoop cc date cutoff l st).offered := by
  induction l generalizing st with
  | nil => simp at hp
  | cons x rest ih =>
    rw [List.pairwise_cons] at hsorted
    have hpx : Date.le p.end_ x.end_ = true := by
      rcases List.mem_cons.mp hp with e | e
      · rw [e]; exact Date.le_refl _
      · exact hsorted.1 p e
    have hskip : passesLoopFilters date cutoff x = false → p ∈ rest
        ∧ (st.earliest = some earliest
          ∨ (st.earliest = none
            ∧ (rest.find? (passesLoopFilters date cutoff)).map
                (fun recent => Date.sub recent.end_ (GetPollWindow cc.EndDate recent.end_))
              = some earliest)) := by
      intro hx
      constructor
      · rcases List.mem_cons.mp hp with e | e
        · rw [e, hx] at hpass; exact absurd hpass (by simp)
        · exact e
      · rcases he with h | ⟨h, h'⟩
        · exact Or.inl h
        · rw [List.find?_cons, hx] at h'
          exact Or.inr ⟨h, h'⟩
    simp only [windowLoop]
    split_ifs with h1 h2 h3
    · obtain ⟨hmem, he'⟩ := hskip (by simp [passesLoopFilters, h1])
      exact ih hsorted.2 st he' hmem
    · exfalso
      simp only [Bool.and_eq_true] at h2
      rcases he with h | ⟨h, _⟩
      · rw [h] at h2
        simp only [Option.any_some] at h2
        have h4 : Date.le p.end_ earliest = true := Date.le_trans hpx h2.1
        rw [Date.lt_eq_not_le, h4] at hlt
        exact absurd hlt (by simp)
      · rw [h] at h2
        simp at h2
    · obtain ⟨hmem, he'⟩ := hskip (by simp [passesLoopFilters, h3])
      exact ih hsorted.2 st he' hmem
    · have hx : passesLoopFilters date cutoff x = true := by
        simp only [passesLoopFilters, Bool.and_eq_true, Bool.not_eq_true']
        exact ⟨by simpa using h1, by simpa using h3⟩
      have he' : (st.accept cc x).earliest = some earliest := by
        rcases he with h | ⟨h, h'⟩
        · simp [WindowState.accept, h]
        · rw [List.find?_cons, hx] at h'
          simp only [Option.map_some'] at h'
          simp only [WindowState.accept, h]
          exact h'
      rcases List.mem_cons.mp hp with e | e
      · exact windowLoop_offered_subset cc date cutoff rest _ p
          (by simp [WindowState.accept, e])
      · exact ih hsorted.2 _ (Or.inl he') e

/-! ### Well-formedness of the staging map -/

theorem AddPollToBatch_ne_nil (poll : Poll α) (b : List (Poll α)) :
    AddPollToBatch poll b ≠ [] := by
  induction b with
  | nil => simp [AddPollToBatch]
  | cons iter rest ih =>
    simp only [AddPollToBatch]
    split_ifs <;> simp [ih]

theorem store_keys (m : PollsterMap α) (key : String) (batch : List (Poll α)) (k : String)
    (hk : k ∈ (PollsterMap.store m key batch).map Prod.fst) :
    k = key ∨ k ∈ m.map Prod.fst := by
  obtain ⟨pair, hp, rfl⟩ := List.mem_map.mp hk
  rcases mem_store _ _ _ _ hp with h | h
  · exact Or.inl (by rw [h])
  · exact Or.inr (List.mem_map.mpr ⟨pair, h, rfl⟩)

theorem store_sorted (m : PollsterMap α) (key : String) (batch : List (Poll α))
    (hm : (m.map Prod.fst).Pairwise (· < ·)) :
    ((PollsterMap.store m key batch).map Prod.fst).Pairwise (· < ·) := by
  induction m with
  | nil => simp [PollsterMap.store]
  | cons e rest ih =>
    obtain ⟨k, b⟩ := e
    simp only [List.map_cons, List.pairwise_cons] at hm
    simp only [PollsterMap.store]
    split_ifs with h1 h2
    · subst h1
      simpa [List.pairwise_cons] using hm
    · simp only [List.map_cons, List.pairwise_cons, List.mem_cons]
      refine ⟨?_, hm⟩
      rintro a (rfl | ha)
      · exact h2
      · exact lt_trans h2 (hm.1 a ha)
    · simp only [List.map_cons, List.pairwise_cons]
      refine ⟨?_, ih hm.2⟩
      intro a ha
      rcases store_keys _ _ _ _ ha with h | h
      · rw [h]
        rcases lt_trichotomy k key with h3 | h3 | h3
        · exact h3
        · exact absurd h3 h1
        · exact absurd h3 h2
      · exact hm.1 a h

theorem store_WF (m : PollsterMap α) (key : String) (batch : List (Poll α))
    (hm : PollsterMap.WF m) (hne : batch ≠ []) (hd : ∀ x ∈ batch, x.description = key) :
    PollsterMap.WF (PollsterMap.store m key batch) := by
  refine ⟨store_sorted m key batch hm.1, ?_⟩
  intro pair hp
  rcases mem_store _ _ _ _ hp with h | h
  · subst h; exact ⟨hne, hd⟩
  · exact hm.2 pair h

theorem AddPollToMap_WF (m : PollsterMap α) (poll : Poll α) (hm : PollsterMap.WF m) :
    PollsterMap.WF (AddPollToMap m poll) := by
  refine store_WF _ _ _ hm (AddPollToBatch_ne_nil _ _) ?_
  intro x hx
  rcases mem_AddPollToBatch _ _ _ hx with h | h
  · rw [h]
  · obtain ⟨pair, hp, hk, hxp⟩ := mem_batch _ _ _ h
    rw [← hk]
    exact (hm.2 pair hp).2 x hxp

theorem windowLoop_WF (cc : Campaign α) (date cutoff : Date) (l : List (Poll α))
    (st : WindowState α) (hst : PollsterMap.WF st.staging) :
    PollsterMap.WF (windowLoop cc date cutoff l st).staging := by
  induction l generalizing st with
  | nil => simpa [windowLoop] using hst
  | cons poll rest ih =>
    simp only [windowLoop]
    split_ifs
    · exact ih st hst
    · exact hst
    · exact ih st hst
    · exact ih _ (AddPollToMap_WF _ _ hst)

theorem finalState_WF (cc : Campaign α) (date : Date) (polls : List (Poll α)) :
    PollsterMap.WF (FindRecentPolls.finalState cc date polls).staging :=
  windowLoop_WF cc date _ _ _ ⟨by simp, by simp⟩

theorem batch_eq_nil_of_not_mem (m : PollsterMap α) (key : String)
    (h : key ∉ m.map Prod.fst) : PollsterMap.batch m key = [] := by
  induction m with
  | nil => rfl
  | cons e rest ih =>
    obtain ⟨k, b⟩ := e
    simp only [List.map_cons, List.mem_cons, not_or] at h
    simp only [PollsterMap.batch]
    rw [if_neg (fun hk => h.1 hk.symm)]
    exact ih h.2

theorem batch_of_mem (m : PollsterMap α) (hm : (m.map Prod.fst).Pairwise (· < ·))
    (pair : String × List (Poll α)) (hp : pair ∈ m) : PollsterMap.batch m pair.1 = pair.2 := by
  induction m with
  | nil => simp at hp
  | cons e rest ih =>
    obtain ⟨k, b⟩ := e
    simp only [List.map_cons, List.pairwise_cons] at hm
    simp only [PollsterMap.batch]
    rcases List.mem_cons.mp hp with h | h
    · subst h; simp
    · have hlt : k < pair.1 := hm.1 _ (List.mem_map.mpr ⟨pair, h, rfl⟩)
      rw [if_neg (ne_of_lt hlt)]
      exact ih hm.2 h

/-! ### Tracking polls -/

theorem Date.lt_irrefl (a : Date) : Date.lt a a = false := by
  rw [Date.lt_eq_not_le, Date.le_refl]; rfl

theorem Date.eq_refl (a : Date) : Date.eq a a = true := (Date.eq_iff a a).mpr rfl

theorem batch_store_same (m : PollsterMap α) (key : String) (b : List (Poll α)) :
    PollsterMap.batch (PollsterMap.store m key b) key = b := by
  induction m with
  | nil => simp [PollsterMap.store, PollsterMap.batch]
  | cons e rest ih =>
    obtain ⟨k, b'⟩ := e
    simp only [PollsterMap.store]
    split_ifs with h1 h2
    · simp [PollsterMap.batch]
    · simp [PollsterMap.batch]
    · simp only [PollsterMap.batch, if_neg h1]; exact ih

theorem batch_store_other (m : PollsterMap α) (key k' : String) (b : List (Poll α))
    (hk : key ≠ k') :
    PollsterMap.batch (PollsterMap.store m key b) k' = PollsterMap.batch m k' := by
  induction m with
  | nil => simp [PollsterMap.store, PollsterMap.batch, hk]
  | cons e rest ih =>
    obtain ⟨k, b'⟩ := e
    simp only [PollsterMap.store]
    split_ifs with h1 h2
    · subst h1; simp [PollsterMap.batch, hk]
    · simp [PollsterMap.batch, hk]
    · simp only [PollsterMap.batch]
      split_ifs
      · rfl
      · exact ih

theorem batch_foldl_other (others : List (Poll α)) (m : PollsterMap α) (key : String)
    (ho : ∀ o ∈ others, o.description ≠ key) :
    PollsterMap.batch (others.foldl AddPollToMap m) key = PollsterMap.batch m key := by
  induction others generalizing m with
  | nil => rfl
  | cons o rest ih =>
    rw [List.foldl_cons, ih _ fun x hx => ho x (List.mem_cons_of_mem _ hx)]
    exact batch_store_other _ _ _ _ (ho o (List.mem_cons_self _ _))

theorem mem_of_batch_ne_nil (m : PollsterMap α) (key : String)
    (h : PollsterMap.batch m key ≠ []) : (key, PollsterMap.batch m key) ∈ m := by
  induction m with
  | nil => simp [PollsterMap.batch] at h
  | cons e rest ih =>
    obtain ⟨k, b⟩ := e
    simp only [PollsterMap.batch] at h ⊢
    split_ifs at h ⊢ with hk
    · subst hk; exact List.mem_cons_self _ _
    · exact List.mem_cons_of_mem _ (ih h)

theorem AddPollToMap_two (a b : Poll α) (hd : a.description = b.description) :
    AddPollToMap (AddPollToMap [] a) b = [(a.description, AddPollToBatch b [a])] := by
  simp [AddPollToMap, PollsterMap.store, PollsterMap.batch, AddPollToBatch, hd]

theorem AddPollToMap_two_swap (a b : Poll α) (hd : a.description = b.description) :
    AddPollToMap (AddPollToMap [] b) a = [(a.description, AddPollToBatch a [b])] := by
  simp [AddPollToMap, PollsterMap.store, PollsterMap.batch, AddPollToBatch, hd]

/-- The second of two polls with the same dates meets the first in the duplicate
test of `AddPollToMap`. -/
theorem AddPollToBatch_same_dates (a b : Poll α) (hs : a.start = b.start)
    (he : a.end_ = b.end_) :
    AddPollToBatch b [a]
      = if IsBetterPoll b a then [b] else if IsBetterPoll a b then [a] else [a, b] := by
  simp [AddPollToBatch, SamePollDate, hs, he, Date.gt, Date.lt_irrefl, Date.eq_refl]

end SelectionLemmas

/-! ### The emitted weights -/

section WeightLemmas

variable {α : Type} [LinearOrderedField α]

theorem weightBatch_description (size : ℕ) (b : List (Poll α)) (q : Poll α)
    (hq : q ∈ weightBatch size b) : ∃ p ∈ b, q.description = p.description := by
  simp only [weightBatch, List.mem_map] at hq
  obtain ⟨p, hp, rfl⟩ := hq
  exact ⟨p, hp, rfl⟩

theorem countP_weightBatch (size : ℕ) (b : List (Poll α)) (key k : String)
    (hb : ∀ x ∈ b, x.description = key) :
    (weightBatch size b).countP (fun r => decide (r.description = k))
      = if key = k then b.length else 0 := by
  split_ifs with h
  · have : ∀ r ∈ weightBatch size b, (fun r : Poll α => decide (r.description = k)) r = true := by
      intro r hr
      obtain ⟨p, hp, hd⟩ := weightBatch_description size b r hr
      simp [hd, hb p hp, h]
    rw [List.countP_eq_length.mpr this]
    simp [weightBatch]
  · rw [List.countP_eq_zero]
    intro r hr
    obtain ⟨p, hp, hd⟩ := weightBatch_description size b r hr
    simp [hd, hb p hp, h]

/-- In the emitted list, the polls carrying description `k` are as many as the batch
stored under `k`. -/
theorem countP_flatMap_weightBatch (size : ℕ) (m : PollsterMap α) (hm : PollsterMap.WF m)
    (k : String) :
    (m.flatMap fun pair => weightBatch size pair.2).countP
        (fun r => decide (r.description = k))
      = (PollsterMap.batch m k).length := by
  induction m with
  | nil => simp [PollsterMap.batch]
  | cons e rest ih =>
    obtain ⟨key, b⟩ := e
    have hrest : PollsterMap.WF rest := by
      refine ⟨?_, fun pair hp => hm.2 pair (List.mem_cons_of_mem _ hp)⟩
      have := hm.1
      simp only [List.map_cons, List.pairwise_cons] at this
      exact this.2
    have hsorted := hm.1
    simp only [List.map_cons, List.pairwise_cons] at hsorted
    rw [List.flatMap_cons, List.countP_append, ih hrest,
      countP_weightBatch size b key k (hm.2 (key, b) (List.mem_cons_self _ _)).2]
    simp only [PollsterMap.batch]
    split_ifs with h
    · subst h
      rw [batch_eq_nil_of_not_mem rest key (fun hmem => lt_irrefl _ (hsorted.1 _ hmem))]
      simp
    · simp

theorem descriptions_flatMap_weightBatch (size : ℕ) (m : PollsterMap α)
    (hm : PollsterMap.WF m) :
    ((m.flatMap fun pair => weightBatch size pair.2).map fun r => r.description).toFinset
      = (m.map Prod.fst).toFinset := by
  ext k
  simp only [List.mem_toFinset, List.mem_map, List.mem_flatMap]
  constructor
  · rintro ⟨q, ⟨pair, hp, hq⟩, rfl⟩
    obtain ⟨p, hpm, hd⟩ := weightBatch_description size pair.2 q hq
    exact ⟨pair, hp, by rw [hd, (hm.2 pair hp).2 p hpm]⟩
  · rintro ⟨pair, hp, rfl⟩
    obtain ⟨hne, hd⟩ := hm.2 pair hp
    obtain ⟨p, rest, hb⟩ := List.exists_cons_of_ne_nil hne
    have hpm : p ∈ pair.2 := by rw [hb]; exact List.mem_cons_self _ _
    refine ⟨{ p with weight := 1 / ((pair.2.length * size : ℕ) : α) }, ⟨pair, hp, ?_⟩, hd p hpm⟩
    simp only [weightBatch, List.mem_map]
    exact ⟨p, hpm, rfl⟩

theorem sum_weightBatch (size : ℕ) (b : List (Poll α)) (hsize : size ≠ 0) (hb : b ≠ []) :
    ((weightBatch size b).map fun r => r.weight).sum = 1 / (size : α) := by
  have hlen : (b.length : α) ≠ 0 := by
    simp only [ne_eq, Nat.cast_eq_zero, List.length_eq_zero]; exact hb
  have hs : (size : α) ≠ 0 := by simpa using hsize
  have : (weightBatch size b).map (fun r => r.weight)
      = List.replicate b.length (1 / ((b.length * size : ℕ) : α)) := by
    simp only [weightBatch, List.map_map]
    rw [List.eq_replicate_iff]
    simp
  rw [this, List.sum_replicate, nsmul_eq_mul]
  push_cast
  field_simp

theorem sum_flatMap_weightBatch (size : ℕ) (m : PollsterMap α) (hsize : size ≠ 0)
    (hm : ∀ pair ∈ m, pair.2 ≠ []) :
    ((m.flatMap fun pair => weightBatch size pair.2).map fun r => r.weight).sum
      = (m.length : α) * (1 / (size : α)) := by
  induction m with
  | nil => simp
  | cons e rest ih =>
    rw [List.flatMap_cons, List.map_append, List.sum_append,
      ih (fun pair hp => hm pair (List.mem_cons_of_mem _ hp)),
      sum_weightBatch size e.2 hsize (hm e (List.mem_cons_self _ _)), List.length_cons]
    push_cast
    ring

end WeightLemmas


/-! ## Claims on the convolver -/

section ConvolverClaims

variable {α : Type} [LinearOrderedField α]

/-- C1: for every non-empty list of races `(w_i, p_i)` with weights `w_i ≥ 1`, the
histogram built by `Convolver::Compute` has `Σ w_i + 1` entries, and at every index `s`
in `0..Σ w_i` it holds the sum, over all sets `S` of races whose weights add up to `s`,
of `∏_{i ∈ S} p_i * ∏_{i ∉ S} (1 - p_i)`: the probability that the Democratic total is
exactly `s` (exact arithmetic). -/
theorem Compute_eq_exactScoreProb (races : List (ℕ × α)) (hne : races ≠ [])
    (hw : ∀ r ∈ races, 1 ≤ r.1) :
    (Compute races).length = totalWeight races + 1
    ∧ ∀ s, s ≤ totalWeight races → (Compute races)[s]? = some (exactScoreProb races s) := by
  cases races with
  | nil => exact absurd rfl hne
  | cons d rest =>
    obtain ⟨hl, hg⟩ := rawHistogram_spec d rest hw
    refine ⟨by simp [Compute, hl], fun s hs => ?_⟩
    have hlt : s < (rest.foldl (fun histogram r => Convolve histogram (MakeSlice r))
        (MakeSlice d)).length := by omega
    simp only [Compute]
    rw [List.getElem?_reverse hlt, hl, ← lossProb_complement _ s hs, ← hg,
      List.getD_eq_getElem?_getD]
    have hlt2 : totalWeight (d :: rest) - s
        < (rest.foldl (fun histogram r => Convolve histogram (MakeSlice r))
          (MakeSlice d)).length := by omega
    have e : totalWeight (d :: rest) + 1 - 1 - s = totalWeight (d :: rest) - s := by omega
    rw [e, List.getElem?_eq_getElem hlt2]
    rfl

/-- Witness for C1: two races of weights 1 and 2. -/
theorem Compute_eq_exactScoreProb_witness :
    (Compute [((1 : ℕ), (1 / 2 : ℚ)), (2, 1 / 3)]).length
        = totalWeight [((1 : ℕ), (1 / 2 : ℚ)), (2, 1 / 3)] + 1
    ∧ ∀ s, s ≤ totalWeight [((1 : ℕ), (1 / 2 : ℚ)), (2, 1 / 3)] →
        (Compute [((1 : ℕ), (1 / 2 : ℚ)), (2, 1 / 3)])[s]?
          = some (exactScoreProb [((1 : ℕ), (1 / 2 : ℚ)), (2, 1 / 3)] s) :=
  Compute_eq_exactScoreProb [((1 : ℕ), (1 / 2 : ℚ)), (2, 1 / 3)] (by simp) (by decide)

/-- C2 fails as stated: a single race of weight zero and probability one half gives
the one-entry histogram `[1/2]` (the write of `1 - p` to the back of the slice
overwrites the write of `p` to its front), whose entries sum to one half. -/
theorem Compute_zero_weight_sum_ne_one :
    ([((0 : ℕ), (1 / 2 : ℚ))] ≠ []
      ∧ ∀ r ∈ [((0 : ℕ), (1 / 2 : ℚ))], 0 ≤ r.1 ∧ 0 ≤ r.2 ∧ r.2 ≤ 1)
    ∧ (Compute [((0 : ℕ), (1 / 2 : ℚ))]).sum ≠ 1 := by
  refine ⟨⟨by simp, ?_⟩, ?_⟩
  · intro r hr
    simp only [List.mem_singleton] at hr
    subst hr
    norm_num
  · decide!

/-- C2, amended: for every non-empty list of races whose weights are all at least one
(whatever the probabilities), the entries of the histogram built by
`Convolver::Compute` sum to exactly one. -/
theorem Compute_sum_eq_one (races : List (ℕ × α)) (hne : races ≠ [])
    (hw : ∀ r ∈ races, 1 ≤ r.1) :
    (Compute races).sum = 1 := by
  cases races with
  | nil => exact absurd rfl hne
  | cons d rest =>
    obtain ⟨hl, hg⟩ := rawHistogram_spec d rest hw
    simp only [Compute, List.sum_reverse]
    rw [sum_eq_sum_range_getD, hl, Finset.sum_congr rfl fun t _ => hg t]
    exact sum_lossProb (d :: rest)

/-- Witness for the amended C2. -/
theorem Compute_sum_eq_one_witness :
    (Compute [((1 : ℕ), (1 / 2 : ℚ)), (2, 1 / 3)]).sum = 1 :=
  Compute_sum_eq_one [((1 : ℕ), (1 / 2 : ℚ)), (2, 1 / 3)] (by simp) (by decide)

end ConvolverClaims

/-! ## Claims on poll selection -/

section SelectionClaims

variable {α : Type} [LinearOrderedField α]

/-- C4: for every reference date `D` and every poll list ordered by end date
descending, every poll emitted by `Analysis::FindRecentPolls` passes the three date
filters: its end date is `<= D`, its published date, when set, is not after `D`, and
its start date is not earlier than the campaign start minus 60 days. -/
theorem FindRecentPolls_date_filters (cc : Campaign α) (date : Date) (polls : List (Poll α))
    (hsorted : polls.Pairwise fun a b => Date.le b.end_ a.end_ = true) :
    ∀ q ∈ FindRecentPolls cc date polls,
      Date.le q.end_ date = true
      ∧ (∀ pub, q.published = some pub → Date.le pub date = true)
      ∧ Date.lt q.start (Date.sub cc.StartDate 60) = false := by
  intro q hq
  obtain ⟨p, hp, w, rfl⟩ := mem_FindRecentPolls cc date polls q hq
  rcases windowLoop_offered cc date _ _ _ p hp with h | ⟨hmem, hstart, hpub⟩
  · simp at h
  · refine ⟨dropWhile_end_le date polls hsorted p hmem, ?_, hstart⟩
    intro pub hpubeq
    simp only at hpubeq
    rw [hpubeq] at hpub
    simp only [Option.any_some, Date.gt, Date.lt_eq_not_le, Bool.not_eq_false'] at hpub
    exact hpub

/-- C3: whenever `Analysis::FindRecentPolls` emits at least one poll, each emitted
poll's weight equals `1 / (P * k_p)`, where `P` is the number of distinct pollster
descriptions among the emitted polls and `k_p` is the number of emitted polls carrying
the same description as that poll; and the emitted weights sum to one (exact
arithmetic). -/
theorem FindRecentPolls_weights (cc : Campaign α) (date : Date) (polls : List (Poll α))
    (hne : FindRecentPolls cc date polls ≠ []) :
    (∀ q ∈ FindRecentPolls cc date polls,
      q.weight = 1 /
        ((((FindRecentPolls cc date polls).map fun r => r.description).toFinset.card : α)
          * (((FindRecentPolls cc date polls).countP
              fun r => decide (r.description = q.description) : ℕ) : α)))
    ∧ ((FindRecentPolls cc date polls).map fun r => r.weight).sum = 1 := by
  have hWF := finalState_WF cc date polls
  have hperm : (FindRecentPolls cc date polls).Perm
      (weightPolls (FindRecentPolls.finalState cc date polls).staging) :=
    List.perm_insertionSort _ _
  generalize (FindRecentPolls.finalState cc date polls).staging = m at hWF hperm
  have hcard : (((FindRecentPolls cc date polls).map fun r => r.description).toFinset.card)
      = m.length := by
    rw [List.toFinset_eq_of_perm _ _ (hperm.map _)]
    unfold weightPolls
    rw [descriptions_flatMap_weightBatch m.length m hWF,
      List.toFinset_card_of_nodup (hWF.1.imp (fun h => ne_of_lt h)), List.length_map]
  have hm0 : m.length ≠ 0 := by
    intro h0
    have hm : m = [] := List.length_eq_zero.mp h0
    rw [hm] at hperm
    exact hne (List.Perm.eq_nil hperm)
  refine ⟨?_, ?_⟩
  · intro q hq
    have hq' := hperm.mem_iff.mp hq
    obtain ⟨pair, hp, p, hpm, rfl⟩ := (mem_weightPolls m q).mp hq'
    have hk : ((FindRecentPolls cc date polls).countP
        fun r => decide (r.description = p.description)) = pair.2.length := by
      rw [hperm.countP_eq]
      unfold weightPolls
      rw [countP_flatMap_weightBatch m.length m hWF, (hWF.2 pair hp).2 p hpm,
        batch_of_mem m hWF.1 pair hp]
    simp only
    rw [hcard, hk]
    push_cast
    rw [mul_comm]
  · rw [(hperm.map _).sum_eq]
    unfold weightPolls
    rw [sum_flatMap_weightBatch m.length m hm0 (fun pair hp => (hWF.2 pair hp).1)]
    have : (m.length : α) ≠ 0 := by simpa using hm0
    field_simp

/-- C5, amended: on a poll list ordered by end date descending, with `earliest` the end
date of the most recent poll that passes the date filters minus the poll window for
that end date, every poll that passes the date filters and ends strictly after
`earliest` is offered to the staging map by `FindRecentPolls`, no matter how many
distinct pollsters have already been staged. -/
theorem FindRecentPolls_offers_after_earliest (cc : Campaign α) (date : Date)
    (polls : List (Poll α))
    (hsorted : polls.Pairwise fun a b => Date.le b.end_ a.end_ = true)
    (earliest : Date) (he : windowEarliest cc date polls = some earliest)
    (p : Poll α) (hp : p ∈ polls) (hpass : passesDateFilters cc date p = true)
    (hlt : Date.lt earliest p.end_ = true) :
    p ∈ (FindRecentPolls.finalState cc date polls).offered := by
  simp only [passesDateFilters, Bool.and_eq_true] at hpass
  obtain ⟨⟨h1, h2⟩, h3⟩ := hpass
  unfold FindRecentPolls.finalState
  refine windowLoop_offers cc date _ _
    (hsorted.sublist (List.dropWhile_sublist _)) _ earliest (Or.inr ⟨rfl, ?_⟩) p
    (mem_dropWhile_of_false _ _ p hp (by simp [h1])) ?_ hlt
  · rw [← find?_passesDateFilters cc date polls hsorted]
    exact he
  · simp only [passesLoopFilters, Bool.and_eq_true]
    exact ⟨h3, h2⟩

/-- Witness for C3: the de-duplication scenario, three polls by A and two by B. -/
theorem FindRecentPolls_weights_witness :
    FindRecentPolls exampleCampaign ⟨2020, 10, 1⟩ dedupPolls ≠ []
    ∧ ((∀ q ∈ FindRecentPolls exampleCampaign ⟨2020, 10, 1⟩ dedupPolls,
        q.weight = 1 /
          ((((FindRecentPolls exampleCampaign ⟨2020, 10, 1⟩ dedupPolls).map
                fun r => r.description).toFinset.card : ℚ)
            * (((FindRecentPolls exampleCampaign ⟨2020, 10, 1⟩ dedupPolls).countP
                fun r => decide (r.description = q.description) : ℕ) : ℚ)))
      ∧ ((FindRecentPolls exampleCampaign ⟨2020, 10, 1⟩ dedupPolls).map
          fun r => r.weight).sum = 1) :=
  ⟨by decide!, FindRecentPolls_weights exampleCampaign ⟨2020, 10, 1⟩ dedupPolls (by decide!)⟩

/-- Witness for C4: the de-duplication scenario is ordered by end date descending. -/
theorem FindRecentPolls_date_filters_witness :
    (dedupPolls.Pairwise fun a b => Date.le b.end_ a.end_ = true)
    ∧ ∀ q ∈ FindRecentPolls exampleCampaign ⟨2020, 10, 1⟩ dedupPolls,
      Date.le q.end_ ⟨2020, 10, 1⟩ = true
      ∧ (∀ pub, q.published = some pub → Date.le pub ⟨2020, 10, 1⟩ = true)
      ∧ Date.lt q.start (Date.sub exampleCampaign.StartDate 60) = false :=
  ⟨by decide!, FindRecentPolls_date_filters exampleCampaign ⟨2020, 10, 1⟩ dedupPolls (by decide!)⟩

/-- C5 fails as stated: with four pollsters staged, a fifth poll that passes the date
filters and ends exactly on `earliest` (2020-09-11) is not offered to the staging map:
the loop stops at `poll.end() <= earliest` once `kMinPolls` pollsters are staged. -/
theorem FindRecentPolls_drops_poll_ending_on_earliest :
    ((fivePollsters ⟨2020, 9, 11⟩).Pairwise fun a b => Date.le b.end_ a.end_ = true)
    ∧ windowEarliest exampleCampaign ⟨2020, 10, 1⟩ (fivePollsters ⟨2020, 9, 11⟩)
        = some ⟨2020, 9, 11⟩
    ∧ examplePoll "E" ⟨2020, 9, 5⟩ ⟨2020, 9, 11⟩ "lv" 500 false ∈ fivePollsters ⟨2020, 9, 11⟩
    ∧ passesDateFilters exampleCampaign ⟨2020, 10, 1⟩
        (examplePoll "E" ⟨2020, 9, 5⟩ ⟨2020, 9, 11⟩ "lv" 500 false) = true
    ∧ Date.le ⟨2020, 9, 11⟩ (examplePoll "E" ⟨2020, 9, 5⟩ ⟨2020, 9, 11⟩ "lv" 500 false).end_ = true
    ∧ examplePoll "E" ⟨2020, 9, 5⟩ ⟨2020, 9, 11⟩ "lv" 500 false
        ∉ (FindRecentPolls.finalState exampleCampaign ⟨2020, 10, 1⟩
            (fivePollsters ⟨2020, 9, 11⟩)).offered := by
  decide!

/-- Witness for the amended C5: the fifth pollster ends one day after `earliest` and is
offered although four pollsters are staged. -/
theorem FindRecentPolls_offers_after_earliest_witness :
    ((fivePollsters ⟨2020, 9, 12⟩).Pairwise fun a b => Date.le b.end_ a.end_ = true)
    ∧ windowEarliest exampleCampaign ⟨2020, 10, 1⟩ (fivePollsters ⟨2020, 9, 12⟩)
        = some ⟨2020, 9, 11⟩
    ∧ examplePoll "E" ⟨2020, 9, 5⟩ ⟨2020, 9, 12⟩ "lv" 500 false ∈ fivePollsters ⟨2020, 9, 12⟩
    ∧ passesDateFilters exampleCampaign ⟨2020, 10, 1⟩
        (examplePoll "E" ⟨2020, 9, 5⟩ ⟨2020, 9, 12⟩ "lv" 500 false) = true
    ∧ Date.lt ⟨2020, 9, 11⟩ (examplePoll "E" ⟨2020, 9, 5⟩ ⟨2020, 9, 12⟩ "lv" 500 false).end_ = true
    ∧ examplePoll "E" ⟨2020, 9, 5⟩ ⟨2020, 9, 12⟩ "lv" 500 false
        ∈ (FindRecentPolls.finalState exampleCampaign ⟨2020, 10, 1⟩
            (fivePollsters ⟨2020, 9, 12⟩)).offered :=
  ⟨by decide!, by decide!, by decide!, by decide!, by decide!,
    FindRecentPolls_offers_after_earliest exampleCampaign ⟨2020, 10, 1⟩
      (fivePollsters ⟨2020, 9, 12⟩) (by decide!) ⟨2020, 9, 11⟩ (by decide!)
      (examplePoll "E" ⟨2020, 9, 5⟩ ⟨2020, 9, 12⟩ "lv" 500 false) (by decide!) (by decide!)
      (by decide!)⟩

/-- C6 fails as stated: two polls of one pollster with the same dates and the sample
types `v` and `x` differ in sample type, yet both are retained, because neither type
has a higher `SampleTypeScore`. -/
theorem AddPollToMap_keeps_both_unranked_types :
    (examplePoll "A" ⟨2020, 9, 20⟩ ⟨2020, 9, 25⟩ "v" 500 false).sample_type
      ≠ (examplePoll "A" ⟨2020, 9, 20⟩ ⟨2020, 9, 25⟩ "x" 900 false).sample_type
    ∧ AddPollToMap
        (AddPollToMap [] (examplePoll "A" ⟨2020, 9, 20⟩ ⟨2020, 9, 25⟩ "v" 500 false))
        (examplePoll "A" ⟨2020, 9, 20⟩ ⟨2020, 9, 25⟩ "x" 900 false)
      = [("A", [examplePoll "A" ⟨2020, 9, 20⟩ ⟨2020, 9, 25⟩ "v" 500 false,
                examplePoll "A" ⟨2020, 9, 20⟩ ⟨2020, 9, 25⟩ "x" 900 false])] := by
  decide!

/-- C6, amended: for two polls `a`, `b` of one pollster with identical start and end
dates, inserted into an empty staging map in either order: if the precedence of the
sample types differs (`lv > rv > a > any other type`), only the poll with the higher
precedence is retained; if the sample types are equal and the sample sizes differ, only
the poll with the larger sample is retained; if sample type and sample size are equal,
or the sample types differ but have the same precedence, both are retained, and when
polls of other pollsters are staged after them each of the two is emitted with weight
`1 / (2 P)`, `P` being the number of pollsters staged. -/
theorem AddPollToMap_same_dates (a b : Poll α) (hd : a.description = b.description)
    (hs : a.start = b.start) (he : a.end_ = b.end_) :
    (SampleTypeScore a.sample_type > SampleTypeScore b.sample_type →
      AddPollToMap (AddPollToMap [] a) b = [(a.description, [a])]
      ∧ AddPollToMap (AddPollToMap [] b) a = [(a.description, [a])])
    ∧ (a.sample_type = b.sample_type → a.sample_size > b.sample_size →
      AddPollToMap (AddPollToMap [] a) b = [(a.description, [a])]
      ∧ AddPollToMap (AddPollToMap [] b) a = [(a.description, [a])])
    ∧ ((a.sample_type = b.sample_type ∧ a.sample_size = b.sample_size)
        ∨ (a.sample_type ≠ b.sample_type
          ∧ SampleTypeScore a.sample_type = SampleTypeScore b.sample_type) →
      AddPollToMap (AddPollToMap [] a) b = [(a.description, [a, b])]
      ∧ AddPollToMap (AddPollToMap [] b) a = [(a.description, [b, a])]
      ∧ ∀ others : List (Poll α), (∀ o ∈ others, o.description ≠ a.description) →
          { a with weight := 1 / ((2 * (others.foldl AddPollToMap
              (AddPollToMap (AddPollToMap [] a) b)).length : ℕ) : α) }
            ∈ weightPolls (others.foldl AddPollToMap (AddPollToMap (AddPollToMap [] a) b))
          ∧ { b with weight := 1 / ((2 * (others.foldl AddPollToMap
              (AddPollToMap (AddPollToMap [] a) b)).length : ℕ) : α) }
            ∈ weightPolls (others.foldl AddPollToMap (AddPollToMap (AddPollToMap [] a) b))) := by
  have hab := AddPollToBatch_same_dates a b hs he
  have hba := AddPollToBatch_same_dates b a hs.symm he.symm
  rw [AddPollToMap_two a b hd, AddPollToMap_two_swap a b hd, hab, hba]
  refine ⟨?_, ?_, ?_⟩
  · intro hgt
    have hne : a.sample_type ≠ b.sample_type := by
      intro h; rw [h] at hgt; exact lt_irrefl _ hgt
    have h1 : IsBetterPoll a b = true := by simp [IsBetterPoll, hne, hgt]
    have h2 : IsBetterPoll b a = false := by
      simp [IsBetterPoll, Ne.symm hne, le_of_lt hgt]
    simp [h1, h2]
  · intro hty hgt
    have h1 : IsBetterPoll a b = true := by simp [IsBetterPoll, hty, hgt]
    have h2 : IsBetterPoll b a = false := by simp [IsBetterPoll, hty, le_of_lt hgt]
    simp [h1, h2]
  · intro hcase
    have h1 : IsBetterPoll a b = false := by
      rcases hcase with ⟨hty, hsz⟩ | ⟨hne, hsc⟩
      · simp [IsBetterPoll, hty, hsz]
      · simp [IsBetterPoll, hne, hsc]
    have h2 : IsBetterPoll b a = false := by
      rcases hcase with ⟨hty, hsz⟩ | ⟨hne, hsc⟩
      · simp [IsBetterPoll, hty, hsz]
      · simp [IsBetterPoll, Ne.symm hne, hsc]
    simp only [h1, h2, Bool.false_eq_true, if_false, true_and]
    intro others ho
    have hbatch : PollsterMap.batch (others.foldl AddPollToMap [(a.description, [a, b])])
        a.description = [a, b] := by
      rw [batch_foldl_other others _ _ ho]
      simp [PollsterMap.batch]
    have hmem := mem_of_batch_ne_nil (others.foldl AddPollToMap [(a.description, [a, b])])
      a.description (by rw [hbatch]; simp)
    rw [hbatch] at hmem
    constructor
    · exact (mem_weightPolls _ _).mpr ⟨_, hmem, a, by simp, rfl⟩
    · exact (mem_weightPolls _ _).mpr ⟨_, hmem, b, by simp, rfl⟩

/-- Witness for the amended C6: a likely-voter and a registered-voter poll of pollster A
with the same dates; only the likely-voter poll is kept, in either order. -/
theorem AddPollToMap_same_dates_witness :
    ((examplePoll "A" ⟨2020, 9, 20⟩ ⟨2020, 9, 25⟩ "lv" 500 false).description
        = (examplePoll "A" ⟨2020, 9, 20⟩ ⟨2020, 9, 25⟩ "rv" 900 false).description
      ∧ (examplePoll "A" ⟨2020, 9, 20⟩ ⟨2020, 9, 25⟩ "lv" 500 false).start
        = (examplePoll "A" ⟨2020, 9, 20⟩ ⟨2020, 9, 25⟩ "rv" 900 false).start
      ∧ (examplePoll "A" ⟨2020, 9, 20⟩ ⟨2020, 9, 25⟩ "lv" 500 false).end_
        = (examplePoll "A" ⟨2020, 9, 20⟩ ⟨2020, 9, 25⟩ "rv" 900 false).end_)
    ∧ AddPollToMap
        (AddPollToMap [] (examplePoll "A" ⟨2020, 9, 20⟩ ⟨2020, 9, 25⟩ "lv" 500 false))
        (examplePoll "A" ⟨2020, 9, 20⟩ ⟨2020, 9, 25⟩ "rv" 900 false)
      = [("A", [examplePoll "A" ⟨2020, 9, 20⟩ ⟨2020, 9, 25⟩ "lv" 500 false])]
    ∧ AddPollToMap
        (AddPollToMap [] (examplePoll "A" ⟨2020, 9, 20⟩ ⟨2020, 9, 25⟩ "rv" 900 false))
        (examplePoll "A" ⟨2020, 9, 20⟩ ⟨2020, 9, 25⟩ "lv" 500 false)
      = [("A", [examplePoll "A" ⟨2020, 9, 20⟩ ⟨2020, 9, 25⟩ "lv" 500 false])] :=
  ⟨⟨rfl, rfl, rfl⟩,
    (AddPollToMap_same_dates (examplePoll "A" ⟨2020, 9, 20⟩ ⟨2020, 9, 25⟩ "lv" 500 false)
      (examplePoll "A" ⟨2020, 9, 20⟩ ⟨2020, 9, 25⟩ "rv" 900 false) rfl rfl rfl).1
      (by decide)⟩

end SelectionClaims

/-! ## Claims on race aggregation -/

section AggregationClaims

variable {α : Type} [LinearOrderedField α] [FloorRing α]

theorem GetMinimumError_pos (self : AnalysisKind) : (0 : α) < GetMinimumError self := by
  cases self <;>
    simp only [GetMinimumError, kStateMinError, kSenateMinError, kGovernorMinError,
      kHouseMinError] <;> norm_num

/-- C8 fails as stated: for the National race with two polls of margins 0 and 2 the
stored stddev is the population standard deviation `sqrt (2 / 2) = 1`, which is below
the sample standard deviation `sqrt (2 / 1)`. -/
theorem ComputePollModelStats_national_below_sample :
    (RaceModel.fresh RaceType.NATIONAL
        [sharePoll "A" (50 : ℝ) 50 (1 / 2), sharePoll "B" 51 49 (1 / 2)]).polls ≠ []
    ∧ ¬ SampleStdDev Real.sqrt
          ((RaceModel.fresh RaceType.NATIONAL
            [sharePoll "A" (50 : ℝ) 50 (1 / 2), sharePoll "B" 51 49 (1 / 2)]).polls.map
              fun poll => poll.margin)
        ≤ (ComputePollModelStats Real.sqrt AnalysisKind.State (exampleCampaignOf ℝ)
            (exampleData ℝ)
            (RaceModel.fresh RaceType.NATIONAL
              [sharePoll "A" (50 : ℝ) 50 (1 / 2), sharePoll "B" 51 49 (1 / 2)])).stddev := by
  refine ⟨by simp [RaceModel.fresh], ?_⟩
  have h1 : (ComputePollModelStats Real.sqrt AnalysisKind.State (exampleCampaignOf ℝ)
      (exampleData ℝ)
      (RaceModel.fresh RaceType.NATIONAL
        [sharePoll "A" (50 : ℝ) 50 (1 / 2), sharePoll "B" 51 49 (1 / 2)])).stddev = 1 := by
    simp only [ComputePollModelStats, RaceModel.fresh, if_true, StandardDeviation, Average,
      sharePoll, List.map_cons, List.map_nil, List.foldl_cons, List.foldl_nil, List.length_cons,
      List.length_nil]
    norm_num
  have h2 : SampleStdDev Real.sqrt
      ((RaceModel.fresh RaceType.NATIONAL
        [sharePoll "A" (50 : ℝ) 50 (1 / 2), sharePoll "B" 51 49 (1 / 2)]).polls.map
          fun poll => poll.margin) = Real.sqrt 2 := by
    simp only [SampleStdDev, RaceModel.fresh, Average, sharePoll, List.map_cons, List.map_nil,
      List.foldl_cons, List.foldl_nil, List.length_cons, List.length_nil]
    norm_num
  rw [h1, h2, not_le]
  rw [Real.lt_sqrt (by norm_num)]
  norm_num

/-- C8, amended: for every race kind other than National and every non-empty poll set,
the stddev stored by `Analysis::ComputePollModelStats` is at least `SampleStdDev` of the
polls' margins. -/
theorem ComputePollModelStats_stddev_ge_sample (sqrt : α → α) (self : AnalysisKind)
    (cc : Campaign α) (data : ModelData α) (model : RaceModel α)
    (hne : model.polls ≠ []) (hnat : model.race_type ≠ RaceType.NATIONAL) :
    SampleStdDev sqrt (model.polls.map fun poll => poll.margin)
      ≤ (ComputePollModelStats sqrt self cc data model).stddev := by
  simp only [ComputePollModelStats, if_neg hnat]
  by_cases hlen : model.polls.length > 1
  · rw [if_pos hlen]
    exact le_max_right _ _
  · have h1 : model.polls.length = 1 := by
      have : model.polls.length ≠ 0 := fun h => hne (List.length_eq_zero.mp h)
      omega
    rw [if_neg hlen]
    simp only [SampleStdDev, List.length_map, h1, if_true]
    exact le_max_right _ _

/-- Witness for the amended C8: a Senate race with two polls. -/
theorem ComputePollModelStats_stddev_ge_sample_witness :
    ((RaceModel.fresh RaceType.SENATE
        [sharePoll "A" (50 : ℚ) 50 (1 / 2), sharePoll "B" 51 49 (1 / 2)]).polls ≠ []
      ∧ (RaceModel.fresh RaceType.SENATE
        [sharePoll "A" (50 : ℚ) 50 (1 / 2), sharePoll "B" 51 49 (1 / 2)]).race_type
          ≠ RaceType.NATIONAL)
    ∧ ∀ sqrt : ℚ → ℚ,
        SampleStdDev sqrt
          ((RaceModel.fresh RaceType.SENATE
            [sharePoll "A" (50 : ℚ) 50 (1 / 2), sharePoll "B" 51 49 (1 / 2)]).polls.map
              fun poll => poll.margin)
        ≤ (ComputePollModelStats sqrt AnalysisKind.Senate exampleCampaign (exampleData ℚ)
            (RaceModel.fresh RaceType.SENATE
              [sharePoll "A" (50 : ℚ) 50 (1 / 2), sharePoll "B" 51 49 (1 / 2)])).stddev :=
  ⟨⟨by simp [RaceModel.fresh], by simp [RaceModel.fresh]⟩, fun sqrt =>
    ComputePollModelStats_stddev_ge_sample sqrt AnalysisKind.Senate exampleCampaign
      (exampleData ℚ) _ (by simp [RaceModel.fresh]) (by simp [RaceModel.fresh])⟩

/-- C9 fails as stated: a Senate race with a single poll at 40 to 40 has 20 percent
undecided, so the expected error is `UndecidedFactor 20 = 6`, and the stored stddev is
6, not the Senate minimum error 3.5. -/
theorem ComputePollModelStats_single_poll_above_minimum :
    (RaceModel.fresh RaceType.SENATE [sharePoll "A" (40 : ℚ) 40 1]).race_type
      ≠ RaceType.NATIONAL
    ∧ (RaceModel.fresh RaceType.SENATE [sharePoll "A" (40 : ℚ) 40 1]).polls.length = 1
    ∧ ∀ sqrt : ℚ → ℚ,
        (ComputePollModelStats sqrt AnalysisKind.Senate exampleCampaign (exampleData ℚ)
          (RaceModel.fresh RaceType.SENATE [sharePoll "A" (40 : ℚ) 40 1])).stddev = 6
        ∧ (ComputePollModelStats sqrt AnalysisKind.Senate exampleCampaign (exampleData ℚ)
          (RaceModel.fresh RaceType.SENATE [sharePoll "A" (40 : ℚ) 40 1])).stddev
            ≠ GetMinimumError AnalysisKind.Senate := by
  refine ⟨by decide, rfl, fun sqrt => ?_⟩
  have h : (ComputePollModelStats sqrt AnalysisKind.Senate exampleCampaign (exampleData ℚ)
      (RaceModel.fresh RaceType.SENATE [sharePoll "A" (40 : ℚ) 40 1])).stddev = 6 := by
    simp only [ComputePollModelStats, RaceModel.fresh, sharePoll, GetUndecideds,
      EstimateStdDev, UndecidedFactor, GetMinimumError, kSenateMinError, Average,
      List.foldl_cons, List.foldl_nil, List.length_cons, List.length_nil]
    norm_num
    rw [if_neg (by decide)]
  refine ⟨h, ?_⟩
  rw [h]
  simp only [GetMinimumError, kSenateMinError]
  norm_num

/-- C9, amended: for every non-National race whose selected poll set holds exactly one
poll, the stddev stored by `ComputePollModelStats` is the larger of the chamber minimum
error (State 3.0, Senate 3.5, Governor 6.0, House 8.0) and the undecided factor
`0.30 * undecideds` of the stored undecided percentage; it equals the chamber minimum
error exactly when the undecided factor does not exceed it. -/
theorem ComputePollModelStats_single_poll_stddev (sqrt : α → α) (self : AnalysisKind)
    (cc : Campaign α) (data : ModelData α) (model : RaceModel α)
    (hnat : model.race_type ≠ RaceType.NATIONAL) (hone : model.polls.length = 1) :
    (ComputePollModelStats sqrt self cc data model).stddev
        = max (GetMinimumError self)
            (UndecidedFactor (ComputePollModelStats sqrt self cc data model).undecideds)
    ∧ UndecidedFactor (ComputePollModelStats sqrt self cc data model).undecideds
        = 3 / 10 * (ComputePollModelStats sqrt self cc data model).undecideds
    ∧ ((ComputePollModelStats sqrt self cc data model).stddev = GetMinimumError self
        ↔ UndecidedFactor (ComputePollModelStats sqrt self cc data model).undecideds
            ≤ GetMinimumError self)
    ∧ (GetMinimumError AnalysisKind.State : α) = 3
    ∧ (GetMinimumError AnalysisKind.Senate : α) = 7 / 2
    ∧ (GetMinimumError AnalysisKind.Governor : α) = 6
    ∧ (GetMinimumError AnalysisKind.House : α) = 8 := by
  have hlen : ¬ model.polls.length > 1 := by omega
  have hstd : (ComputePollModelStats sqrt self cc data model).stddev
      = max (GetMinimumError self)
          (UndecidedFactor (ComputePollModelStats sqrt self cc data model).undecideds) := by
    simp only [ComputePollModelStats, if_neg hnat, if_neg hlen, EstimateStdDev]
    apply max_eq_left
    exact le_trans (le_of_lt (GetMinimumError_pos self)) (le_max_left _ _)
  refine ⟨hstd, ?_, ?_, rfl, rfl, rfl, rfl⟩
  · simp only [UndecidedFactor]; ring
  · rw [hstd]; exact max_eq_left_iff

/-- Witness for the amended C9: a Senate race with a single poll at 48 to 47. -/
theorem ComputePollModelStats_single_poll_stddev_witness :
    ((RaceModel.fresh RaceType.SENATE [sharePoll "A" (48 : ℚ) 47 1]).race_type
        ≠ RaceType.NATIONAL
      ∧ (RaceModel.fresh RaceType.SENATE [sharePoll "A" (48 : ℚ) 47 1]).polls.length = 1)
    ∧ ∀ sqrt : ℚ → ℚ,
        (ComputePollModelStats sqrt AnalysisKind.Senate exampleCampaign (exampleData ℚ)
          (RaceModel.fresh RaceType.SENATE [sharePoll "A" (48 : ℚ) 47 1])).stddev
        = max (GetMinimumError AnalysisKind.Senate)
            (UndecidedFactor
              (ComputePollModelStats sqrt AnalysisKind.Senate exampleCampaign (exampleData ℚ)
                (RaceModel.fresh RaceType.SENATE [sharePoll "A" (48 : ℚ) 47 1])).undecideds) :=
  ⟨⟨by decide, rfl⟩, fun sqrt =>
    (ComputePollModelStats_single_poll_stddev sqrt AnalysisKind.Senate exampleCampaign
      (exampleData ℚ) (RaceModel.fresh RaceType.SENATE [sharePoll "A" (48 : ℚ) 47 1])
      (by decide) rfl).1⟩

/-- C10, evaluated on the code: with no selected polls, `SenateAnalysis::ComputeRace`
gives win probability 1 for presumed winner `dem`, 0 for `gop`, and 0.5 with stddev 3.5
for an empty presumed winner; `GovernorAnalysis::ComputeRace` gives 1 for `dem` and 0
for `gop`, but for an empty presumed winner it leaves the win probability and the
stddev at their default 0 instead of 0.5 and 6.0. -/
theorem ComputeRace_no_polls (sqrt erf : α → α) (cc : Campaign α) (data : ModelData α) :
    (SenateAnalysis.ComputeRace sqrt erf cc data { type := RaceType.SENATE, presumed_winner := "dem" }
        (RaceModel.fresh RaceType.SENATE [])).win_prob = 1
    ∧ (SenateAnalysis.ComputeRace sqrt erf cc data { type := RaceType.SENATE, presumed_winner := "gop" }
        (RaceModel.fresh RaceType.SENATE [])).win_prob = 0
    ∧ (SenateAnalysis.ComputeRace sqrt erf cc data { type := RaceType.SENATE, presumed_winner := "" }
        (RaceModel.fresh RaceType.SENATE [])).win_prob = 1 / 2
    ∧ (SenateAnalysis.ComputeRace sqrt erf cc data { type := RaceType.SENATE, presumed_winner := "" }
        (RaceModel.fresh RaceType.SENATE [])).stddev = 7 / 2
    ∧ (GovernorAnalysis.ComputeRace sqrt erf cc data { type := RaceType.GOVERNOR, presumed_winner := "dem" }
        (RaceModel.fresh RaceType.GOVERNOR [])).win_prob = 1
    ∧ (GovernorAnalysis.ComputeRace sqrt erf cc data { type := RaceType.GOVERNOR, presumed_winner := "gop" }
        (RaceModel.fresh RaceType.GOVERNOR [])).win_prob = 0
    ∧ (GovernorAnalysis.ComputeRace sqrt erf cc data { type := RaceType.GOVERNOR, presumed_winner := "" }
        (RaceModel.fresh RaceType.GOVERNOR [])).win_prob = 0
    ∧ (GovernorAnalysis.ComputeRace sqrt erf cc data { type := RaceType.GOVERNOR, presumed_winner := "" }
        (RaceModel.fresh RaceType.GOVERNOR [])).stddev = 0 := by
  simp [SenateAnalysis.ComputeRace, GovernorAnalysis.ComputeRace, RaceModel.fresh,
    kSenateMinError]

end AggregationClaims


/-! ## Lemmas on the numeric kernel and the poll window -/

section KernelLemmas

variable {α : Type} [LinearOrderedField α]

/-- Rounding a third of a non-negative integer, shifted as in `GetPollWindow`. -/
theorem RoundToNearest_window (diff : ℤ) (h : 7 < diff) :
    RoundToNearest ((7 * ((diff - 7 : ℤ) : ℚ)) / ((28 - 7 : ℤ) : ℚ)) = (diff - 6) / 3 := by
  have hx : (0 : ℚ) ≤ (7 * ((diff - 7 : ℤ) : ℚ)) / ((28 - 7 : ℤ) : ℚ) := by
    have : (0 : ℚ) ≤ ((diff - 7 : ℤ) : ℚ) := by exact_mod_cast (by omega : (0 : ℤ) ≤ diff - 7)
    positivity
  rw [RoundToNearest, if_pos hx, Int.floor_eq_iff]
  have hd : diff - 6 = 3 * ((diff - 6) / 3) + (diff - 6) % 3 := (Int.ediv_add_emod _ _).symm
  have h0 : 0 ≤ (diff - 6) % 3 := Int.emod_nonneg _ (by norm_num)
  have h3 : (diff - 6) % 3 < 3 := Int.emod_lt_of_pos _ (by norm_num)
  generalize (diff - 6) / 3 = q at hd ⊢
  generalize (diff - 6) % 3 = r at hd h0 h3
  have hdq : (diff : ℚ) = 3 * q + r + 6 := by
    have : diff = 3 * q + r + 6 := by omega
    exact_mod_cast this
  have h0' : (0 : ℚ) ≤ r := by exact_mod_cast h0
  have h3' : (r : ℚ) ≤ 2 := by exact_mod_cast (by omega : r ≤ 2)
  push_cast
  rw [hdq]
  constructor
  · linarith
  · linarith

/-- Closed form of `GetPollWindow` in the day difference. -/
theorem GetPollWindow_closed_form (election_date window_start : Date) :
    GetPollWindow election_date window_start
      = if DaysBetween window_start election_date > 28 then 14
        else if DaysBetween window_start election_date ≤ 7 then 7
        else 7 + (DaysBetween window_start election_date - 6) / 3 := by
  simp only [GetPollWindow]
  split_ifs with h1 h2
  · rfl
  · rfl
  · rw [RoundToNearest_window _ (by omega)]

end KernelLemmas

/-! ## Lemmas on the metamargin search -/

section MetamarginLemmas

variable {α : Type} [LinearOrderedField α]

/-- A scan that returns a value stopped at the first bias of its sequence that passes
the test, before any bias left `[-101, 101]`. -/
theorem CalcLoop_some (bias_fn : α → ℤ) (midpoint direction : ℤ) (step : α) :
    ∀ (fuel : ℕ) (bias v : α),
      MetamarginFinder.CalcLoop bias_fn midpoint direction step fuel bias = some v →
      ∃ j : ℕ, j < fuel ∧ v = -(bias + j * step)
        ∧ MetamarginFinder.stops bias_fn midpoint direction (bias + j * step)
        ∧ ∀ i : ℕ, i ≤ j →
            ¬ (bias + i * step > 101 ∨ bias + i * step < -101)
            ∧ (i < j → ¬ MetamarginFinder.stops bias_fn midpoint direction (bias + i * step)) := by
  intro fuel
  induction fuel with
  | zero => intro bias v h; simp [MetamarginFinder.CalcLoop] at h
  | succ fuel ih =>
    intro bias v h
    simp only [MetamarginFinder.CalcLoop] at h
    split_ifs at h with h1 h2
    · refine ⟨0, by omega, ?_, ?_, ?_⟩
      · simp only [Option.some.injEq] at h; simp [← h]
      · simpa using h2
      · intro i hi
        have : i = 0 := by omega
        subst this
        refine ⟨by simpa using h1, fun hlt => absurd hlt (by omega)⟩
    · obtain ⟨j, hj, hv, hstop, hall⟩ := ih (bias + step) v h
      refine ⟨j + 1, by omega, ?_, ?_, ?_⟩
      · rw [hv]; push_cast; ring
      · have e : bias + ((j + 1 : ℕ) : α) * step = bias + step + j * step := by
          push_cast; ring
        rw [e]; exact hstop
      · intro i hi
        cases i with
        | zero => exact ⟨by simpa using h1, fun _ => by simpa using h2⟩
        | succ i =>
          have e : bias + ((i + 1 : ℕ) : α) * step = bias + step + i * step := by
            push_cast; ring
          rw [e]
          obtain ⟨ha, hb⟩ := hall i (by omega)
          exact ⟨ha, fun hlt => hb (by omega)⟩

/-- Scanning downwards from `-k * 0.02`: once `fuel + k` reaches the evaluation bound,
one more evaluation changes nothing. -/
theorem CalcLoop_fuel_down (bias_fn : α → ℤ) (midpoint direction : ℤ) :
    ∀ (fuel k : ℕ), MetamarginFinder.kMaxEvaluations ≤ fuel + k →
      MetamarginFinder.CalcLoop bias_fn midpoint direction (-(2 / 100)) (fuel + 1)
          (-((k : α) * (2 / 100)))
        = MetamarginFinder.CalcLoop bias_fn midpoint direction (-(2 / 100)) fuel
          (-((k : α) * (2 / 100))) := by
  intro fuel
  induction fuel with
  | zero =>
    intro k hk
    have hk' : (5052 : α) ≤ k := by
      simp only [MetamarginFinder.kMaxEvaluations] at hk
      exact_mod_cast (by omega : 5052 ≤ k)
    have : -((k : α) * (2 / 100)) < -101 := by linarith
    simp [MetamarginFinder.CalcLoop, this]
  | succ fuel ih =>
    intro k hk
    have e : -((k : α) * (2 / 100)) + -(2 / 100) = -(((k + 1 : ℕ) : α) * (2 / 100)) := by
      push_cast; ring
    conv_lhs => rw [MetamarginFinder.CalcLoop]
    conv_rhs => rw [MetamarginFinder.CalcLoop]
    rw [e, ih (k + 1) (by omega)]

/-- Scanning upwards from `(k + 1) * 0.02`. -/
theorem CalcLoop_fuel_up (bias_fn : α → ℤ) (midpoint direction : ℤ) :
    ∀ (fuel k : ℕ), MetamarginFinder.kMaxEvaluations ≤ fuel + k + 1 →
      MetamarginFinder.CalcLoop bias_fn midpoint direction (2 / 100) (fuel + 1)
          (((k + 1 : ℕ) : α) * (2 / 100))
        = MetamarginFinder.CalcLoop bias_fn midpoint direction (2 / 100) fuel
          (((k + 1 : ℕ) : α) * (2 / 100)) := by
  intro fuel
  induction fuel with
  | zero =>
    intro k hk
    have hk' : (5052 : α) ≤ ((k + 1 : ℕ) : α) := by
      simp only [MetamarginFinder.kMaxEvaluations] at hk
      exact_mod_cast (by omega : 5052 ≤ k + 1)
    have : ((k + 1 : ℕ) : α) * (2 / 100) > 101 := by linarith
    simp only [MetamarginFinder.CalcLoop, if_pos (Or.inl this)]
  | succ fuel ih =>
    intro k hk
    have e : ((k + 1 : ℕ) : α) * (2 / 100) + 2 / 100 = (((k + 1) + 1 : ℕ) : α) * (2 / 100) := by
      push_cast; ring
    conv_lhs => rw [MetamarginFinder.CalcLoop]
    conv_rhs => rw [MetamarginFinder.CalcLoop]
    rw [e, ih (k + 1) (by omega)]

/-- The evaluation bound of `Calc` is enough in both directions: more evaluations give
the same outcome. -/
theorem CalcLoop_enough_fuel (bias_fn : α → ℤ) (midpoint direction : ℤ) (extra : ℕ) :
    MetamarginFinder.CalcLoop bias_fn midpoint direction (-(2 / 100))
        (MetamarginFinder.kMaxEvaluations + extra) 0
      = MetamarginFinder.CalcLoop bias_fn midpoint direction (-(2 / 100))
        MetamarginFinder.kMaxEvaluations 0
    ∧ MetamarginFinder.CalcLoop bias_fn midpoint direction (2 / 100)
        (MetamarginFinder.kMaxEvaluations + extra) (2 / 100)
      = MetamarginFinder.CalcLoop bias_fn midpoint direction (2 / 100)
        MetamarginFinder.kMaxEvaluations (2 / 100) := by
  induction extra with
  | zero => exact ⟨rfl, rfl⟩
  | succ extra ih =>
    constructor
    · have h := CalcLoop_fuel_down bias_fn midpoint direction
        (MetamarginFinder.kMaxEvaluations + extra) 0 (by omega)
      simp only [Nat.cast_zero, zero_mul, neg_zero] at h
      rw [← ih.1, ← h]; rfl
    · have h := CalcLoop_fuel_up bias_fn midpoint direction
        (MetamarginFinder.kMaxEvaluations + extra) 0 (by omega)
      simp only [zero_add, Nat.cast_one, one_mul] at h
      rw [← ih.2, ← h]; rfl

end MetamarginLemmas

section RoundMarginLemmas

variable {α : Type} [LinearOrderedField α] [FloorRing α]

theorem RoundToNearest_eq_zero_iff (y : α) : RoundToNearest y = 0 ↔ |y| < 1 / 2 := by
  unfold RoundToNearest
  split_ifs with h
  · rw [Int.floor_eq_zero_iff, abs_of_nonneg h]
    constructor
    · intro hy; have := hy.2; linarith
    · intro hy; exact ⟨by linarith, by linarith⟩
  · have h' : y < 0 := lt_of_not_le h
    rw [neg_eq_zero, Int.floor_eq_zero_iff, abs_of_neg h']
    constructor
    · intro hy; have := hy.2; linarith
    · intro hy; exact ⟨by linarith, by linarith⟩

/-- `RoundMargin` zeroes the margins below 0.05 in magnitude and leaves every other
margin as it is. -/
theorem RoundMargin_eq_ite (x : α) : RoundMargin x = if |x| < 1 / 20 then 0 else x := by
  unfold RoundMargin
  have h : RoundToNearest (x * 10) = 0 ↔ |x| < 1 / 20 := by
    rw [RoundToNearest_eq_zero_iff, abs_mul, abs_of_pos (by norm_num : (0 : α) < 10)]
    constructor <;> intro h <;> linarith
  by_cases hx : |x| < 1 / 20
  · rw [if_pos (h.mpr hx), if_pos hx]
  · rw [if_neg (fun hc => hx (h.mp hc)), if_neg hx]

/-- `RoundMargin` on the grid of the scan: multiples of 0.02. -/
theorem RoundMargin_grid (k : ℤ) :
    RoundMargin ((k : α) * (2 / 100)) = if |k| ≤ 2 then 0 else (k : α) * (2 / 100) := by
  rw [RoundMargin_eq_ite]
  have habs : |(k : α) * (2 / 100)| = ((|k| : ℤ) : α) * (2 / 100) := by
    rw [abs_mul, abs_of_pos (by norm_num : (0 : α) < 2 / 100), Int.cast_abs]
  rw [habs]
  by_cases hk : |k| ≤ 2
  · have : ((|k| : ℤ) : α) ≤ 2 := by exact_mod_cast hk
    rw [if_pos hk, if_pos (by linarith)]
  · have : (3 : α) ≤ ((|k| : ℤ) : α) := by exact_mod_cast (by omega : 3 ≤ |k|)
    rw [if_neg hk, if_neg (by linarith)]

/-- A value returned by `Calc` is `RoundMargin` of a grid point `j * 0.02` (scan
downwards) or `-(j + 1) * 0.02` (scan upwards), `j` the number of steps taken, and the
scan stopped first at that step. -/
theorem Calc_some (bias_fn : α → ℤ) (midpoint direction : ℤ) (v : α)
    (h : MetamarginFinder.Calc bias_fn midpoint direction = some v) :
    ∃ j : ℕ,
      (direction < 0 →
        v = RoundMargin (((j : ℤ) : α) * (2 / 100))
        ∧ bias_fn (-((j : α) * (2 / 100))) ≤ midpoint
        ∧ ∀ i : ℕ, i < j → ¬ bias_fn (-((i : α) * (2 / 100))) ≤ midpoint)
      ∧ (¬ direction < 0 →
        v = RoundMargin (((-(j + 1 : ℤ) : ℤ) : α) * (2 / 100))) := by
  simp only [MetamarginFinder.Calc, Option.map_eq_some'] at h
  obtain ⟨u, hu, rfl⟩ := h
  obtain ⟨j, _, hv, hstop, hall⟩ := CalcLoop_some _ _ _ _ _ _ _ hu
  refine ⟨j, fun hd => ?_, fun hd => ?_⟩
  · simp only [if_pos hd] at hv hstop hall
    refine ⟨?_, ?_, ?_⟩
    · rw [hv]; congr 1; push_cast; ring
    · rcases hstop with ⟨_, hs⟩ | ⟨hpos, _⟩
      · have e : (0 : α) + j * -(2 / 100) = -((j : α) * (2 / 100)) := by ring
        rw [e] at hs; exact hs
      · omega
    · intro i hi hc
      have e : (0 : α) + i * -(2 / 100) = -((i : α) * (2 / 100)) := by ring
      have := (hall i (le_of_lt hi)).2 hi
      rw [e] at this
      exact this (Or.inl ⟨hd, hc⟩)
  · simp only [if_neg hd] at hv
    rw [hv]; congr 1; push_cast; ring

end RoundMarginLemmas

/-! ## Claims on the poll window and the weighted average -/

section KernelClaims

variable {α : Type} [LinearOrderedField α]

/-- C18 fails as stated: 28 days before the election (window start 2020-10-06,
election 2020-11-03) `GetPollWindow` returns 14, while `7 + round(7 * (28 - 7) / 14)` is
18. -/
theorem GetPollWindow_not_fourteenths :
    (7 < DaysBetween ⟨2020, 10, 6⟩ ⟨2020, 11, 3⟩ ∧ DaysBetween ⟨2020, 10, 6⟩ ⟨2020, 11, 3⟩ ≤ 28)
    ∧ GetPollWindow ⟨2020, 11, 3⟩ ⟨2020, 10, 6⟩ = 14
    ∧ GetPollWindow ⟨2020, 11, 3⟩ ⟨2020, 10, 6⟩
      ≠ 7 + RoundToNearest
          ((7 * ((DaysBetween ⟨2020, 10, 6⟩ ⟨2020, 11, 3⟩ - 7 : ℤ) : ℚ)) / 14) := by
  decide!

/-- C18, amended: for every window start and election day whose day difference `diff`
satisfies `7 < diff <= 28`, `GetPollWindow` returns `7 + round(7 * (diff - 7) / 21)`
(the divisor is `kMaxWindowEnd - kMinWindowStart = 21`), which is `7 + (diff - 6) / 3`
in integer division. -/
theorem GetPollWindow_step (election_date window_start : Date)
    (h7 : 7 < DaysBetween window_start election_date)
    (h28 : DaysBetween window_start election_date ≤ 28) :
    GetPollWindow election_date window_start
        = 7 + RoundToNearest
            ((7 * ((DaysBetween window_start election_date - 7 : ℤ) : ℚ)) / 21)
    ∧ GetPollWindow election_date window_start
        = 7 + (DaysBetween window_start election_date - 6) / 3 := by
  constructor
  · simp only [GetPollWindow]
    rw [if_neg (by omega), if_neg (by omega)]
    norm_num
  · rw [GetPollWindow_closed_form, if_neg (by omega), if_neg (by omega)]

/-- Witness for the amended C18: 20 days before the election the window is 12 days. -/
theorem GetPollWindow_step_witness :
    (7 < DaysBetween ⟨2020, 10, 14⟩ ⟨2020, 11, 3⟩
      ∧ DaysBetween ⟨2020, 10, 14⟩ ⟨2020, 11, 3⟩ ≤ 28)
    ∧ GetPollWindow ⟨2020, 11, 3⟩ ⟨2020, 10, 14⟩
        = 7 + RoundToNearest
            ((7 * ((DaysBetween ⟨2020, 10, 14⟩ ⟨2020, 11, 3⟩ - 7 : ℤ) : ℚ)) / 21)
    ∧ GetPollWindow ⟨2020, 11, 3⟩ ⟨2020, 10, 14⟩
        = 7 + (DaysBetween ⟨2020, 10, 14⟩ ⟨2020, 11, 3⟩ - 6) / 3 :=
  ⟨by decide, GetPollWindow_step ⟨2020, 11, 3⟩ ⟨2020, 10, 14⟩ (by decide) (by decide)⟩

/-- C19: for every window start and election day, with `diff` their day difference,
`GetPollWindow` returns a value in `[7, 14]`, returns 7 whenever `diff <= 7` and 14
whenever `diff >= 28`, is non-decreasing in `diff`, and grows by at most 1 when `diff`
grows by 1. -/
theorem GetPollWindow_range_and_steps (election_date window_start : Date) :
    (7 ≤ GetPollWindow election_date window_start
      ∧ GetPollWindow election_date window_start ≤ 14)
    ∧ (DaysBetween window_start election_date ≤ 7 →
        GetPollWindow election_date window_start = 7)
    ∧ (28 ≤ DaysBetween window_start election_date →
        GetPollWindow election_date window_start = 14)
    ∧ ∀ election_date2 window_start2 : Date,
        (DaysBetween window_start election_date ≤ DaysBetween window_start2 election_date2 →
          GetPollWindow election_date window_start
            ≤ GetPollWindow election_date2 window_start2)
        ∧ (DaysBetween window_start2 election_date2
              = DaysBetween window_start election_date + 1 →
          GetPollWindow election_date2 window_start2
            ≤ GetPollWindow election_date window_start + 1) := by
  simp only [GetPollWindow_closed_form]
  generalize DaysBetween window_start election_date = d
  refine ⟨?_, ?_, ?_, ?_⟩
  · split_ifs <;> omega
  · intro h; split_ifs <;> omega
  · intro h; split_ifs <;> omega
  · intro e2 w2
    generalize DaysBetween w2 e2 = d2
    constructor
    · intro h; split_ifs <;> omega
    · intro h; split_ifs <;> omega

/-- C20 fails as stated: for the weights `[1, 1]` the one-argument `WeightedAverage`
returns `0 * 1 + 1 * 1 = 1`, while `(sum_i i * w_i) / (sum_i w_i)` is `1 / 2`. -/
theorem WeightedAverage_not_normalised :
    ([(1 : ℚ), 1] ≠ [] ∧ ([(1 : ℚ), 1]).sum ≠ 0)
    ∧ WeightedAverage [(1 : ℚ), 1] = 1
    ∧ WeightedAverage [(1 : ℚ), 1]
      ≠ (∑ i ∈ range ([(1 : ℚ), 1]).length, (i : ℚ) * ([(1 : ℚ), 1]).getD i 0)
          / ([(1 : ℚ), 1]).sum := by
  have h : WeightedAverage [(1 : ℚ), 1] = 1 := by
    simp [WeightedAverage, List.range_succ]
  refine ⟨⟨by simp, by norm_num⟩, h, ?_⟩
  rw [h]
  simp [Finset.sum_range_succ]

/-- C20, amended: for every weight vector `w` the one-argument `WeightedAverage(w)`
equals `sum_i i * w_i`, without division by `sum_i w_i`; it equals
`(sum_i i * w_i) / (sum_i w_i)` whenever the weights sum to one, as the histogram of a
convolver does. -/
theorem WeightedAverage_eq (weights : List α) :
    WeightedAverage weights = ∑ i ∈ range weights.length, (i : α) * weights.getD i 0
    ∧ (weights.sum = 1 →
        WeightedAverage weights
          = (∑ i ∈ range weights.length, (i : α) * weights.getD i 0) / weights.sum) := by
  refine ⟨WeightedAverage_eq_sum weights, fun h => ?_⟩
  rw [h, div_one]
  exact WeightedAverage_eq_sum weights

end KernelClaims

/-! ## Claims on the metamargin search -/

section MetamarginClaims

variable {α : Type} [LinearOrderedField α] [FloorRing α]

/-- C13 fails as stated: a bias function that is 1 above the bias `-0.02` and 0 from
there on, with midpoint 0 and start score 1 (above the midpoint, equal to the value at
bias 0), terminates with metamargin exactly 0: the scan stops at bias `-0.02` and
`RoundMargin` reports `0.02` as `0.0`. -/
theorem metamargin_zero_above_midpoint :
    ((1 : ℤ) > 0 ∧ (fun b : ℚ => if b ≤ -(1 / 50) then (0 : ℤ) else 1) 0 = 1)
    ∧ MetamarginFinder.metamargin (fun b : ℚ => if b ≤ -(1 / 50) then (0 : ℤ) else 1) 0 1 1
        = some 0
    ∧ ¬ (0 : ℚ) < 0 := by
  decide!

/-- C13, amended: for every bias function and every start score strictly greater than
the midpoint, whenever the search terminates the resulting metamargin is greater than
or equal to 0: it is exactly 0 when the scan stops within its first steps (at bias 0,
`-0.02` or `-0.04`, where `RoundMargin` reports zero), and at least 0.06 otherwise. -/
theorem metamargin_nonneg_above_midpoint (bias_fn : α → ℤ) (midpoint start high : ℤ)
    (hstart : start > midpoint) (mm : α)
    (h : MetamarginFinder.metamargin bias_fn midpoint start high = some mm) :
    0 ≤ mm
    ∧ (mm = 0 ∨ 3 / 50 ≤ mm)
    ∧ (mm = 0 ↔ (bias_fn 0 ≤ midpoint ∨ bias_fn (-(1 / 50)) ≤ midpoint
        ∨ bias_fn (-(2 / 50)) ≤ midpoint)) := by
  have hne : midpoint ≠ start := by omega
  simp only [MetamarginFinder.metamargin, if_pos hne, if_pos hstart] at h
  obtain ⟨j, hdown, _⟩ := Calc_some bias_fn midpoint (-1) mm h
  obtain ⟨hv, hstop, hfirst⟩ := hdown (by norm_num)
  rw [RoundMargin_grid] at hv
  have habs : |(j : ℤ)| = j := abs_of_nonneg (by omega)
  rw [habs] at hv
  by_cases hj : (j : ℤ) ≤ 2
  · rw [if_pos hj] at hv
    refine ⟨by rw [hv], Or.inl hv, ⟨fun _ => ?_, fun _ => hv⟩⟩
    have hj' : j = 0 ∨ j = 1 ∨ j = 2 := by omega
    rcases hj' with e | e | e
    · subst e; left; simpa using hstop
    · subst e; right; left
      have e1 : -(((1 : ℕ) : α) * (2 / 100)) = -(1 / 50) := by norm_num
      rw [e1] at hstop; exact hstop
    · subst e; right; right
      have e1 : -(((2 : ℕ) : α) * (2 / 100)) = -(2 / 50) := by norm_num
      rw [e1] at hstop; exact hstop
  · rw [if_neg hj] at hv
    have hj3 : (3 : α) ≤ ((j : ℤ) : α) := by exact_mod_cast (by omega : (3 : ℤ) ≤ j)
    have hmm : 3 / 50 ≤ mm := by rw [hv]; linarith
    refine ⟨by linarith, Or.inr hmm, ⟨fun h0 => by linarith, fun hs => ?_⟩⟩
    exfalso
    rcases hs with hs | hs | hs
    · exact hfirst 0 (by omega) (by simpa using hs)
    · refine hfirst 1 (by omega) ?_
      have e1 : -(((1 : ℕ) : α) * (2 / 100)) = -(1 / 50) := by norm_num
      rw [e1]; exact hs
    · refine hfirst 2 (by omega) ?_
      have e1 : -(((2 : ℕ) : α) * (2 / 100)) = -(2 / 50) := by norm_num
      rw [e1]; exact hs

/-- Witness for the amended C13: the scan stops at bias `-0.06` and the metamargin is
`0.06`. -/
theorem metamargin_nonneg_above_midpoint_witness :
    ((1 : ℤ) > 0
      ∧ MetamarginFinder.metamargin (fun b : ℚ => if b ≤ -(3 / 50) then (0 : ℤ) else 1) 0 1 1
          = some (3 / 50))
    ∧ (0 : ℚ) ≤ 3 / 50 ∧ ((3 / 50 : ℚ) = 0 ∨ (3 / 50 : ℚ) ≤ 3 / 50) :=
  ⟨⟨by decide, by decide!⟩,
    (metamargin_nonneg_above_midpoint (fun b : ℚ => if b ≤ -(3 / 50) then (0 : ℤ) else 1)
      0 1 1 (by decide) (3 / 50) (by decide!)).1,
    (metamargin_nonneg_above_midpoint (fun b : ℚ => if b ≤ -(3 / 50) then (0 : ℤ) else 1)
      0 1 1 (by decide) (3 / 50) (by decide!)).2.1⟩

end MetamarginClaims

/-! ## Lemmas on the electoral-college analysis -/

section StateAnalysisLemmas

variable {α : Type} [LinearOrderedField α] [FloorRing α]

theorem RoundToNearest_ge (k : ℤ) (hk : 0 ≤ k) (x : α) (hx : (k : α) ≤ x) :
    k ≤ RoundToNearest x := by
  have h0 : (0 : α) ≤ x := le_trans (by exact_mod_cast hk) hx
  rw [RoundToNearest, if_pos h0, Int.le_floor]
  linarith

theorem RoundToNearest_intCast (k : ℤ) (hk : 0 ≤ k) : RoundToNearest (k : α) = k := by
  have h0 : (0 : α) ≤ (k : α) := by exact_mod_cast hk
  rw [RoundToNearest, if_pos h0, Int.floor_eq_iff]
  constructor <;> linarith

/-- The upward scan stops at its first bias, 0.02, when the bias function is already at
or above the midpoint there; `RoundMargin` reports zero. -/
theorem Calc_up_first (bias_fn : α → ℤ) (midpoint : ℤ) (h : midpoint ≤ bias_fn (2 / 100)) :
    MetamarginFinder.Calc bias_fn midpoint 1 = some 0 := by
  have hd : ¬ (1 : ℤ) < 0 := by norm_num
  have hb : ¬ ((2 / 100 : α) > 101 ∨ (2 / 100 : α) < -101) := by norm_num
  have hs : MetamarginFinder.stops bias_fn midpoint 1 (2 / 100) := Or.inr ⟨by norm_num, h⟩
  have hr : RoundMargin (-(2 / 100) : α) = 0 := by
    rw [RoundMargin_eq_ite, if_pos]
    rw [abs_neg, abs_of_pos] <;> norm_num
  show (MetamarginFinder.CalcLoop bias_fn midpoint 1 (if (1 : ℤ) < 0 then -(2 / 100) else 2 / 100)
    (5051 + 1) (if (1 : ℤ) < 0 then 0 else 2 / 100)).map RoundMargin = some 0
  rw [if_neg hd, if_neg hd, MetamarginFinder.CalcLoop, if_neg hb, if_pos hs, Option.map_some', hr]

/-- The downward scan stops at its first bias, 0, when the bias function is already at
or below the midpoint there. -/
theorem Calc_down_first (bias_fn : α → ℤ) (midpoint : ℤ) (h : bias_fn 0 ≤ midpoint) :
    MetamarginFinder.Calc bias_fn midpoint (-1) = some 0 := by
  have hd : (-1 : ℤ) < 0 := by norm_num
  have hb : ¬ ((0 : α) > 101 ∨ (0 : α) < -101) := by norm_num
  have hs : MetamarginFinder.stops bias_fn midpoint (-1) 0 := Or.inl ⟨by norm_num, h⟩
  have hr : RoundMargin (-0 : α) = 0 := by
    rw [RoundMargin_eq_ite, if_pos]
    rw [neg_zero, abs_zero]; norm_num
  show (MetamarginFinder.CalcLoop bias_fn midpoint (-1)
    (if (-1 : ℤ) < 0 then -(2 / 100) else 2 / 100)
    (5051 + 1) (if (-1 : ℤ) < 0 then 0 else 2 / 100)).map RoundMargin = some 0
  rw [if_pos hd, if_pos hd, MetamarginFinder.CalcLoop, if_neg hb, if_pos hs, Option.map_some', hr]

/-- Every pair built from states with at least one electoral vote has weight at least
one. -/
theorem zipWith_weight_pos (p : RaceModel α → α) :
    ∀ (sts : List State) (ms : List (RaceModel α)),
      (∀ st ∈ sts, 1 ≤ st.evs) →
      ∀ r ∈ List.zipWith (fun (st : State) (m : RaceModel α) => (st.evs.toNat, p m)) sts ms,
        1 ≤ r.1 := by
  intro sts
  induction sts with
  | nil => intro ms _ r hr; simp at hr
  | cons st sts ih =>
    intro ms hevs r hr
    cases ms with
    | nil => simp at hr
    | cons m ms =>
      rw [List.zipWith_cons_cons, List.mem_cons] at hr
      rcases hr with rfl | hr
      · have := hevs st (List.mem_cons_self _ _)
        show 1 ≤ st.evs.toNat
        omega
      · exact ih ms (fun st' h' => hevs st' (List.mem_cons_of_mem _ h')) r hr

/-- The expected total of the pairs is at least `c` times the electoral votes when
every probability is at least `c`. -/
theorem zipWith_expected_ge (p : RaceModel α → α) (c : α) :
    ∀ (sts : List State) (ms : List (RaceModel α)),
      sts.length = ms.length → (∀ st ∈ sts, 1 ≤ st.evs) → (∀ m ∈ ms, c ≤ p m) →
      (((sts.map State.evs).sum : ℤ) : α) * c
        ≤ ((List.zipWith (fun (st : State) (m : RaceModel α) => (st.evs.toNat, p m)) sts ms).map
            fun r => (r.1 : α) * r.2).sum := by
  intro sts
  induction sts with
  | nil => intro ms _ _ _; simp
  | cons st sts ih =>
    intro ms hlen hevs hp
    cases ms with
    | nil => simp at hlen
    | cons m ms =>
      have h1 := hevs st (List.mem_cons_self _ _)
      have hcast : ((st.evs.toNat : ℕ) : α) = ((st.evs : ℤ) : α) := by
        rw [← Int.cast_natCast, Int.toNat_of_nonneg (by omega)]
      have hpos : (0 : α) ≤ ((st.evs : ℤ) : α) := by exact_mod_cast (by omega : (0 : ℤ) ≤ st.evs)
      have hm := hp m (List.mem_cons_self _ _)
      have hrec := ih ms (by simpa using hlen)
        (fun st' h' => hevs st' (List.mem_cons_of_mem _ h'))
        (fun m' h' => hp m' (List.mem_cons_of_mem _ h'))
      rw [List.zipWith_cons_cons, List.map_cons, List.sum_cons, List.map_cons, List.sum_cons,
        Int.cast_add, add_mul]
      show _ ≤ ((st.evs.toNat : ℕ) : α) * p m + _
      rw [hcast]
      have := mul_le_mul_of_nonneg_left hm hpos
      linarith

/-- The expected total of the pairs is at most `c` times the electoral votes when every
probability is at most `c`. -/
theorem zipWith_expected_le (p : RaceModel α → α) (c : α) :
    ∀ (sts : List State) (ms : List (RaceModel α)),
      sts.length = ms.length → (∀ st ∈ sts, 1 ≤ st.evs) → (∀ m ∈ ms, p m ≤ c) →
      ((List.zipWith (fun (st : State) (m : RaceModel α) => (st.evs.toNat, p m)) sts ms).map
            fun r => (r.1 : α) * r.2).sum
        ≤ (((sts.map State.evs).sum : ℤ) : α) * c := by
  intro sts
  induction sts with
  | nil => intro ms _ _ _; simp
  | cons st sts ih =>
    intro ms hlen hevs hp
    cases ms with
    | nil => simp at hlen
    | cons m ms =>
      have h1 := hevs st (List.mem_cons_self _ _)
      have hcast : ((st.evs.toNat : ℕ) : α) = ((st.evs : ℤ) : α) := by
        rw [← Int.cast_natCast, Int.toNat_of_nonneg (by omega)]
      have hpos : (0 : α) ≤ ((st.evs : ℤ) : α) := by exact_mod_cast (by omega : (0 : ℤ) ≤ st.evs)
      have hm := hp m (List.mem_cons_self _ _)
      have hrec := ih ms (by simpa using hlen)
        (fun st' h' => hevs st' (List.mem_cons_of_mem _ h'))
        (fun m' h' => hp m' (List.mem_cons_of_mem _ h'))
      rw [List.zipWith_cons_cons, List.map_cons, List.sum_cons, List.map_cons, List.sum_cons,
        Int.cast_add, add_mul]
      show ((st.evs.toNat : ℕ) : α) * p m + _ ≤ _
      rw [hcast]
      have := mul_le_mul_of_nonneg_left hm hpos
      linarith

/-- The mean of the convolver over states that all carry at least one electoral vote,
an even positive total, and probabilities bounded by one half on either side. -/
theorem FindMean_zipWith (p : RaceModel α → α) (sts : List State) (ms : List (RaceModel α))
    (hlen : sts.length = ms.length) (hevs : ∀ st ∈ sts, 1 ≤ st.evs)
    (k : ℤ) (hk : 0 < k) (hsum : (sts.map State.evs).sum = 2 * k) :
    ((∀ m ∈ ms, 1 / 2 ≤ p m) →
      k ≤ Convolver.FindMean (Compute
        (List.zipWith (fun (st : State) (m : RaceModel α) => (st.evs.toNat, p m)) sts ms)))
    ∧ ((∀ m ∈ ms, p m = 1 / 2) →
      Convolver.FindMean (Compute
        (List.zipWith (fun (st : State) (m : RaceModel α) => (st.evs.toNat, p m)) sts ms)) = k) := by
  have hne : List.zipWith (fun (st : State) (m : RaceModel α) => (st.evs.toNat, p m)) sts ms
      ≠ [] := by
    cases sts with
    | nil => simp at hsum; omega
    | cons st sts =>
      cases ms with
      | nil => simp at hlen
      | cons m ms => simp
  have hW := WeightedAverage_Compute _ hne (zipWith_weight_pos p sts ms hevs)
  have hhalf : (((sts.map State.evs).sum : ℤ) : α) * (1 / 2) = (k : α) := by
    rw [hsum]; push_cast; ring
  constructor
  · intro hp
    have hge := zipWith_expected_ge p (1 / 2) sts ms hlen hevs hp
    rw [hhalf] at hge
    unfold Convolver.FindMean
    rw [hW]
    exact RoundToNearest_ge k (le_of_lt hk) _ hge
  · intro hp
    have hge := zipWith_expected_ge p (1 / 2) sts ms hlen hevs (fun m hm => (hp m hm).ge)
    have hle := zipWith_expected_le p (1 / 2) sts ms hlen hevs (fun m hm => (hp m hm).le)
    rw [hhalf] at hge hle
    unfold Convolver.FindMean
    rw [hW, le_antisymm hle hge]
    exact RoundToNearest_intCast k (le_of_lt hk)

end StateAnalysisLemmas

/-! ## Lemmas and claims on the bands of the prediction -/

section BayesLemmas

variable {α : Type} [LinearOrderedField α] [FloorRing α]

/-- One more round changes nothing once the rounds allowed exceed the number of steps
to the end of the range. -/
theorem rangeLoop_fuel (high : α) :
    ∀ (fuel : ℕ) (mm : α), (high - mm) / (2 / 100) < fuel →
      Predictor.Bayes.rangeLoop high (fuel + 1) mm = Predictor.Bayes.rangeLoop high fuel mm := by
  intro fuel
  induction fuel with
  | zero =>
    intro mm h
    have h' : high - mm < 0 := by
      have := (div_lt_iff₀ (by norm_num : (0 : α) < 2 / 100)).mp h
      simpa using this
    have : ¬ mm ≤ high := by linarith
    simp [Predictor.Bayes.rangeLoop, this]
  | succ fuel ih =>
    intro mm h
    have h' : (high - (mm + 2 / 100)) / (2 / 100) < fuel := by
      have e : (high - (mm + 2 / 100)) / (2 / 100) = (high - mm) / (2 / 100) - 1 := by
        field_simp
        ring
      rw [e]
      push_cast at h
      linarith
    conv_lhs => rw [Predictor.Bayes.rangeLoop]
    conv_rhs => rw [Predictor.Bayes.rangeLoop]
    rw [ih _ h']

/-- The rounds allowed in `mmRange` are enough: with any number of further rounds the
loop yields the same list. -/
theorem mmRange_enough_fuel (low high : α) (extra : ℕ) :
    Predictor.Bayes.rangeLoop high (⌊(high - low) / (2 / 100)⌋.toNat + 1 + extra) low
      = Predictor.Bayes.mmRange low high := by
  induction extra with
  | zero => rfl
  | succ extra ih =>
    rw [← ih]
    refine rangeLoop_fuel high _ low ?_
    have h1 : (high - low) / (2 / 100) < (⌊(high - low) / (2 / 100)⌋ : α) + 1 :=
      Int.lt_floor_add_one _
    have h2 : (⌊(high - low) / (2 / 100)⌋ : α) ≤ ((⌊(high - low) / (2 / 100)⌋.toNat : ℕ) : α) := by
      have : ⌊(high - low) / (2 / 100)⌋ ≤ ((⌊(high - low) / (2 / 100)⌋.toNat : ℕ) : ℤ) :=
        Int.self_le_toNat _
      exact_mod_cast this
    have h3 : (0 : α) ≤ (extra : α) := Nat.cast_nonneg _
    have h4 : ((⌊(high - low) / (2 / 100)⌋.toNat + 1 + extra : ℕ) : α)
        = ((⌊(high - low) / (2 / 100)⌋.toNat : ℕ) : α) + 1 + (extra : α) := by
      push_cast; ring
    have hgoal : (high - low) / (2 / 100)
        < ((⌊(high - low) / (2 / 100)⌋.toNat + 1 + extra : ℕ) : α) := by
      rw [h4]; linarith
    exact hgoal

end BayesLemmas

/-! ## Lemmas on the seat count of the house analysis -/

section HouseLemmas

variable {α : Type} [LinearOrderedField α] [FloorRing α]

/-- The effect of `HouseTally.convolve` on the counters. -/
theorem convolve_count (t : HouseTally α) (race : Race) (model : RaceModel α) :
    ((t.convolve race model).win_p.length : ℤ) = (t.win_p.length : ℤ) + 1
    ∧ ((t.convolve race model).house_races.length : ℤ) = (t.house_races.length : ℤ) + 1
    ∧ (t.convolve race model).safe_dem = t.safe_dem
    ∧ (t.convolve race model).safe_gop = t.safe_gop
    ∧ (t.convolve race model).flips_to_dem = t.flips_to_dem
    ∧ (t.convolve race model).flips_to_gop = t.flips_to_gop
    ∧ ((race.current_holder = "dem" ∨ race.current_holder = "gop") →
        (t.convolve race model).unsafe_dem + (t.convolve race model).unsafe_gop
          = t.unsafe_dem + t.unsafe_gop + 1) := by
  unfold HouseTally.convolve
  by_cases hd : race.current_holder = "dem"
  · simp [hd]; omega
  · by_cases hg : race.current_holder = "gop"
    · simp [hd, hg]; omega
    · simp [hd, hg]

/-- The seat counts over one round of the loop over the races. -/
theorem raceStep_count (lib : Lib α) (cc : Campaign α) (feed : Feed α) (data : ModelData α)
    (house_ratings : HouseRatingMap) (t t' : HouseTally α) (race : Race)
    (h : HouseAnalysis.raceStep lib cc feed data house_ratings t race = some t') :
    (t'.win_p.length : ℤ) + t'.safe_dem + t'.safe_gop
      = (t.win_p.length : ℤ) + t.safe_dem + t.safe_gop + 1
    ∧ (t'.house_races.length : ℤ) - t'.win_p.length
      = (t.house_races.length : ℤ) - t.win_p.length
    ∧ ((race.current_holder = "dem" ∨ race.current_holder = "gop") →
        (t'.win_p.length : ℤ) + t'.flips_to_dem + t'.flips_to_gop - t'.unsafe_dem - t'.unsafe_gop
          = (t.win_p.length : ℤ) + t.flips_to_dem + t.flips_to_gop - t.unsafe_dem
            - t.unsafe_gop) := by
  have hconv : ∀ model : RaceModel α,
      ((t.convolve race model).win_p.length : ℤ) + (t.convolve race model).safe_dem
          + (t.convolve race model).safe_gop
        = (t.win_p.length : ℤ) + t.safe_dem + t.safe_gop + 1
      ∧ ((t.convolve race model).house_races.length : ℤ) - (t.convolve race model).win_p.length
        = (t.house_races.length : ℤ) - t.win_p.length
      ∧ ((race.current_holder = "dem" ∨ race.current_holder = "gop") →
          ((t.convolve race model).win_p.length : ℤ) + (t.convolve race model).flips_to_dem
              + (t.convolve race model).flips_to_gop - (t.convolve race model).unsafe_dem
              - (t.convolve race model).unsafe_gop
            = (t.win_p.length : ℤ) + t.flips_to_dem + t.flips_to_gop - t.unsafe_dem
              - t.unsafe_gop) := by
    intro model
    obtain ⟨h1, h2, h3, h4, h5, h6, h7⟩ := convolve_count t race model
    refine ⟨by omega, by omega, fun hh => ?_⟩
    have := h7 hh
    omega
  unfold HouseAnalysis.raceStep at h
  simp only [] at h
  split_ifs at h with c1 c2 c3 c4 c5 c6 c7
  all_goals cases h
  all_goals first
    | exact hconv _
    | exact ⟨by dsimp only; omega, rfl, fun _ => by (try dsimp only) <;> omega⟩

/-- The seat counts along the loop over the races. -/
theorem raceLoop_count (lib : Lib α) (cc : Campaign α) (feed : Feed α) (data : ModelData α)
    (house_ratings : HouseRatingMap) :
    ∀ (races : List Race) (t t' : HouseTally α),
      HouseAnalysis.raceLoop lib cc feed data house_ratings races t = some t' →
      (t'.win_p.length : ℤ) + t'.safe_dem + t'.safe_gop
        = (t.win_p.length : ℤ) + t.safe_dem + t.safe_gop + races.length
      ∧ (t'.house_races.length : ℤ) - t'.win_p.length
        = (t.house_races.length : ℤ) - t.win_p.length
      ∧ ((∀ race ∈ races, race.current_holder = "dem" ∨ race.current_holder = "gop") →
          (t'.win_p.length : ℤ) + t'.flips_to_dem + t'.flips_to_gop - t'.unsafe_dem
              - t'.unsafe_gop
            = (t.win_p.length : ℤ) + t.flips_to_dem + t.flips_to_gop - t.unsafe_dem
              - t.unsafe_gop) := by
  intro races
  induction races with
  | nil =>
    intro t t' h
    simp only [HouseAnalysis.raceLoop, Option.some.injEq] at h
    subst h
    simp
  | cons race rest ih =>
    intro t t' h
    simp only [HouseAnalysis.raceLoop] at h
    cases hstep : HouseAnalysis.raceStep lib cc feed data house_ratings t race with
    | none => rw [hstep] at h; exact absurd h (by simp)
    | some t1 =>
      rw [hstep] at h
      obtain ⟨a1, a2, a3⟩ := raceStep_count lib cc feed data house_ratings t t1 race hstep
      obtain ⟨b1, b2, b3⟩ := ih t1 t' h
      refine ⟨?_, by omega, fun hall => ?_⟩
      · rw [List.length_cons]; push_cast; omega
      · have := a3 (hall race (List.mem_cons_self _ _))
        have := b3 (fun r hr => hall r (List.mem_cons_of_mem _ hr))
        omega

/-- The seat invariant of `HouseAnalysis::Analyze`, where it holds: when the analysis
of a day without house races yet completes with at least one convolved race, the
convolved races and the safe seats add up to the seats of the house if the roster lists
every seat, and also if it lists only some, the seats of the house are the Democratic
and the Republican ones, and every listed race is held by one of the two parties. -/
theorem Analyze_seat_count (lib : Lib α) (cc : Campaign α) (feed : Feed α)
    (data d : ModelData α) (today : Date) (hfresh : data.house_races = [])
    (h : HouseAnalysis.Analyze lib cc feed data today = some d) (hne : d.house_races ≠ [])
    (hroster : cc.house_map.total_seats = (cc.house_map.races.length : ℤ)
      ∨ (cc.house_map.total_seats = cc.house_map.seats.dem + cc.house_map.seats.gop
        ∧ ∀ race ∈ cc.house_map.races,
            race.current_holder = "dem" ∨ race.current_holder = "gop")) :
    (d.house_races.length : ℤ) + d.house_safe_seats.dem + d.house_safe_seats.gop
      = cc.house_map.total_seats := by
  unfold HouseAnalysis.Analyze at h
  simp only [] at h
  cases hloop : HouseAnalysis.raceLoop lib cc feed data (HouseAnalysis.ratings cc feed data today)
      cc.house_map.races { house_races := data.house_races } with
  | none => rw [hloop] at h; exact absurd h (by simp)
  | some t =>
    rw [hloop] at h
    obtain ⟨c1, c2, c3⟩ := raceLoop_count lib cc feed data _ _ _ _ hloop
    simp only [hfresh, List.length_nil, Nat.cast_zero] at c1 c2 c3
    have hlen : (t.house_races.length : ℤ) = t.win_p.length := by omega
    simp only [] at h
    by_cases hempty : t.win_p.isEmpty = true
    · rw [if_pos hempty] at h
      have hd : d.house_races = t.house_races := by
        rw [← Option.some.inj h]
      have : t.win_p = [] := List.isEmpty_iff.mp hempty
      rw [this] at hlen
      have : t.house_races = [] := List.length_eq_zero.mp (by exact_mod_cast hlen)
      exact absurd (hd.trans this) hne
    · rw [if_neg hempty] at h
      by_cases hfull : cc.house_map.total_seats = (cc.house_map.races.length : ℤ)
      · have key : (t.house_races.length : ℤ) + t.safe_dem + t.safe_gop
            = cc.house_map.total_seats := by omega
        simp only [if_neg (not_not.mpr hfull)] at h
        split_ifs at h with hsafe
        · rw [← Option.some.inj h]
          exact key
        · simp only [Option.map_eq_some'] at h
          obtain ⟨mm, _, rfl⟩ := h
          exact key
      · have hpart : cc.house_map.total_seats = cc.house_map.seats.dem + cc.house_map.seats.gop
            ∧ ∀ race ∈ cc.house_map.races,
                race.current_holder = "dem" ∨ race.current_holder = "gop" := by
          rcases hroster with h1 | h2
          · exact absurd h1 hfull
          · exact h2
        have hflips := c3 hpart.2
        have key : (t.house_races.length : ℤ)
            + (cc.house_map.seats.dem - t.unsafe_dem + t.flips_to_dem)
            + (cc.house_map.seats.gop - t.unsafe_gop + t.flips_to_gop)
            = cc.house_map.total_seats := by
          have := hpart.1
          omega
        simp only [if_pos (show cc.house_map.total_seats ≠ (cc.house_map.races.length : ℤ)
          from hfull)] at h
        split_ifs at h with hsafe
        · rw [← Option.some.inj h]
          exact key
        · simp only [Option.map_eq_some'] at h
          obtain ⟨mm, _, rfl⟩ := h
          exact key

/-- The seat count on the "likely" seat of the example, held by the Democrats: one
convolved race, 234 safe Democratic and 200 safe Republican seats, 435 in all. -/
theorem Analyze_seat_count_example :
    (HouseAnalysis.Analyze toyLib (sparseHouseCampaign (toyHouseRace 0 "dem" "dem" "likely"))
        ({} : Feed ℚ) (exampleData ℚ) ⟨2020, 10, 1⟩).map
      (fun d => (d.house_races.length : ℤ) + d.house_safe_seats.dem + d.house_safe_seats.gop)
      = some 435 := by
  decide!

end HouseLemmas

/-! ## Termination of the metamargin search in exact arithmetic -/

section CalcTermination

variable {α : Type} [LinearOrderedField α]

/-- A scan with enough evaluations left returns the negated first bias of its sequence
that passes the test, provided no bias up to it left `[-101, 101]`. -/
theorem CalcLoop_complete (bias_fn : α → ℤ) (midpoint direction : ℤ) (step : α) :
    ∀ (fuel : ℕ) (bias : α) (j : ℕ), j < fuel →
      MetamarginFinder.stops bias_fn midpoint direction (bias + j * step) →
      (∀ i : ℕ, i ≤ j → ¬ (bias + i * step > 101 ∨ bias + i * step < -101)) →
      (∀ i : ℕ, i < j → ¬ MetamarginFinder.stops bias_fn midpoint direction (bias + i * step)) →
      MetamarginFinder.CalcLoop bias_fn midpoint direction step fuel bias
        = some (-(bias + j * step)) := by
  intro fuel
  induction fuel with
  | zero => intro bias j hj; omega
  | succ fuel ih =>
    intro bias j hj hstop hrange hfirst
    have h0 := hrange 0 (Nat.zero_le _)
    simp only [Nat.cast_zero, zero_mul, add_zero] at h0
    rw [MetamarginFinder.CalcLoop, if_neg h0]
    cases j with
    | zero =>
      simp only [Nat.cast_zero, zero_mul, add_zero] at hstop ⊢
      rw [if_pos hstop]
    | succ j =>
      have hn := hfirst 0 (Nat.succ_pos _)
      simp only [Nat.cast_zero, zero_mul, add_zero] at hn
      rw [if_neg hn]
      have e : ∀ i : ℕ, bias + step + (i : α) * step = bias + ((i + 1 : ℕ) : α) * step := by
        intro i; push_cast; ring
      rw [ih (bias + step) j (by omega) (by rw [e]; exact hstop)
        (fun i hi => by rw [e]; exact hrange (i + 1) (by omega))
        (fun i hi => by rw [e]; exact hfirst (i + 1) (by omega)), e]

/-- The start and the step of `Calc` generate the scan sequence. -/
theorem scanBias_eq (direction : ℤ) (j : ℕ) :
    (if direction < 0 then (0 : α) else 2 / 100)
        + (j : α) * (if direction < 0 then -(2 / 100) else 2 / 100)
      = MetamarginFinder.scanBias direction j := by
  unfold MetamarginFinder.scanBias
  split_ifs <;> ring

/-- Within `[-101, 101]` the scan sequence has at most 5051 members, and every earlier
member of the sequence is within the range too. -/
theorem scanBias_range (direction : ℤ) (j : ℕ)
    (h : |(MetamarginFinder.scanBias direction j : α)| ≤ 101) :
    j < MetamarginFinder.kMaxEvaluations
    ∧ ∀ i : ℕ, i ≤ j → |(MetamarginFinder.scanBias direction i : α)| ≤ 101 := by
  unfold MetamarginFinder.scanBias at h ⊢
  have hj0 : (0 : α) ≤ (j : α) := Nat.cast_nonneg _
  by_cases hd : direction < 0
  · simp only [if_pos hd] at h ⊢
    rw [abs_neg, abs_of_nonneg (by positivity)] at h
    have hj : (j : α) ≤ 5050 := by linarith
    refine ⟨?_, fun i hi => ?_⟩
    · have : j ≤ 5050 := by exact_mod_cast hj
      unfold MetamarginFinder.kMaxEvaluations; omega
    · have hi' : (i : α) ≤ (j : α) := by exact_mod_cast hi
      rw [abs_neg, abs_of_nonneg (by positivity)]
      linarith
  · simp only [if_neg hd] at h ⊢
    rw [abs_of_nonneg (by positivity)] at h
    have hj : (j : α) ≤ 5049 := by linarith
    refine ⟨?_, fun i hi => ?_⟩
    · have : j ≤ 5049 := by exact_mod_cast hj
      unfold MetamarginFinder.kMaxEvaluations; omega
    · have hi' : (i : α) ≤ (j : α) := by exact_mod_cast hi
      rw [abs_of_nonneg (by positivity)]
      linarith

end CalcTermination

section CalcExact

variable {α : Type} [LinearOrderedField α] [FloorRing α]

/-- In exact arithmetic, where the biases of the scan are the multiples of 0.02
themselves, `Calc` terminates: allowing more evaluations than its bound never changes the
outcome.  It returns a value exactly when some bias `b` of the scan sequence with
`|b| <= 101` passes the stop test, and the value is then `RoundMargin(-b)` for the first
such bias; it aborts exactly when no bias of the sequence with `|b| <= 101` passes the
stop test. -/
theorem Calc_terminates (bias_fn : α → ℤ) (midpoint direction : ℤ) :
    (∀ extra : ℕ,
      (MetamarginFinder.CalcLoop bias_fn midpoint direction
          (if direction < 0 then -(2 / 100) else 2 / 100)
          (MetamarginFinder.kMaxEvaluations + extra)
          (if direction < 0 then 0 else 2 / 100)).map RoundMargin
        = MetamarginFinder.Calc bias_fn midpoint direction)
    ∧ (∀ v : α, MetamarginFinder.Calc bias_fn midpoint direction = some v ↔
        ∃ j : ℕ, |(MetamarginFinder.scanBias direction j : α)| ≤ 101
          ∧ MetamarginFinder.stops bias_fn midpoint direction
              (MetamarginFinder.scanBias direction j)
          ∧ (∀ i : ℕ, i < j → ¬ MetamarginFinder.stops bias_fn midpoint direction
              (MetamarginFinder.scanBias direction i))
          ∧ v = RoundMargin (-(MetamarginFinder.scanBias direction j)))
    ∧ (MetamarginFinder.Calc bias_fn midpoint direction = none ↔
        ∀ j : ℕ, |(MetamarginFinder.scanBias direction j : α)| ≤ 101 →
          ¬ MetamarginFinder.stops bias_fn midpoint direction
              (MetamarginFinder.scanBias direction j)) := by
  have hfuel : ∀ extra : ℕ,
      (MetamarginFinder.CalcLoop bias_fn midpoint direction
          (if direction < 0 then -(2 / 100) else 2 / 100)
          (MetamarginFinder.kMaxEvaluations + extra)
          (if direction < 0 then 0 else 2 / 100)).map RoundMargin
        = MetamarginFinder.Calc bias_fn midpoint direction := by
    intro extra
    unfold MetamarginFinder.Calc
    simp only []
    by_cases hd : direction < 0
    · simp only [if_pos hd]
      rw [(CalcLoop_enough_fuel bias_fn midpoint direction extra).1]
    · simp only [if_neg hd]
      rw [(CalcLoop_enough_fuel bias_fn midpoint direction extra).2]
  have hsome : ∀ v : α, MetamarginFinder.Calc bias_fn midpoint direction = some v ↔
      ∃ j : ℕ, |(MetamarginFinder.scanBias direction j : α)| ≤ 101
        ∧ MetamarginFinder.stops bias_fn midpoint direction
            (MetamarginFinder.scanBias direction j)
        ∧ (∀ i : ℕ, i < j → ¬ MetamarginFinder.stops bias_fn midpoint direction
            (MetamarginFinder.scanBias direction i))
        ∧ v = RoundMargin (-(MetamarginFinder.scanBias direction j)) := by
    intro v
    constructor
    · intro h
      simp only [MetamarginFinder.Calc, Option.map_eq_some'] at h
      obtain ⟨u, hu, rfl⟩ := h
      obtain ⟨j, _, hv, hstop, hall⟩ := CalcLoop_some _ _ _ _ _ _ _ hu
      simp only [scanBias_eq] at hv hstop hall
      refine ⟨j, ?_, hstop, fun i hi => (hall i (le_of_lt hi)).2 hi, by rw [hv]⟩
      have := (hall j (le_refl _)).1
      rw [abs_le]
      constructor
      · by_contra hc; exact this (Or.inr (lt_of_not_le hc))
      · by_contra hc; exact this (Or.inl (lt_of_not_le hc))
    · rintro ⟨j, hr, hstop, hfirst, rfl⟩
      obtain ⟨hj, hall⟩ := scanBias_range direction j hr
      have := CalcLoop_complete bias_fn midpoint direction
        (if direction < 0 then -(2 / 100) else 2 / 100) MetamarginFinder.kMaxEvaluations
        (if direction < 0 then 0 else 2 / 100) j hj
        (by rw [scanBias_eq]; exact hstop)
        (fun i hi => by
          rw [scanBias_eq]
          have := abs_le.mp (hall i hi)
          rintro (h1 | h1) <;> linarith)
        (fun i hi => by rw [scanBias_eq]; exact hfirst i hi)
      unfold MetamarginFinder.Calc
      simp only []
      rw [this, scanBias_eq]
      rfl
  refine ⟨hfuel, hsome, ?_⟩
  constructor
  · intro hnone j hr hstop
    have hex : ∃ j : ℕ, |(MetamarginFinder.scanBias direction j : α)| ≤ 101
        ∧ MetamarginFinder.stops bias_fn midpoint direction
            (MetamarginFinder.scanBias direction j) := ⟨j, hr, hstop⟩
    classical
    have hmin := Nat.find_spec hex
    have hlt := fun i (hi : i < Nat.find hex) => Nat.find_min hex hi
    have hsm := (hsome (RoundMargin (-(MetamarginFinder.scanBias direction (Nat.find hex))))).mpr
      ⟨Nat.find hex, hmin.1, hmin.2, fun i hi hs =>
        hlt i hi ⟨(scanBias_range direction _ hmin.1).2 i (le_of_lt hi), hs⟩, rfl⟩
    rw [hnone] at hsm
    exact absurd hsm (by simp)
  · intro hall
    cases hc : MetamarginFinder.Calc bias_fn midpoint direction with
    | none => rfl
    | some v =>
      obtain ⟨j, hr, hstop, _, _⟩ := (hsome v).mp hc
      exact absurd hstop (hall j hr)

end CalcExact

/-! ## Lemmas and claims on the confidence band -/

section ConfidenceLemmas

variable {α : Type} [LinearOrderedField α]

/-- The sum of the weights and the number of non-zero weights that the loop of
`WeightedStdDev` accumulates. -/
theorem WeightedStdDev_loop (weights : List α) (mean : ℤ) (n : ℕ) :
    ((List.range n).foldl
      (fun (st : α × α × ℤ) (i : ℕ) =>
        (st.1 + weights.getD i 0 * ((i : α) - (mean : α)) * ((i : α) - (mean : α)),
         st.2.1 + weights.getD i 0,
         if weights.getD i 0 ≠ 0 then st.2.2 + 1 else st.2.2))
      (0, 0, 0)).2
      = (∑ i ∈ range n, weights.getD i 0,
         (((range n).filter fun i => weights.getD i 0 ≠ 0).card : ℤ)) := by
  induction n with
  | zero => simp
  | succ n ih =>
    rw [List.range_succ, List.foldl_append]
    simp only [List.foldl_cons, List.foldl_nil]
    rw [ih, Finset.sum_range_succ, Finset.range_succ,
      Finset.filter_insert]
    by_cases h : weights.getD n 0 ≠ 0
    · rw [if_pos h, if_pos h, Finset.card_insert_of_not_mem (by simp)]
      push_cast
      rfl
    · rw [if_neg h, if_neg h]

/-- The denominator of `WeightedStdDev` in closed form, with `k` the number of non-zero
weights. -/
theorem WeightedStdDev_denom_eq (weights : List α) (mean : ℤ) :
    WeightedStdDev.denom weights mean
      = (((((range weights.length).filter fun i => weights.getD i 0 ≠ 0).card : ℤ) - 1 : ℤ) : α)
          * (∑ i ∈ range weights.length, weights.getD i 0)
        / ((((range weights.length).filter fun i => weights.getD i 0 ≠ 0).card : ℤ) : α) := by
  unfold WeightedStdDev.denom
  simp only [WeightedStdDev_loop]

/-- `WeightedStdDev` is the square root of its sum of squares over its denominator. -/
theorem WeightedStdDev_eq_sqrt_div (sqrt : α → α) (weights : List α) (mean : ℤ) :
    ∃ sum_of_squares : α,
      WeightedStdDev sqrt weights mean
        = sqrt (sum_of_squares / WeightedStdDev.denom weights mean) :=
  ⟨_, rfl⟩

/-- The denominator of `WeightedStdDev` vanishes exactly when the weights add up to zero
or at most one weight is non-zero. -/
theorem WeightedStdDev_denom_eq_zero_iff (weights : List α) (mean : ℤ) :
    WeightedStdDev.denom weights mean = 0 ↔
      (∑ i ∈ range weights.length, weights.getD i 0 = 0
        ∨ ((range weights.length).filter fun i => weights.getD i 0 ≠ 0).card ≤ 1) := by
  rw [WeightedStdDev_denom_eq, div_eq_zero_iff, mul_eq_zero]
  set k := ((range weights.length).filter fun i => weights.getD i 0 ≠ 0).card with hk
  constructor
  · rintro ((h | h) | h)
    · right
      have : ((k : ℤ) - 1 : ℤ) = 0 := by exact_mod_cast h
      omega
    · left; exact h
    · right
      have : (k : ℤ) = 0 := by exact_mod_cast h
      omega
  · rintro (h | h)
    · left; right; exact h
    · have hk' : k = 0 ∨ k = 1 := by omega
      rcases hk' with h0 | h1
      · right; rw [h0]; simp
      · left; left; rw [h1]; simp

end ConfidenceLemmas

section ConfidenceClaims

variable {α : Type} [LinearOrderedField α] [FloorRing α]

/-- C29, in the code: for the convolver over a single race won for certain, the
histogram is the spike `[0, 1]`, one weight is non-zero, and the denominator
`((k - 1) * sum) / k` of `WeightedStdDev` inside `CalcConfidence` is 0. -/
theorem WeightedStdDev_denom_zero_on_spike :
    Convolver.ofWinP [(1 : ℚ)] = [0, 1]
    ∧ WeightedStdDev.denom (Convolver.ofWinP [(1 : ℚ)])
        (Convolver.FindMean (Convolver.ofWinP [(1 : ℚ)])) = 0 := by
  decide!

end ConfidenceClaims

/-! ## Lemmas and claims on the saved house ratings -/

section RatingsLemmas

variable {α : Type} [LinearOrderedField α]

/-- Over a history in ascending date order with an entry dated at or before the day,
the loop of `UseOldHouseRatings` ends with the ratings of the last such entry. -/
theorem UseOldHouseRatings_loop_spec (data : ModelData α) :
    ∀ (history : List HouseHistoryEntry) (candidate : Option HouseRatingMap),
      history.Pairwise (fun a b => Date.le a.date b.date = true) →
      (∃ e ∈ history, Date.le e.date data.date = true) →
      ∃ pre e post, history = pre ++ e :: post
        ∧ Date.le e.date data.date = true
        ∧ (∀ x ∈ pre, Date.le x.date data.date = true)
        ∧ (∀ x ∈ post, Date.lt data.date x.date = true)
        ∧ HouseAnalysis.UseOldHouseRatings.loop data history candidate = some e.ratings := by
  intro history
  induction history with
  | nil => intro _ _ ⟨e, he, _⟩; simp at he
  | cons a rest ih =>
    intro candidate hs ⟨e, he, hle⟩
    obtain ⟨ha, hrest⟩ := List.pairwise_cons.mp hs
    have hale : Date.le a.date data.date = true := by
      rcases List.mem_cons.mp he with rfl | he'
      · exact hle
      · exact Date.le_trans (ha e he') hle
    have hgt : Date.gt a.date data.date = false := by
      unfold Date.gt
      rw [Date.lt_eq_not_le, hale]; rfl
    simp only [HouseAnalysis.UseOldHouseRatings.loop, hgt, Bool.false_eq_true, if_false]
    by_cases hex : ∃ e' ∈ rest, Date.le e'.date data.date = true
    · obtain ⟨pre, e', post, hdec, h1, h2, h3, h4⟩ := ih (some a.ratings) hrest hex
      refine ⟨a :: pre, e', post, by rw [hdec]; rfl, h1, ?_, h3, h4⟩
      intro x hx
      rcases List.mem_cons.mp hx with rfl | hx'
      · exact hale
      · exact h2 x hx'
    · have hall : ∀ x ∈ rest, Date.lt data.date x.date = true := by
        intro x hx
        rw [Date.lt_eq_not_le]
        cases hc : Date.le x.date data.date with
        | true => exact absurd ⟨x, hx, hc⟩ hex
        | false => rfl
      refine ⟨[], a, rest, rfl, hale, by simp, hall, ?_⟩
      cases rest with
      | nil => rfl
      | cons b rest' =>
        have : Date.gt b.date data.date = true := hall b (List.mem_cons_self _ _)
        simp only [HouseAnalysis.UseOldHouseRatings.loop, this, if_true]

end RatingsLemmas

section RatingsClaims

variable {α : Type} [LinearOrderedField α]

/-- C25 fails as stated: for the day 2020-10-01 analysed on election day (today is
2020-11-03, the end of the campaign), with a rating history that has an entry of
2020-09-01, the ratings used are those of the feed, not those of the history. -/
theorem ratings_on_election_day_ignore_history :
    (Date.ne (exampleData ℚ).date ⟨2020, 11, 3⟩ = true
      ∧ Date.ne (exampleData ℚ).date historyCampaign.EndDate = true
      ∧ ∃ e ∈ historyCampaign.house_history, Date.le e.date (exampleData ℚ).date = true)
    ∧ HouseAnalysis.ratings historyCampaign tossupFeed (exampleData ℚ) ⟨2020, 11, 3⟩
        = tossupFeed.house_ratings
    ∧ HouseAnalysis.ratings historyCampaign tossupFeed (exampleData ℚ) ⟨2020, 11, 3⟩
        ≠ [(0, { race_id := 0, rating := "safe", presumed_winner := "dem" })] := by
  refine ⟨⟨by decide, by decide, ⟨_, List.mem_cons_self _ _, by decide⟩⟩, by decide, by decide⟩

/-- C25, amended: when the day analysed is not today and today is not election day,
and the rating history is in ascending date order with an entry dated at or before the
day, `Analyze` uses the ratings of the most recent entry dated at or before the day;
when today is election day it uses the ratings of the feed (the derived ones when the
feed has none), whatever the history holds. -/
theorem ratings_backdated (cc : Campaign α) (feed : Feed α) (data : ModelData α)
    (today : Date)
    (hsorted : cc.house_history.Pairwise (fun a b => Date.le a.date b.date = true))
    (hentry : ∃ e ∈ cc.house_history, Date.le e.date data.date = true) :
    (Date.ne data.date today = true → Date.ne today cc.EndDate = true →
      ∃ pre e post, cc.house_history = pre ++ e :: post
        ∧ Date.le e.date data.date = true
        ∧ (∀ x ∈ pre, Date.le x.date data.date = true)
        ∧ (∀ x ∈ post, Date.lt data.date x.date = true)
        ∧ HouseAnalysis.ratings cc feed data today = e.ratings)
    ∧ (Date.ne today cc.EndDate = false →
      HouseAnalysis.ratings cc feed data today
        = if feed.house_ratings.isEmpty then HouseAnalysis.DeriveHouseRatings cc
          else feed.house_ratings) := by
  constructor
  · intro h1 h2
    obtain ⟨pre, e, post, hdec, ha, hb, hc, hloop⟩ :=
      UseOldHouseRatings_loop_spec data cc.house_history none hsorted hentry
    refine ⟨pre, e, post, hdec, ha, hb, hc, ?_⟩
    simp only [HouseAnalysis.ratings, HouseAnalysis.UseOldHouseRatings, h1, h2, hloop,
      Bool.and_self, if_true]
  · intro h2
    simp only [HouseAnalysis.ratings, h2, Bool.and_false, Bool.false_eq_true, if_false]

/-- Witness for the amended C25: the day 2020-10-01 analysed on 2020-10-15 uses the
ratings of the history entry of 2020-09-01. -/
theorem ratings_backdated_witness :
    (Date.ne (exampleData ℚ).date ⟨2020, 10, 15⟩ = true
      ∧ Date.ne ⟨2020, 10, 15⟩ historyCampaign.EndDate = true)
    ∧ ∃ pre e post, historyCampaign.house_history = pre ++ e :: post
        ∧ Date.le e.date (exampleData ℚ).date = true
        ∧ (∀ x ∈ pre, Date.le x.date (exampleData ℚ).date = true)
        ∧ (∀ x ∈ post, Date.lt (exampleData ℚ).date x.date = true)
        ∧ HouseAnalysis.ratings historyCampaign tossupFeed (exampleData ℚ) ⟨2020, 10, 15⟩
            = e.ratings :=
  ⟨⟨by decide, by decide⟩,
    (ratings_backdated historyCampaign tossupFeed (exampleData ℚ) ⟨2020, 10, 15⟩
      (by simp [historyCampaign])
      ⟨_, List.mem_cons_self _ _, by decide⟩).1 (by decide) (by decide)⟩

end RatingsClaims

/-! ## Lemmas and claims on duplicates within a batch -/

section DuplicateLemmas

variable {α : Type} [LinearOrderedField α]

/-- `IsBetterPoll` is transitive. -/
theorem IsBetterPoll_trans (a b c : Poll α) (hab : IsBetterPoll a b = true)
    (hbc : IsBetterPoll b c = true) : IsBetterPoll a c = true := by
  unfold IsBetterPoll at *
  by_cases h1 : a.sample_type = b.sample_type
  · by_cases h2 : b.sample_type = c.sample_type
    · have h3 : a.sample_type = c.sample_type := h1.trans h2
      simp only [h1, h2, h3, ne_eq, not_true_eq_false, if_false, decide_eq_true_eq] at *
      omega
    · have h3 : ¬ a.sample_type = c.sample_type := fun h => h2 (h1.symm.trans h)
      simp only [h1, ne_eq, not_true_eq_false, if_false, h2, not_false_eq_true, if_true,
        decide_eq_true_eq] at hab hbc
      rw [if_pos h3, decide_eq_true_eq, h1]
      exact hbc
  · by_cases h2 : b.sample_type = c.sample_type
    · have h3 : ¬ a.sample_type = c.sample_type := fun h => h1 (h.trans h2.symm)
      simp only [ne_eq, h1, not_false_eq_true, if_true, decide_eq_true_eq] at hab
      rw [if_pos h3, decide_eq_true_eq, ← h2]
      exact hab
    · simp only [ne_eq, h1, h2, not_false_eq_true, if_true, decide_eq_true_eq] at hab hbc
      have hsc : SampleTypeScore a.sample_type > SampleTypeScore c.sample_type := by omega
      have h3 : ¬ a.sample_type = c.sample_type := by
        intro h; rw [h] at hsc; omega
      rw [if_pos h3, decide_eq_true_eq]
      exact hsc

theorem SamePollDate_iff (a b : Poll α) :
    SamePollDate a b = true ↔ a.start = b.start ∧ a.end_ = b.end_ := by
  simp [SamePollDate, Date.eq_iff]

/-- Adding a poll to a batch keeps the batch free of a poll that is strictly better
than an earlier poll of the batch with the same dates. -/
theorem AddPollToBatch_no_later_better (poll : Poll α) :
    ∀ batch : List (Poll α),
      batch.Pairwise (fun p q => SamePollDate p q = true → IsBetterPoll q p = false) →
      (AddPollToBatch poll batch).Pairwise
        (fun p q => SamePollDate p q = true → IsBetterPoll q p = false) := by
  intro batch
  induction batch with
  | nil => intro _; simp [AddPollToBatch]
  | cons iter rest ih =>
    intro hJ
    obtain ⟨hhead, hrest⟩ := List.pairwise_cons.mp hJ
    simp only [AddPollToBatch]
    by_cases c1 : (iter.tracking && poll.tracking && Date.gt iter.end_ poll.end_) = true
    · rw [if_pos c1]; exact hJ
    · rw [if_neg c1]
      by_cases c2 : (iter.tracking && poll.tracking && Date.lt iter.end_ poll.end_) = true
      · rw [if_pos c2]; exact ih hrest
      · rw [if_neg c2]
        have hkeep : (∀ q ∈ AddPollToBatch poll rest,
            SamePollDate iter q = true → IsBetterPoll q iter = false) →
            (iter :: AddPollToBatch poll rest).Pairwise
              (fun p q => SamePollDate p q = true → IsBetterPoll q p = false) :=
          fun h => List.pairwise_cons.mpr ⟨h, ih hrest⟩
        by_cases c3 : SamePollDate poll iter = true
        · rw [if_pos c3]
          by_cases c4 : IsBetterPoll poll iter = true
          · rw [if_pos c4]
            refine List.pairwise_cons.mpr ⟨fun q hq hsame => ?_, hrest⟩
            have hiq : SamePollDate iter q = true := by
              rw [SamePollDate_iff] at c3 hsame ⊢
              exact ⟨c3.1.symm.trans hsame.1, c3.2.symm.trans hsame.2⟩
            have := hhead q hq hiq
            cases hb : IsBetterPoll q poll with
            | false => rfl
            | true =>
              rw [IsBetterPoll_trans q poll iter hb c4] at this
              exact absurd this (by decide)
          · rw [if_neg c4]
            by_cases c5 : IsBetterPoll iter poll = true
            · rw [if_pos c5]; exact hJ
            · rw [if_neg c5]
              refine hkeep (fun q hq hsame => ?_)
              rcases mem_AddPollToBatch poll q rest hq with rfl | hq'
              · simpa using c4
              · exact hhead q hq' hsame
        · rw [if_neg c3]
          refine hkeep (fun q hq hsame => ?_)
          rcases mem_AddPollToBatch poll q rest hq with rfl | hq'
          · exfalso
            apply c3
            rw [SamePollDate_iff] at hsame ⊢
            exact ⟨hsame.1.symm, hsame.2.symm⟩
          · exact hhead q hq' hsame

end DuplicateLemmas

section DuplicateClaims

variable {α : Type} [LinearOrderedField α]

/-- C27 fails as stated: after two tied polls of pollster A (likely voters, 500 each)
and a third poll of A with the same dates and a larger sample (600), the batch holds the
third poll in the place of the first and still holds the second: two polls with the
same dates of which one is strictly better. -/
theorem AddPollToMap_keeps_worse_duplicate :
    PollsterMap.batch
        ([ examplePoll "A" ⟨2020, 9, 20⟩ ⟨2020, 9, 25⟩ "lv" 500 false,
           examplePoll "A" ⟨2020, 9, 20⟩ ⟨2020, 9, 25⟩ "lv" 500 false,
           examplePoll "A" ⟨2020, 9, 20⟩ ⟨2020, 9, 25⟩ "lv" 600 false ].foldl
          AddPollToMap []) "A"
      = [ examplePoll "A" ⟨2020, 9, 20⟩ ⟨2020, 9, 25⟩ "lv" 600 false,
          examplePoll "A" ⟨2020, 9, 20⟩ ⟨2020, 9, 25⟩ "lv" 500 false ]
    ∧ SamePollDate (examplePoll "A" ⟨2020, 9, 20⟩ ⟨2020, 9, 25⟩ "lv" 600 false)
        (examplePoll "A" ⟨2020, 9, 20⟩ ⟨2020, 9, 25⟩ "lv" 500 false) = true
    ∧ IsBetterPoll (examplePoll "A" ⟨2020, 9, 20⟩ ⟨2020, 9, 25⟩ "lv" 600 false)
        (examplePoll "A" ⟨2020, 9, 20⟩ ⟨2020, 9, 25⟩ "lv" 500 false) = true := by
  decide!

/-- C27, amended: after any sequence of `AddPollToMap` calls on an empty map, no
pollster's batch holds a poll that is strictly better than an earlier poll of the batch
with the same start and end dates.  (An earlier poll can be strictly better than a later
one: a better poll replaces only the first of several tied polls.) -/
theorem AddPollToMap_no_later_better (polls : List (Poll α)) (key : String) :
    (PollsterMap.batch (polls.foldl AddPollToMap []) key).Pairwise
      (fun p q => SamePollDate p q = true → IsBetterPoll q p = false) := by
  have h : ∀ (polls : List (Poll α)) (map : PollsterMap α),
      (∀ key, (PollsterMap.batch map key).Pairwise
        (fun p q => SamePollDate p q = true → IsBetterPoll q p = false)) →
      ∀ key, (PollsterMap.batch (polls.foldl AddPollToMap map) key).Pairwise
        (fun p q => SamePollDate p q = true → IsBetterPoll q p = false) := by
    intro polls
    induction polls with
    | nil => intro map hmap key; exact hmap key
    | cons poll rest ih =>
      intro map hmap key
      rw [List.foldl_cons]
      refine ih _ (fun k => ?_) key
      unfold AddPollToMap
      by_cases hk : poll.description = k
      · rw [← hk, batch_store_same]
        exact AddPollToBatch_no_later_better poll _ (hmap _)
      · rw [batch_store_other _ _ _ _ hk]
        exact hmap k
  exact h polls [] (fun k => by simp [PollsterMap.batch]) key

end DuplicateClaims

/-! ## Lemmas and claims on the order of the poll lists -/

section SortFeedClaims

variable {α : Type} [LinearOrderedField α]

/-- `SortPolls` leaves a list ordered by end date, latest first. -/
theorem SortPolls_sorted (polls : List (Poll α)) :
    (SortPolls polls).Sorted (fun a b => Date.le b.end_ a.end_ = true) := by
  haveI : IsTotal (Poll α) (fun a b => Date.le b.end_ a.end_ = true) :=
    ⟨fun a b => Date.le_total b.end_ a.end_⟩
  haveI : IsTrans (Poll α) (fun a b => Date.le b.end_ a.end_ = true) :=
    ⟨fun a b c h1 h2 => Date.le_trans h2 h1⟩
  exact List.sorted_insertionSort _ polls

/-- What the `SortPolls` calls of `Driver::Run()` reach: the national polls, the generic
ballot polls and every poll list of the states, the Senate races and the Governor races
are ordered by end date, latest first; the house poll lists are left as the data source
produced them. -/
theorem sortFeed_sorted (feed : Feed α) :
    (Driver.sortFeed feed).national_polls.Sorted (fun a b => Date.le b.end_ a.end_ = true)
    ∧ (Driver.sortFeed feed).generic_ballot_polls.Sorted
        (fun a b => Date.le b.end_ a.end_ = true)
    ∧ (∀ state ∈ (Driver.sortFeed feed).states,
        state.2.Sorted (fun a b => Date.le b.end_ a.end_ = true))
    ∧ (∀ list ∈ (Driver.sortFeed feed).senate_polls,
        list.2.Sorted (fun a b => Date.le b.end_ a.end_ = true))
    ∧ (∀ list ∈ (Driver.sortFeed feed).governor_polls,
        list.2.Sorted (fun a b => Date.le b.end_ a.end_ = true))
    ∧ (Driver.sortFeed feed).house_polls = feed.house_polls := by
  refine ⟨SortPolls_sorted _, SortPolls_sorted _, ?_, ?_, ?_, rfl⟩
  · intro state h
    simp only [Driver.sortFeed, List.mem_map] at h
    obtain ⟨e, _, rfl⟩ := h
    exact SortPolls_sorted _
  · intro list h
    simp only [Driver.sortFeed, List.mem_map] at h
    obtain ⟨e, _, rfl⟩ := h
    exact SortPolls_sorted _
  · intro list h
    simp only [Driver.sortFeed, List.mem_map] at h
    obtain ⟨e, _, rfl⟩ := h
    exact SortPolls_sorted _

/-- C23, in the code: a feed whose poll list for house seat 0 holds a poll ending on
2020-09-22 before a poll ending on 2020-09-25, and whose national polls are the same two
polls.  After the `SortPolls` calls of `Driver::Run()` the national polls are latest
first, but the house list is still earliest first, and it is that list the house
analysis looks up. -/
theorem sortFeed_leaves_house_polls :
    (Driver.sortFeed unsortedHouseFeed).national_polls
      = [ examplePoll "B" ⟨2020, 9, 20⟩ ⟨2020, 9, 25⟩ "lv" 500 false,
          examplePoll "A" ⟨2020, 9, 18⟩ ⟨2020, 9, 22⟩ "lv" 500 false ]
    ∧ (Driver.sortFeed unsortedHouseFeed).house_polls.lookup 0
      = some [ examplePoll "A" ⟨2020, 9, 18⟩ ⟨2020, 9, 22⟩ "lv" 500 false,
               examplePoll "B" ⟨2020, 9, 20⟩ ⟨2020, 9, 25⟩ "lv" 500 false ]
    ∧ Date.le (examplePoll "B" ⟨2020, 9, 20⟩ ⟨2020, 9, 25⟩ "lv" 500 false).end_
        (examplePoll "A" ⟨2020, 9, 18⟩ ⟨2020, 9, 22⟩ "lv" 500 false).end_ = false := by
  decide!

end SortFeedClaims

/-! ## Claims on the electoral-college analysis -/

section StateAnalysisClaims

variable {α : Type} [LinearOrderedField α] [FloorRing α]

/-- The entries of the histogram of a non-empty race list with weights at least one add
up to one. -/
theorem Compute_sum_range (races : List (ℕ × α)) (hne : races ≠ [])
    (hw : ∀ r ∈ races, 1 ≤ r.1) :
    ∑ i ∈ range (Compute races).length, (Compute races).getD i 0 = 1 := by
  rw [← sum_eq_sum_range_getD]
  cases races with
  | nil => exact absurd rfl hne
  | cons d rest =>
    obtain ⟨hl, hg⟩ := rawHistogram_spec d rest hw
    simp only [Compute, List.sum_reverse]
    rw [sum_eq_sum_range_getD, hl, Finset.sum_congr rfl fun t _ => hg t]
    exact sum_lossProb (d :: rest)

/-- With weights at least one, no race is lost exactly when the total lost is zero. -/
theorem lossProb_at_zero (races : List (ℕ × α)) (hw : ∀ r ∈ races, 1 ≤ r.1) :
    ∀ n, n ≤ races.length → lossProb races n 0 = ∏ i ∈ range n, raceProb races i := by
  intro n
  induction n with
  | zero => intro _; rw [lossProb_zero]; simp
  | succ n ih =>
    intro hn
    have hwn : ¬ raceWeight races n ≤ 0 := by
      have hmem : races.getD n (0, 0) ∈ races := by
        rw [List.getD_eq_getElem _ _ (by omega)]
        exact List.getElem_mem _
      have := hw _ hmem
      unfold raceWeight
      omega
    rw [lossProb_succ, if_neg hwn, add_zero, ih (by omega), Finset.prod_range_succ]

/-- The last entry of the histogram is the probability that every race is won. -/
theorem Compute_getD_total (races : List (ℕ × α)) (hne : races ≠ [])
    (hw : ∀ r ∈ races, 1 ≤ r.1) :
    (Compute races).getD (totalWeight races) 0 = ∏ i ∈ range races.length, raceProb races i := by
  rw [(Compute_getD races hne hw).2 _ (le_refl _), ← lossProb_complement races _ (le_refl _),
    Nat.sub_self, lossProb_at_zero races hw _ (le_refl _)]

/-- The denominator of `WeightedStdDev` is not zero for weights that add up to one and
have an entry strictly between zero and one. -/
theorem WeightedStdDev_denom_ne_zero (weights : List α) (mean : ℤ) (j : ℕ)
    (hj : j < weights.length)
    (hsum : ∑ i ∈ range weights.length, weights.getD i 0 = 1)
    (h0 : weights.getD j 0 ≠ 0) (h1 : weights.getD j 0 ≠ 1) :
    WeightedStdDev.denom weights mean ≠ 0 := by
  intro hz
  rcases (WeightedStdDev_denom_eq_zero_iff weights mean).mp hz with h | h
  · rw [hsum] at h; exact one_ne_zero h
  · have hmem : j ∈ (range weights.length).filter fun i => weights.getD i 0 ≠ 0 :=
      Finset.mem_filter.mpr ⟨Finset.mem_range.mpr hj, h0⟩
    have hsing : ((range weights.length).filter fun i => weights.getD i 0 ≠ 0) = {j} := by
      apply Finset.eq_singleton_iff_unique_mem.mpr
      exact ⟨hmem, fun x hx => Finset.card_le_one.mp h x hx j hmem⟩
    have hs : ∑ i ∈ range weights.length, weights.getD i 0 = weights.getD j 0 := by
      rw [← Finset.sum_filter_ne_zero, hsing, Finset.sum_singleton]
    rw [hs] at hsum
    exact h1 hsum

/-- The denominator of `WeightedStdDev` is not zero on the histogram of the convolver
over states that each carry at least one electoral vote, when every win probability
is one half. -/
theorem zipWith_denom_ne_zero (p : RaceModel α → α) (sts : List State)
    (ms : List (RaceModel α)) (mean : ℤ) (hlen : sts.length = ms.length) (hne : sts ≠ [])
    (hevs : ∀ st ∈ sts, 1 ≤ st.evs) (hp : ∀ m ∈ ms, p m = 1 / 2) :
    WeightedStdDev.denom
      (Compute (List.zipWith (fun (st : State) (m : RaceModel α) => (st.evs.toNat, p m)) sts ms))
      mean ≠ 0 := by
  set races := List.zipWith (fun (st : State) (m : RaceModel α) => (st.evs.toNat, p m)) sts ms
    with hraces
  have hrne : races ≠ [] := by
    cases sts with
    | nil => exact absurd rfl hne
    | cons st sts =>
      cases ms with
      | nil => simp at hlen
      | cons m ms => simp [hraces]
  have hw := zipWith_weight_pos p sts ms hevs
  have hprob : ∀ i, i < races.length → raceProb races i = 1 / 2 := by
    intro i hi
    unfold raceProb
    rw [List.getD_eq_getElem _ _ hi]
    simp only [hraces, List.getElem_zipWith]
    exact hp _ (List.getElem_mem _)
  have hlast := Compute_getD_total races hrne hw
  have hval : (Compute races).getD (totalWeight races) 0 = (1 / 2 : α) ^ races.length := by
    rw [hlast, Finset.prod_congr rfl fun i hi => hprob i (Finset.mem_range.mp hi)]
    simp
  have hlen1 : 1 ≤ races.length := by
    cases hr : races with
    | nil => exact absurd hr hrne
    | cons a l => simp
  have hpos : (0 : α) < (1 / 2 : α) ^ races.length := by positivity
  have hlt : (1 / 2 : α) ^ races.length < 1 :=
    pow_lt_one₀ (by norm_num) (by norm_num) (by omega)
  refine WeightedStdDev_denom_ne_zero _ mean (totalWeight races) ?_
    (Compute_sum_range races hrne hw) ?_ ?_
  · rw [(Compute_getD races hrne hw).1]; omega
  · rw [hval]; exact ne_of_gt hpos
  · rw [hval]; exact ne_of_lt hlt

/-- C15 fails as stated: with a state of 20 electoral votes and a state of none, both
at mean margin 0 with standard deviation 3 and win probability 0.5, the total is 20, even
and positive, and the midpoint is 10, but the start score is 5: the slice of a race of
weight zero holds the single entry `1 - p`, which halves the histogram. -/
theorem StateAnalysis_zero_ev_start_score :
    (∀ m ∈ toyData.states, m.mean = 0 ∧ 0 < m.stddev ∧ m.win_prob = 1 / 2)
    ∧ (zeroEvCampaign.TotalEv % 2 = 0 ∧ 0 < zeroEvCampaign.TotalEv)
    ∧ GetTiebreakerMajority zeroEvCampaign.TotalEv - 1 = 10
    ∧ Convolver.FindMean (StateAnalysis.AnalyzeConvolver zeroEvCampaign toyData) = 5 := by
  refine ⟨?_, by decide, by decide, by decide!⟩
  intro m hm
  have hm' : m = toyStateModel := by
    simpa [toyData, exampleData] using hm
  subst hm'
  exact ⟨rfl, by decide!, rfl⟩

/-- C15, amended: for a presidential race set in which every state model has mean
margin 0, a positive standard deviation and the win probability `DemWinProb` gives it,
over states that each carry at least one electoral vote and add up to an even positive
total `T` (`States()` and `state_list()` holding the same states, one model per state,
and `erf` zero at zero and non-positive on non-positive arguments): every win
probability is 0.5, the start score `FindMean` of the convolver of
`StateAnalysis::Analyze` equals the midpoint `GetTiebreakerMajority(T) - 1 = T / 2`, and,
in a build without assertions or when the two `assert`s of `CalcConfidence` hold, the
analysis returns with metamargin exactly 0; in a build with assertions in which one of
them fails, the process aborts in `CalcConfidence`, before the metamargin search. -/
theorem StateAnalysis_symmetric_metamargin (ndebug : Bool) (sqrt erf : α → α)
    (cc : Campaign α) (data : ModelData α)
    (herf0 : erf 0 = 0) (herf : ∀ x, x ≤ 0 → erf x ≤ 0) (hsqrt : 0 < sqrt 2)
    (hperm : cc.States.Perm cc.state_list)
    (hlen : data.states.length = cc.state_list.length)
    (hevs : ∀ st ∈ cc.state_list, 1 ≤ st.evs)
    (htotal : cc.TotalEv = (cc.state_list.map State.evs).sum)
    (heven : cc.TotalEv % 2 = 0) (hpos : 0 < cc.TotalEv)
    (hmodel : ∀ m ∈ data.states, m.mean = 0 ∧ 0 < m.stddev
      ∧ m.win_prob = DemWinProb sqrt erf m.mean m.stddev 0) :
    (∀ m ∈ data.states, m.win_prob = 1 / 2)
    ∧ Convolver.FindMean (StateAnalysis.AnalyzeConvolver cc data)
        = GetTiebreakerMajority cc.TotalEv - 1
    ∧ GetTiebreakerMajority cc.TotalEv - 1 = cc.TotalEv / 2
    ∧ (StateAnalysis.AnalyzeEv ndebug sqrt erf cc data).map (fun d => d.metamargin)
        = if ndebug = true
            ∨ Convolver.CalcConfidence.asserts sqrt (StateAnalysis.AnalyzeConvolver cc data)
          then some 0 else none := by
  obtain ⟨k, hk⟩ : ∃ k : ℤ, cc.TotalEv = 2 * k := ⟨cc.TotalEv / 2, by omega⟩
  have hk0 : 0 < k := by omega
  have hGT : GetTiebreakerMajority cc.TotalEv - 1 = k := by
    unfold GetTiebreakerMajority
    rw [Int.tdiv_eq_ediv (le_of_lt hpos) (by norm_num)]
    omega
  have hdiv : cc.TotalEv / 2 = k := by omega
  have hwp0 : ∀ m ∈ data.states, DemWinProb sqrt erf m.mean m.stddev 0 = 1 / 2 := by
    intro m hm
    rw [(hmodel m hm).1]
    simp only [DemWinProb, NormalCdf, add_zero, sub_zero, zero_div, herf0]
    norm_num
  have hwp : ∀ m ∈ data.states, m.win_prob = 1 / 2 := by
    intro m hm
    rw [(hmodel m hm).2.2, hwp0 m hm]
  have hwp2 : ∀ m ∈ data.states, 1 / 2 ≤ DemWinProb sqrt erf m.mean m.stddev (2 / 100) := by
    intro m hm
    obtain ⟨h0, hs, _⟩ := hmodel m hm
    have harg : (0 - (m.mean + 2 / 100)) / (m.stddev * sqrt 2) ≤ 0 := by
      rw [h0]
      exact div_nonpos_of_nonpos_of_nonneg (by norm_num) (le_of_lt (mul_pos hs hsqrt))
    have := herf _ harg
    simp only [DemWinProb, NormalCdf]
    linarith
  have hsumL : (cc.state_list.map State.evs).sum = 2 * k := by rw [← htotal, hk]
  have hsumS : (cc.States.map State.evs).sum = 2 * k := by
    rw [(hperm.map State.evs).sum_eq, hsumL]
  have hevsS : ∀ st ∈ cc.States, 1 ≤ st.evs := fun st h => hevs st (hperm.mem_iff.mp h)
  have hlenS : cc.States.length = data.states.length := by rw [hperm.length_eq, hlen]
  have hstart : Convolver.FindMean (StateAnalysis.AnalyzeConvolver cc data) = k :=
    (FindMean_zipWith (fun m : RaceModel α => m.win_prob) cc.States data.states
      hlenS hevsS k hk0 hsumS).2 hwp
  have hb0 : StateAnalysis.GetBiasFn sqrt erf cc data 0 = k :=
    (FindMean_zipWith (fun m : RaceModel α => DemWinProb sqrt erf m.mean m.stddev 0)
      cc.state_list data.states hlen.symm hevs k hk0 hsumL).2 hwp0
  have hb2 : k ≤ StateAnalysis.GetBiasFn sqrt erf cc data (2 / 100) :=
    (FindMean_zipWith (fun m : RaceModel α => DemWinProb sqrt erf m.mean m.stddev (2 / 100))
      cc.state_list data.states hlen.symm hevs k hk0 hsumL).1 hwp2
  have hmm : MetamarginFinder.metamargin (StateAnalysis.GetBiasFn sqrt erf cc data) k k
      cc.TotalEv = (some 0 : Option α) := by
    unfold MetamarginFinder.metamargin
    rw [if_neg (not_not.mpr rfl), if_neg (by omega : ¬ k = 0),
      if_neg (by omega : ¬ k = cc.TotalEv), Calc_up_first _ _ hb2,
      Calc_down_first _ _ (le_of_eq hb0)]
    simp
  have hSne : cc.States ≠ [] := by
    intro h
    rw [h] at hsumS
    simp at hsumS
    omega
  have hdne : data.states ≠ [] := by
    intro h
    rw [h] at hlenS
    exact hSne (List.length_eq_zero.mp hlenS)
  have hguard : ¬ (cc.States.isEmpty = true ∨ data.states.isEmpty = true
      ∨ cc.state_list.length < data.states.length) := by
    rw [List.isEmpty_iff, List.isEmpty_iff]
    rintro (h | h | h)
    · exact hSne h
    · exact hdne h
    · omega
  have hden : WeightedStdDev.denom (StateAnalysis.AnalyzeConvolver cc data)
      (Convolver.FindMean (StateAnalysis.AnalyzeConvolver cc data)) ≠ 0 :=
    zipWith_denom_ne_zero (fun m : RaceModel α => m.win_prob) cc.States data.states _
      hlenS hSne hevsS hwp
  refine ⟨hwp, by rw [hGT, hstart], by rw [hGT, hdiv], ?_⟩
  simp only [StateAnalysis.AnalyzeEv, if_neg hguard, Convolver.CalcConfidence.checked,
    if_neg hden]
  by_cases hb : ndebug = true
  · have h1 : ¬ (ndebug = false ∧ ¬ Convolver.CalcConfidence.asserts sqrt
        (StateAnalysis.AnalyzeConvolver cc data)) := by
      rintro ⟨h, _⟩
      rw [hb] at h
      exact absurd h (by decide)
    rw [if_neg h1, if_pos (Or.inl hb)]
    simp only [hGT, hstart, hmm, Option.map_some']
  · have hf : ndebug = false := by
      cases ndebug
      · rfl
      · exact absurd rfl hb
    by_cases ha : Convolver.CalcConfidence.asserts sqrt (StateAnalysis.AnalyzeConvolver cc data)
    · have h1 : ¬ (ndebug = false ∧ ¬ Convolver.CalcConfidence.asserts sqrt
          (StateAnalysis.AnalyzeConvolver cc data)) := fun h => h.2 ha
      rw [if_neg h1, if_pos (Or.inr ha)]
      simp only [hGT, hstart, hmm, Option.map_some']
    · have h1 : (ndebug = false ∧ ¬ Convolver.CalcConfidence.asserts sqrt
          (StateAnalysis.AnalyzeConvolver cc data)) := ⟨hf, ha⟩
      have h2 : ¬ (ndebug = true ∨ Convolver.CalcConfidence.asserts sqrt
          (StateAnalysis.AnalyzeConvolver cc data)) := by
        rintro (h | h)
        · exact hb h
        · exact ha h
      rw [if_pos h1, if_neg h2]
      rfl

/-- Witness for the amended C15, the toy case of two states of 10 electoral votes each
with mean margin 0, in a build without assertions: the start score is 10, which is also
the mode, and the metamargin is 0. -/
theorem StateAnalysis_symmetric_metamargin_witness :
    (toyCampaign.TotalEv % 2 = 0 ∧ 0 < toyCampaign.TotalEv
      ∧ Convolver.FindMode (StateAnalysis.AnalyzeConvolver toyCampaign toyData) = 10)
    ∧ (∀ m ∈ toyData.states, m.win_prob = 1 / 2)
    ∧ Convolver.FindMean (StateAnalysis.AnalyzeConvolver toyCampaign toyData)
        = GetTiebreakerMajority toyCampaign.TotalEv - 1
    ∧ GetTiebreakerMajority toyCampaign.TotalEv - 1 = toyCampaign.TotalEv / 2
    ∧ (StateAnalysis.AnalyzeEv true toySqrt toyErf toyCampaign toyData).map
        (fun d => d.metamargin) = some 0 := by
  have h := StateAnalysis_symmetric_metamargin true toySqrt toyErf toyCampaign toyData
    (by decide!)
    (fun x hx => div_nonpos_of_nonpos_of_nonneg hx (by positivity))
    (by decide!) (List.Perm.refl _) (by decide) (by decide) (by decide) (by decide)
    (by decide)
    (by
      intro m hm
      have hm' : m = toyStateModel := by
        simpa [toyData, exampleData] using hm
      subst hm'
      exact ⟨rfl, by decide!, by decide!⟩)
  refine ⟨⟨by decide, by decide, by decide!⟩, h.1, h.2.1, h.2.2.1, ?_⟩
  rw [h.2.2.2, if_pos (Or.inl rfl)]

/-- `WeightedStdDev` is the square root of the quotient it forms. -/
theorem WeightedStdDev_eq_sqrt_radicand (sqrt : α → α) (weights : List α) (mean : ℤ) :
    WeightedStdDev sqrt weights mean = sqrt (WeightedStdDev.radicand weights mean) :=
  rfl

/-- The toy case in a build with assertions: the histogram of two states of 10 electoral
votes at probability 0.5 has mean 10 and variance 75, so for every square root with
`8.25 <= sqrt(75) < 8.75` (the real one is about 8.66) `CalcConfidence` has `dt = 17`,
its second `assert` fails (`10 + 17 > 21 + 1`), and the analysis does not return. -/
theorem AnalyzeEv_toy_case_asserts (sqrt : ℚ → ℚ) (hlow : 33 / 4 ≤ sqrt 75)
    (hhigh : sqrt 75 < 35 / 4) :
    Convolver.FindMean (StateAnalysis.AnalyzeConvolver toyCampaign toyData) = 10
    ∧ WeightedStdDev.radicand (StateAnalysis.AnalyzeConvolver toyCampaign toyData) 10 = 75
    ∧ RoundToNearest (WeightedStdDev sqrt (StateAnalysis.AnalyzeConvolver toyCampaign toyData)
        10 * 2) = 17
    ∧ ¬ Convolver.CalcConfidence.asserts sqrt (StateAnalysis.AnalyzeConvolver toyCampaign toyData)
    ∧ StateAnalysis.AnalyzeEv false sqrt toyErf toyCampaign toyData = none := by
  have hmean : Convolver.FindMean (StateAnalysis.AnalyzeConvolver toyCampaign toyData) = 10 := by
    decide!
  have hrad : WeightedStdDev.radicand (StateAnalysis.AnalyzeConvolver toyCampaign toyData) 10
      = 75 := by decide!
  have hlen : (StateAnalysis.AnalyzeConvolver toyCampaign toyData).length = 21 := by decide!
  have hden : WeightedStdDev.denom (StateAnalysis.AnalyzeConvolver toyCampaign toyData) 10
      ≠ 0 := by decide!
  have hdt : RoundToNearest (WeightedStdDev sqrt
      (StateAnalysis.AnalyzeConvolver toyCampaign toyData) 10 * 2) = 17 := by
    rw [WeightedStdDev_eq_sqrt_radicand, hrad]
    have h0 : (0 : ℚ) ≤ sqrt 75 * 2 := by linarith
    rw [RoundToNearest, if_pos h0, Int.floor_eq_iff]
    constructor
    · push_cast; linarith
    · push_cast; linarith
  have hassert : ¬ Convolver.CalcConfidence.asserts sqrt
      (StateAnalysis.AnalyzeConvolver toyCampaign toyData) := by
    unfold Convolver.CalcConfidence.asserts
    rw [hmean, hdt, hlen]
    decide
  refine ⟨hmean, hrad, hdt, hassert, ?_⟩
  have hguard : ¬ (toyCampaign.States.isEmpty = true ∨ toyData.states.isEmpty = true
      ∨ toyCampaign.state_list.length < toyData.states.length) := by decide
  simp only [StateAnalysis.AnalyzeEv, if_neg hguard, Convolver.CalcConfidence.checked, hmean,
    if_neg hden]
  rw [if_pos ⟨trivial, hassert⟩]

/-- With the real square root, `round(2 * sqrt(75))` is 17: the square root of 75 lies
between 8.25 and 8.75. -/
theorem RoundToNearest_sqrt_75 : RoundToNearest (Real.sqrt 75 * 2) = 17 := by
  have hlow : (33 / 4 : ℝ) ≤ Real.sqrt 75 := by
    rw [Real.le_sqrt' (by norm_num)]
    norm_num
  have hhigh : Real.sqrt 75 < 35 / 4 := by
    rw [Real.sqrt_lt' (by norm_num)]
    norm_num
  have h0 : (0 : ℝ) ≤ Real.sqrt 75 * 2 := by linarith
  rw [RoundToNearest, if_pos h0, Int.floor_eq_iff]
  constructor
  · push_cast; linarith
  · push_cast; linarith

end StateAnalysisClaims

/-! ## Claims on the house analysis -/

section HouseClaims

variable {α : Type} [LinearOrderedField α] [FloorRing α]

/-- C11, in the code: a roster that lists one seat out of 435 (235 Democratic, 200
Republican), rated "tossup", with no current holder and no polls.  The analysis
completes with one convolved race, 235 safe Democratic and 200 safe Republican seats:
436 seats in all, against the 435 of the house. -/
theorem HouseAnalysis_seat_count_broken :
    (HouseAnalysis.Analyze toyLib (sparseHouseCampaign (toyHouseRace 0 "" "" "tossup"))
        ({} : Feed ℚ) (exampleData ℚ) ⟨2020, 10, 1⟩).map
      (fun d => ((d.house_races.length : Int), d.house_safe_seats))
      = some (1, { dem := 235, gop := 200 })
    ∧ (1 : Int) + 235 + 200
      ≠ (sparseHouseCampaign (toyHouseRace 0 "" "" "tossup")).house_map.total_seats := by
  decide!

/-- C12 fails as stated: a race rated "likely" for the Democrats, held by them, with
no polls, is not left out of the convolution: it enters `win_p` with probability 0.85
and is stored with the day's house races. -/
theorem HouseAnalysis_likely_race_convolved :
    HouseAnalysis.selectedPolls (sparseHouseCampaign (toyHouseRace 0 "dem" "dem" "likely"))
        ({} : Feed ℚ) (exampleData ℚ) (toyHouseRace 0 "dem" "dem" "likely") = []
    ∧ (HouseAnalysis.Analyze toyLib (sparseHouseCampaign (toyHouseRace 0 "dem" "dem" "likely"))
        ({} : Feed ℚ) (exampleData ℚ) ⟨2020, 10, 1⟩).map
      (fun d => (d.house_races.map (fun m => (m.rating, m.win_prob)), d.house_safe_seats))
      = some ([("likely dem", 17 / 20)], { dem := 234, gop := 200 }) := by
  decide!

/-- C12, amended: for a House race with no selected polls, by its entry in the ratings.
With a rating other than "" and "safe" ("likely", as well as "tossup", "leans" or any
other text) the race is not left out: it enters `win_p` with the probability
`EstimateProbability` gives it, 0.85 for "likely" (0.15 when the presumed winner is
"gop"), it is stored with the day's house races, the safe-seat counters stay as they
are, and the seat counts toward the unsafe seats of its current holder.  Only with the
rating "safe", the rating "" or no entry at all is the race left out: it adds no entry
and counts as a safe seat of the presumed winner, "dem" or "gop" (with no entry, the
presumed winner of the race or else its current holder); with any other presumed winner
the process ends in `Fatal()`. -/
theorem raceStep_no_polls (lib : Lib α) (cc : Campaign α) (feed : Feed α) (data : ModelData α)
    (house_ratings : HouseRatingMap) (t : HouseTally α) (race : Race)
    (hpolls : HouseAnalysis.selectedPolls cc feed data race = []) :
    (∀ hr : HouseRating, house_ratings.lookup race.race_id = some hr →
      hr.rating ≠ "" → hr.rating ≠ "safe" →
      ∃ t', HouseAnalysis.raceStep lib cc feed data house_ratings t race = some t'
        ∧ t'.win_p
            = t.win_p ++ [HouseAnalysis.EstimateProbability lib hr.rating hr.presumed_winner]
        ∧ t'.house_races.length = t.house_races.length + 1
        ∧ t'.safe_dem = t.safe_dem ∧ t'.safe_gop = t.safe_gop
        ∧ t'.unsafe_dem = t.unsafe_dem + (if race.current_holder = "dem" then 1 else 0)
        ∧ t'.unsafe_gop = t.unsafe_gop
            + (if race.current_holder = "dem" then 0
               else if race.current_holder = "gop" then 1 else 0))
    ∧ (∀ winner : String, lib.split "likely" = ["likely"] →
      HouseAnalysis.EstimateProbability lib "likely" winner
        = if winner = "gop" then 15 / 100 else 85 / 100)
    ∧ (∀ presumed : String,
      ((∃ hr : HouseRating, house_ratings.lookup race.race_id = some hr
          ∧ (hr.rating = "" ∨ hr.rating = "safe") ∧ presumed = hr.presumed_winner)
        ∨ (house_ratings.lookup race.race_id = none
          ∧ presumed = if race.presumed_winner ≠ "" then race.presumed_winner
              else race.current_holder)) →
      (presumed = "dem" →
        ∃ t', HouseAnalysis.raceStep lib cc feed data house_ratings t race = some t'
          ∧ t'.win_p = t.win_p ∧ t'.house_races = t.house_races
          ∧ t'.safe_dem = t.safe_dem + 1 ∧ t'.safe_gop = t.safe_gop)
      ∧ (presumed = "gop" →
        ∃ t', HouseAnalysis.raceStep lib cc feed data house_ratings t race = some t'
          ∧ t'.win_p = t.win_p ∧ t'.house_races = t.house_races
          ∧ t'.safe_dem = t.safe_dem ∧ t'.safe_gop = t.safe_gop + 1)
      ∧ (presumed ≠ "dem" → presumed ≠ "gop" →
        HouseAnalysis.raceStep lib cc feed data house_ratings t race = none)) := by
  refine ⟨?_, ?_, ?_⟩
  · rintro ⟨id, rating, winner⟩ hhr hne hns
    simp only at hne hns
    have h2 : ¬ (race.current_holder = "" ∧ rating = "" ∧ winner = "") :=
      fun h => hne h.2.1
    have h3 : ¬ (rating = "" ∨ rating = "safe") := fun h => h.elim hne hns
    by_cases ht : rating = "tossup"
    · have h1 : ¬ rating ≠ "tossup" := not_not.mpr ht
      simp only [HouseAnalysis.raceStep, hhr, hpolls, RaceModel.fresh, if_neg h2,
        if_neg h3, if_neg h1, List.isEmpty_nil, not_true_eq_false, if_false]
      refine ⟨_, rfl, ?_⟩
      simp only [HouseTally.convolve]
      by_cases hd : race.current_holder = "dem"
      · simp [hd]
      · by_cases hg : race.current_holder = "gop"
        · simp [hd, hg]
        · simp [hd, hg]
    · have h1 : rating ≠ "tossup" := ht
      simp only [HouseAnalysis.raceStep, hhr, hpolls, RaceModel.fresh, if_neg h2,
        if_neg h3, if_pos h1, List.isEmpty_nil, not_true_eq_false, if_false]
      refine ⟨_, rfl, ?_⟩
      simp only [HouseTally.convolve]
      by_cases hd : race.current_holder = "dem"
      · simp [hd]
      · by_cases hg : race.current_holder = "gop"
        · simp [hd, hg]
        · simp [hd, hg]
  · intro winner hsplit
    simp [HouseAnalysis.EstimateProbability, hsplit]
    split_ifs <;> norm_num
  · intro presumed hcase
    rcases hcase with ⟨⟨id, rating, winner⟩, hhr, hrating, hpres⟩ | ⟨hnone, hpres⟩
    · simp only at hrating hpres
      subst hpres
      have h3 : (rating = "" ∨ rating = "safe") := hrating
      have hnt : rating ≠ "tossup" := by
        rcases hrating with h | h <;> rw [h] <;> decide
      refine ⟨fun hd => ?_, fun hg => ?_, fun hd hg => ?_⟩
      · subst hd
        have h2 : ¬ (race.current_holder = "" ∧ rating = "" ∧ ("dem" : String) = "") :=
          fun h => absurd h.2.2 (by decide)
        have h4 : ¬ (("dem" : String) = "gop") := by decide
        simp only [HouseAnalysis.raceStep, hhr, hpolls, RaceModel.fresh, if_pos hnt, if_neg h2,
          if_pos h3, if_neg h4, List.isEmpty_nil, not_true_eq_false, if_false, if_true]
        by_cases hg : race.current_holder = "gop"
        · rw [if_pos hg]; exact ⟨_, rfl, rfl, rfl, rfl, rfl⟩
        · rw [if_neg hg]; exact ⟨_, rfl, rfl, rfl, rfl, rfl⟩
      · subst hg
        have h2 : ¬ (race.current_holder = "" ∧ rating = "" ∧ ("gop" : String) = "") :=
          fun h => absurd h.2.2 (by decide)
        simp only [HouseAnalysis.raceStep, hhr, hpolls, RaceModel.fresh, if_pos hnt, if_neg h2,
          if_pos h3, List.isEmpty_nil, not_true_eq_false, if_false, if_true]
        by_cases hg : race.current_holder = "dem"
        · rw [if_pos hg]; exact ⟨_, rfl, rfl, rfl, rfl, rfl⟩
        · rw [if_neg hg]; exact ⟨_, rfl, rfl, rfl, rfl, rfl⟩
      · simp only [HouseAnalysis.raceStep, hhr, hpolls, RaceModel.fresh, if_pos hnt, if_pos h3, if_neg hd,
          if_neg hg, List.isEmpty_nil, not_true_eq_false, if_false]
        split_ifs <;> rfl
    · have hstep : HouseAnalysis.raceStep lib cc feed data house_ratings t race
          = if race.current_holder = "" ∧ presumed = "" then none
            else if presumed = "gop" then
              if race.current_holder = "dem" then
                some { t with safe_gop := t.safe_gop + 1, flips_to_gop := t.flips_to_gop + 1,
                              unsafe_dem := t.unsafe_dem + 1 }
              else some { t with safe_gop := t.safe_gop + 1 }
            else if presumed = "dem" then
              if race.current_holder = "gop" then
                some { t with safe_dem := t.safe_dem + 1, flips_to_dem := t.flips_to_dem + 1,
                              unsafe_gop := t.unsafe_gop + 1 }
              else some { t with safe_dem := t.safe_dem + 1 }
            else none := by
        simp only [HouseAnalysis.raceStep, hnone, hpolls, RaceModel.fresh, List.isEmpty_nil,
          not_true_eq_false, if_false, ← hpres, true_and, true_or, if_true]
      rw [hstep]
      refine ⟨fun hd => ?_, fun hg => ?_, fun hd hg => ?_⟩
      · rw [hd]
        have h2 : ¬ (race.current_holder = "" ∧ ("dem" : String) = "") :=
          fun h => absurd h.2 (by decide)
        have h4 : ¬ (("dem" : String) = "gop") := by decide
        rw [if_neg h2, if_neg h4, if_pos rfl]
        by_cases hg : race.current_holder = "gop"
        · rw [if_pos hg]; exact ⟨_, rfl, rfl, rfl, rfl, rfl⟩
        · rw [if_neg hg]; exact ⟨_, rfl, rfl, rfl, rfl, rfl⟩
      · rw [hg]
        have h2 : ¬ (race.current_holder = "" ∧ ("gop" : String) = "") :=
          fun h => absurd h.2 (by decide)
        rw [if_neg h2, if_pos rfl]
        by_cases hd : race.current_holder = "dem"
        · rw [if_pos hd]; exact ⟨_, rfl, rfl, rfl, rfl, rfl⟩
        · rw [if_neg hd]; exact ⟨_, rfl, rfl, rfl, rfl, rfl⟩
      · rw [if_neg hg, if_neg hd]
        split_ifs <;> rfl

/-- Witness for the amended C12: the "likely" Democratic seat of the example enters
`win_p` with 0.85 and leaves the safe-seat counters at zero. -/
theorem raceStep_no_polls_witness :
    (HouseAnalysis.selectedPolls (sparseHouseCampaign (toyHouseRace 0 "dem" "dem" "likely"))
        ({} : Feed ℚ) (exampleData ℚ) (toyHouseRace 0 "dem" "dem" "likely") = []
      ∧ List.lookup (toyHouseRace 0 "dem" "dem" "likely").race_id
          (HouseAnalysis.ratings (sparseHouseCampaign (toyHouseRace 0 "dem" "dem" "likely"))
            ({} : Feed ℚ) (exampleData ℚ) ⟨2020, 10, 1⟩)
        = some { race_id := 0, rating := "likely", presumed_winner := "dem" })
    ∧ HouseAnalysis.EstimateProbability toyLib "likely" "dem" = 85 / 100
    ∧ ∃ t', HouseAnalysis.raceStep toyLib
          (sparseHouseCampaign (toyHouseRace 0 "dem" "dem" "likely")) ({} : Feed ℚ)
          (exampleData ℚ)
          (HouseAnalysis.ratings (sparseHouseCampaign (toyHouseRace 0 "dem" "dem" "likely"))
            ({} : Feed ℚ) (exampleData ℚ) ⟨2020, 10, 1⟩)
          {} (toyHouseRace 0 "dem" "dem" "likely") = some t'
        ∧ t'.win_p
            = ([] : List ℚ) ++ [HouseAnalysis.EstimateProbability toyLib "likely" "dem"]
        ∧ t'.safe_dem = 0 ∧ t'.safe_gop = 0 :=
  ⟨⟨by decide!, by decide!⟩,
    by
      rw [(raceStep_no_polls toyLib (sparseHouseCampaign (toyHouseRace 0 "dem" "dem" "likely"))
          ({} : Feed ℚ) (exampleData ℚ)
          (HouseAnalysis.ratings (sparseHouseCampaign (toyHouseRace 0 "dem" "dem" "likely"))
            ({} : Feed ℚ) (exampleData ℚ) ⟨2020, 10, 1⟩)
          {} (toyHouseRace 0 "dem" "dem" "likely") (by decide!)).2.1 "dem" (by decide!)]
      decide!,
    by
      obtain ⟨t', h1, h2, _, h4, h5, _⟩ :=
        (raceStep_no_polls toyLib (sparseHouseCampaign (toyHouseRace 0 "dem" "dem" "likely"))
          ({} : Feed ℚ) (exampleData ℚ)
          (HouseAnalysis.ratings (sparseHouseCampaign (toyHouseRace 0 "dem" "dem" "likely"))
            ({} : Feed ℚ) (exampleData ℚ) ⟨2020, 10, 1⟩)
          {} (toyHouseRace 0 "dem" "dem" "likely") (by decide!)).1
          { race_id := 0, rating := "likely", presumed_winner := "dem" }
          (by decide!) (by decide) (by decide)
      exact ⟨t', h1, h2, h4, h5⟩⟩

end HouseClaims

/-! ## Lemmas on the predictor -/

section PredictLemmas

variable {α : Type} [LinearOrderedField α] [FloorRing α]

theorem stdClamp_mem (v lo hi : α) (h : lo ≤ hi) :
    lo ≤ stdClamp v lo hi ∧ stdClamp v lo hi ≤ hi := by
  unfold stdClamp
  split_ifs with h1 h2
  · exact ⟨le_refl _, h⟩
  · exact ⟨h, le_refl _⟩
  · exact ⟨le_of_not_lt h1, le_of_not_lt h2⟩

/-- `Bayes` sets the win probability, clamped, when the score to win is positive. -/
theorem Bayes_dem_win_p_range (lib : Lib α) (mp : MarginPredictor α) (p : Prediction α)
    (days_left : ℤ) (h : mp.score_to_win > 0) :
    1 / 100 ≤ (Predictor.Bayes lib mp p days_left).2.dem_win_p
      ∧ (Predictor.Bayes lib mp p days_left).2.dem_win_p ≤ 99 / 100 := by
  have h0 : ¬ mp.score_to_win = 0 := by omega
  simp only [Predictor.Bayes, if_pos h, if_neg h0]
  exact stdClamp_mem _ _ _ (by norm_num)

/-- `Bayes` leaves the win probability as it finds it when the score to win is not
positive. -/
theorem Bayes_dem_win_p_unchanged (lib : Lib α) (mp : MarginPredictor α) (p : Prediction α)
    (days_left : ℤ) (h : ¬ mp.score_to_win > 0) :
    (Predictor.Bayes lib mp p days_left).2.dem_win_p = p.dem_win_p := by
  simp only [Predictor.Bayes, if_neg h]
  split_ifs <;> rfl

/-- The score to win of the Senate predictor. -/
theorem senate_score_to_win (lib : Lib α) (table : List α) (cc : Campaign α)
    (priors : List (ModelData α)) (day : ModelData α) :
    (SetBayesParameters (SenateAnalysis.traits lib) table cc day priors).score_to_win
      = if day.senate_can_flip = true then
          cc.senate_map.dem_seats_for_control - day.senate_safe_seats.dem
        else 0 := by
  simp only [SetBayesParameters, SenateAnalysis.traits, SenateAnalysis.GetScoreToWin]
  split_ifs <;> simp_all

/-- The score to win of the House predictor. -/
theorem house_score_to_win (lib : Lib α) (table : List α) (cc : Campaign α)
    (priors : List (ModelData α)) (day : ModelData α) :
    (SetBayesParameters (HouseAnalysis.traits lib) table cc day priors).score_to_win
      = if day.house_can_flip = true then
          GetTiebreakerMajority cc.house_map.total_seats - day.house_safe_seats.dem
        else 0 := by
  simp only [SetBayesParameters, HouseAnalysis.traits, HouseAnalysis.GetScoreToWin]
  split_ifs <;> simp_all

/-- The first block of `PredictDay`: when it does not return, what it leaves alone, and
the clamp of the electoral-college win probability to `[0.5, 0.95]`. -/
theorem president_spec (lib : Lib α) (cc : Campaign α) (priors : List (ModelData α))
    (days_left : ℤ) (day : ModelData α) :
    (Predictor.PredictDay.president lib cc priors days_left day = none ↔
      cc.IsPresidentialYear = true
        ∧ (day.states = [] ∨ cc.state_list.length < day.states.length))
    ∧ ∀ day', Predictor.PredictDay.president lib cc priors days_left day = some day' →
      (day'.date = day.date ∧ day'.senate_races = day.senate_races
        ∧ day'.senate_can_flip = day.senate_can_flip
        ∧ day'.senate_safe_seats = day.senate_safe_seats
        ∧ day'.senate_prediction = day.senate_prediction
        ∧ day'.house_can_flip = day.house_can_flip
        ∧ day'.house_safe_seats = day.house_safe_seats
        ∧ day'.house_races = day.house_races
        ∧ day'.house_prediction = day.house_prediction)
      ∧ (cc.IsPresidentialYear = true →
        1 / 2 ≤ day'.ec_prediction.dem_win_p ∧ day'.ec_prediction.dem_win_p ≤ 95 / 100) := by
  unfold Predictor.PredictDay.president
  by_cases hy : cc.IsPresidentialYear = true
  · by_cases hg : day.states.isEmpty = true ∨ cc.state_list.length < day.states.length
    · rw [if_pos hy, if_pos hg]
      refine ⟨⟨fun _ => ⟨hy, ?_⟩, fun _ => rfl⟩, fun day' h => absurd h (by simp)⟩
      rcases hg with h | h
      · exact Or.inl (List.isEmpty_iff.mp h)
      · exact Or.inr h
    · rw [if_pos hy, if_neg hg]
      refine ⟨⟨fun h => absurd h (by simp), fun h => ?_⟩, fun day' h => ?_⟩
      · exfalso
        apply hg
        rcases h.2 with h | h
        · exact Or.inl (List.isEmpty_iff.mpr h)
        · exact Or.inr h
      · simp only [Option.some.injEq] at h
        subst h
        exact ⟨⟨rfl, rfl, rfl, rfl, rfl, rfl, rfl, rfl, rfl⟩,
          fun _ => stdClamp_mem _ _ _ (by norm_num)⟩
  · rw [if_neg hy]
    refine ⟨⟨fun h => absurd h (by simp), fun h => absurd h.1 hy⟩, fun day' h => ?_⟩
    simp only [Option.some.injEq] at h
    subst h
    exact ⟨⟨rfl, rfl, rfl, rfl, rfl, rfl, rfl, rfl, rfl⟩, fun h => absurd h hy⟩

/-- The second block of `PredictDay`: when it does not return, what it leaves alone, and
what it does to the win probability of the Senate prediction. -/
theorem senate_spec (lib : Lib α) (cc : Campaign α) (priors : List (ModelData α))
    (days_left : ℤ) (day : ModelData α) :
    (Predictor.PredictDay.senate lib cc priors days_left day = none ↔
      day.senate_races ≠ []
        ∧ ∀ race ∈ day.senate_races, race.polls = [] ∧ race.rating ≠ "")
    ∧ ∀ day', Predictor.PredictDay.senate lib cc priors days_left day = some day' →
      (day'.date = day.date ∧ day'.ec_prediction = day.ec_prediction
        ∧ day'.house_can_flip = day.house_can_flip
        ∧ day'.house_safe_seats = day.house_safe_seats
        ∧ day'.house_races = day.house_races
        ∧ day'.house_prediction = day.house_prediction)
      ∧ (day.senate_races ≠ [] → day.senate_can_flip = true →
        day.senate_safe_seats.dem < cc.senate_map.dem_seats_for_control →
        1 / 100 ≤ day'.senate_prediction.dem_win_p
          ∧ day'.senate_prediction.dem_win_p ≤ 99 / 100)
      ∧ (day.senate_can_flip = false →
        day'.senate_prediction.dem_win_p = day.senate_prediction.dem_win_p) := by
  have hall : (day.senate_races.all fun race => decide (race.polls.isEmpty = true ∧ race.rating ≠ ""))
      = true ↔ ∀ race ∈ day.senate_races, race.polls = [] ∧ race.rating ≠ "" := by
    rw [List.all_eq_true]
    constructor
    · intro h race hr
      have := h race hr
      simp only [decide_eq_true_eq] at this
      exact ⟨List.isEmpty_iff.mp this.1, this.2⟩
    · intro h race hr
      simp only [decide_eq_true_eq]
      exact ⟨List.isEmpty_iff.mpr (h race hr).1, (h race hr).2⟩
  unfold Predictor.PredictDay.senate
  by_cases hr : ¬ day.senate_races.isEmpty = true
  · have hne : day.senate_races ≠ [] := fun h => hr (List.isEmpty_iff.mpr h)
    by_cases hg : (day.senate_races.all fun race =>
        decide (race.polls.isEmpty = true ∧ race.rating ≠ "")) = true
    · rw [if_pos hr, if_pos hg]
      exact ⟨⟨fun _ => ⟨hne, hall.mp hg⟩, fun _ => rfl⟩, fun day' h => absurd h (by simp)⟩
    · rw [if_pos hr, if_neg hg]
      refine ⟨⟨fun h => absurd h (by simp), fun h => absurd (hall.mpr h.2) hg⟩,
        fun day' h => ?_⟩
      simp only [Option.some.injEq] at h
      subst h
      refine ⟨⟨rfl, rfl, rfl, rfl, rfl, rfl⟩, fun _ hf hs => ?_, fun hf => ?_⟩
      · exact Bayes_dem_win_p_range lib _ _ _ (by rw [senate_score_to_win, if_pos hf]; omega)
      · refine Bayes_dem_win_p_unchanged lib _ _ _ ?_
        rw [senate_score_to_win]
        simp [hf]
  · rw [if_neg hr]
    have he : day.senate_races = [] := List.isEmpty_iff.mp (not_not.mp hr)
    refine ⟨⟨fun h => absurd h (by simp), fun h => absurd he h.1⟩, fun day' h => ?_⟩
    simp only [Option.some.injEq] at h
    subst h
    exact ⟨⟨rfl, rfl, rfl, rfl, rfl, rfl⟩, fun h => absurd he h, fun _ => rfl⟩

/-- The third block of `PredictDay`: when it does not return, what it leaves alone, and
the clamp of the win probability of the House prediction. -/
theorem house_spec (lib : Lib α) (cc : Campaign α) (priors : List (ModelData α))
    (days_left : ℤ) (day : ModelData α) :
    (Predictor.PredictDay.house lib cc priors days_left day = none ↔
      day.house_can_flip = true
        ∧ GetTiebreakerMajority cc.house_map.total_seats - day.house_safe_seats.dem ≠ 0
        ∧ day.house_races = [])
    ∧ ∀ day', Predictor.PredictDay.house lib cc priors days_left day = some day' →
      (day'.date = day.date ∧ day'.ec_prediction = day.ec_prediction
        ∧ day'.senate_prediction = day.senate_prediction)
      ∧ (day.house_can_flip = true →
        day.house_safe_seats.dem < GetTiebreakerMajority cc.house_map.total_seats →
        1 / 100 ≤ day'.house_prediction.dem_win_p
          ∧ day'.house_prediction.dem_win_p ≤ 99 / 100) := by
  unfold Predictor.PredictDay.house
  by_cases hf : day.house_can_flip = true
  · simp only [if_pos hf, house_score_to_win]
    by_cases hg : GetTiebreakerMajority cc.house_map.total_seats - day.house_safe_seats.dem ≠ 0
        ∧ day.house_races.isEmpty = true
    · rw [if_pos hg]
      exact ⟨⟨fun _ => ⟨hf, hg.1, List.isEmpty_iff.mp hg.2⟩, fun _ => rfl⟩,
        fun day' h => absurd h (by simp)⟩
    · rw [if_neg hg]
      refine ⟨⟨fun h => absurd h (by simp),
        fun h => absurd ⟨h.2.1, List.isEmpty_iff.mpr h.2.2⟩ hg⟩, fun day' h => ?_⟩
      simp only [Option.some.injEq] at h
      subst h
      refine ⟨⟨rfl, rfl, rfl⟩, fun _ hs => ?_⟩
      exact Bayes_dem_win_p_range lib _ _ _ (by rw [house_score_to_win, if_pos hf]; omega)
  · rw [if_neg hf]
    refine ⟨⟨fun h => absurd h (by simp), fun h => absurd h.1 hf⟩, fun day' h => ?_⟩
    simp only [Option.some.injEq] at h
    subst h
    exact ⟨⟨rfl, rfl, rfl⟩, fun h => absurd h hf⟩

/-- `PredictDay` leaves the date of the day alone. -/
theorem PredictDay_date (lib : Lib α) (cc : Campaign α) (priors : List (ModelData α))
    (day day' : ModelData α) (h : Predictor.PredictDay lib cc priors day = some day') :
    day'.date = day.date := by
  unfold Predictor.PredictDay at h
  simp only [Option.bind_eq_some] at h
  obtain ⟨d1, h1, d2, h2, h3⟩ := h
  rw [((house_spec lib cc priors _ d2).2 day' h3).1.1,
    ((senate_spec lib cc priors _ d1).2 d2 h2).1.1,
    ((president_spec lib cc priors _ day).2 d1 h1).1.1]

end PredictLemmas

/-! ## Claims on the predictor -/

section PredictClaims

variable {α : Type} [LinearOrderedField α] [FloorRing α]

/-- `PredictDay` does not return exactly when one of its blocks builds a convolver on no
race. -/
theorem PredictDay_none_iff (lib : Lib α) (cc : Campaign α) (priors : List (ModelData α))
    (day : ModelData α) :
    Predictor.PredictDay lib cc priors day = none ↔
      (cc.IsPresidentialYear = true
        ∧ (day.states = [] ∨ cc.state_list.length < day.states.length))
      ∨ (day.senate_races ≠ []
        ∧ ∀ race ∈ day.senate_races, race.polls = [] ∧ race.rating ≠ "")
      ∨ (day.house_can_flip = true
        ∧ GetTiebreakerMajority cc.house_map.total_seats - day.house_safe_seats.dem ≠ 0
        ∧ day.house_races = []) := by
  unfold Predictor.PredictDay
  simp only []
  cases h1 : Predictor.PredictDay.president lib cc priors
      (DaysBetween day.date cc.EndDate) day with
  | none =>
    simp only [Option.none_bind, true_iff]
    exact Or.inl ((president_spec lib cc priors _ day).1.mp h1)
  | some d1 =>
    obtain ⟨⟨_, e1, _, e3, _, e5, e6, e7, _⟩, _⟩ := (president_spec lib cc priors _ day).2 d1 h1
    have hn1 : ¬ (cc.IsPresidentialYear = true
        ∧ (day.states = [] ∨ cc.state_list.length < day.states.length)) := by
      intro h
      rw [(president_spec lib cc priors _ day).1.mpr h] at h1
      exact absurd h1 (by simp)
    simp only [Option.some_bind]
    cases h2 : Predictor.PredictDay.senate lib cc priors
        (DaysBetween day.date cc.EndDate) d1 with
    | none =>
      simp only [Option.none_bind, true_iff]
      have := (senate_spec lib cc priors _ d1).1.mp h2
      rw [e1] at this
      exact Or.inr (Or.inl this)
    | some d2 =>
      obtain ⟨⟨_, _, f3, f4, f5, _⟩, _⟩ := (senate_spec lib cc priors _ d1).2 d2 h2
      have hn2 : ¬ (day.senate_races ≠ []
          ∧ ∀ race ∈ day.senate_races, race.polls = [] ∧ race.rating ≠ "") := by
        intro h
        rw [← e1] at h
        rw [(senate_spec lib cc priors _ d1).1.mpr h] at h2
        exact absurd h2 (by simp)
      simp only [Option.some_bind]
      rw [(house_spec lib cc priors _ d2).1, f3, f4, f5, e5, e6, e7]
      constructor
      · exact fun h => Or.inr (Or.inr h)
      · rintro (h | h | h)
        · exact absurd h hn1
        · exact absurd h hn2
        · exact h

/-- `PredictDay`, when it returns on a day on which the Senate cannot flip, leaves the win
probability of the Senate prediction as it was. -/
theorem PredictDay_senate_kept (lib : Lib α) (cc : Campaign α) (priors : List (ModelData α))
    (day day' : ModelData α) (h : Predictor.PredictDay lib cc priors day = some day')
    (hf : day.senate_can_flip = false) :
    day'.senate_prediction.dem_win_p = day.senate_prediction.dem_win_p := by
  unfold Predictor.PredictDay at h
  simp only [Option.bind_eq_some] at h
  obtain ⟨d1, h1, d2, h2, h3⟩ := h
  obtain ⟨⟨_, _, e2, _, e4, _⟩, _⟩ := (president_spec lib cc priors _ day).2 d1 h1
  obtain ⟨_, _, p3⟩ := (senate_spec lib cc priors _ d1).2 d2 h2
  obtain ⟨⟨_, _, g3⟩, _⟩ := (house_spec lib cc priors _ d2).2 day' h3
  rw [g3, p3 (by rw [e2]; exact hf), e4]

/-- C16, amended: `PredictDay` returns unless one of its blocks builds a convolver on
no race (a presidential year with no state model, or more of them than `state_list()`
has states; Senate races that the bias function all skips; a House that can flip with a
non-zero score to win and no house race).  When it returns, the electoral-college
prediction of a presidential year has `dem_win_p` in `[0.5, 0.95]`; the Senate
prediction of a day with Senate races on which the Senate can flip (fewer safe
Democratic seats than the seats for control), and the House prediction of a day on which
the House can flip (fewer safe Democratic seats than the majority), have `dem_win_p` in
`[0.01, 0.99]`; on a day on which the Senate cannot flip, the Senate prediction keeps
the `dem_win_p` it had before. -/
theorem PredictDay_dem_win_p (lib : Lib α) (cc : Campaign α) (priors : List (ModelData α))
    (day : ModelData α) :
    (Predictor.PredictDay lib cc priors day = none ↔
      (cc.IsPresidentialYear = true
        ∧ (day.states = [] ∨ cc.state_list.length < day.states.length))
      ∨ (day.senate_races ≠ []
        ∧ ∀ race ∈ day.senate_races, race.polls = [] ∧ race.rating ≠ "")
      ∨ (day.house_can_flip = true
        ∧ GetTiebreakerMajority cc.house_map.total_seats - day.house_safe_seats.dem ≠ 0
        ∧ day.house_races = []))
    ∧ ∀ day', Predictor.PredictDay lib cc priors day = some day' →
      (cc.IsPresidentialYear = true →
        1 / 2 ≤ day'.ec_prediction.dem_win_p ∧ day'.ec_prediction.dem_win_p ≤ 95 / 100)
      ∧ (day.senate_races ≠ [] → day.senate_can_flip = true →
        day.senate_safe_seats.dem < cc.senate_map.dem_seats_for_control →
        1 / 100 ≤ day'.senate_prediction.dem_win_p
          ∧ day'.senate_prediction.dem_win_p ≤ 99 / 100)
      ∧ (day.senate_can_flip = false →
        day'.senate_prediction.dem_win_p = day.senate_prediction.dem_win_p)
      ∧ (day.house_can_flip = true →
        day.house_safe_seats.dem < GetTiebreakerMajority cc.house_map.total_seats →
        1 / 100 ≤ day'.house_prediction.dem_win_p
          ∧ day'.house_prediction.dem_win_p ≤ 99 / 100) := by
  constructor
  · exact PredictDay_none_iff lib cc priors day
  · intro day' h
    unfold Predictor.PredictDay at h
    simp only [Option.bind_eq_some] at h
    obtain ⟨d1, h1, d2, h2, h3⟩ := h
    obtain ⟨⟨_, e1, e2, e3, e4, e5, e6, e7, _⟩, p1⟩ := (president_spec lib cc priors _ day).2 d1 h1
    obtain ⟨⟨_, f2, f3, f4, f5, _⟩, p2, p3⟩ := (senate_spec lib cc priors _ d1).2 d2 h2
    obtain ⟨⟨_, g2, g3⟩, p4⟩ := (house_spec lib cc priors _ d2).2 day' h3
    refine ⟨fun hy => ?_, fun hr hf hs => ?_, fun hf => ?_, fun hf hs => ?_⟩
    · rw [g2, f2]; exact p1 hy
    · rw [g3]
      exact p2 (by rw [e1]; exact hr) (by rw [e2]; exact hf) (by rw [e3]; exact hs)
    · rw [g3, p3 (by rw [e2]; exact hf), e4]
    · exact p4 (by rw [f3, e5]; exact hf) (by rw [f4, e6]; exact hs)

/-- C16 fails as stated: on a day with a Senate race on which the Senate cannot flip,
`PredictDay` returns and leaves the win probability of the Senate prediction at 0, the
value it had before, which is below 0.01. -/
theorem PredictDay_senate_dem_win_p_zero :
    (fixedSenateDay.senate_races ≠ [] ∧ fixedSenateDay.senate_can_flip = false)
    ∧ (Predictor.PredictDay toyLib senateCampaign [] fixedSenateDay).map
        (fun day => day.senate_prediction.dem_win_p) = some 0
    ∧ ¬ ((1 : ℚ) / 100 ≤ 0) := by
  refine ⟨⟨by simp [fixedSenateDay], rfl⟩, ?_, by norm_num⟩
  cases h : Predictor.PredictDay toyLib senateCampaign [] fixedSenateDay with
  | none =>
    exfalso
    have := (PredictDay_none_iff toyLib senateCampaign [] fixedSenateDay).mp h
    rcases this with h1 | h1 | h1
    · exact absurd h1.1 (by decide)
    · have := h1.2 _ (List.mem_cons_self _ _)
      exact this.2 rfl
    · exact absurd h1.1 (by decide)
  | some day' =>
    rw [Option.map_some',
      PredictDay_senate_kept toyLib senateCampaign [] fixedSenateDay day' h rfl]
    rfl

/-- Witness for the amended C16: a midterm day on which the House can flip. -/
theorem PredictDay_dem_win_p_witness :
    (houseDay.house_can_flip = true
      ∧ houseDay.house_safe_seats.dem
          < GetTiebreakerMajority houseCampaign.house_map.total_seats)
    ∧ ∃ day', Predictor.PredictDay toyLib houseCampaign [] houseDay = some day'
      ∧ 1 / 100 ≤ day'.house_prediction.dem_win_p
      ∧ day'.house_prediction.dem_win_p ≤ 99 / 100 := by
  refine ⟨⟨by decide, by decide⟩, ?_⟩
  cases h : Predictor.PredictDay toyLib houseCampaign [] houseDay with
  | none =>
    exfalso
    rcases (PredictDay_dem_win_p toyLib houseCampaign [] houseDay).1.mp h with h1 | h1 | h1
    · exact absurd h1.1 (by decide)
    · exact h1.1 rfl
    · exact absurd h1.2.2 (by simp [houseDay])
  | some day' =>
    exact ⟨day', rfl,
      ((PredictDay_dem_win_p toyLib houseCampaign [] houseDay).2 day' h).2.2.2
        (by decide) (by decide)⟩

end PredictClaims

/-! ## The prediction of a day without priors -/

section BayesSymmetric

variable {α : Type} [LinearOrderedField α]

end BayesSymmetric
section BayesSymmetricDay

variable {α : Type} [LinearOrderedField α] [FloorRing α]

end BayesSymmetricDay

/-! ## Claims on the bands of the prediction -/

section BayesClaims

variable {α : Type} [LinearOrderedField α] [FloorRing α]

end BayesClaims

/-! ## Lemmas and claims on the two convolvers of the state analysis -/

section BiasConvolverClaims

variable {α : Type} [LinearOrderedField α] [FloorRing α]

/-- C26, amended: when the state map file is sorted by name, as the code notes it to
be (`state_list()` is then in the order of `States()`), for a day that holds one model
per state, at least one, each with the win probability `DemWinProb` gives it: the
convolver rebuilt for bias 0 is built on the same pairs, one per state, and has the same
histogram as the one built in `Analyze`, and `bias_fn(0)` is the start score. -/
theorem GetConvolverForBias_zero (sqrt erf : α → α) (cc : Campaign α) (data : ModelData α)
    (horder : cc.state_list = cc.States)
    (hlen : data.states.length = cc.States.length) (hne : cc.States ≠ [])
    (hmodel : ∀ m ∈ data.states, m.win_prob = DemWinProb sqrt erf m.mean m.stddev 0) :
    (List.zipWith
        (fun (st : State) (state : RaceModel α) =>
          (st.evs.toNat, DemWinProb sqrt erf state.mean state.stddev 0))
        cc.state_list data.states
      = List.zipWith
        (fun (st : State) (state_model : RaceModel α) => (st.evs.toNat, state_model.win_prob))
        cc.States data.states
      ∧ (List.zipWith
        (fun (st : State) (state_model : RaceModel α) => (st.evs.toNat, state_model.win_prob))
        cc.States data.states).length = cc.States.length
      ∧ 0 < cc.States.length)
    ∧ StateAnalysis.GetConvolverForBias sqrt erf cc data 0
        = StateAnalysis.AnalyzeConvolver cc data
    ∧ StateAnalysis.GetBiasFn sqrt erf cc data 0
        = Convolver.FindMean (StateAnalysis.AnalyzeConvolver cc data) := by
  have hpairs : List.zipWith
        (fun (st : State) (state : RaceModel α) =>
          (st.evs.toNat, DemWinProb sqrt erf state.mean state.stddev 0))
        cc.state_list data.states
      = List.zipWith
        (fun (st : State) (state_model : RaceModel α) => (st.evs.toNat, state_model.win_prob))
        cc.States data.states := by
    rw [horder]
    have : ∀ (sts : List State) (ms : List (RaceModel α)),
        (∀ m ∈ ms, m.win_prob = DemWinProb sqrt erf m.mean m.stddev 0) →
        List.zipWith (fun (st : State) (state : RaceModel α) =>
            (st.evs.toNat, DemWinProb sqrt erf state.mean state.stddev 0)) sts ms
          = List.zipWith (fun (st : State) (state_model : RaceModel α) =>
            (st.evs.toNat, state_model.win_prob)) sts ms := by
      intro sts
      induction sts with
      | nil => intro ms _; simp
      | cons st sts ih =>
        intro ms hms
        cases ms with
        | nil => simp
        | cons m ms =>
          rw [List.zipWith_cons_cons, List.zipWith_cons_cons,
            ih ms (fun m' h' => hms m' (List.mem_cons_of_mem _ h')),
            hms m (List.mem_cons_self _ _)]
    exact this _ _ hmodel
  have h : StateAnalysis.GetConvolverForBias sqrt erf cc data 0
      = StateAnalysis.AnalyzeConvolver cc data := by
    unfold StateAnalysis.GetConvolverForBias StateAnalysis.AnalyzeConvolver
    rw [hpairs]
  refine ⟨⟨hpairs, ?_, List.length_pos.mpr hne⟩, h,
    by unfold StateAnalysis.GetBiasFn; rw [h]⟩
  rw [List.length_zipWith, hlen, min_self]

/-- Witness for the amended C26: the toy case of two states, listed in name order. -/
theorem GetConvolverForBias_zero_witness :
    toyCampaign.state_list = toyCampaign.States
    ∧ StateAnalysis.GetConvolverForBias toySqrt toyErf toyCampaign toyData 0
        = StateAnalysis.AnalyzeConvolver toyCampaign toyData
    ∧ StateAnalysis.GetBiasFn toySqrt toyErf toyCampaign toyData 0
        = Convolver.FindMean (StateAnalysis.AnalyzeConvolver toyCampaign toyData) :=
  ⟨rfl,
    (GetConvolverForBias_zero toySqrt toyErf toyCampaign toyData rfl (by decide) (by decide)
      (by
        intro m hm
        have hm' : m = toyStateModel := by
          simpa [toyData, exampleData] using hm
        subst hm'
        decide!)).2⟩

/-- C26 fails as stated: for a state map file that lists "B" (10 electoral votes) before
"A" (1 electoral vote), `Analyze` pairs the model of "A" (win probability 5/6) with 1
vote and that of "B" (win probability 1/2) with 10, and its start score is 6, while
`GetConvolverForBias` pairs the first model, that of "A", with the first state of the
file, "B": the histograms differ and `bias_fn(0)` is 9. -/
theorem GetConvolverForBias_unsorted_map :
    (unsortedMapCampaign.States.Perm unsortedMapCampaign.state_list
      ∧ ∀ m ∈ unsortedMapData.states,
          m.win_prob = DemWinProb toySqrt toyErf m.mean m.stddev 0)
    ∧ Convolver.FindMean (StateAnalysis.AnalyzeConvolver unsortedMapCampaign unsortedMapData)
        = 6
    ∧ StateAnalysis.GetBiasFn toySqrt toyErf unsortedMapCampaign unsortedMapData 0 = 9
    ∧ StateAnalysis.GetConvolverForBias toySqrt toyErf unsortedMapCampaign unsortedMapData 0
        ≠ StateAnalysis.AnalyzeConvolver unsortedMapCampaign unsortedMapData := by
  refine ⟨⟨List.Perm.swap _ _ _, ?_⟩, by decide!, by decide!, by decide!⟩
  intro m hm
  simp only [unsortedMapData, List.mem_cons, List.mem_singleton, List.not_mem_nil,
    or_false] at hm
  rcases hm with rfl | rfl <;> rfl

end BiasConvolverClaims

/-! ## Lemmas on the calendar -/

section CalendarLemmas

/-- The year of the era and the day of the year that `civilFromDays` computes from the
day of the era. -/
theorem doe_stage (doe : ℤ) (h0 : 0 ≤ doe) (h1 : doe ≤ 146096) :
    0 ≤ (doe - doe / 1460 + doe / 36524 - doe / 146096) / 365
    ∧ (doe - doe / 1460 + doe / 36524 - doe / 146096) / 365 ≤ 399
    ∧ 0 ≤ doe - (365 * ((doe - doe / 1460 + doe / 36524 - doe / 146096) / 365)
        + (doe - doe / 1460 + doe / 36524 - doe / 146096) / 365 / 4
        - (doe - doe / 1460 + doe / 36524 - doe / 146096) / 365 / 100)
    ∧ doe - (365 * ((doe - doe / 1460 + doe / 36524 - doe / 146096) / 365)
        + (doe - doe / 1460 + doe / 36524 - doe / 146096) / 365 / 4
        - (doe - doe / 1460 + doe / 36524 - doe / 146096) / 365 / 100) ≤ 365
    ∧ ((doe - doe / 1460 + doe / 36524 - doe / 146096) / 365 ≤ 398 →
        doe < ((doe - doe / 1460 + doe / 36524 - doe / 146096) / 365 + 1) * 365
          + ((doe - doe / 1460 + doe / 36524 - doe / 146096) / 365 + 1) / 4
          - ((doe - doe / 1460 + doe / 36524 - doe / 146096) / 365 + 1) / 100) := by
  generalize hy : (doe - doe / 1460 + doe / 36524 - doe / 146096) / 365 = yoe
  have hf : doe / 36524 = 0 ∨ doe / 36524 = 1 ∨ doe / 36524 = 2 ∨ doe / 36524 = 3
      ∨ doe / 36524 = 4 := by omega
  have hyb : 0 ≤ yoe ∧ yoe ≤ 399 := by
    rcases hf with h | h | h | h | h <;> omega
  have hd : yoe / 100 = 0 ∨ yoe / 100 = 1 ∨ yoe / 100 = 2 ∨ yoe / 100 = 3 := by omega
  have hd' : (yoe + 1) / 100 = yoe / 100 ∨ (yoe + 1) / 100 = yoe / 100 + 1 := by omega
  refine ⟨hyb.1, hyb.2, ?_, ?_, ?_⟩
  · rcases hf with h | h | h | h | h <;> rcases hd with h' | h' | h' | h' <;> omega
  · rcases hf with h | h | h | h | h <;> rcases hd with h' | h' | h' | h' <;> omega
  · intro h398
    rcases hf with h | h | h | h | h <;> rcases hd with h' | h' | h' | h' <;>
      rcases hd' with h'' | h'' <;> omega

/-- The month, counted from March, and the day of the month that `civilFromDays`
computes from the day of the year. -/
theorem doy_stage (doy : ℤ) (h0 : 0 ≤ doy) (h1 : doy ≤ 365) :
    0 ≤ (5 * doy + 2) / 153 ∧ (5 * doy + 2) / 153 ≤ 11
    ∧ 1 ≤ doy - (153 * ((5 * doy + 2) / 153) + 2) / 5 + 1
    ∧ doy - (153 * ((5 * doy + 2) / 153) + 2) / 5 + 1 ≤ 31 := by
  omega

/-- The stages of `civilFromDays`: the era and the day of the era, the year of the era
and the day of the year, and the month counted from March. -/
theorem civilFromDays_stages (z : ℤ) :
    ∃ era doe yoe doy mp : ℤ,
      z + 719468 = era * 146097 + doe ∧ 0 ≤ doe ∧ doe ≤ 146096
      ∧ 0 ≤ yoe ∧ yoe ≤ 399 ∧ 0 ≤ doy ∧ doy ≤ 365
      ∧ doe = yoe * 365 + yoe / 4 - yoe / 100 + doy
      ∧ (yoe ≤ 398 → doe < (yoe + 1) * 365 + (yoe + 1) / 4 - (yoe + 1) / 100)
      ∧ 0 ≤ mp ∧ mp ≤ 11 ∧ mp = (5 * doy + 2) / 153
      ∧ civilFromDays z
        = { year := if (if mp < 10 then mp + 3 else mp - 9) ≤ 2 then yoe + era * 400 + 1
              else yoe + era * 400,
            month := if mp < 10 then mp + 3 else mp - 9,
            day := doy - (153 * mp + 2) / 5 + 1 } := by
  have hA : 0 ≤ z + 719468 - (z + 719468) / 146097 * 146097
      ∧ z + 719468 - (z + 719468) / 146097 * 146097 ≤ 146096 := by omega
  obtain ⟨b1, b2, b3, b4, b5⟩ := doe_stage _ hA.1 hA.2
  obtain ⟨c1, c2, _, _⟩ := doy_stage _ b3 b4
  refine ⟨(z + 719468) / 146097, z + 719468 - (z + 719468) / 146097 * 146097, _, _, _,
    by omega, hA.1, hA.2, b1, b2, b3, b4, by omega, b5, c1, c2, rfl, ?_⟩
  rfl

/-- The day number of the civil date of a day number is the day number. -/
theorem daysFromCivil_civilFromDays (z : ℤ) : daysFromCivil (civilFromDays z) = z := by
  obtain ⟨era, doe, yoe, doy, mp, hz, _, _, hy0, hy1, _, _, hdoe, _, hm0, hm1, hmp, hc⟩ :=
    civilFromDays_stages z
  rw [hc]
  unfold daysFromCivil
  simp only []
  have hd := doy_stage doy (by assumption) (by assumption)
  rw [← hmp] at hd
  by_cases h10 : mp < 10
  · simp only [if_pos h10]
    have h1 : ¬ mp + 3 ≤ 2 := by omega
    have h2 : mp + 3 > 2 := by omega
    simp only [if_neg h1, if_pos h2]
    have e1 : (yoe + era * 400) / 400 = era := by omega
    have e2 : mp + 3 - 3 = mp := by omega
    rw [e1, e2]
    have e3 : yoe + era * 400 - era * 400 = yoe := by omega
    rw [e3]
    omega
  · simp only [if_neg h10]
    have h1 : mp - 9 ≤ 2 := by omega
    have h2 : ¬ mp - 9 > 2 := by omega
    simp only [if_pos h1, if_neg h2]
    have e0 : yoe + era * 400 + 1 - 1 = yoe + era * 400 := by omega
    have e1 : (yoe + era * 400) / 400 = era := by omega
    have e2 : mp - 9 + 9 = mp := by omega
    rw [e0, e1, e2]
    have e3 : yoe + era * 400 - era * 400 = yoe := by omega
    rw [e3]
    omega

/-- The first day of a later year of the era has a later number. -/
theorem yearStart_mono (a b : ℤ) (h : a ≤ b) :
    a * 365 + a / 4 - a / 100 ≤ b * 365 + b / 4 - b / 100 := by
  omega

/-- Later day numbers have later civil dates. -/
theorem civilFromDays_lt (z1 z2 : ℤ) (h : z1 < z2) :
    Date.lt (civilFromDays z1) (civilFromDays z2) = true := by
  obtain ⟨era1, doe1, yoe1, doy1, mp1, hz1, ha1, hb1, hy01, hy11, hd01, hd11, hdoe1, hup1,
    hm01, hm11, hmp1, hc1⟩ := civilFromDays_stages z1
  obtain ⟨era2, doe2, yoe2, doy2, mp2, hz2, ha2, hb2, hy02, hy12, hd02, hd12, hdoe2, hup2,
    hm02, hm12, hmp2, hc2⟩ := civilFromDays_stages z2
  rw [hc1, hc2, Date.lt_iff]
  simp only []
  have hera : era1 < era2 ∨ (era1 = era2 ∧ doe1 < doe2) := by omega
  have hyoe : era1 = era2 → yoe1 < yoe2 ∨ (yoe1 = yoe2 ∧ doy1 < doy2) := by
    intro he
    have hlt : doe1 < doe2 := by omega
    by_contra hcon
    have hle : yoe2 ≤ yoe1 := by omega
    rcases eq_or_lt_of_le hle with heq | hlt'
    · subst heq; omega
    · have := yearStart_mono (yoe2 + 1) yoe1 (by omega)
      have := hup2 (by omega)
      omega
  have hmp : yoe1 = yoe2 → doy1 < doy2 →
      mp1 < mp2
      ∨ (mp1 = mp2 ∧ doy1 - (153 * mp1 + 2) / 5 + 1 < doy2 - (153 * mp2 + 2) / 5 + 1) := by
    intro _ hlt
    have : mp1 ≤ mp2 := by omega
    rcases eq_or_lt_of_le this with heq | hlt'
    · right; rw [heq]; exact ⟨rfl, by omega⟩
    · left; exact hlt'
  rcases hera with he | ⟨he, _⟩
  · split_ifs <;> omega
  · rcases hyoe he with hy | ⟨hy, hd⟩
    · split_ifs <;> omega
    · rcases hmp hy hd with hm | ⟨hm, hd'⟩
      · split_ifs <;> omega
      · subst hm he hy
        split_ifs <;> omega

/-- Civil dates of day numbers compare as the day numbers. -/
theorem civilFromDays_le (z1 z2 : ℤ) :
    Date.le (civilFromDays z1) (civilFromDays z2) = true ↔ z1 ≤ z2 := by
  constructor
  · intro h
    by_contra hc
    have hlt := civilFromDays_lt z2 z1 (by omega)
    rw [Date.lt_eq_not_le, h] at hlt
    exact absurd hlt (by simp)
  · intro h
    rcases eq_or_lt_of_le h with rfl | hlt
    · exact Date.le_refl _
    · have := civilFromDays_lt _ _ hlt
      rw [Date.lt_iff] at this
      rw [Date.le_iff]
      omega

/-- The day after the `k`-th day from a date is the `k + 1`-th day from it. -/
theorem NextDay_add (d : Date) (k : ℤ) : NextDay (Date.add d k) = Date.add d (k + 1) := by
  unfold NextDay Date.add
  rw [daysFromCivil_civilFromDays, add_assoc]

/-- The days counted from a date are in order. -/
theorem Date.add_lt (d : Date) (j k : ℤ) (h : j < k) :
    Date.lt (Date.add d j) (Date.add d k) = true := by
  unfold Date.add
  exact civilFromDays_lt _ _ (by omega)

end CalendarLemmas

/-! ## Lemmas and claims on the driver's history -/

section DriverLemmas

variable {α : Type} [LinearOrderedField α]

theorem Date.lt_trans {a b c : Date} (h1 : Date.lt a b = true) (h2 : Date.lt b c = true) :
    Date.lt a c = true := by
  rw [Date.lt_iff] at *
  omega

/-- The loop that moves `history_pos_` never ends at an entry that is dated later than
the day: neither branch of its body applies, and the next round finds the same entry. -/
theorem seek_later (history_ : List (ModelData α)) (date : Date) (pos : ℕ)
    (entry : ModelData α) (hentry : history_[pos]? = some entry)
    (hlt : Date.lt entry.date date = false) (heq : Date.eq entry.date date = false) :
    ∀ fuel : ℕ, Driver.RunForDay.seek history_ date fuel pos = none := by
  intro fuel
  induction fuel with
  | zero => rfl
  | succ fuel ih =>
    rw [Driver.RunForDay.seek, hentry]
    simp only [hlt, heq, Bool.false_eq_true, if_false]
    exact ih

/-- Where the loop that moves `history_pos_` ends, when it ends: every entry it passed
is dated before the day, and the position is the end of the list or an entry dated on
the day. -/
theorem seek_spec (history_ : List (ModelData α)) (date : Date) :
    ∀ (fuel pos pos' : ℕ), Driver.RunForDay.seek history_ date fuel pos = some pos' →
      pos ≤ pos'
      ∧ (pos ≤ history_.length → pos' ≤ history_.length)
      ∧ (∀ i, pos ≤ i → i < pos' →
          ∃ e, history_[i]? = some e ∧ Date.lt e.date date = true)
      ∧ (history_[pos']? = none
          ∨ ∃ e, history_[pos']? = some e ∧ Date.eq e.date date = true) := by
  intro fuel
  induction fuel with
  | zero => intro pos pos' h; simp [Driver.RunForDay.seek] at h
  | succ fuel ih =>
    intro pos pos' h
    rw [Driver.RunForDay.seek] at h
    cases hget : history_[pos]? with
    | none =>
      rw [hget] at h
      simp only [Option.some.injEq] at h
      subst h
      exact ⟨le_refl _, id, fun i h1 h2 => absurd h2 (by omega), Or.inl hget⟩
    | some entry =>
      rw [hget] at h
      simp only [] at h
      by_cases hlt : Date.lt entry.date date = true
      · rw [if_pos hlt] at h
        obtain ⟨h1, h0, h2, h3⟩ := ih (pos + 1) pos' h
        have hpl : pos < history_.length := by
          by_contra hc
          rw [List.getElem?_eq_none_iff.mpr (by omega)] at hget
          exact absurd hget (by simp)
        refine ⟨by omega, fun _ => h0 hpl, fun i hi1 hi2 => ?_, h3⟩
        by_cases hip : i = pos
        · subst hip; exact ⟨entry, hget, hlt⟩
        · exact h2 i (by omega) hi2
      · rw [if_neg hlt] at h
        by_cases heq : Date.eq entry.date date = true
        · rw [if_pos heq] at h
          simp only [Option.some.injEq] at h
          subst h
          exact ⟨le_refl _, id, fun i h1 h2 => absurd h2 (by omega),
            Or.inr ⟨entry, hget, heq⟩⟩
        · rw [if_neg heq] at h
          have := seek_later history_ date pos entry hget (by simpa using hlt)
            (by simpa using heq) fuel
          rw [this] at h
          exact absurd h (by simp)

/-- The loop that moves `history_pos_` ends, given enough rounds, when no entry from the
position on is dated later than the day. -/
theorem seek_enough_fuel (history_ : List (ModelData α)) (date : Date) :
    ∀ (fuel pos : ℕ), history_.length - pos < fuel →
      (∀ i e, pos ≤ i → history_[i]? = some e →
        Date.lt e.date date = true ∨ Date.eq e.date date = true) →
      (Driver.RunForDay.seek history_ date fuel pos).isSome = true := by
  intro fuel
  induction fuel with
  | zero => intro pos h; exact absurd h (by omega)
  | succ fuel ih =>
    intro pos hfuel hno
    rw [Driver.RunForDay.seek]
    cases hget : history_[pos]? with
    | none => rfl
    | some entry =>
      simp only []
      have hpl : pos < history_.length := by
        by_contra hc
        rw [List.getElem?_eq_none_iff.mpr (by omega)] at hget
        exact absurd hget (by simp)
      by_cases hlt : Date.lt entry.date date = true
      · rw [if_pos hlt]
        exact ih (pos + 1) (by omega) fun i e hi => hno i e (by omega)
      · rw [if_neg hlt]
        rcases hno pos entry (le_refl _) hget with h | h
        · exact absurd h hlt
        · rw [if_pos h]; rfl

/-- The loop that moves `history_pos_` ends, given enough rounds, at the first position
from which on no entry is dated before the day, when that is the end of the list or an
entry dated on the day. -/
theorem seek_finds (history_ : List (ModelData α)) (date : Date) :
    ∀ (fuel pos i : ℕ), pos ≤ i → i - pos < fuel →
      (∀ j, pos ≤ j → j < i → ∃ e, history_[j]? = some e ∧ Date.lt e.date date = true) →
      (history_[i]? = none ∨ ∃ e, history_[i]? = some e ∧ Date.eq e.date date = true) →
      Driver.RunForDay.seek history_ date fuel pos = some i := by
  intro fuel
  induction fuel with
  | zero => intro pos i _ h; omega
  | succ fuel ih =>
    intro pos i hle hfuel hpassed hend
    rw [Driver.RunForDay.seek]
    rcases eq_or_lt_of_le hle with rfl | hlt
    · rcases hend with hnone | ⟨e, hsome, heq⟩
      · rw [hnone]
      · rw [hsome]
        simp only []
        have hed := (Date.eq_iff _ _).mp heq
        have hirr : ¬ Date.lt e.date date = true := by
          rw [hed, Date.lt_irrefl]; simp
        rw [if_neg hirr, if_pos heq]
    · obtain ⟨e, hsome, hl⟩ := hpassed pos (le_refl _) hlt
      rw [hsome]
      simp only []
      rw [if_pos hl]
      exact ih (pos + 1) i (by omega) (by omega) (fun j h1 h2 => hpassed j (by omega) h2) hend

/-- `RunForDay` does not return when the entry at `history_pos_` is dated later than the
day. -/
theorem RunForDay_later (analyses : Feed α → ModelData α → ModelData α) (now : Int)
    (self : Driver α) (date : Date) (feed : Feed α) (entry : ModelData α)
    (hentry : self.history_[self.history_pos_]? = some entry)
    (hlt : Date.lt entry.date date = false) (heq : Date.eq entry.date date = false) :
    ∀ fuel : ℕ, Driver.RunForDay analyses now fuel self date feed = none := by
  intro fuel
  unfold Driver.RunForDay
  rw [seek_later self.history_ date self.history_pos_ entry hentry hlt heq fuel]

/-- The work queued for a day leaves the day's date in the entry, when the analyses do
not write the date. -/
theorem work_date (analyses : Feed α → ModelData α → ModelData α) (now : Int) (feed : Feed α)
    (date : Date) (hwork : ∀ feed d, (analyses feed d).date = d.date) :
    (Driver.work analyses now feed date).date = date := by
  unfold Driver.work
  rw [hwork]

/-- Replacing an entry by one of the same date leaves the dates of the list alone. -/
theorem set_dates (history_ : List (ModelData α)) (pos : ℕ) (e w : ModelData α)
    (hsome : history_[pos]? = some e) (hdate : w.date = e.date) :
    (history_.set pos w).map (fun e => e.date) = history_.map fun e => e.date := by
  have hpl : pos < history_.length := by
    by_contra hc
    rw [List.getElem?_eq_none_iff.mpr (by omega)] at hsome
    exact absurd hsome (by simp)
  rw [List.map_set, hdate]
  apply List.ext_getElem?
  intro i
  rw [List.getElem?_set]
  split_ifs with h1 h2
  · subst h1
    rw [List.getElem?_map, hsome]; rfl
  · subst h1
    rw [List.length_map] at h2
    exact absurd hpl h2
  · rfl

/-- `RunForDay`, when it returns, keeps the entries of `history_` that were there, in
their order, as far as their dates go. -/
theorem RunForDay_sublist (analyses : Feed α → ModelData α → ModelData α) (now : Int)
    (fuel : ℕ) (self self' : Driver α) (date : Date) (feed : Feed α)
    (hwork : ∀ feed d, (analyses feed d).date = d.date)
    (h : Driver.RunForDay analyses now fuel self date feed = some self') :
    (self.history_.map fun e => e.date).Sublist (self'.history_.map fun e => e.date) := by
  unfold Driver.RunForDay at h
  cases hseek : Driver.RunForDay.seek self.history_ date fuel self.history_pos_ with
  | none => rw [hseek] at h; exact absurd h (by simp)
  | some pos =>
    rw [hseek] at h
    simp only [] at h
    obtain ⟨_, _, _, hend⟩ := seek_spec self.history_ date fuel _ pos hseek
    have hemplaced : (self.history_.map fun e => e.date).Sublist
        ((self.history_.take pos ++ Driver.work analyses now feed date
          :: self.history_.drop pos).map fun e => e.date) := by
      conv_lhs => rw [← List.take_append_drop pos self.history_]
      simp only [List.map_append, List.map_cons]
      exact List.Sublist.append (List.Sublist.refl _) (List.sublist_cons_self _ _)
    rcases hend with hnone | ⟨e, hsome, heq⟩
    · rw [hnone] at h
      simp only [Option.some.injEq] at h
      subst h
      exact hemplaced
    · rw [hsome] at h
      simp only [] at h
      have hed : e.date = date := (Date.eq_iff _ _).mp heq
      split_ifs at h <;> simp only [Option.some.injEq] at h <;> subst h
      · exact hemplaced
      · exact List.Sublist.refl _
      · simp only []
        rw [set_dates self.history_ pos e _ hsome
          ((work_date analyses now feed date hwork).trans hed.symm)]

/-- `RunForDay`, when it returns: the dates of `history_` stay strictly ascending, the
entries before `history_pos_` are dated before the day, the day is among the dates and is
the only date that may be new, and the history had a place for the day. -/
theorem RunForDay_spec (analyses : Feed α → ModelData α → ModelData α) (now : Int)
    (fuel : ℕ) (self self' : Driver α) (date : Date) (feed : Feed α)
    (hwork : ∀ feed d, (analyses feed d).date = d.date)
    (hasc : (self.history_.map fun e => e.date).Pairwise (fun a b => Date.lt a b = true))
    (hpos : self.history_pos_ ≤ self.history_.length)
    (hbefore : ∀ j e, j < self.history_pos_ → self.history_[j]? = some e →
      Date.lt e.date date = true)
    (h : Driver.RunForDay analyses now fuel self date feed = some self') :
    self'.today_ = self.today_
    ∧ (self'.history_.map fun e => e.date).Pairwise (fun a b => Date.lt a b = true)
    ∧ self'.history_pos_ ≤ self'.history_.length
    ∧ (∀ j e, j < self'.history_pos_ → self'.history_[j]? = some e →
        Date.lt e.date date = true)
    ∧ (∀ d, d ∈ self'.history_.map (fun e => e.date)
        ↔ d ∈ self.history_.map (fun e => e.date) ∨ d = date)
    ∧ self'.history_.length ≤ self.history_.length + 1
    ∧ Driver.positioned self.history_ date := by
  unfold Driver.RunForDay at h
  cases hseek : Driver.RunForDay.seek self.history_ date fuel self.history_pos_ with
  | none => rw [hseek] at h; exact absurd h (by simp)
  | some pos =>
    rw [hseek] at h
    simp only [] at h
    obtain ⟨hle, hbound, hpassed, hend⟩ := seek_spec self.history_ date fuel _ pos hseek
    have hbound := hbound hpos
    have hw := work_date analyses now feed date hwork
    have hbefore' : ∀ j e, j < pos → self.history_[j]? = some e →
        Date.lt e.date date = true := by
      intro j e hj he
      by_cases hjp : j < self.history_pos_
      · exact hbefore j e hjp he
      · obtain ⟨e', he', hlt⟩ := hpassed j (by omega) hj
        rw [he] at he'
        cases he'
        exact hlt
    rcases hend with hnone | ⟨e, hsome, heq⟩
    · -- the end of the list: the entry is added there
      rw [hnone] at h
      simp only [Option.some.injEq] at h
      subst h
      have hlen : self.history_.length ≤ pos := by
        rw [List.getElem?_eq_none_iff] at hnone; exact hnone
      have hall : ∀ d ∈ self.history_.map (fun e => e.date), Date.lt d date = true := by
        intro d hd
        obtain ⟨e, he, rfl⟩ := List.mem_map.mp hd
        obtain ⟨i, hi, rfl⟩ := List.getElem_of_mem he
        exact hbefore' i _ (by omega) (List.getElem?_eq_getElem hi)
      simp only [List.take_of_length_le hlen, List.drop_of_length_le hlen]
      refine ⟨trivial, ?_, ?_, ?_, ?_, ?_, Or.inr hall⟩
      · simp only [List.map_append, List.map_cons, List.map_nil, hw]
        rw [List.pairwise_append]
        exact ⟨hasc, by simp, fun a ha b hb => by
          simp only [List.mem_singleton] at hb; subst hb; exact hall a ha⟩
      · simp only [List.length_append, List.length_cons, List.length_nil]
        omega
      · intro j e hj he
        rw [List.getElem?_append_left (by omega)] at he
        exact hbefore' j e hj he
      · intro d
        simp only [List.map_append, List.map_cons, List.map_nil, hw, List.mem_append,
          List.mem_singleton]
      · simp only [List.length_append, List.length_cons, List.length_nil]
        omega
    · -- an entry dated on the day: it is kept or replaced
      rw [hsome] at h
      simp only [] at h
      have hed : e.date = date := (Date.eq_iff _ _).mp heq
      have hgt : Date.gt e.date date = false := by
        unfold Date.gt
        rw [hed, Date.lt_eq_not_le, Date.le_refl]; rfl
      have hpl : pos < self.history_.length := by
        by_contra hc
        rw [List.getElem?_eq_none_iff.mpr (by omega)] at hsome
        exact absurd hsome (by simp)
      have hmem : date ∈ self.history_.map (fun e => e.date) :=
        List.mem_map.mpr ⟨e, List.mem_iff_getElem?.mpr ⟨pos, hsome⟩, hed⟩
      simp only [hgt, Bool.false_eq_true, if_false] at h
      by_cases hold : Date.lt e.date self.today_ = true
      · rw [if_pos hold] at h
        simp only [Option.some.injEq] at h
        subst h
        exact ⟨rfl, hasc, le_of_lt hpl, hbefore',
          fun d => ⟨Or.inl, fun h => h.elim id (fun h => h ▸ hmem)⟩, by simp, Or.inl hmem⟩
      · rw [if_neg hold] at h
        simp only [Option.some.injEq] at h
        subst h
        have hsame := set_dates self.history_ pos e (Driver.work analyses now feed date) hsome
          (hw.trans hed.symm)
        refine ⟨rfl, ?_, ?_, ?_, ?_, ?_, Or.inl hmem⟩
        · simp only [hsame]
          exact hasc
        · simp only [List.length_set]
          exact le_of_lt hpl
        · intro j e' hj he'
          simp only [] at hj he'
          rw [List.getElem?_set_ne (by omega)] at he'
          exact hbefore' j e' hj he'
        · intro d
          simp only [hsame]
          exact ⟨Or.inl, fun h => h.elim id (fun h => h ▸ hmem)⟩
        · simp only [List.length_set]
          omega

/-- `RunForDay` returns, given enough rounds, when the dates of `history_` are strictly
ascending, the entries before `history_pos_` are dated before the day and the history
has a place for the day. -/
theorem RunForDay_completes (analyses : Feed α → ModelData α → ModelData α) (now : Int)
    (fuel : ℕ) (self : Driver α) (date : Date) (feed : Feed α)
    (hasc : (self.history_.map fun e => e.date).Pairwise (fun a b => Date.lt a b = true))
    (hpos : self.history_pos_ ≤ self.history_.length)
    (hbefore : ∀ j e, j < self.history_pos_ → self.history_[j]? = some e →
      Date.lt e.date date = true)
    (hplace : Driver.positioned self.history_ date)
    (hfuel : self.history_.length < fuel) :
    ∃ self', Driver.RunForDay analyses now fuel self date feed = some self' := by
  have hseek : ∃ pos, Driver.RunForDay.seek self.history_ date fuel self.history_pos_
      = some pos := by
    rcases hplace with hmem | hall
    · obtain ⟨i, hi, hdi⟩ := List.getElem_of_mem hmem
      rw [List.length_map] at hi
      rw [List.getElem_map] at hdi
      have hge : self.history_pos_ ≤ i := by
        by_contra hc
        have := hbefore i _ (by omega) (List.getElem?_eq_getElem hi)
        rw [hdi, Date.lt_irrefl] at this
        exact absurd this (by simp)
      refine ⟨i, seek_finds self.history_ date fuel _ i hge (by omega) ?_ ?_⟩
      · intro j _ hj
        refine ⟨self.history_[j], List.getElem?_eq_getElem (by omega), ?_⟩
        have := List.pairwise_iff_getElem.mp hasc j i
          (by rw [List.length_map]; omega) (by rw [List.length_map]; exact hi) hj
        rw [List.getElem_map, List.getElem_map, hdi] at this
        exact this
      · exact Or.inr ⟨self.history_[i], List.getElem?_eq_getElem hi,
          (Date.eq_iff _ _).mpr hdi⟩
    · refine ⟨self.history_.length,
        seek_finds self.history_ date fuel _ _ hpos (by omega) ?_ ?_⟩
      · intro j _ hj
        exact ⟨self.history_[j], List.getElem?_eq_getElem hj,
          hall _ (List.mem_map.mpr ⟨_, List.getElem_mem _, rfl⟩)⟩
      · exact Or.inl (List.getElem?_eq_none_iff.mpr (le_refl _))
  obtain ⟨pos, hseek⟩ := hseek
  unfold Driver.RunForDay
  rw [hseek]
  simp only []
  cases self.history_[pos]? with
  | none => exact ⟨_, rfl⟩
  | some entry =>
    simp only []
    split_ifs <;> exact ⟨_, rfl⟩

/-- A history that has a place for a day keeps it when dates before the day are
added. -/
theorem positioned_forward (history history' : List (ModelData α)) (added : Date → Prop)
    (date : Date)
    (hmem : ∀ d, d ∈ history'.map (fun e => e.date)
      ↔ d ∈ history.map (fun e => e.date) ∨ added d)
    (hadded : ∀ d, added d → Date.lt d date = true)
    (h : Driver.positioned history date) : Driver.positioned history' date := by
  rcases h with h | h
  · exact Or.inl ((hmem date).mpr (Or.inl h))
  · right
    intro d hd
    rcases (hmem d).mp hd with hd | hd
    · exact h d hd
    · exact hadded d hd

/-- A history had a place for a day when it has one after other dates were added. -/
theorem positioned_backward (history history' : List (ModelData α)) (added : Date → Prop)
    (date : Date)
    (hmem : ∀ d, d ∈ history'.map (fun e => e.date)
      ↔ d ∈ history.map (fun e => e.date) ∨ added d)
    (hadded : ¬ added date)
    (h : Driver.positioned history' date) : Driver.positioned history date := by
  rcases h with h | h
  · rcases (hmem date).mp h with h | h
    · exact Or.inl h
    · exact absurd h hadded
  · exact Or.inr fun d hd => h d ((hmem d).mpr (Or.inl hd))

/-- The loop over the days, when it returns, keeps the entries of `history_` that were
there, in their order, as far as their dates go. -/
theorem days_sublist (analyses : Feed α → ModelData α → ModelData α) (now : Int)
    (feed : Feed α) (fuel : ℕ) (hwork : ∀ feed d, (analyses feed d).date = d.date) :
    ∀ (rounds : ℕ) (self : Driver α) (day : Date) (result : Driver α × Date),
      Driver.Run.days analyses now feed fuel rounds self day = some result →
      (self.history_.map fun e => e.date).Sublist (result.1.history_.map fun e => e.date) := by
  intro rounds
  induction rounds with
  | zero => intro self day result h; simp [Driver.Run.days] at h
  | succ rounds ih =>
    intro self day result h
    rw [Driver.Run.days] at h
    by_cases hday : Date.le day self.today_ = true
    · rw [if_pos hday] at h
      cases hrun : Driver.RunForDay analyses now fuel self day feed with
      | none => rw [hrun] at h; exact absurd h (by simp)
      | some self1 =>
        rw [hrun] at h
        exact (RunForDay_sublist analyses now fuel self self1 day feed hwork hrun).trans
          (ih self1 _ result h)
    · rw [if_neg hday] at h
      simp only [Option.some.injEq] at h
      subst h
      exact List.Sublist.refl _

/-- The loop over the days from the `k`-th day of the campaign on, when it returns: it
ends with the day after `today_`, the dates of `history_` stay strictly ascending, the
new dates are days it went through, and the history it started with had a place for each
of these days. -/
theorem days_spec (analyses : Feed α → ModelData α → ModelData α) (now : Int)
    (feed : Feed α) (fuel : ℕ) (hwork : ∀ feed d, (analyses feed d).date = d.date)
    (start today_ : Date) (n : ℕ)
    (hn : ∀ k : ℕ, Date.le (Date.add start (k : ℤ)) today_ = true ↔ k < n) :
    ∀ (rounds k : ℕ) (self : Driver α) (result : Driver α × Date),
      self.today_ = today_ → k ≤ n →
      (self.history_.map fun e => e.date).Pairwise (fun a b => Date.lt a b = true) →
      self.history_pos_ ≤ self.history_.length →
      (∀ j e, j < self.history_pos_ → self.history_[j]? = some e →
        Date.lt e.date (Date.add start (k : ℤ)) = true) →
      Driver.Run.days analyses now feed fuel rounds self (Date.add start (k : ℤ))
        = some result →
      result.2 = Date.add start (n : ℤ)
      ∧ result.1.today_ = today_
      ∧ (result.1.history_.map fun e => e.date).Pairwise (fun a b => Date.lt a b = true)
      ∧ result.1.history_pos_ ≤ result.1.history_.length
      ∧ (∀ j e, j < result.1.history_pos_ → result.1.history_[j]? = some e →
          Date.lt e.date (Date.add start (n : ℤ)) = true)
      ∧ (∀ d, d ∈ result.1.history_.map (fun e => e.date)
          ↔ d ∈ self.history_.map (fun e => e.date)
            ∨ ∃ j : ℕ, k ≤ j ∧ j < n ∧ d = Date.add start (j : ℤ))
      ∧ (∀ j : ℕ, k ≤ j → j < n → Driver.positioned self.history_ (Date.add start (j : ℤ)))
      ∧ result.1.history_.length + k ≤ self.history_.length + n := by
  intro rounds
  induction rounds with
  | zero => intro k self result _ _ _ _ _ h; simp [Driver.Run.days] at h
  | succ rounds ih =>
    intro k self result htoday hk hasc hpos hbefore h
    rw [Driver.Run.days] at h
    by_cases hday : Date.le (Date.add start (k : ℤ)) self.today_ = true
    · rw [if_pos hday] at h
      have hkn : k < n := by rw [htoday] at hday; exact (hn k).mp hday
      cases hrun : Driver.RunForDay analyses now fuel self (Date.add start (k : ℤ)) feed with
      | none => rw [hrun] at h; exact absurd h (by simp)
      | some self1 =>
        rw [hrun] at h
        simp only [] at h
        obtain ⟨s1, s2, s3, s4, s5, s6, s7⟩ := RunForDay_spec analyses now fuel self self1 _
          feed hwork hasc hpos hbefore hrun
        have hnext : NextDay (Date.add start (k : ℤ)) = Date.add start ((k + 1 : ℕ) : ℤ) := by
          rw [NextDay_add]; push_cast; rfl
        rw [hnext] at h
        have hstep : Date.lt (Date.add start (k : ℤ)) (Date.add start ((k + 1 : ℕ) : ℤ))
            = true := Date.add_lt _ _ _ (by push_cast; omega)
        obtain ⟨r1, r2, r3, r4, r5, r6, r7, r8⟩ := ih (k + 1) self1 result (s1.trans htoday)
          (by omega) s2 s3 (fun j e hj he => Date.lt_trans (s4 j e hj he) hstep) h
        refine ⟨r1, r2, r3, r4, r5, ?_, ?_, by omega⟩
        · intro d
          rw [r6, s5]
          constructor
          · rintro ((h | h) | ⟨j, h1, h2, h3⟩)
            · exact Or.inl h
            · exact Or.inr ⟨k, le_refl _, hkn, h⟩
            · exact Or.inr ⟨j, by omega, h2, h3⟩
          · rintro (h | ⟨j, h1, h2, h3⟩)
            · exact Or.inl (Or.inl h)
            · rcases eq_or_lt_of_le h1 with rfl | hlt
              · exact Or.inl (Or.inr h3)
              · exact Or.inr ⟨j, by omega, h2, h3⟩
        · intro j hj1 hj2
          rcases eq_or_lt_of_le hj1 with rfl | hlt
          · exact s7
          · refine positioned_backward self.history_ self1.history_
              (fun d => d = Date.add start (k : ℤ)) _ s5 ?_ (r7 j (by omega) hj2)
            intro heq
            have := Date.add_lt start (k : ℤ) (j : ℤ) (by exact_mod_cast hlt)
            rw [heq, Date.lt_irrefl] at this
            exact absurd this (by simp)
    · rw [if_neg hday] at h
      simp only [Option.some.injEq] at h
      subst h
      have hkn : k = n := by
        have : ¬ k < n := fun hc => hday (by rw [htoday]; exact (hn k).mpr hc)
        omega
      subst hkn
      exact ⟨rfl, htoday, hasc, hpos, hbefore,
        fun d => ⟨Or.inl, fun h => h.elim id (fun ⟨j, h1, h2, _⟩ => absurd h2 (by omega))⟩,
        fun j h1 h2 => absurd h2 (by omega), le_refl _⟩

/-- The loop over the days from the `k`-th day of the campaign on returns, given enough
rounds, when the dates of `history_` are strictly ascending, the entries before
`history_pos_` are dated before the day and the history has a place for every day up to
`today_`. -/
theorem days_completes (analyses : Feed α → ModelData α → ModelData α) (now : Int)
    (feed : Feed α) (fuel : ℕ) (hwork : ∀ feed d, (analyses feed d).date = d.date)
    (start today_ : Date) (n : ℕ)
    (hn : ∀ k : ℕ, Date.le (Date.add start (k : ℤ)) today_ = true ↔ k < n) :
    ∀ (m rounds k : ℕ) (self : Driver α),
      self.today_ = today_ → k + m = n → m < rounds → self.history_.length + m < fuel →
      (self.history_.map fun e => e.date).Pairwise (fun a b => Date.lt a b = true) →
      self.history_pos_ ≤ self.history_.length →
      (∀ j e, j < self.history_pos_ → self.history_[j]? = some e →
        Date.lt e.date (Date.add start (k : ℤ)) = true) →
      (∀ j : ℕ, k ≤ j → j < n → Driver.positioned self.history_ (Date.add start (j : ℤ))) →
      ∃ result, Driver.Run.days analyses now feed fuel rounds self (Date.add start (k : ℤ))
        = some result := by
  intro m
  induction m with
  | zero =>
    intro rounds k self htoday hk hr _ _ _ _ _
    cases rounds with
    | zero => omega
    | succ rounds =>
      rw [Driver.Run.days]
      have hday : ¬ Date.le (Date.add start (k : ℤ)) self.today_ = true := by
        rw [htoday, hn]; omega
      rw [if_neg hday]
      exact ⟨_, rfl⟩
  | succ m ih =>
    intro rounds k self htoday hk hr hfuel hasc hpos hbefore hplace
    cases rounds with
    | zero => omega
    | succ rounds =>
      rw [Driver.Run.days]
      have hday : Date.le (Date.add start (k : ℤ)) self.today_ = true := by
        rw [htoday, hn]; omega
      rw [if_pos hday]
      obtain ⟨self1, hrun⟩ := RunForDay_completes analyses now fuel self
        (Date.add start (k : ℤ)) feed hasc hpos hbefore (hplace k (le_refl _) (by omega))
        (by omega)
      rw [hrun]
      simp only []
      obtain ⟨s1, s2, s3, s4, s5, s6, s7⟩ := RunForDay_spec analyses now fuel self self1 _
        feed hwork hasc hpos hbefore hrun
      have hnext : NextDay (Date.add start (k : ℤ)) = Date.add start ((k + 1 : ℕ) : ℤ) := by
        rw [NextDay_add]; push_cast; rfl
      rw [hnext]
      have hstep : Date.lt (Date.add start (k : ℤ)) (Date.add start ((k + 1 : ℕ) : ℤ))
          = true := Date.add_lt _ _ _ (by push_cast; omega)
      refine ih rounds (k + 1) self1 (s1.trans htoday) (by omega) (by omega) (by omega) s2 s3
        (fun j e hj he => Date.lt_trans (s4 j e hj he) hstep) (fun j hj1 hj2 => ?_)
      refine positioned_forward self.history_ self1.history_
        (fun d => d = Date.add start (k : ℤ)) _ s5 (fun d hd => ?_) (hplace j (by omega) hj2)
      rw [hd]
      exact Date.add_lt start (k : ℤ) (j : ℤ) (by exact_mod_cast (show k < j by omega))

/-- `ImportHistory` puts the saved entries in reverse. -/
theorem import_reverse (saved acc : List (ModelData α)) :
    saved.foldl (fun history_ entry => entry :: history_) acc = saved.reverse ++ acc := by
  induction saved generalizing acc with
  | nil => rfl
  | cons a l ih => rw [List.foldl_cons, ih, List.reverse_cons, List.append_assoc]; rfl

/-- A history has a place for a day whichever way round it is read. -/
theorem positioned_reverse (history : List (ModelData α)) (date : Date) :
    Driver.positioned history.reverse date ↔ Driver.positioned history date := by
  simp [Driver.positioned]

/-- The loop `while (day <= today_)` goes through the days of the campaign up to
`today_`: `Driver.Run.rounds` of them. -/
theorem rounds_spec (cc : Campaign α) (today : Date)
    (htoday : civilFromDays (daysFromCivil today) = today)
    (hend : civilFromDays (daysFromCivil cc.EndDate) = cc.EndDate) (k : ℕ) :
    Date.le (Date.add cc.StartDate (k : ℤ)) (Driver.today cc today) = true
      ↔ k < Driver.Run.rounds cc today := by
  have hT : civilFromDays (daysFromCivil (Driver.today cc today)) = Driver.today cc today := by
    unfold Driver.today
    split_ifs <;> assumption
  unfold Date.add
  conv_lhs => rw [← hT]
  rw [civilFromDays_le]
  unfold Driver.Run.rounds
  omega

/-- The history built by `Driver::Run()`, when it is built, keeps the saved entries, in
reverse, as far as their dates go. -/
theorem Run_history_sublist (analyses : Feed α → ModelData α → ModelData α) (now : Int)
    (cc : Campaign α) (today : Date) (feed : Feed α) (saved : List (ModelData α))
    (results : Option (Feed α)) (fuel : ℕ) (history_ : List (ModelData α))
    (hwork : ∀ feed d, (analyses feed d).date = d.date)
    (h : Driver.Run.history analyses now cc today feed saved results fuel = some history_) :
    (saved.reverse.map fun e => e.date).Sublist (history_.map fun e => e.date) := by
  unfold Driver.Run.history at h
  simp only [import_reverse, List.append_nil] at h
  cases hdays : Driver.Run.days analyses now feed fuel fuel
      { today_ := if Date.gt today cc.EndDate = true then cc.EndDate else today,
        history_ := saved.reverse, history_pos_ := 0 } cc.StartDate with
  | none => rw [hdays] at h; exact absurd h (by simp)
  | some result =>
    rw [hdays] at h
    have k1 := days_sublist analyses now feed fuel hwork fuel _ _ result hdays
    obtain ⟨self, day⟩ := result
    simp only [] at h k1
    cases results with
    | none =>
      simp only [Option.some.injEq] at h
      subst h; exact k1
    | some results_feed_ =>
      simp only [] at h
      by_cases hlast : Date.eq (if Date.gt today cc.EndDate = true then cc.EndDate else today)
          cc.EndDate = true
      · rw [if_pos hlast] at h
        simp only [Option.map_eq_some'] at h
        obtain ⟨self2, hrun, rfl⟩ := h
        exact k1.trans (RunForDay_sublist analyses now fuel self self2 day results_feed_ hwork
          hrun)
      · rw [if_neg hlast] at h
        simp only [Option.some.injEq] at h
        subst h; exact k1

/-- The history built by `Driver::Run()` from a saved history that is latest first, when
it is built: its dates are strictly ascending, they are the saved dates and the days the
run visits, and the saved history had a place for each of these days. -/
theorem Run_history_spec (analyses : Feed α → ModelData α → ModelData α) (now : Int)
    (cc : Campaign α) (today : Date) (feed : Feed α) (saved : List (ModelData α))
    (results : Option (Feed α)) (fuel : ℕ) (history_ : List (ModelData α))
    (hwork : ∀ feed d, (analyses feed d).date = d.date)
    (hstart : civilFromDays (daysFromCivil cc.StartDate) = cc.StartDate)
    (htoday : civilFromDays (daysFromCivil today) = today)
    (hend : civilFromDays (daysFromCivil cc.EndDate) = cc.EndDate)
    (hsaved : saved.Pairwise (fun a b => Date.lt b.date a.date = true))
    (h : Driver.Run.history analyses now cc today feed saved results fuel = some history_) :
    (history_.map fun e => e.date).Pairwise (fun a b => Date.lt a b = true)
    ∧ (∀ d, d ∈ history_.map (fun e => e.date)
        ↔ d ∈ saved.map (fun e => e.date)
          ∨ ∃ k : ℕ, Driver.Run.visits cc today results k ∧ d = Date.add cc.StartDate (k : ℤ))
    ∧ ∀ k : ℕ, Driver.Run.visits cc today results k →
        Driver.positioned saved (Date.add cc.StartDate (k : ℤ)) := by
  unfold Driver.Run.history at h
  simp only [import_reverse, List.append_nil] at h
  have h0 : Date.add cc.StartDate ((0 : ℕ) : ℤ) = cc.StartDate := by
    unfold Date.add
    simp [hstart]
  have hinit : (saved.reverse.map fun e => e.date).Pairwise
      (fun a b => Date.lt a b = true) := by
    rw [List.map_reverse, List.pairwise_reverse, List.pairwise_map]
    exact hsaved
  cases hdays : Driver.Run.days analyses now feed fuel fuel
      { today_ := if Date.gt today cc.EndDate = true then cc.EndDate else today,
        history_ := saved.reverse, history_pos_ := 0 } cc.StartDate with
  | none => rw [hdays] at h; exact absurd h (by simp)
  | some result =>
    rw [hdays] at h
    obtain ⟨r1, r2, r3, r4, r5, r6, r7, r8⟩ := days_spec analyses now feed fuel hwork
      cc.StartDate (Driver.today cc today) (Driver.Run.rounds cc today)
      (rounds_spec cc today htoday hend) fuel 0
      { today_ := if Date.gt today cc.EndDate = true then cc.EndDate else today,
        history_ := saved.reverse, history_pos_ := 0 } result rfl (Nat.zero_le _) hinit
      (Nat.zero_le _) (fun j e hj => absurd hj (by simp)) (by rw [h0]; exact hdays)
    obtain ⟨self, day⟩ := result
    simp only [List.map_reverse, List.mem_reverse] at h r1 r2 r3 r4 r5 r6 r7
    have hplain : (results.isSome = true
          ∧ Date.eq (Driver.today cc today) cc.EndDate = true → False) →
        some self.history_ = some history_ →
        (history_.map fun e => e.date).Pairwise (fun a b => Date.lt a b = true)
        ∧ (∀ d, d ∈ history_.map (fun e => e.date)
            ↔ d ∈ saved.map (fun e => e.date)
              ∨ ∃ k : ℕ, Driver.Run.visits cc today results k
                ∧ d = Date.add cc.StartDate (k : ℤ))
        ∧ ∀ k : ℕ, Driver.Run.visits cc today results k →
            Driver.positioned saved (Date.add cc.StartDate (k : ℤ)) := by
      intro hno hsome
      simp only [Option.some.injEq] at hsome
      subst hsome
      have hvis : ∀ k : ℕ, Driver.Run.visits cc today results k
          ↔ k < Driver.Run.rounds cc today := by
        intro k
        unfold Driver.Run.visits
        exact ⟨fun hv => hv.elim id (fun hv => absurd hv.2 hno), Or.inl⟩
      refine ⟨r3, fun d => ?_, fun k hk => ?_⟩
      · rw [r6]
        simp only [hvis]
        exact ⟨fun hd => hd.imp id (fun ⟨j, _, h2, h3⟩ => ⟨j, h2, h3⟩),
          fun hd => hd.imp id (fun ⟨j, h2, h3⟩ => ⟨j, Nat.zero_le _, h2, h3⟩)⟩
      · exact (positioned_reverse saved _).mp (r7 k (Nat.zero_le _) ((hvis k).mp hk))
    cases results with
    | none => exact hplain (fun hc => absurd hc.1 (by simp)) h
    | some results_feed_ =>
      simp only [] at h
      by_cases hlast : Date.eq (if Date.gt today cc.EndDate = true then cc.EndDate else today)
          cc.EndDate = true
      · rw [if_pos hlast] at h
        simp only [Option.map_eq_some'] at h
        obtain ⟨self2, hrun, rfl⟩ := h
        rw [r1] at hrun
        obtain ⟨s1, s2, s3, s4, s5, s6, s7⟩ := RunForDay_spec analyses now fuel self self2 _
          results_feed_ hwork r3 r4 r5 hrun
        have hvis : ∀ k : ℕ, Driver.Run.visits cc today (some results_feed_) k
            ↔ k < Driver.Run.rounds cc today ∨ k = Driver.Run.rounds cc today := by
          intro k
          unfold Driver.Run.visits
          exact ⟨fun hv => hv.imp id (fun hv => hv.1), fun hv => hv.imp id
            (fun hv => ⟨hv, rfl, hlast⟩)⟩
        have hnot : ∀ j : ℕ, j < Driver.Run.rounds cc today →
            Date.add cc.StartDate (Driver.Run.rounds cc today : ℤ)
              ≠ Date.add cc.StartDate (j : ℤ) := by
          intro j hj heq
          have := Date.add_lt cc.StartDate (j : ℤ) (Driver.Run.rounds cc today : ℤ)
            (by exact_mod_cast hj)
          rw [heq, Date.lt_irrefl] at this
          exact absurd this (by simp)
        refine ⟨s2, fun d => ?_, fun k hk => ?_⟩
        · rw [s5, r6]
          simp only [hvis]
          constructor
          · rintro ((hd | ⟨j, _, h2, h3⟩) | hd)
            · exact Or.inl hd
            · exact Or.inr ⟨j, Or.inl h2, h3⟩
            · exact Or.inr ⟨_, Or.inr rfl, hd⟩
          · rintro (hd | ⟨j, h2 | h2, h3⟩)
            · exact Or.inl (Or.inl hd)
            · exact Or.inl (Or.inr ⟨j, Nat.zero_le _, h2, h3⟩)
            · subst h2; exact Or.inr h3
        · rcases (hvis k).mp hk with hk | hk
          · exact (positioned_reverse saved _).mp (r7 k (Nat.zero_le _) hk)
          · subst hk
            refine (positioned_reverse saved _).mp (positioned_backward saved.reverse
              self.history_ (fun d => ∃ j : ℕ, 0 ≤ j ∧ j < Driver.Run.rounds cc today
                ∧ d = Date.add cc.StartDate (j : ℤ)) _ ?_ ?_ s7)
            · intro d
              rw [r6]
              simp only [List.map_reverse, List.mem_reverse]
            · rintro ⟨j, _, h2, h3⟩
              exact hnot j h2 h3
      · rw [if_neg hlast] at h
        exact hplain (fun hc => hlast hc.2) h

/-- The history of `Driver::Run()` is built, given enough rounds, when the saved history
is latest first and has a place for every day the run visits. -/
theorem Run_history_completes (analyses : Feed α → ModelData α → ModelData α) (now : Int)
    (cc : Campaign α) (today : Date) (feed : Feed α) (saved : List (ModelData α))
    (results : Option (Feed α)) (fuel : ℕ)
    (hwork : ∀ feed d, (analyses feed d).date = d.date)
    (hstart : civilFromDays (daysFromCivil cc.StartDate) = cc.StartDate)
    (htoday : civilFromDays (daysFromCivil today) = today)
    (hend : civilFromDays (daysFromCivil cc.EndDate) = cc.EndDate)
    (hsaved : saved.Pairwise (fun a b => Date.lt b.date a.date = true))
    (hplace : ∀ k : ℕ, Driver.Run.visits cc today results k →
      Driver.positioned saved (Date.add cc.StartDate (k : ℤ)))
    (hfuel : saved.length + Driver.Run.rounds cc today + 2 ≤ fuel) :
    ∃ history_,
      Driver.Run.history analyses now cc today feed saved results fuel = some history_ := by
  unfold Driver.Run.history
  simp only [import_reverse, List.append_nil]
  have h0 : Date.add cc.StartDate ((0 : ℕ) : ℤ) = cc.StartDate := by
    unfold Date.add
    simp [hstart]
  have hinit : (saved.reverse.map fun e => e.date).Pairwise
      (fun a b => Date.lt a b = true) := by
    rw [List.map_reverse, List.pairwise_reverse, List.pairwise_map]
    exact hsaved
  obtain ⟨result, hdays⟩ := days_completes analyses now feed fuel hwork
    cc.StartDate (Driver.today cc today) (Driver.Run.rounds cc today)
    (rounds_spec cc today htoday hend) (Driver.Run.rounds cc today) fuel 0
    { today_ := if Date.gt today cc.EndDate = true then cc.EndDate else today,
      history_ := saved.reverse, history_pos_ := 0 } rfl (Nat.zero_add _) (by omega)
    (by simp only [List.length_reverse]; omega) hinit
    (Nat.zero_le _) (fun j e hj => absurd hj (by simp))
    (fun j _ hj => (positioned_reverse saved _).mpr (hplace j (Or.inl hj)))
  obtain ⟨r1, r2, r3, r4, r5, r6, r7, r8⟩ := days_spec analyses now feed fuel hwork
    cc.StartDate (Driver.today cc today) (Driver.Run.rounds cc today)
    (rounds_spec cc today htoday hend) fuel 0
    { today_ := if Date.gt today cc.EndDate = true then cc.EndDate else today,
      history_ := saved.reverse, history_pos_ := 0 } result rfl (Nat.zero_le _) hinit
    (Nat.zero_le _) (fun j e hj => absurd hj (by simp)) hdays
  rw [h0] at hdays
  rw [hdays]
  obtain ⟨self, day⟩ := result
  simp only [List.length_reverse] at r1 r2 r3 r4 r5 r6 r7 r8 ⊢
  cases results with
  | none => exact ⟨_, rfl⟩
  | some results_feed_ =>
    simp only []
    by_cases hlast : Date.eq (if Date.gt today cc.EndDate = true then cc.EndDate else today)
        cc.EndDate = true
    · rw [if_pos hlast]
      have hp : Driver.positioned self.history_
          (Date.add cc.StartDate (Driver.Run.rounds cc today : ℤ)) := by
        refine positioned_forward saved.reverse self.history_
          (fun d => ∃ j : ℕ, 0 ≤ j ∧ j < Driver.Run.rounds cc today
            ∧ d = Date.add cc.StartDate (j : ℤ)) _ r6 ?_
          ((positioned_reverse saved _).mpr (hplace _ (Or.inr ⟨rfl, rfl, hlast⟩)))
        rintro d ⟨j, _, h2, rfl⟩
        exact Date.add_lt cc.StartDate (j : ℤ) _ (by exact_mod_cast h2)
      obtain ⟨self2, hrun⟩ := RunForDay_completes analyses now fuel self
        (Date.add cc.StartDate (Driver.Run.rounds cc today : ℤ)) results_feed_ r3 r4 r5 hp
        (by omega)
      rw [r1, hrun]
      exact ⟨_, rfl⟩
    · rw [if_neg hlast]
      exact ⟨_, rfl⟩

end DriverLemmas
section PredictDateLemmas

variable {α : Type} [LinearOrderedField α] [FloorRing α]

/-- `Predict`, when it returns, leaves the dates of the history alone. -/
theorem Predict_dates (lib : Lib α) (cc : Campaign α) (last_updated : Int)
    (history out : List (ModelData α))
    (h : Predictor.Predict lib cc last_updated history = some out) :
    out.map (fun e => e.date) = history.map fun e => e.date := by
  have hloop : ∀ (l : List (ModelData α)) (should_predict : Bool)
      (priors out : List (ModelData α)),
      Predictor.Predict.loop lib cc last_updated l should_predict priors = some out →
      out.map (fun e => e.date) = l.map fun e => e.date := by
    intro l
    induction l with
    | nil =>
      intro _ _ out h
      simp only [Predictor.Predict.loop, Option.some.injEq] at h
      subst h
      rfl
    | cons day rest ih =>
      intro should_predict priors out h
      rw [Predictor.Predict.loop] at h
      by_cases hp : (should_predict || decide (day.generated ≥ last_updated)) = true
      · rw [if_pos hp] at h
        cases hd : Predictor.PredictDay lib cc priors day with
        | none => rw [hd] at h; exact absurd h (by simp)
        | some day' =>
          rw [hd] at h
          simp only [Option.map_eq_some'] at h
          obtain ⟨days, hdays, rfl⟩ := h
          rw [List.map_cons, List.map_cons, ih _ _ _ hdays,
            PredictDay_date lib cc priors day day' hd]
      · rw [if_neg hp] at h
        simp only [Option.map_eq_some'] at h
        obtain ⟨days, hdays, rfl⟩ := h
        rw [List.map_cons, List.map_cons, ih _ _ _ hdays]
  unfold Predictor.Predict at h
  simp only [Option.map_eq_some'] at h
  obtain ⟨days, hdays, rfl⟩ := h
  rw [List.map_reverse, hloop _ _ _ _ hdays, List.map_reverse, List.reverse_reverse]

end PredictDateLemmas

section DriverClaims

variable {α : Type} [LinearOrderedField α] [FloorRing α]

/-- C30, in the code: with a saved history whose only entry is dated 2020-06-03 and a
campaign that starts on 2020-06-01, the first loop of `RunForDay` for 2020-06-01 never
ends: whatever the number of rounds allowed, they are used up, in the loop, in
`RunForDay` and in the run. -/
theorem RunForDay_never_returns :
    ∀ fuel : ℕ,
      Driver.RunForDay.seek [savedEntry ⟨2020, 6, 3⟩] ⟨2020, 6, 1⟩ fuel 0 = none
      ∧ Driver.RunForDay (fun _ d => d) 0 fuel
          { today_ := ⟨2020, 6, 5⟩, history_ := [savedEntry ⟨2020, 6, 3⟩], history_pos_ := 0 }
          ⟨2020, 6, 1⟩ ({} : Feed ℚ) = none
      ∧ Driver.Run toyLib (fun _ d => d) 0 midtermCampaign ⟨2020, 6, 5⟩ ({} : Feed ℚ)
          [savedEntry ⟨2020, 6, 3⟩] none fuel = none := by
  intro fuel
  have hrun : ∀ feed : Feed ℚ, Driver.RunForDay (fun _ d => d) 0 fuel
      { today_ := ⟨2020, 6, 5⟩, history_ := [savedEntry ⟨2020, 6, 3⟩], history_pos_ := 0 }
      ⟨2020, 6, 1⟩ feed = none := fun feed =>
    RunForDay_later (fun _ d => d) 0
      { today_ := ⟨2020, 6, 5⟩, history_ := [savedEntry ⟨2020, 6, 3⟩], history_pos_ := 0 }
      ⟨2020, 6, 1⟩ feed (savedEntry ⟨2020, 6, 3⟩) rfl (by decide) (by decide) fuel
  refine ⟨seek_later _ _ 0 (savedEntry ⟨2020, 6, 3⟩) rfl (by decide) (by decide) fuel,
    hrun _, ?_⟩
  have hdays : Driver.Run.days (fun _ d => d) 0 (Driver.sortFeed ({} : Feed ℚ)) fuel fuel
      { today_ := ⟨2020, 6, 5⟩, history_ := [savedEntry ⟨2020, 6, 3⟩], history_pos_ := 0 }
      ⟨2020, 6, 1⟩ = none := by
    cases fuel with
    | zero => rfl
    | succ n =>
      rw [Driver.Run.days, if_pos (by decide), hrun]
  have hgt : Date.gt ⟨2020, 6, 5⟩ midtermCampaign.EndDate = false := by decide
  have hstart : midtermCampaign.StartDate = ⟨2020, 6, 1⟩ := rfl
  unfold Driver.Run Driver.Run.history
  simp only [List.foldl, hgt, Bool.false_eq_true, if_false, hstart, hdays, Option.none_bind]

/-- C22 fails as stated: a first run (no saved history) of a campaign that starts on
2020-06-01, on 2020-06-02, exports the entry of 2020-06-02 before the entry of
2020-06-01. -/
theorem Run_exports_latest_first :
    (Driver.Run toyLib (fun _ d => d) 0 midtermCampaign ⟨2020, 6, 2⟩ ({} : Feed ℚ) [] none 5).map
        (fun history => history.map fun e => e.date)
      = some [⟨2020, 6, 2⟩, ⟨2020, 6, 1⟩]
    ∧ Date.lt ⟨2020, 6, 2⟩ ⟨2020, 6, 1⟩ = false := by
  decide!

/-- C22, amended: the history exported by `Driver::Run` holds the per-day records latest
first: every exported entry is dated strictly after every entry that follows it.  The
start and the end of the campaign and `Today()` are dates of the calendar, the start is
after the default date 0-0-0, and the analyses do not write the date of the day.  Every
day the run visits is then after the default date, which an entry bears until the work
queued for it runs.  When the saved history is latest first and has, for each day the run
visits, an entry dated that day or only entries dated before it (as has no saved history,
and a history that a run exported), the run builds its history, given enough rounds of
its loops, and hands it to the predictor latest first, with the saved dates and the days
it visits as dates; what the predictor returns is exported with these dates.  Conversely,
whenever a run exports a history that is latest first, the saved history was latest first
and had such a place for each day. -/
theorem Run_history_descending (lib : Lib α)
    (analyses : Feed α → ModelData α → ModelData α) (now : Int) (cc : Campaign α)
    (today : Date) (feed : Feed α) (saved : List (ModelData α)) (results : Option (Feed α))
    (hwork : ∀ feed d, (analyses feed d).date = d.date)
    (hstart : civilFromDays (daysFromCivil cc.StartDate) = cc.StartDate)
    (htoday : civilFromDays (daysFromCivil today) = today)
    (hend : civilFromDays (daysFromCivil cc.EndDate) = cc.EndDate)
    (hera : Date.lt ⟨0, 0, 0⟩ cc.StartDate = true) :
    (∀ k : ℕ, Date.lt ⟨0, 0, 0⟩ (Date.add cc.StartDate (k : ℤ)) = true)
    ∧ ((saved.Pairwise (fun a b => Date.lt b.date a.date = true)
        ∧ ∀ k : ℕ, Driver.Run.visits cc today results k →
            Driver.positioned saved (Date.add cc.StartDate (k : ℤ))) →
      ∀ fuel, saved.length + Driver.Run.rounds cc today + 2 ≤ fuel →
        ∃ history_,
          Driver.Run.history analyses now cc today (Driver.sortFeed feed) saved results fuel
            = some history_
          ∧ Driver.Run lib analyses now cc today feed saved results fuel
            = Predictor.Predict lib cc now history_.reverse
          ∧ history_.reverse.Pairwise (fun a b => Date.lt b.date a.date = true)
          ∧ (∀ d, d ∈ history_.map (fun e => e.date)
              ↔ d ∈ saved.map (fun e => e.date)
                ∨ ∃ k : ℕ, Driver.Run.visits cc today results k
                  ∧ d = Date.add cc.StartDate (k : ℤ))
          ∧ ∀ out, Driver.Run lib analyses now cc today feed saved results fuel = some out →
              out.map (fun e => e.date) = history_.reverse.map (fun e => e.date)
              ∧ out.Pairwise (fun a b => Date.lt b.date a.date = true))
    ∧ ∀ fuel out, Driver.Run lib analyses now cc today feed saved results fuel = some out →
        out.Pairwise (fun a b => Date.lt b.date a.date = true) →
        saved.Pairwise (fun a b => Date.lt b.date a.date = true)
        ∧ ∀ k : ℕ, Driver.Run.visits cc today results k →
            Driver.positioned saved (Date.add cc.StartDate (k : ℤ)) := by
  refine ⟨fun k => ?_, fun ⟨hsaved, hplace⟩ fuel hfuel => ?_, fun fuel out hrun hdesc => ?_⟩
  · have h0 : Date.add cc.StartDate ((0 : ℕ) : ℤ) = cc.StartDate := by
      unfold Date.add
      simp [hstart]
    rcases Nat.eq_zero_or_pos k with rfl | hk
    · rw [h0]; exact hera
    · rw [← h0] at hera
      exact Date.lt_trans hera (Date.add_lt cc.StartDate _ _ (by exact_mod_cast hk))
  · obtain ⟨history_, hh⟩ := Run_history_completes analyses now cc today
      (Driver.sortFeed feed) saved results fuel hwork hstart htoday hend hsaved hplace hfuel
    obtain ⟨k1, k2, _⟩ := Run_history_spec analyses now cc today (Driver.sortFeed feed) saved
      results fuel history_ hwork hstart htoday hend hsaved hh
    have hrunEq : Driver.Run lib analyses now cc today feed saved results fuel
        = Predictor.Predict lib cc now history_.reverse := by
      unfold Driver.Run
      rw [hh]
      rfl
    have hrev : history_.reverse.Pairwise (fun a b => Date.lt b.date a.date = true) := by
      rw [List.pairwise_reverse]
      exact List.pairwise_map.mp k1
    refine ⟨history_, hh, hrunEq, hrev, k2, fun out hout => ?_⟩
    rw [hrunEq] at hout
    have hd := Predict_dates lib cc now _ out hout
    refine ⟨hd, ?_⟩
    have hmap : (out.map fun e => e.date).Pairwise (fun a b => Date.lt b a = true) := by
      rw [hd]
      exact List.pairwise_map.mpr hrev
    exact List.pairwise_map.mp hmap
  · unfold Driver.Run at hrun
    simp only [Option.bind_eq_some] at hrun
    obtain ⟨history_, hh, hout⟩ := hrun
    have hd := Predict_dates lib cc now _ out hout
    have hasc : (history_.map fun e => e.date).Pairwise (fun a b => Date.lt a b = true) := by
      have h1 : (out.map fun e => e.date).Pairwise (fun a b => Date.lt b a = true) :=
        List.pairwise_map.mpr hdesc
      rw [hd, List.map_reverse, List.pairwise_reverse] at h1
      exact h1
    have hsub := Run_history_sublist analyses now cc today (Driver.sortFeed feed) saved
      results fuel history_ hwork hh
    have hsaved : saved.Pairwise (fun a b => Date.lt b.date a.date = true) := by
      have h2 := hasc.sublist hsub
      rw [List.map_reverse, List.pairwise_reverse, List.pairwise_map] at h2
      exact h2
    exact ⟨hsaved, (Run_history_spec analyses now cc today (Driver.sortFeed feed) saved
      results fuel history_ hwork hstart htoday hend hsaved hh).2.2⟩

/-- Witness for the amended C22: a run on 2020-06-02 of the campaign that starts on
2020-06-01, with the entry of 2020-06-01 saved, exports the entry of 2020-06-02 and then
the saved entry. -/
theorem Run_history_descending_witness :
    (civilFromDays (daysFromCivil midtermCampaign.StartDate) = midtermCampaign.StartDate
      ∧ civilFromDays (daysFromCivil ⟨2020, 6, 2⟩) = ⟨2020, 6, 2⟩
      ∧ civilFromDays (daysFromCivil midtermCampaign.EndDate) = midtermCampaign.EndDate
      ∧ Date.lt ⟨0, 0, 0⟩ midtermCampaign.StartDate = true)
    ∧ Driver.Run toyLib (fun _ d => d) 0 midtermCampaign ⟨2020, 6, 2⟩ ({} : Feed ℚ)
        [savedEntry ⟨2020, 6, 1⟩] none 5
      = some [Driver.work (fun _ d => d) 0 (Driver.sortFeed ({} : Feed ℚ)) ⟨2020, 6, 2⟩,
              savedEntry ⟨2020, 6, 1⟩]
    ∧ ∃ history_,
        Driver.Run.history (fun _ d => d) 0 midtermCampaign ⟨2020, 6, 2⟩
          (Driver.sortFeed ({} : Feed ℚ)) [savedEntry ⟨2020, 6, 1⟩] none 5 = some history_
        ∧ Driver.Run toyLib (fun _ d => d) 0 midtermCampaign ⟨2020, 6, 2⟩ ({} : Feed ℚ)
            [savedEntry ⟨2020, 6, 1⟩] none 5
          = Predictor.Predict toyLib midtermCampaign 0 history_.reverse
        ∧ history_.reverse.Pairwise (fun a b => Date.lt b.date a.date = true)
        ∧ (∀ d, d ∈ history_.map (fun e => e.date)
            ↔ d ∈ [savedEntry ⟨2020, 6, 1⟩].map (fun e => e.date)
              ∨ ∃ k : ℕ, Driver.Run.visits midtermCampaign ⟨2020, 6, 2⟩
                  (none : Option (Feed ℚ)) k
                ∧ d = Date.add midtermCampaign.StartDate (k : ℤ))
        ∧ ∀ out, Driver.Run toyLib (fun _ d => d) 0 midtermCampaign ⟨2020, 6, 2⟩
              ({} : Feed ℚ) [savedEntry ⟨2020, 6, 1⟩] none 5 = some out →
            out.map (fun e => e.date)
              = history_.reverse.map (fun e => e.date)
            ∧ out.Pairwise (fun a b => Date.lt b.date a.date = true) :=
  ⟨⟨by decide, by decide, by decide, by decide⟩, rfl,
    (Run_history_descending toyLib (fun _ d => d) 0 midtermCampaign ⟨2020, 6, 2⟩
      ({} : Feed ℚ) [savedEntry ⟨2020, 6, 1⟩] none (fun _ _ => rfl) (by decide) (by decide)
      (by decide) (by decide)).2.1
      ⟨List.pairwise_singleton _ _, fun k hk => by
        have hr : Driver.Run.rounds midtermCampaign ⟨2020, 6, 2⟩ = 2 := by decide
        have hk' : k = 0 ∨ k = 1 := by
          rcases hk with hk | ⟨_, hk, _⟩
          · rw [hr] at hk; omega
          · exact absurd hk (by simp)
        rcases hk' with rfl | rfl
        · exact Or.inl (by decide)
        · exact Or.inr (by decide)⟩
      5 (by decide)⟩

end DriverClaims

/-! ## The metamargin search in double precision -/

section CalcDouble

variable {α : Type} [LinearOrderedField α]

/-- The next bias of the scan in double precision is the rounded sum of the bias and the
step. -/
theorem scanFl_succ (fl : α → α) (direction : ℤ) (k : ℕ) :
    MetamarginFinder.scanFl fl direction (k + 1)
      = fl (MetamarginFinder.scanFl fl direction k
          + if direction < 0 then -fl (2 / 100) else fl (2 / 100)) := rfl

/-- With a rounding that is accurate to `10 ^ (-9)` up to 102, the `j`-th bias of the scan
in double precision is within `(2 j + 1) * 10 ^ (-9)` of the `j`-th multiple of 0.02. -/
theorem scanFl_near (fl : α → α)
    (hfl : ∀ x : α, |x| ≤ 102 → |fl x - x| ≤ 1 / 1000000000) (direction : ℤ) :
    ∀ j : ℕ, j ≤ 5052 →
      |MetamarginFinder.scanFl fl direction j - MetamarginFinder.scanBias direction j|
        ≤ (2 * (j : α) + 1) / 1000000000 := by
  have h02 := abs_le.mp (hfl (2 / 100) (by rw [abs_of_nonneg (by norm_num)]; norm_num))
  intro j
  induction j with
  | zero =>
    intro _
    unfold MetamarginFinder.scanFl MetamarginFinder.scanBias
    rw [abs_le]
    split_ifs
    · constructor <;> norm_num
    · constructor <;> push_cast <;> linarith [h02.1, h02.2]
  | succ j ih =>
    intro hj
    have ih := abs_le.mp (ih (by omega))
    have hjc : (j : α) ≤ 5051 := by exact_mod_cast (show j ≤ 5051 by omega)
    have hj0 : (0 : α) ≤ (j : α) := Nat.cast_nonneg _
    rw [scanFl_succ]
    unfold MetamarginFinder.scanBias at ih ⊢
    by_cases hd : direction < 0
    · simp only [if_pos hd] at ih ⊢
      have hx : |MetamarginFinder.scanFl fl direction j + -fl (2 / 100)| ≤ 102 := by
        rw [abs_le]
        constructor <;> linarith [ih.1, ih.2, h02.1, h02.2]
      have hr := abs_le.mp (hfl _ hx)
      rw [abs_le]
      push_cast
      constructor <;> linarith [ih.1, ih.2, h02.1, h02.2, hr.1, hr.2]
    · simp only [if_neg hd] at ih ⊢
      have hx : |MetamarginFinder.scanFl fl direction j + fl (2 / 100)| ≤ 102 := by
        rw [abs_le]
        constructor <;> linarith [ih.1, ih.2, h02.1, h02.2]
      have hr := abs_le.mp (hfl _ hx)
      rw [abs_le]
      push_cast
      constructor <;> linarith [ih.1, ih.2, h02.1, h02.2, hr.1, hr.2]

/-- The scan in double precision has left `[-101, 101]` at its 5052nd bias. -/
theorem scanFl_exit (fl : α → α)
    (hfl : ∀ x : α, |x| ≤ 102 → |fl x - x| ≤ 1 / 1000000000) (direction : ℤ) :
    101 < |MetamarginFinder.scanFl fl direction 5051| := by
  have h := abs_le.mp (scanFl_near fl hfl direction 5051 (by norm_num))
  unfold MetamarginFinder.scanBias at h
  rw [lt_abs]
  by_cases hd : direction < 0
  · simp only [if_pos hd] at h
    right
    push_cast at h
    linarith [h.1, h.2]
  · simp only [if_neg hd] at h
    left
    push_cast at h
    linarith [h.1, h.2]

/-- Among the first 5052 biases of the scan in double precision, the biases before one
within `[-101, 101]` are within `[-101, 101]`. -/
theorem scanFl_within (fl : α → α)
    (hfl : ∀ x : α, |x| ≤ 102 → |fl x - x| ≤ 1 / 1000000000) (direction : ℤ) (j : ℕ)
    (hj : j ≤ 5051) (h : |MetamarginFinder.scanFl fl direction j| ≤ 101) :
    ∀ i : ℕ, i ≤ j → |MetamarginFinder.scanFl fl direction i| ≤ 101 := by
  intro i hi
  rcases eq_or_lt_of_le hi with rfl | hlt
  · exact h
  · have hi' := abs_le.mp (scanFl_near fl hfl direction i (by omega))
    have hj' := abs_le.mp (scanFl_near fl hfl direction j (by omega))
    have h' := abs_le.mp h
    have hij : (i : α) + 1 ≤ (j : α) := by exact_mod_cast hlt
    have hjc : (j : α) ≤ 5051 := by exact_mod_cast hj
    have hi0 : (0 : α) ≤ (i : α) := Nat.cast_nonneg _
    unfold MetamarginFinder.scanBias at hi' hj'
    rw [abs_le]
    by_cases hd : direction < 0
    · simp only [if_pos hd] at hi' hj'
      constructor <;> linarith [hi'.1, hi'.2, hj'.1, hj'.2, h'.1, h'.2]
    · simp only [if_neg hd] at hi' hj'
      constructor <;> linarith [hi'.1, hi'.2, hj'.1, hj'.2, h'.1, h'.2]

/-- What the loop of `Calc` in double precision returns from the `k`-th bias on: the
negated first bias at which the scan stops, when it comes within the evaluations allowed
and no bias up to it has left `[-101, 101]`. -/
theorem CalcLoopFl_some_iff (fl : α → α) (bias_fn : α → ℤ) (midpoint direction : ℤ) :
    ∀ (fuel k : ℕ) (u : α),
      MetamarginFinder.CalcLoopFl fl bias_fn midpoint direction
          (if direction < 0 then -fl (2 / 100) else fl (2 / 100)) fuel
          (MetamarginFinder.scanFl fl direction k) = some u
      ↔ ∃ j : ℕ, k ≤ j ∧ j < k + fuel
          ∧ (∀ i : ℕ, k ≤ i → i ≤ j → |MetamarginFinder.scanFl fl direction i| ≤ 101)
          ∧ MetamarginFinder.stops bias_fn midpoint direction
              (MetamarginFinder.scanFl fl direction j)
          ∧ (∀ i : ℕ, k ≤ i → i < j → ¬ MetamarginFinder.stops bias_fn midpoint direction
              (MetamarginFinder.scanFl fl direction i))
          ∧ u = -MetamarginFinder.scanFl fl direction j := by
  intro fuel
  induction fuel with
  | zero =>
    intro k u
    rw [MetamarginFinder.CalcLoopFl]
    constructor
    · intro h; exact absurd h (by simp)
    · rintro ⟨j, h1, h2, _⟩; omega
  | succ fuel ih =>
    intro k u
    rw [MetamarginFinder.CalcLoopFl]
    by_cases hout : MetamarginFinder.scanFl fl direction k > 101
        ∨ MetamarginFinder.scanFl fl direction k < -101
    · rw [if_pos hout]
      constructor
      · intro h; exact absurd h (by simp)
      · rintro ⟨j, h1, _, hr, _⟩
        have := abs_le.mp (hr k (le_refl _) h1)
        rcases hout with h | h <;> linarith [this.1, this.2]
    · rw [if_neg hout]
      have hin : |MetamarginFinder.scanFl fl direction k| ≤ 101 := by
        rw [abs_le]
        push_neg at hout
        exact ⟨hout.2, hout.1⟩
      by_cases hs : MetamarginFinder.stops bias_fn midpoint direction
          (MetamarginFinder.scanFl fl direction k)
      · rw [if_pos hs]
        constructor
        · intro h
          simp only [Option.some.injEq] at h
          refine ⟨k, le_refl _, by omega, fun i h1 h2 => ?_, hs,
            fun i h1 h2 => absurd h2 (by omega), h.symm⟩
          have : i = k := by omega
          rw [this]; exact hin
        · rintro ⟨j, h1, _, _, _, hfirst, hu⟩
          have : j = k := by
            by_contra hne
            exact hfirst k (le_refl _) (by omega) hs
          rw [hu, this]
      · rw [if_neg hs, ← scanFl_succ fl direction k, ih (k + 1) u]
        constructor
        · rintro ⟨j, h1, h2, hr, hst, hfirst, hu⟩
          refine ⟨j, by omega, by omega, fun i hi1 hi2 => ?_, hst, fun i hi1 hi2 => ?_, hu⟩
          · by_cases hik : i = k
            · rw [hik]; exact hin
            · exact hr i (by omega) hi2
          · by_cases hik : i = k
            · rw [hik]; exact hs
            · exact hfirst i (by omega) hi2
        · rintro ⟨j, h1, h2, hr, hst, hfirst, hu⟩
          have hjk : j ≠ k := fun h => hs (h ▸ hst)
          exact ⟨j, by omega, by omega, fun i hi1 hi2 => hr i (by omega) hi2, hst,
            fun i hi1 hi2 => hfirst i (by omega) hi2, hu⟩

end CalcDouble

/-! ## Lemmas on the rounding to a double -/

section DoubleLemmas

theorem pow2_eq_zpow (k : ℤ) : pow2 k = (2 : ℚ) ^ k := by
  unfold pow2
  split_ifs with h
  · rw [Nat.cast_pow, Nat.cast_ofNat, ← zpow_natCast, Int.toNat_of_nonneg h]
  · rw [Nat.cast_pow, Nat.cast_ofNat, ← zpow_natCast, Int.toNat_of_nonneg (by omega), zpow_neg,
      one_div, inv_inv]

theorem pow2_pos (k : ℤ) : 0 < pow2 k := by
  rw [pow2_eq_zpow]
  positivity

/-- With enough halvings allowed, `ilog2` is the integer part of the binary logarithm. -/
theorem ilog2_spec : ∀ (fuel n : ℕ), 1 ≤ n → n ≤ fuel →
    2 ^ ilog2 fuel n ≤ n ∧ n < 2 ^ (ilog2 fuel n + 1) := by
  intro fuel
  induction fuel with
  | zero => intro n h1 h2; omega
  | succ fuel ih =>
    intro n h1 h2
    rw [ilog2]
    by_cases hn : n < 2
    · rw [if_pos hn]
      simp only [pow_zero, zero_add, pow_one]
      omega
    · rw [if_neg hn]
      obtain ⟨a, b⟩ := ih (n / 2) (by omega) (by omega)
      rw [pow_succ] at b
      rw [pow_succ, pow_succ, pow_succ]
      constructor <;> omega

/-- Rounding to the nearest integer moves a number by at most one half. -/
theorem roundHalfEven_near (y : ℚ) : |(roundHalfEven y : ℚ) - y| ≤ 1 / 2 := by
  unfold roundHalfEven
  have h1 := Int.floor_le y
  have h2 := Int.lt_floor_add_one y
  rw [abs_le]
  split_ifs <;> push_cast <;> constructor <;> linarith

/-- Rounding to a `double` moves a number by at most `2 ^ (-53)` of its size. -/
theorem binary64_near (x : ℚ) : |binary64 x - x| ≤ |x| / 2 ^ 53 := by
  unfold binary64
  by_cases hx : x = 0
  · rw [if_pos hx, hx]
    simp
  · rw [if_neg hx]
    simp only []
    have hnum : 1 ≤ x.num.natAbs := by
      have : x.num ≠ 0 := fun h => hx (Rat.num_eq_zero.mp h)
      omega
    have hden : 1 ≤ x.den := x.den_pos
    obtain ⟨ha, _⟩ := ilog2_spec x.num.natAbs x.num.natAbs hnum (le_refl _)
    obtain ⟨_, hb⟩ := ilog2_spec x.den x.den hden (le_refl _)
    have habs : |x| = (x.num.natAbs : ℚ) / (x.den : ℚ) := by
      conv_lhs => rw [← Rat.num_div_den x]
      rw [abs_div, Nat.cast_natAbs, Int.cast_abs, abs_of_pos (by exact_mod_cast x.den_pos :
        (0 : ℚ) < (x.den : ℚ))]
    have hlow : pow2 ((ilog2 x.num.natAbs x.num.natAbs : ℤ) - (ilog2 x.den x.den : ℤ) - 1)
        ≤ |x| := by
      have e : ((ilog2 x.num.natAbs x.num.natAbs : ℤ) - (ilog2 x.den x.den : ℤ) - 1)
          = ((ilog2 x.num.natAbs x.num.natAbs : ℕ) : ℤ) - ((ilog2 x.den x.den + 1 : ℕ) : ℤ) := by
        push_cast; ring
      rw [pow2_eq_zpow, e, zpow_sub₀ (by norm_num), zpow_natCast, zpow_natCast, habs]
      apply div_le_div₀ (Nat.cast_nonneg _)
      · exact_mod_cast ha
      · exact_mod_cast hden
      · exact_mod_cast hb.le
    generalize ((ilog2 x.num.natAbs x.num.natAbs : ℤ) - (ilog2 x.den x.den : ℤ)) = e0 at hlow ⊢
    have he : pow2 (if pow2 e0 ≤ |x| then e0 else e0 - 1) ≤ |x| := by
      split_ifs with h
      · exact h
      · exact hlow
    generalize (if pow2 e0 ≤ |x| then e0 else e0 - 1) = e at he ⊢
    have hp : 0 < pow2 (e - 52) := pow2_pos _
    have hpe : pow2 (e - 52) = pow2 e / 2 ^ 52 := by
      rw [pow2_eq_zpow, pow2_eq_zpow, zpow_sub₀ (by norm_num)]
      norm_cast
    have hr := roundHalfEven_near (x / pow2 (e - 52))
    have hsplit : (roundHalfEven (x / pow2 (e - 52)) : ℚ) * pow2 (e - 52) - x
        = ((roundHalfEven (x / pow2 (e - 52)) : ℚ) - x / pow2 (e - 52)) * pow2 (e - 52) := by
      field_simp
    rw [hsplit, abs_mul, abs_of_pos hp]
    calc |(roundHalfEven (x / pow2 (e - 52)) : ℚ) - x / pow2 (e - 52)| * pow2 (e - 52)
        ≤ 1 / 2 * pow2 (e - 52) := mul_le_mul_of_nonneg_right hr hp.le
      _ = pow2 e / 2 ^ 53 := by rw [hpe]; ring
      _ ≤ |x| / 2 ^ 53 := div_le_div_of_nonneg_right he (by positivity)

/-- Rounding to a `double` is accurate to `10 ^ (-9)` up to 102. -/
theorem binary64_accurate (x : ℚ) (h : |x| ≤ 102) : |binary64 x - x| ≤ 1 / 1000000000 :=
  (binary64_near x).trans (by
    calc |x| / 2 ^ 53 ≤ 102 / 2 ^ 53 := div_le_div_of_nonneg_right h (by positivity)
      _ ≤ 1 / 1000000000 := by norm_num)

end DoubleLemmas
/-! ## Claims on the metamargin search in double precision -/

section CalcDoubleClaims

variable {α : Type} [LinearOrderedField α] [FloorRing α]

/-- C24 fails as stated: for the bias function that is 1 from the bias 5 on and 0 below
it, the midpoint 1 and the direction 1, the first bias of the sequence 0.02, 0.04, ... at
which the stop condition holds is 5, its 250th member, and with that sequence `Calc`
returns -5; in double precision the 250th bias is 4.999999999999981, where the condition
does not hold, and `Calc` returns -5.019999999999981 after one more evaluation. -/
theorem Calc_double_misses_five :
    (MetamarginFinder.scanBias 1 249 : ℚ) = 5
    ∧ MetamarginFinder.Calc (fun b : ℚ => if 5 ≤ b then 1 else 0) 1 1 = some (-5)
    ∧ RoundMargin (-(5 : ℚ)) = -5
    ∧ MetamarginFinder.scanFl binary64 1 249 = 5629499534213099 / 1125899906842624
    ∧ MetamarginFinder.CalcFl binary64 MetamarginFinder.kMaxEvaluations
        (fun b : ℚ => if 5 ≤ b then 1 else 0) 1 1
      = some (-(5652017532349951 / 1125899906842624)) := by
  refine ⟨by decide!, by decide!, by decide!, by decide!, by decide!⟩

/-- C24, amended: for every bias function, midpoint and direction,
`MetamarginFinder::Calc` terminates within 5052 evaluations of the bias function, in
double precision, for every rounding `fl` that is accurate to `10 ^ (-9)` up to 102 (as
the rounding to a `double` is): allowing more evaluations does not change the outcome,
and the 5052nd bias is outside `[-101, 101]`.  The biases it evaluates are the sums it
accumulates, `fl(0.02)`, `fl(fl(0.02) + fl(0.02))`, ... (from 0 with the step
`-fl(0.02)` when `direction < 0`); the `j`-th of them is within `(2 j + 1) * 10 ^ (-9)`
of the `j`-th member of the sequence 0.02, 0.04, ... (0, -0.02, ...) but need not be
equal to it.  `Calc` returns `RoundMargin(-b)` for the first of these biases `b` at which
the stop condition holds, when `|b| <= 101`, and aborts exactly when the stop condition
holds at none of them with `|b| <= 101`. -/
theorem CalcFl_terminates (fl : α → α)
    (hfl : ∀ x : α, |x| ≤ 102 → |fl x - x| ≤ 1 / 1000000000)
    (bias_fn : α → ℤ) (midpoint direction : ℤ) :
    (∀ extra : ℕ,
      MetamarginFinder.CalcFl fl (MetamarginFinder.kMaxEvaluations + extra) bias_fn midpoint
          direction
        = MetamarginFinder.CalcFl fl MetamarginFinder.kMaxEvaluations bias_fn midpoint
          direction)
    ∧ 101 < |MetamarginFinder.scanFl fl direction (MetamarginFinder.kMaxEvaluations - 1)|
    ∧ (∀ j : ℕ, j < MetamarginFinder.kMaxEvaluations →
        |MetamarginFinder.scanFl fl direction j - MetamarginFinder.scanBias direction j|
          ≤ (2 * (j : α) + 1) / 1000000000)
    ∧ (∀ v : α,
        MetamarginFinder.CalcFl fl MetamarginFinder.kMaxEvaluations bias_fn midpoint direction
          = some v
        ↔ ∃ j : ℕ, j < MetamarginFinder.kMaxEvaluations
          ∧ |MetamarginFinder.scanFl fl direction j| ≤ 101
          ∧ MetamarginFinder.stops bias_fn midpoint direction
              (MetamarginFinder.scanFl fl direction j)
          ∧ (∀ i : ℕ, i < j → ¬ MetamarginFinder.stops bias_fn midpoint direction
              (MetamarginFinder.scanFl fl direction i))
          ∧ v = RoundMarginFl fl (-MetamarginFinder.scanFl fl direction j))
    ∧ (MetamarginFinder.CalcFl fl MetamarginFinder.kMaxEvaluations bias_fn midpoint direction
          = none
        ↔ ∀ j : ℕ, j < MetamarginFinder.kMaxEvaluations →
          |MetamarginFinder.scanFl fl direction j| ≤ 101 →
          ¬ MetamarginFinder.stops bias_fn midpoint direction
              (MetamarginFinder.scanFl fl direction j)) := by
  have hk : MetamarginFinder.kMaxEvaluations = 5052 := rfl
  have hexit := scanFl_exit fl hfl direction
  have hstart : (if direction < 0 then (0 : α) else fl (2 / 100))
      = MetamarginFinder.scanFl fl direction 0 := rfl
  -- the loop from the first bias on, for any number of evaluations from 5052 on
  have hloop : ∀ (extra : ℕ) (u : α),
      MetamarginFinder.CalcLoopFl fl bias_fn midpoint direction
          (if direction < 0 then -fl (2 / 100) else fl (2 / 100))
          (MetamarginFinder.kMaxEvaluations + extra)
          (if direction < 0 then (0 : α) else fl (2 / 100)) = some u
      ↔ ∃ j : ℕ, j < MetamarginFinder.kMaxEvaluations
          ∧ |MetamarginFinder.scanFl fl direction j| ≤ 101
          ∧ MetamarginFinder.stops bias_fn midpoint direction
              (MetamarginFinder.scanFl fl direction j)
          ∧ (∀ i : ℕ, i < j → ¬ MetamarginFinder.stops bias_fn midpoint direction
              (MetamarginFinder.scanFl fl direction i))
          ∧ u = -MetamarginFinder.scanFl fl direction j := by
    intro extra u
    rw [hstart, CalcLoopFl_some_iff]
    constructor
    · rintro ⟨j, _, _, hr, hst, hfirst, hu⟩
      have hj : j < MetamarginFinder.kMaxEvaluations := by
        by_contra hc
        have := hr 5051 (Nat.zero_le _) (by rw [hk] at hc; omega)
        exact absurd this (not_le.mpr hexit)
      exact ⟨j, hj, hr j (Nat.zero_le _) (le_refl _), hst,
        fun i hi => hfirst i (Nat.zero_le _) hi, hu⟩
    · rintro ⟨j, hj, hr, hst, hfirst, hu⟩
      exact ⟨j, Nat.zero_le _, by omega,
        fun i _ hi => scanFl_within fl hfl direction j (by rw [hk] at hj; omega) hr i hi, hst,
        fun i _ hi => hfirst i hi, hu⟩
  have hfuel : ∀ extra : ℕ,
      MetamarginFinder.CalcFl fl (MetamarginFinder.kMaxEvaluations + extra) bias_fn midpoint
          direction
        = MetamarginFinder.CalcFl fl MetamarginFinder.kMaxEvaluations bias_fn midpoint
          direction := by
    intro extra
    unfold MetamarginFinder.CalcFl
    simp only []
    congr 1
    apply Option.ext
    intro u
    rw [Option.mem_def, Option.mem_def, hloop extra u]
    exact (hloop 0 u).symm
  have hsome : ∀ v : α,
      MetamarginFinder.CalcFl fl MetamarginFinder.kMaxEvaluations bias_fn midpoint direction
        = some v
      ↔ ∃ j : ℕ, j < MetamarginFinder.kMaxEvaluations
        ∧ |MetamarginFinder.scanFl fl direction j| ≤ 101
        ∧ MetamarginFinder.stops bias_fn midpoint direction
            (MetamarginFinder.scanFl fl direction j)
        ∧ (∀ i : ℕ, i < j → ¬ MetamarginFinder.stops bias_fn midpoint direction
            (MetamarginFinder.scanFl fl direction i))
        ∧ v = RoundMarginFl fl (-MetamarginFinder.scanFl fl direction j) := by
    intro v
    unfold MetamarginFinder.CalcFl
    simp only [Option.map_eq_some']
    constructor
    · rintro ⟨u, hu, rfl⟩
      obtain ⟨j, h1, h2, h3, h4, rfl⟩ := (hloop 0 u).mp hu
      exact ⟨j, h1, h2, h3, h4, rfl⟩
    · rintro ⟨j, h1, h2, h3, h4, rfl⟩
      exact ⟨_, (hloop 0 _).mpr ⟨j, h1, h2, h3, h4, rfl⟩, rfl⟩
  refine ⟨hfuel, by rw [hk]; exact hexit,
    fun j hj => scanFl_near fl hfl direction j (by rw [hk] at hj; omega), hsome, ?_⟩
  constructor
  · intro hnone j hj hr hstop
    have hex : ∃ j : ℕ, j < MetamarginFinder.kMaxEvaluations
        ∧ |MetamarginFinder.scanFl fl direction j| ≤ 101
        ∧ MetamarginFinder.stops bias_fn midpoint direction
            (MetamarginFinder.scanFl fl direction j) := ⟨j, hj, hr, hstop⟩
    classical
    obtain ⟨m1, m2, m3⟩ := Nat.find_spec hex
    have hlt := fun i (hi : i < Nat.find hex) => Nat.find_min hex hi
    have hsm := (hsome (RoundMarginFl fl
        (-MetamarginFinder.scanFl fl direction (Nat.find hex)))).mpr
      ⟨Nat.find hex, m1, m2, m3, fun i hi hs =>
        hlt i hi ⟨by omega, scanFl_within fl hfl direction _
          (by have h5 : Nat.find hex < 5052 := lt_of_lt_of_eq m1 hk; omega) m2 i
          (le_of_lt hi), hs⟩, rfl⟩
    rw [hnone] at hsm
    exact absurd hsm (by simp)
  · intro hall
    cases hc : MetamarginFinder.CalcFl fl MetamarginFinder.kMaxEvaluations bias_fn midpoint
        direction with
    | none => rfl
    | some v =>
      obtain ⟨j, hj, hr, hstop, _, _⟩ := (hsome v).mp hc
      exact absurd hstop (hall j hj hr)

/-- Witness for the amended C24: the rounding to a `double`, and the bias function that is
1 from the bias 5 on and 0 below it. -/
theorem CalcFl_terminates_witness :
    (∀ x : ℚ, |x| ≤ 102 → |binary64 x - x| ≤ 1 / 1000000000)
    ∧ ∀ extra : ℕ,
      MetamarginFinder.CalcFl binary64 (MetamarginFinder.kMaxEvaluations + extra)
          (fun b : ℚ => if 5 ≤ b then 1 else 0) 1 1
        = MetamarginFinder.CalcFl binary64 MetamarginFinder.kMaxEvaluations
          (fun b : ℚ => if 5 ≤ b then 1 else 0) 1 1 :=
  ⟨binary64_accurate,
    (CalcFl_terminates binary64 binary64_accurate (fun b : ℚ => if 5 ≤ b then 1 else 0) 1 1).1⟩

end CalcDoubleClaims

end Stone
